import Mathlib

/-!
# Cinepak BMP decoder (`convert_cinepak_bmp.cpp`)

A shallow embedding of the Cinepak frame decoder and the properties its
specification states about it.

Conventions of the embedding:

* `byte`, `uint16`, `uint32` values are natural numbers; every place where the
  C++ code truncates to a width carries an explicit `% 256`, `% 65536` or
  `% 4294967296`.
* `int` arithmetic that cannot leave the range of `int` (colour conversion) is
  done in `Int`.
* `FILE *` is a byte list with a position and the end-of-file indicator.
  `ftell` returns a `long`; comparisons of a `long` with a `uint32` are done
  in the wider type (LP64), i.e. without wrapping.
* Pointers into heap memory (`strips`, `surface`) are total maps from the
  element index; a separate field records whether the pointer is still null
  and how many elements were allocated.
* Loops that the code cannot be shown to leave (the chunk loop, and the block
  loops whose 16-bit counters may wrap) take a fuel argument and return
  `none` when the fuel runs out.
-/

namespace Cinepak

/-! ## Byte stream -/

/-- A `FILE *` opened for reading: contents, file position, end-of-file flag. -/
structure Stream where
  data : List Nat
  pos : Nat
  eof : Bool
  deriving DecidableEq, Repr

/-- Library call `ftell`. -/
def ftell (f : Stream) : Nat := f.pos

/-- Library call `feof`: the end-of-file indicator set by a failed read. -/
def feof (f : Stream) : Bool := f.eof

/-- Library call `fseek(f, p, SEEK_SET)`: moves the position and clears the
end-of-file indicator. -/
def fseek (f : Stream) (p : Nat) : Stream := { f with pos := p, eof := false }

/-- Source `readByte`: `b = 0; fread(&b, 1, 1, file); return b`. A read at or
past the end leaves `b = 0`, does not move the position and sets the
end-of-file indicator. -/
def readByte (f : Stream) : Nat × Stream :=
  match f.data[f.pos]? with
  | some b => (b % 256, { f with pos := f.pos + 1 })
  | none => (0, { f with eof := true })

/-- Source `readUint16BE`: `x = readByte << 8; return x | readByte`. -/
def readUint16BE (f : Stream) : Nat × Stream :=
  let a := readByte f
  let x := (a.1 <<< 8) % 65536
  let b := readByte a.2
  ((x ||| b.1) % 65536, b.2)

/-- Source `readUint32BE`: `x = readUint16BE << 16; return x | readUint16BE`. -/
def readUint32BE (f : Stream) : Nat × Stream :=
  let a := readUint16BE f
  let x := (a.1 <<< 16) % 4294967296
  let b := readUint16BE a.2
  ((x ||| b.1) % 4294967296, b.2)

/-! ## Colour conversion -/

/-- Source `CLIP<int>`. -/
def CLIP (v amin amax : Int) : Int :=
  if v < amin then amin else if v > amax then amax else v

/-- Source `CPYUV2RGB`: the three channels `(r, g, b)`. The arguments are bytes
promoted to `int`; `/` is C++ integer division (truncation toward zero); the
clipped value is stored into a `byte`. -/
def CPYUV2RGB (y u v : Nat) : Nat × Nat × Nat :=
  let r := CLIP ((y : Int) + 2 * ((v : Int) - 128)) 0 255
  let g := CLIP ((y : Int) - Int.tdiv ((u : Int) - 128) 2 - ((v : Int) - 128)) 0 255
  let b := CLIP ((y : Int) + 2 * ((u : Int) - 128)) 0 255
  (r.toNat % 256, g.toNat % 256, b.toNat % 256)

/-! ## Data model -/

/-- Source `struct CinepakCodebook`: `byte y[4]; byte u, v;`. The four luma
samples `y[0..3]` are the fields `y0 .. y3`. -/
structure CinepakCodebook where
  y0 : Nat
  y1 : Nat
  y2 : Nat
  y3 : Nat
  u : Nat
  v : Nat
  deriving DecidableEq, Repr

/-- Source `struct CinepakStrip`. The two tables of 256 entries are maps from
the entry index. -/
structure CinepakStrip where
  id : Nat
  length : Nat
  left : Nat
  top : Nat
  right : Nat
  bottom : Nat
  v1_codebook : Nat → CinepakCodebook
  v4_codebook : Nat → CinepakCodebook

/-- The memory behind `byte *surface`: `mem o` is the byte at `surface + o`,
and `log` lists, oldest first, every store `(offset, value)` made through
`PUT_PIXEL`. -/
structure Surface where
  mem : Nat → Nat
  log : List (Nat × Nat)

/-- Source `struct CinepakFrame`. `strips i` is the element `strips[i]`;
`stripsAlloc` is `none` while the pointer `strips` is null and the allocated
element count afterwards; `surfaceAlloc` likewise for `surface` (in bytes). -/
structure CinepakFrame where
  flags : Nat
  length : Nat
  width : Nat
  height : Nat
  stripCount : Nat
  strips : Nat → CinepakStrip
  stripsAlloc : Option Nat
  surface : Surface
  surfaceAlloc : Option Nat

/-- Source `class CinepakDecoder`: the members `_curFrame` and `_y`. -/
structure CinepakDecoder where
  curFrame : CinepakFrame
  y : Nat

/-- Source constructor `CinepakDecoder::CinepakDecoder`: both pointers null,
`_y = 0`. The other members of `_curFrame` are not initialised by the
constructor; `fr` supplies them, together with the (indeterminate) contents
that the first `new[]` of each array will expose. -/
def CinepakDecoder.new (fr : CinepakFrame) : CinepakDecoder :=
  { curFrame := { fr with stripsAlloc := none, surfaceAlloc := none,
                          surface := { mem := fr.surface.mem, log := [] } },
    y := 0 }

/-- Source `getWidth`. -/
def CinepakDecoder.getWidth (d : CinepakDecoder) : Nat := d.curFrame.width

/-- Source `getHeight`. -/
def CinepakDecoder.getHeight (d : CinepakDecoder) : Nat := d.curFrame.height

/-- Outcome of one pass through a loop body: `next` falls through to the next
iteration, `stop` leaves the enclosing function (`break` in `loadCodebook`,
`return` in `decodeVectors` and `decodeImage`). -/
inductive Flow (σ : Type) where
  | next (s : σ) : Flow σ
  | stop (s : σ) : Flow σ

/-- The state a loop body leaves behind, whichever way it ends. -/
def Flow.state {σ : Type} : Flow σ → σ
  | .next s => s
  | .stop s => s

/-- Whether the body ended with `break` / `return`. -/
def Flow.stopped {σ : Type} : Flow σ → Bool
  | .next _ => false
  | .stop _ => true

/-! ## Codebook loader -/

/-- Local state of `loadCodebook`: the stream, `flag`, `mask`, and the table
the pointer `codebook` refers to. -/
structure CBState where
  input : Stream
  flag : Nat
  mask : Nat
  codebook : Nat → CinepakCodebook

/-- Source `loadCodebook`, lines 282-288: in conditional mode shift the mask
and, when it is exhausted, fetch the next flag word (or `break` when fewer than
4 payload bytes remain). -/
def loadCodebookFlag (chunkID chunkSize startPos : Nat) (s : CBState) : Flow CBState :=
  if chunkID &&& 0x01 ≠ 0 then
    let s1 := { s with mask := s.mask >>> 1 }
    if s1.mask = 0 then
      if (ftell s1.input : Int) - (startPos : Int) + 4 > (chunkSize : Int) then
        .stop s1
      else
        let w := readUint32BE s1.input
        .next { s1 with input := w.2, flag := w.1, mask := 0x80000000 }
    else .next s1
  else .next s

/-- Source `loadCodebook`, line 291: `byte n = (chunkID & 0x04) ? 4 : 6`, the
number of bytes of one entry. -/
def entryWidth (chunkID : Nat) : Nat := if chunkID &&& 0x04 ≠ 0 then 4 else 6

/-- Source `loadCodebook`, lines 290-308: when the entry is selected, read its
4 or 6 bytes into `codebook[i]` (or `break` when they do not fit). -/
def loadCodebookEntry (chunkID chunkSize startPos i : Nat) (s : CBState) : Flow CBState :=
  if chunkID &&& 0x01 = 0 ∨ s.flag &&& s.mask ≠ 0 then
    let n := entryWidth chunkID
    if (ftell s.input : Int) - (startPos : Int) + (n : Int) > (chunkSize : Int) then
      .stop s
    else
      let a0 := readByte s.input
      let a1 := readByte a0.2
      let a2 := readByte a1.2
      let a3 := readByte a2.2
      if n = 6 then
        let bu := readByte a3.2
        let bv := readByte bu.2
        let e : CinepakCodebook :=
          { y0 := a0.1, y1 := a1.1, y2 := a2.1, y3 := a3.1,
            u := (bu.1 + 128) % 256, v := (bv.1 + 128) % 256 }
        .next { s with input := bv.2, codebook := Function.update s.codebook i e }
      else
        let e : CinepakCodebook :=
          { y0 := a0.1, y1 := a1.1, y2 := a2.1, y3 := a3.1, u := 128, v := 128 }
        .next { s with input := a3.2, codebook := Function.update s.codebook i e }
  else .next s

/-- One iteration of the loop of `loadCodebook` (lines 282-308). -/
def loadCodebookBody (chunkID chunkSize startPos i : Nat) (s : CBState) : Flow CBState :=
  match loadCodebookFlag chunkID chunkSize startPos s with
  | .stop s1 => .stop s1
  | .next s1 => loadCodebookEntry chunkID chunkSize startPos i s1

/-- The loop `for (i = ...; i < ...; i++)` of `loadCodebook`, run for `n` more
iterations starting at index `i`; a `break` ends it at once. -/
def loadCodebookLoop (chunkID chunkSize startPos : Nat) : Nat → Nat → CBState → Flow CBState
  | 0, _, s => .next s
  | n + 1, i, s =>
    match loadCodebookBody chunkID chunkSize startPos i s with
    | .stop s1 => .stop s1
    | .next s1 => loadCodebookLoop chunkID chunkSize startPos n (i + 1) s1

/-- The state of `loadCodebook` on entry: `startPos = ftell(input)` is taken
separately, `flag = 0`, `mask = 0`. -/
def loadCodebookInit (input : Stream) (codebook : Nat → CinepakCodebook) : CBState :=
  { input := input, flag := 0, mask := 0, codebook := codebook }

/-- Source `loadCodebook`, line 276: the table selected by `codebookType`,
`(codebookType == 1) ? v1_codebook : v4_codebook`. -/
def CinepakStrip.table (st : CinepakStrip) (codebookType : Nat) : Nat → CinepakCodebook :=
  if codebookType = 1 then st.v1_codebook else st.v4_codebook

/-- Source `CinepakDecoder::loadCodebook`: selects the V1 or the V4 table of
`strips[strip]` and runs the 256 iterations on it. -/
def loadCodebook (input : Stream) (fr : CinepakFrame) (strip codebookType chunkID chunkSize : Nat) :
    Stream × CinepakFrame :=
  let st := fr.strips strip
  let startPos := ftell input % 4294967296
  let r := (loadCodebookLoop chunkID chunkSize startPos 256 0
    (loadCodebookInit input (st.table codebookType))).state
  let st1 : CinepakStrip :=
    if codebookType = 1 then { st with v1_codebook := r.codebook }
    else { st with v4_codebook := r.codebook }
  (r.input, { fr with strips := Function.update fr.strips strip st1 })

/-! ## Vector decoder -/

/-- A store `*(surface + o) = v`. -/
def Surface.store (s : Surface) (o v : Nat) : Surface :=
  { mem := Function.update s.mem o v, log := s.log ++ [(o, v)] }

/-- Source macro `PUT_PIXEL(offset, lum, u, v)`: converts the colour and stores
`b`, `g`, `r` at `offset`, `offset + 1`, `offset + 2`. -/
def PUT_PIXEL (s : Surface) (offset lum u v : Nat) : Surface :=
  let rgb := CPYUV2RGB lum u v
  ((s.store offset rgb.2.2).store (offset + 1) rgb.2.1).store (offset + 2) rgb.1

/-- Local state of `decodeVectors`: the stream, `flag`, `mask`, the four row
offsets `iy[0..3]`, and the raster. -/
structure VecState where
  input : Stream
  flag : Nat
  mask : Nat
  iy0 : Nat
  iy1 : Nat
  iy2 : Nat
  iy3 : Nat
  surface : Surface

/-- The offset expression `iy[k] + c * 3` of type `uint32`. -/
def pixOff (iy c : Nat) : Nat := (iy + c * 3) % 4294967296

/-- Source `decodeVectors`, lines 325-331 and 334-340 (the same statements):
shift the mask and, when it is exhausted, fetch the next flag word, or `return`
when fewer than 4 payload bytes remain. -/
def decodeVectorsFlag (chunkSize startPos : Nat) (s : VecState) : Flow VecState :=
  let s1 := { s with mask := s.mask >>> 1 }
  if s1.mask = 0 then
    if (ftell s1.input : Int) - (startPos : Int) + 4 > (chunkSize : Int) then
      .stop s1
    else
      let w := readUint32BE s1.input
      .next { s1 with input := w.2, flag := w.1, mask := 0x80000000 }
  else .next s1

/-- Source `decodeVectors`, lines 343-367: a V1 block. -/
def decodeVectorsV1 (v1_codebook : Nat → CinepakCodebook) (chunkSize startPos : Nat)
    (s : VecState) : Flow VecState :=
  if (ftell s.input : Int) - (startPos : Int) + 1 > (chunkSize : Int) then .stop s
  else
    let idx := readByte s.input
    let codebook := v1_codebook idx.1
    let p := s.surface
    let p := PUT_PIXEL p (pixOff s.iy0 0) codebook.y0 codebook.u codebook.v
    let p := PUT_PIXEL p (pixOff s.iy0 1) codebook.y0 codebook.u codebook.v
    let p := PUT_PIXEL p (pixOff s.iy1 0) codebook.y0 codebook.u codebook.v
    let p := PUT_PIXEL p (pixOff s.iy1 1) codebook.y0 codebook.u codebook.v
    let p := PUT_PIXEL p (pixOff s.iy0 2) codebook.y1 codebook.u codebook.v
    let p := PUT_PIXEL p (pixOff s.iy0 3) codebook.y1 codebook.u codebook.v
    let p := PUT_PIXEL p (pixOff s.iy1 2) codebook.y1 codebook.u codebook.v
    let p := PUT_PIXEL p (pixOff s.iy1 3) codebook.y1 codebook.u codebook.v
    let p := PUT_PIXEL p (pixOff s.iy2 0) codebook.y2 codebook.u codebook.v
    let p := PUT_PIXEL p (pixOff s.iy2 1) codebook.y2 codebook.u codebook.v
    let p := PUT_PIXEL p (pixOff s.iy3 0) codebook.y2 codebook.u codebook.v
    let p := PUT_PIXEL p (pixOff s.iy3 1) codebook.y2 codebook.u codebook.v
    let p := PUT_PIXEL p (pixOff s.iy2 2) codebook.y3 codebook.u codebook.v
    let p := PUT_PIXEL p (pixOff s.iy2 3) codebook.y3 codebook.u codebook.v
    let p := PUT_PIXEL p (pixOff s.iy3 2) codebook.y3 codebook.u codebook.v
    let p := PUT_PIXEL p (pixOff s.iy3 3) codebook.y3 codebook.u codebook.v
    .next { s with input := idx.2, surface := p }

/-- Source `decodeVectors`, lines 369-394: a V4 block. -/
def decodeVectorsV4 (v4_codebook : Nat → CinepakCodebook) (chunkSize startPos : Nat)
    (s : VecState) : Flow VecState :=
  if (ftell s.input : Int) - (startPos : Int) + 4 > (chunkSize : Int) then .stop s
  else
    let p := s.surface
    let idx0 := readByte s.input
    let codebook := v4_codebook idx0.1
    let p := PUT_PIXEL p (pixOff s.iy0 0) codebook.y0 codebook.u codebook.v
    let p := PUT_PIXEL p (pixOff s.iy0 1) codebook.y1 codebook.u codebook.v
    let p := PUT_PIXEL p (pixOff s.iy1 0) codebook.y2 codebook.u codebook.v
    let p := PUT_PIXEL p (pixOff s.iy1 1) codebook.y3 codebook.u codebook.v
    let idx1 := readByte idx0.2
    let codebook := v4_codebook idx1.1
    let p := PUT_PIXEL p (pixOff s.iy0 2) codebook.y0 codebook.u codebook.v
    let p := PUT_PIXEL p (pixOff s.iy0 3) codebook.y1 codebook.u codebook.v
    let p := PUT_PIXEL p (pixOff s.iy1 2) codebook.y2 codebook.u codebook.v
    let p := PUT_PIXEL p (pixOff s.iy1 3) codebook.y3 codebook.u codebook.v
    let idx2 := readByte idx1.2
    let codebook := v4_codebook idx2.1
    let p := PUT_PIXEL p (pixOff s.iy2 0) codebook.y0 codebook.u codebook.v
    let p := PUT_PIXEL p (pixOff s.iy2 1) codebook.y1 codebook.u codebook.v
    let p := PUT_PIXEL p (pixOff s.iy3 0) codebook.y2 codebook.u codebook.v
    let p := PUT_PIXEL p (pixOff s.iy3 1) codebook.y3 codebook.u codebook.v
    let idx3 := readByte idx2.2
    let codebook := v4_codebook idx3.1
    let p := PUT_PIXEL p (pixOff s.iy2 2) codebook.y0 codebook.u codebook.v
    let p := PUT_PIXEL p (pixOff s.iy2 3) codebook.y1 codebook.u codebook.v
    let p := PUT_PIXEL p (pixOff s.iy3 2) codebook.y2 codebook.u codebook.v
    let p := PUT_PIXEL p (pixOff s.iy3 3) codebook.y3 codebook.u codebook.v
    .next { s with input := idx3.2, surface := p }

/-- Source `decodeVectors`, lines 325-331: the first flag fetch of a block,
made only when bit 0 of `chunkID` is set. -/
def decodeVectorsSkip (chunkID chunkSize startPos : Nat) (s : VecState) : Flow VecState :=
  if chunkID &&& 0x01 ≠ 0 then decodeVectorsFlag chunkSize startPos s else .next s

/-- Source `decodeVectors`, lines 334-395: the body of
`if (!(chunkID & 0x01) || (flag & mask))` for a block that is not skipped:
the second flag fetch (only when bit 1 of `chunkID` is clear), then a V1 or
a V4 block. -/
def decodeVectorsCoded (st : CinepakStrip) (chunkID chunkSize startPos : Nat)
    (s : VecState) : Flow VecState :=
  match (if chunkID &&& 0x02 = 0 then decodeVectorsFlag chunkSize startPos s else .next s) with
  | .stop s1 => .stop s1
  | .next s1 =>
    if chunkID &&& 0x02 ≠ 0 ∨ (s1.flag ^^^ 0xFFFFFFFF) &&& s1.mask ≠ 0 then
      decodeVectorsV1 st.v1_codebook chunkSize startPos s1
    else if s1.flag &&& s1.mask ≠ 0 then
      decodeVectorsV4 st.v4_codebook chunkSize startPos s1
    else .next s1

/-- Source `decodeVectors`, lines 398-399: `iy[i] += 4 * 3` for the four rows. -/
def VecState.advance (s : VecState) : VecState :=
  { s with iy0 := (s.iy0 + 4 * 3) % 4294967296, iy1 := (s.iy1 + 4 * 3) % 4294967296,
           iy2 := (s.iy2 + 4 * 3) % 4294967296, iy3 := (s.iy3 + 4 * 3) % 4294967296 }

/-- Source `decodeVectors`, lines 325-399: the body of the loop over `x`, one
4x4 block. -/
def decodeVectorsBlock (st : CinepakStrip) (chunkID chunkSize startPos : Nat)
    (s : VecState) : Flow VecState :=
  match decodeVectorsSkip chunkID chunkSize startPos s with
  | .stop s1 => .stop s1
  | .next s1 =>
    if chunkID &&& 0x01 = 0 ∨ s1.flag &&& s1.mask ≠ 0 then
      match decodeVectorsCoded st chunkID chunkSize startPos s1 with
      | .stop s2 => .stop s2
      | .next s2 => .next s2.advance
    else .next s1.advance

/-- Source `decodeVectors`, line 324: the loop
`for (uint16 x = ...; x < right; x += 4)`, entered with the given `x`. -/
def decodeVectorsRow (st : CinepakStrip) (chunkID chunkSize startPos : Nat) :
    Nat → Nat → VecState → Option (Flow VecState)
  | 0, x, s => if x < st.right then none else some (.next s)
  | fuel + 1, x, s =>
    if x < st.right then
      match decodeVectorsBlock st chunkID chunkSize startPos s with
      | .stop s1 => some (.stop s1)
      | .next s1 => decodeVectorsRow st chunkID chunkSize startPos fuel ((x + 4) % 65536) s1
    else some (.next s)

/-- Source `decodeVectors`, lines 319-322: the row offsets of the row group
starting at `y`. -/
def VecState.setRows (s : VecState) (st : CinepakStrip) (width y : Nat) : VecState :=
  let i0 := ((st.left + y * width) * 3) % 4294967296
  let i1 := (i0 + width * 3) % 4294967296
  let i2 := (i1 + width * 3) % 4294967296
  let i3 := (i2 + width * 3) % 4294967296
  { s with iy0 := i0, iy1 := i1, iy2 := i2, iy3 := i3 }

/-- Source `decodeVectors`, line 318: the loop
`for (uint16 y = ...; y < bottom; y += 4)`, entered with the given `y`;
`fuelX` is the fuel handed to each loop over `x`. -/
def decodeVectorsRows (st : CinepakStrip) (width chunkID chunkSize startPos fuelX : Nat) :
    Nat → Nat → VecState → Option (Flow VecState)
  | 0, y, s => if y < st.bottom then none else some (.next s)
  | fuel + 1, y, s =>
    if y < st.bottom then
      match decodeVectorsRow st chunkID chunkSize startPos fuelX st.left (s.setRows st width y) with
      | none => none
      | some (.stop s1) => some (.stop s1)
      | some (.next s1) =>
        decodeVectorsRows st width chunkID chunkSize startPos fuelX fuel ((y + 4) % 65536) s1
    else some (.next s)

/-- The state of `decodeVectors` on entry: `flag = 0`, `mask = 0`; `iy` is not
yet assigned. -/
def decodeVectorsInit (input : Stream) (surface : Surface) : VecState :=
  { input := input, flag := 0, mask := 0, iy0 := 0, iy1 := 0, iy2 := 0, iy3 := 0,
    surface := surface }

/-- Source `CinepakDecoder::decodeVectors`. -/
def decodeVectors (fuel : Nat) (input : Stream) (fr : CinepakFrame) (strip chunkID chunkSize : Nat) :
    Option (Stream × CinepakFrame) :=
  let st := fr.strips strip
  let startPos := ftell input % 4294967296
  match decodeVectorsRows st fr.width chunkID chunkSize startPos fuel fuel st.top
      (decodeVectorsInit input fr.surface) with
  | none => none
  | some r => some (r.state.input, { fr with surface := r.state.surface })

/-! ## Frame decoder -/

/-- The state `decodeImage` works on: the stream, the decoder object, the
chunk IDs printed to standard output by
`printf("Unknown Cinepak chunk ID %02x\n", chunkID)`, and a trace, oldest
first, of the `(strip, chunkID)` pairs handed to `loadCodebook` or
`decodeVectors`. -/
structure DecState where
  input : Stream
  dec : CinepakDecoder
  out : List Nat
  chunks : List (Nat × Nat)

/-- Replaces the frame of the decoder inside a `DecState`. -/
def DecState.withFrame (s : DecState) (input : Stream) (fr : CinepakFrame) : DecState :=
  { s with input := input, dec := { s.dec with curFrame := fr } }

/-- Source `decodeImage`, lines 242-263: the `switch` on the chunk ID. `none`
only when `decodeVectors` runs out of fuel; `stop` is the `return` of the
`default` branch. -/
def dispatchChunk (fuel i chunkID chunkSize : Nat) (s : DecState) : Option (Flow DecState) :=
  let fr := s.dec.curFrame
  if chunkID = 0x20 ∨ chunkID = 0x21 ∨ chunkID = 0x24 ∨ chunkID = 0x25 then
    let r := loadCodebook s.input fr i 4 chunkID chunkSize
    some (.next { s.withFrame r.1 r.2 with chunks := s.chunks ++ [(i, chunkID)] })
  else if chunkID = 0x22 ∨ chunkID = 0x23 ∨ chunkID = 0x26 ∨ chunkID = 0x27 then
    let r := loadCodebook s.input fr i 1 chunkID chunkSize
    some (.next { s.withFrame r.1 r.2 with chunks := s.chunks ++ [(i, chunkID)] })
  else if chunkID = 0x30 ∨ chunkID = 0x31 ∨ chunkID = 0x32 then
    match decodeVectors fuel s.input fr i chunkID chunkSize with
    | none => none
    | some r => some (.next { s.withFrame r.1 r.2 with chunks := s.chunks ++ [(i, chunkID)] })
  else
    some (.stop { s with out := s.out ++ [chunkID] })

/-- Source `decodeImage`, lines 231-266: one iteration of the chunk loop of
strip `i`. `next` covers both the normal end of the iteration and the `break`
at end of file (told apart by `feof`); `stop` is the `return` on an unknown
chunk ID. -/
def chunkBody (fuel i : Nat) (s : DecState) : Option (Flow DecState × Bool) :=
  let chunkID := readByte s.input
  if feof chunkID.2 then some (.next { s with input := chunkID.2 }, true)
  else
    let c0 := readByte chunkID.2
    let c1 := readUint16BE c0.2
    let chunkSize := (((c0.1 <<< 16) % 4294967296) + (4294967296 + c1.1 - 4)) % 4294967296
    let startPos := ftell c1.2 % 4294967296
    match dispatchChunk fuel i chunkID.1 chunkSize { s with input := c1.2 } with
    | none => none
    | some (.stop s1) => some (.stop s1, false)
    | some (.next s1) =>
      let target := (startPos + chunkSize) % 4294967296
      if ftell s1.input ≠ target then some (.next { s1 with input := fseek s1.input target }, false)
      else some (.next s1, false)

/-- Source `decodeImage`, line 230: the loop
`while (ftell(input) < (pos + strips[i].length) && !feof(input))`; `fuelV` is
the fuel handed to `decodeVectors`. -/
def chunkLoop (fuelV i pos : Nat) : Nat → DecState → Option (Flow DecState)
  | 0, s =>
    if ftell s.input < (pos + (s.dec.curFrame.strips i).length) % 4294967296 ∧ feof s.input = false
    then none else some (.next s)
  | fuel + 1, s =>
    if ftell s.input < (pos + (s.dec.curFrame.strips i).length) % 4294967296 ∧ feof s.input = false
    then
      match chunkBody fuelV i s with
      | none => none
      | some (.stop s1, _) => some (.stop s1)
      | some (.next s1, true) => some (.next s1)
      | some (.next s1, false) => chunkLoop fuelV i pos fuel s1
    else some (.next s)

/-- Source `decodeImage`, lines 214-219: strip `i > 0` of a frame whose flag
bit 0 is clear starts from the codebooks of strip `i - 1`. -/
def inheritCodebooks (fr : CinepakFrame) (i : Nat) : CinepakFrame :=
  if 0 < i ∧ fr.flags &&& 1 = 0 then
    let cur := fr.strips i
    let prev := fr.strips (i - 1)
    let cur1 : CinepakStrip :=
      { cur with
        v1_codebook := fun j => if j < 256 then prev.v1_codebook j else cur.v1_codebook j,
        v4_codebook := fun j => if j < 256 then prev.v4_codebook j else cur.v4_codebook j }
    { fr with strips := Function.update fr.strips i cur1 }
  else fr

/-- Source `decodeImage`, lines 221-226: the 12-byte strip header. -/
def readStripHeader (s : DecState) (i : Nat) : DecState :=
  let fr := s.dec.curFrame
  let id := readUint16BE s.input
  let len := readUint16BE id.2
  let g0 := readUint16BE len.2
  let g1 := readUint16BE g0.2
  let g2 := readUint16BE g1.2
  let g3 := readUint16BE g2.2
  let st : CinepakStrip :=
    { fr.strips i with
      id := id.1, length := (65536 + len.1 - 12) % 65536,
      top := s.dec.y % 65536, left := 0,
      bottom := ((s.dec.y + g2.1) % 4294967296) % 65536, right := fr.width }
  s.withFrame g3.2 { fr with strips := Function.update fr.strips i st }

/-- Source `decodeImage`, lines 214-269: the body of the loop over the strips. -/
def decodeStrip (fuel i : Nat) (s : DecState) : Option (Flow DecState) :=
  let s1 := readStripHeader (s.withFrame s.input (inheritCodebooks s.dec.curFrame i)) i
  let pos := ftell s1.input % 4294967296
  match chunkLoop fuel i pos fuel s1 with
  | none => none
  | some (.stop s2) => some (.stop s2)
  | some (.next s2) =>
    some (.next { s2 with dec := { s2.dec with y := (s2.dec.curFrame.strips i).bottom } })

/-- Source `decodeImage`, line 213: the loop
`for (uint16 i = ...; i < stripCount; i++)`, with `n` iterations left. -/
def stripLoop (fuel : Nat) : Nat → Nat → DecState → Option (Flow DecState)
  | 0, _, s => some (.next s)
  | n + 1, i, s =>
    match decodeStrip fuel i s with
    | none => none
    | some (.stop s1) => some (.stop s1)
    | some (.next s1) => stripLoop fuel n (i + 1) s1

/-- Source `decodeImage`, lines 198-211: the frame header, the allocation of
the two arrays on first use, and the reset of `_y`. -/
def readFrameHeader (input : Stream) (d : CinepakDecoder) : DecState :=
  let flags := readByte input
  let l0 := readByte flags.2
  let l1 := readUint16BE l0.2
  let width := readUint16BE l1.2
  let height := readUint16BE width.2
  let stripCount := readUint16BE height.2
  let fr := d.curFrame
  let fr1 : CinepakFrame :=
    { fr with
      flags := flags.1, length := ((l0.1 <<< 16) + l1.1) % 4294967296,
      width := width.1, height := height.1, stripCount := stripCount.1,
      stripsAlloc := match fr.stripsAlloc with
        | none => some stripCount.1
        | some n => some n,
      surfaceAlloc := match fr.surfaceAlloc with
        | none => some (width.1 * height.1 * 3)
        | some n => some n }
  { input := stripCount.2, dec := { curFrame := fr1, y := 0 }, out := [], chunks := [] }

/-- Source `CinepakDecoder::decodeImage`. The result holds the stream and the
decoder after the call; the returned pointer is `dec.curFrame.surface`. -/
def decodeImage (fuel : Nat) (input : Stream) (d : CinepakDecoder) : Option DecState :=
  let s := readFrameHeader input d
  match stripLoop fuel s.dec.curFrame.stripCount 0 s with
  | none => none
  | some r => some r.state

/-! ## Observations on runs of the code -/

/-- Stream `g` is what `f` can become through reads: same contents, position
not smaller. -/
def Stream.Advances (f g : Stream) : Prop := g.data = f.data ∧ f.pos ≤ g.pos

/-- The value of `flag & mask` that `loadCodebook` tests at line 290 in
iteration `i` of a run started in state `s0`: `none` when the loop is left
before that test is reached. -/
def loadCodebookFlagBit (chunkID chunkSize startPos : Nat) (s0 : CBState) (i : Nat) : Option Nat :=
  match loadCodebookLoop chunkID chunkSize startPos i 0 s0 with
  | .stop _ => none
  | .next s =>
    match loadCodebookFlag chunkID chunkSize startPos s with
    | .stop _ => none
    | .next s1 => some (s1.flag &&& s1.mask)

/-- The chunk IDs that `decodeImage` hands to `decodeVectors`. -/
abbrev IsVectorID (c : Nat) : Prop := c = 0x30 ∨ c = 0x31 ∨ c = 0x32

/-! ## Specification-side definitions -/

/-- The row offset `iy[r]` of a `decodeVectors` state. -/
def VecState.iy (s : VecState) (r : Nat) : Nat :=
  match r with
  | 0 => s.iy0
  | 1 => s.iy1
  | 2 => s.iy2
  | _ => s.iy3

/-- The luma sample `y[k]` of a codebook entry. -/
def CinepakCodebook.y (e : CinepakCodebook) (k : Nat) : Nat :=
  match k with
  | 0 => e.y0
  | 1 => e.y1
  | 2 => e.y2
  | _ => e.y3

/-- Byte `k` of a stored pixel: `PUT_PIXEL` stores `b`, `g`, `r` in this order. -/
def bgr (rgb : Nat × Nat × Nat) (k : Nat) : Nat :=
  match k with
  | 0 => rgb.2.2
  | 1 => rgb.2.1
  | _ => rgb.1

/-- The 48 bytes of a 4x4 block: row `r`, column `c`, byte `k` of the pixel,
in raster order. -/
def blockBytes : List (Nat × Nat × Nat) :=
  (List.range 4).flatMap fun r => (List.range 4).flatMap fun c => (List.range 3).map fun k => (r, c, k)

/-- The order in which both the V1 and the V4 branch of `decodeVectors` store
the 48 bytes of a block (lines 349-367 and 373-394). -/
def blockOrder : List (Nat × Nat × Nat) :=
  [(0,0,0),(0,0,1),(0,0,2),(0,1,0),(0,1,1),(0,1,2),(1,0,0),(1,0,1),(1,0,2),(1,1,0),(1,1,1),(1,1,2),
   (0,2,0),(0,2,1),(0,2,2),(0,3,0),(0,3,1),(0,3,2),(1,2,0),(1,2,1),(1,2,2),(1,3,0),(1,3,1),(1,3,2),
   (2,0,0),(2,0,1),(2,0,2),(2,1,0),(2,1,1),(2,1,2),(3,0,0),(3,0,1),(3,0,2),(3,1,0),(3,1,1),(3,1,2),
   (2,2,0),(2,2,1),(2,2,2),(2,3,0),(2,3,1),(2,3,2),(3,2,0),(3,2,1),(3,2,2),(3,3,0),(3,3,1),(3,3,2)]

/-- The memory that results from making the stores `w`, oldest first, on `m`. -/
def replay (m : Nat → Nat) (w : List (Nat × Nat)) : Nat → Nat :=
  w.foldl (fun m p => Function.update m p.1 p.2) m

/-- The stream after `n` calls of `readByte`. -/
def skipBytes (f : Stream) : Nat → Stream
  | 0 => f
  | n + 1 => (readByte (skipBytes f n)).2

/-- The value returned by call number `q` (from 0) of a run of `readByte` calls. -/
def byteAt (f : Stream) (q : Nat) : Nat := (readByte (skipBytes f q)).1

/-- The codebook entry that the next `n` bytes of the stream describe (`n` is 4
or 6): four luma bytes, then `u` and `v` as raw byte plus 128, or 128 for both
when the entry has no chroma bytes. -/
def specEntry (f : Stream) (n : Nat) : CinepakCodebook :=
  { y0 := byteAt f 0, y1 := byteAt f 1, y2 := byteAt f 2, y3 := byteAt f 3,
    u := if n = 6 then (byteAt f 4 + 128) % 256 else 128,
    v := if n = 6 then (byteAt f 5 + 128) % 256 else 128 }

/-- The store the spec prescribes for byte `t = (r, c, k)` of a V1 block
painted from entry `e`, the rows of the block starting at the offsets `iy r`:
quadrant `(r / 2) * 2 + c / 2` supplies the luma. -/
def v1Write (iy : Nat → Nat) (e : CinepakCodebook) (t : Nat × Nat × Nat) : Nat × Nat :=
  (pixOff (iy t.1) t.2.1 + t.2.2,
   bgr (CPYUV2RGB (e.y ((t.1 / 2) * 2 + t.2.1 / 2)) e.u e.v) t.2.2)

/-- The store the spec prescribes for byte `t = (r, c, k)` of a V4 block whose
quadrant `q` is painted from entry `e q`: within the quadrant the pixel at row
`r % 2`, column `c % 2` takes luma sample `(r % 2) * 2 + c % 2`. -/
def v4Write (iy : Nat → Nat) (e : Nat → CinepakCodebook) (t : Nat × Nat × Nat) : Nat × Nat :=
  (pixOff (iy t.1) t.2.1 + t.2.2,
   bgr (CPYUV2RGB ((e ((t.1 / 2) * 2 + t.2.1 / 2)).y ((t.1 % 2) * 2 + t.2.1 % 2))
      (e ((t.1 / 2) * 2 + t.2.1 / 2)).u (e ((t.1 / 2) * 2 + t.2.1 / 2)).v) t.2.2)

/-- The row offsets after `iy[i] += 4 * 3`. -/
def shiftRows (iy : Nat → Nat) : Nat → Nat := fun r => (iy r + 4 * 3) % 4294967296

/-- The row offsets `iy[0..3]` assigned at lines 319-322 for the row group at `y`. -/
def rowOffsets (left width y : Nat) : Nat → Nat :=
  (VecState.setRows ⟨⟨[], 0, false⟩, 0, 0, 0, 0, 0, 0, ⟨fun _ => 0, []⟩⟩
    ⟨0, 0, left, 0, 0, 0, fun _ => ⟨0, 0, 0, 0, 0, 0⟩, fun _ => ⟨0, 0, 0, 0, 0, 0⟩⟩ width y).iy

/-- The stores of `n` consecutive V1 blocks of one row group, the first with
row offsets `iy`, block `j` taking its index from read number `j` of `f`. -/
def rowWritesV1 (v1 : Nat → CinepakCodebook) : Nat → (Nat → Nat) → Stream → List (Nat × Nat)
  | 0, _, _ => []
  | n + 1, iy, f =>
    blockOrder.map (v1Write iy (v1 (byteAt f 0))) ++ rowWritesV1 v1 n (shiftRows iy) (skipBytes f 1)

/-- The stores of `g` consecutive row groups of `n` V1 blocks each, the first at
row `y`. -/
def rowsWritesV1 (v1 : Nat → CinepakCodebook) (left width n : Nat) :
    Nat → Nat → Stream → List (Nat × Nat)
  | 0, _, _ => []
  | g + 1, y, f =>
    rowWritesV1 v1 n (rowOffsets left width y) f ++
      rowsWritesV1 v1 left width n g ((y + 4) % 65536) (skipBytes f n)

/-- The store prescribed for byte `t = (r, c, k)` of block `j` of a row group
of V1 blocks whose first block has row offsets `iy`. -/
def rowWriteV1 (v1 : Nat → CinepakCodebook) (iy : Nat → Nat) (f : Stream) (j : Nat)
    (t : Nat × Nat × Nat) : Nat × Nat :=
  ((iy t.1 + 12 * j + 3 * t.2.1) % 4294967296 + t.2.2,
   bgr (CPYUV2RGB ((v1 (byteAt f j)).y ((t.1 / 2) * 2 + t.2.1 / 2))
     (v1 (byteAt f j)).u (v1 (byteAt f j)).v) t.2.2)

/-- The sixteen pixels addressed through the row offsets `iy 0 .. iy 3` occupy
pairwise disjoint bytes. -/
def PixelsDisjoint (iy : Nat → Nat) : Prop :=
  ∀ r < 4, ∀ c < 4, ∀ r' < 4, ∀ c' < 4, (r, c) ≠ (r', c') →
    pixOff (iy r) c + 3 ≤ pixOff (iy r') c' ∨ pixOff (iy r') c' + 3 ≤ pixOff (iy r) c

/-- The spec's `clip(x, 0, 255)`. -/
def clipSpec (x : Int) : Int := max 0 (min 255 x)

/-- The spec's division by 2 that truncates toward zero, written with the
rounding-down division of `Int` on the absolute value. -/
def truncHalf (a : Int) : Int := if 0 ≤ a then a / 2 else -((-a) / 2)

/-! ## Streams of a V1-only frame -/

/-- A single-strip frame holding one complete unconditional V1 codebook chunk
followed by one V1-only vector chunk. The fields are the free choices of such
a stream: the bytes the decoder ignores, the size in blocks, the codebook
chunk ID (0x22 or 0x26), the codebook payload and the index bytes. -/
structure V1Frame where
  flags : Nat
  len0 : Nat
  len1 : Nat
  len2 : Nat
  bw : Nat
  bh : Nat
  id0 : Nat
  id1 : Nat
  top0 : Nat
  top1 : Nat
  left0 : Nat
  left1 : Nat
  right0 : Nat
  right1 : Nat
  chunkID : Nat
  entries : List Nat
  indices : List Nat

/-- The value of the strip length field: the 12 header bytes and the two chunks. -/
def V1Frame.stripLength (F : V1Frame) : Nat :=
  12 + (4 + 256 * entryWidth F.chunkID) + (4 + F.bw * F.bh)

/-- The 26 bytes in front of the codebook payload: frame header, strip header
and the header of the codebook chunk. -/
def V1Frame.header (F : V1Frame) : List Nat :=
  [F.flags, F.len0, F.len1, F.len2,
   (4 * F.bw) / 256, (4 * F.bw) % 256, (4 * F.bh) / 256, (4 * F.bh) % 256, 0, 1,
   F.id0, F.id1, F.stripLength / 256, F.stripLength % 256,
   F.top0, F.top1, F.left0, F.left1, (4 * F.bh) / 256, (4 * F.bh) % 256, F.right0, F.right1,
   F.chunkID, 0, (4 + 256 * entryWidth F.chunkID) / 256, (4 + 256 * entryWidth F.chunkID) % 256]

/-- The header of the vector chunk. -/
def V1Frame.vectorHeader (F : V1Frame) : List Nat :=
  [0x32, (4 + F.bw * F.bh) / 65536, (4 + F.bw * F.bh) / 256 % 256, (4 + F.bw * F.bh) % 256]

/-- The byte stream of the frame. -/
def V1Frame.bytes (F : V1Frame) : List Nat :=
  F.header ++ (F.entries ++ (F.vectorHeader ++ F.indices))

/-- The stream is well formed: the declared sizes are the actual ones and fit
their fields. -/
def V1Frame.Valid (F : V1Frame) : Prop :=
  (F.chunkID = 0x22 ∨ F.chunkID = 0x26) ∧
  F.entries.length = 256 * entryWidth F.chunkID ∧
  F.indices.length = F.bw * F.bh ∧
  4 * F.bw < 65536 ∧ 4 * F.bh < 65536 ∧ F.stripLength < 65536

/-- Entry `i` of the codebook payload, as the spec reads it. -/
def V1Frame.entry (F : V1Frame) (i : Nat) : CinepakCodebook :=
  { y0 := F.entries.getD (entryWidth F.chunkID * i) 0 % 256,
    y1 := F.entries.getD (entryWidth F.chunkID * i + 1) 0 % 256,
    y2 := F.entries.getD (entryWidth F.chunkID * i + 2) 0 % 256,
    y3 := F.entries.getD (entryWidth F.chunkID * i + 3) 0 % 256,
    u := if entryWidth F.chunkID = 6
      then (F.entries.getD (entryWidth F.chunkID * i + 4) 0 % 256 + 128) % 256 else 128,
    v := if entryWidth F.chunkID = 6
      then (F.entries.getD (entryWidth F.chunkID * i + 5) 0 % 256 + 128) % 256 else 128 }

/-! ## Example inputs -/

/-- A strip covering one 4x4 block whose V1 entry `i` has luma `i, i+1, i+2,
i+3` and whose V4 entry `i` has luma `i+4 .. i+7`. -/
def exampleStrip : CinepakStrip :=
  { id := 0, length := 0, left := 0, top := 0, right := 4, bottom := 4,
    v1_codebook := fun i => ⟨i, i + 1, i + 2, i + 3, 100, 200⟩,
    v4_codebook := fun i => ⟨i + 4, i + 5, i + 6, i + 7, 90, 160⟩ }

/-- A `decodeVectors` state at the first block of a raster of width 4, about to
read the bytes `80 00 00 00 01 02 03 04`. -/
def exampleVec : VecState :=
  (decodeVectorsInit ⟨[0x80, 0, 0, 0, 1, 2, 3, 4], 0, false⟩ ⟨fun _ => 0, []⟩).setRows
    exampleStrip 4 0

/-- The payload of a conditional codebook chunk: the flag word `40 00 00 00`
(entry 0 not flagged, entry 1 flagged, the rest not) and the six bytes of
entry 1. -/
def exampleMasked : Stream := ⟨[0x40, 0, 0, 0, 1, 2, 3, 4, 5, 6], 0, false⟩

/-- A 4x4 frame with one strip whose only chunk has ID 0x20 and the 24-bit size
field `00 00 00`: frame header (10 bytes), strip header (12 bytes, length 16),
chunk header (4 bytes). -/
def shortSizeStream : List Nat :=
  [0x01, 0, 0, 26, 0, 4, 0, 4, 0, 1,
   0x10, 0x00, 0, 16, 0, 0, 0, 0, 0, 4, 0, 4,
   0x20, 0, 0, 0]

/-- A 4x4 frame of one block: a full six-byte codebook of 256 entries, all
bytes 7, and the index byte 3. -/
def exampleV1Frame : V1Frame :=
  { flags := 1, len0 := 0, len1 := 0, len2 := 0, bw := 1, bh := 1, id0 := 0x10, id1 := 0,
    top0 := 0, top1 := 0, left0 := 0, left1 := 0, right0 := 0, right1 := 4,
    chunkID := 0x22, entries := List.replicate 1536 7, indices := [3] }

/-- A frame with one strip, `exampleStrip`, and a zeroed raster. -/
def exampleFrame : CinepakFrame :=
  { flags := 0, length := 0, width := 4, height := 4, stripCount := 1,
    strips := fun _ => exampleStrip, stripsAlloc := some 1,
    surface := ⟨fun _ => 0, []⟩, surfaceAlloc := some 48 }

/-- The state of `decodeImage` in front of the second strip of a 4x8 frame
whose first strip used `exampleStrip`: the stream holds the header of a
strip of 4 rows and one chunk 0x31 with the flag word `00 00 00 00`. -/
def exampleSecondStrip : DecState :=
  { input := ⟨[0x11, 0, 0, 20, 0, 0, 0, 0, 0, 4, 0, 4, 0x31, 0, 0, 8, 0, 0, 0, 0], 0, false⟩,
    dec := { curFrame := { exampleFrame with height := 8, stripCount := 2, stripsAlloc := some 2,
                                             surfaceAlloc := some 96,
                                             strips := fun k => if k = 0 then exampleStrip else
                                               { exampleStrip with
                                                 v1_codebook := fun _ => ⟨0, 0, 0, 0, 0, 0⟩,
                                                 v4_codebook := fun _ => ⟨0, 0, 0, 0, 0, 0⟩ } },
             y := 4 },
    out := [], chunks := [(0, 0x22), (0, 0x32)] }

/-- An 8x4 frame of two strips with flag bit 0 clear: strip 0, of `h0` rows,
loads V1 entry 0 = (100, 100, 100, 100, u 150, v 150) from a chunk 0x22 and
codes its two blocks as V1 index 0 in a chunk 0x32; strip 1, of the other
`4 - h0` rows, has one chunk 0x31 whose flag word 0 skips both blocks. -/
def endToEndStream (h0 : Nat) : List Nat :=
  [0x00, 0, 0, 58, 0, 8, 0, 4, 0, 2,
   0x10, 0x00, 0, 28, 0, 0, 0, 0, 0, h0, 0, 8,
   0x22, 0, 0, 10, 100, 100, 100, 100, 22, 22,
   0x32, 0, 0, 6, 0, 0,
   0x11, 0x00, 0, 20, 0, 0, 0, 0, 0, 4 - h0, 0, 8,
   0x31, 0, 0, 8, 0, 0, 0, 0]

/-! ## Raster stores and block traces of `decodeVectors` -/

/-- Raster `b` results from raster `a` by the stores `W`, made in this order,
and by nothing else: the log grows by `W` and the memory is `a`'s with `W`
replayed on it. -/
def Surface.Extends (a b : Surface) (W : List (Nat × Nat)) : Prop :=
  b.log = a.log ++ W ∧ b.mem = replay a.mem W

/-- Offset `o` is one of the 48 bytes that `decodeVectors` addresses in block
number `j` (from 0) of a row group whose first block has the row offsets `iy`:
`iy[r] + 12 * j + 3 * c` as a `uint32`, plus the byte `k` of the pixel. -/
def InBlock (iy : Nat → Nat) (j o : Nat) : Prop :=
  ∃ r c k, r < 4 ∧ c < 4 ∧ k < 3 ∧ o = (iy r + 12 * j + 3 * c) % 4294967296 + k

/-- The stores made by the body of the block loop of `decodeVectors` (lines
325-399) when it is entered in state `s`: what the body appends to the store
log. -/
def blockStores (st : CinepakStrip) (chunkID chunkSize startPos : Nat) (s : VecState) :
    List (Nat × Nat) :=
  (decodeVectorsBlock st chunkID chunkSize startPos s).state.surface.log.drop s.surface.log.length

/-- The blocks of one row group in the order the loop over `x` visits them:
the value of `x` and the state in which the body is entered. Follows
`decodeVectorsRow` step by step. -/
def decodeVectorsRowTrace (st : CinepakStrip) (chunkID chunkSize startPos : Nat) :
    Nat → Nat → VecState → List (Nat × VecState)
  | 0, _, _ => []
  | fuel + 1, x, s =>
    if x < st.right then
      (x, s) ::
        match decodeVectorsBlock st chunkID chunkSize startPos s with
        | .stop _ => []
        | .next s1 => decodeVectorsRowTrace st chunkID chunkSize startPos fuel ((x + 4) % 65536) s1
    else []

/-- The blocks of a `decodeVectors` run in the order they are visited: the
values of `y` and `x` and the state in which the body of the block loop is
entered. Follows `decodeVectorsRows` step by step. -/
def decodeVectorsRowsTrace (st : CinepakStrip) (width chunkID chunkSize startPos fuelX : Nat) :
    Nat → Nat → VecState → List (Nat × Nat × VecState)
  | 0, _, _ => []
  | fuel + 1, y, s =>
    if y < st.bottom then
      (decodeVectorsRowTrace st chunkID chunkSize startPos fuelX st.left
          (s.setRows st width y)).map (fun b => (y, b.1, b.2)) ++
        match decodeVectorsRow st chunkID chunkSize startPos fuelX st.left
            (s.setRows st width y) with
        | some (.next s1) =>
          decodeVectorsRowsTrace st width chunkID chunkSize startPos fuelX fuel ((y + 4) % 65536) s1
        | _ => []
    else []

/-- The blocks visited by the call `decodeVectors(input, strip, chunkID,
chunkSize)`, in order, each with its `y`, its `x` and the state on entry. -/
def decodeVectorsTrace (fuel : Nat) (input : Stream) (fr : CinepakFrame)
    (strip chunkID chunkSize : Nat) : List (Nat × Nat × VecState) :=
  decodeVectorsRowsTrace (fr.strips strip) fr.width chunkID chunkSize (ftell input % 4294967296)
    fuel fuel (fr.strips strip).top (decodeVectorsInit input fr.surface)

/-- The body of the block loop of `decodeVectors`, entered in state `s`, needs
bytes the chunk payload no longer holds: a flag word for the skip bit (line
327) or for the V1/V4 selector (line 336) with fewer than 4 payload bytes
remaining, a V1 index (line 344) with none remaining, or the four V4 indices
(line 370) with fewer than 4 remaining. -/
def NeedsMissingBytes (chunkID chunkSize startPos : Nat) (s : VecState) : Prop :=
  (chunkID &&& 0x01 ≠ 0 ∧ s.mask >>> 1 = 0 ∧
    (ftell s.input : Int) - (startPos : Int) + 4 > (chunkSize : Int)) ∨
  ∃ s1, decodeVectorsSkip chunkID chunkSize startPos s = .next s1 ∧
    (chunkID &&& 0x01 = 0 ∨ s1.flag &&& s1.mask ≠ 0) ∧
    ((chunkID &&& 0x02 = 0 ∧ s1.mask >>> 1 = 0 ∧
      (ftell s1.input : Int) - (startPos : Int) + 4 > (chunkSize : Int)) ∨
     ∃ s2, (if chunkID &&& 0x02 = 0 then decodeVectorsFlag chunkSize startPos s1
         else Flow.next s1) = .next s2 ∧
       ((chunkID &&& 0x02 ≠ 0 ∨ (s2.flag ^^^ 0xFFFFFFFF) &&& s2.mask ≠ 0) ∧
          (ftell s2.input : Int) - (startPos : Int) + 1 > (chunkSize : Int) ∨
        ¬ (chunkID &&& 0x02 ≠ 0 ∨ (s2.flag ^^^ 0xFFFFFFFF) &&& s2.mask ≠ 0) ∧
          s2.flag &&& s2.mask ≠ 0 ∧
          (ftell s2.input : Int) - (startPos : Int) + 4 > (chunkSize : Int)))

/-- The geometry `decodeVectors` is written for: the strip spans the full
width of a raster of `width` pixels per row, width and strip height are
multiples of 4 (so the 4x4 blocks tile the strip exactly), the 16-bit loop
counters cannot wrap, and every byte offset of the strip fits a `uint32`. -/
def WellFormedStrip (width : Nat) (st : CinepakStrip) : Prop :=
  st.left = 0 ∧ st.right = width ∧ width % 4 = 0 ∧ width < 65536 ∧
  st.top ≤ st.bottom ∧ (st.bottom - st.top) % 4 = 0 ∧ st.bottom < 65536 ∧
  3 * (st.bottom * width) ≤ 4294967296

/-! ## Further example inputs -/

/-- The frame `exampleFrame` with a strip of two rows only: `top = 0`,
`bottom = 2` in a raster of 4x4 pixels. -/
def exampleShortStrip : CinepakFrame :=
  { exampleFrame with strips := fun _ => { exampleStrip with bottom := 2 } }

/-! ## Effects of chunks and strips on the decoder -/

/-- The chunk IDs the `switch` of `decodeImage` has a case for: 0x20-0x27 and
0x30-0x32. -/
abbrev IsKnownID (c : Nat) : Prop := (0x20 ≤ c ∧ c ≤ 0x27) ∨ (0x30 ≤ c ∧ c ≤ 0x32)

/-- Frame `b` has the header fields, the allocation records and the strip
geometry of frame `a`: it differs from `a` at most in codebook entries and in
the raster. -/
def CinepakFrame.SameShape (a b : CinepakFrame) : Prop :=
  b.flags = a.flags ∧ b.length = a.length ∧ b.width = a.width ∧ b.height = a.height ∧
  b.stripCount = a.stripCount ∧ b.stripsAlloc = a.stripsAlloc ∧
  b.surfaceAlloc = a.surfaceAlloc ∧
  ∀ j, (b.strips j).id = (a.strips j).id ∧ (b.strips j).length = (a.strips j).length ∧
    (b.strips j).left = (a.strips j).left ∧ (b.strips j).top = (a.strips j).top ∧
    (b.strips j).right = (a.strips j).right ∧ (b.strips j).bottom = (a.strips j).bottom

/-- What chunks of strip `i` do to the decoder between the states `s` and `t`:
header fields, strip geometry and the row cursor `_y` stay, the other strips
stay, the raster changes by stores `W` only, the chunk trace grows by chunks
`extra` of strip `i`, every store belongs to a vector chunk, and on a
well-formed strip every store lies below the end of the strip. -/
def ChunkEffect (i : Nat) (s t : DecState) : Prop :=
  s.dec.curFrame.SameShape t.dec.curFrame ∧ t.dec.y = s.dec.y ∧
  (∀ j, j ≠ i → t.dec.curFrame.strips j = s.dec.curFrame.strips j) ∧
  ∃ W extra, s.dec.curFrame.surface.Extends t.dec.curFrame.surface W ∧
    t.chunks = s.chunks ++ extra ∧ (∀ c ∈ extra, c.1 = i) ∧
    ∀ p ∈ W, (∃ c ∈ extra, IsVectorID c.2) ∧
      (WellFormedStrip s.dec.curFrame.width (s.dec.curFrame.strips i) →
        p.1 < 3 * ((s.dec.curFrame.strips i).bottom * s.dec.curFrame.width))

/-- The diagnostic output of a step that ends as `fl`: nothing is printed
unless the step is the `return` on an unknown chunk ID, which prints that ID. -/
def OutEffect (s : DecState) (fl : Flow DecState) : Prop :=
  (fl.stopped = false → fl.state.out = s.out) ∧
  (fl.stopped = true → ∃ cid, ¬ IsKnownID cid ∧ fl.state.out = s.out ++ [cid])

/-- What the strips from index `i` on do to the decoder between the states
`s` and `t`: the header fields and allocation records stay, the strips before
`i` stay, the raster changes by stores `W` only, the chunk trace grows by
chunks `extra` of strips from `i` on, and every store belongs to a vector chunk
of a strip that, if well formed, contains it. -/
def StripsEffect (i : Nat) (s t : DecState) : Prop :=
  t.dec.curFrame.flags = s.dec.curFrame.flags ∧ t.dec.curFrame.width = s.dec.curFrame.width ∧
  t.dec.curFrame.height = s.dec.curFrame.height ∧
  t.dec.curFrame.stripCount = s.dec.curFrame.stripCount ∧
  t.dec.curFrame.stripsAlloc = s.dec.curFrame.stripsAlloc ∧
  t.dec.curFrame.surfaceAlloc = s.dec.curFrame.surfaceAlloc ∧
  (∀ j, j < i → t.dec.curFrame.strips j = s.dec.curFrame.strips j) ∧
  ∃ W extra, s.dec.curFrame.surface.Extends t.dec.curFrame.surface W ∧
    t.chunks = s.chunks ++ extra ∧ (∀ c ∈ extra, i ≤ c.1) ∧
    ∀ p ∈ W, ∃ c ∈ extra, IsVectorID c.2 ∧
      (WellFormedStrip t.dec.curFrame.width (t.dec.curFrame.strips c.1) →
        p.1 < 3 * ((t.dec.curFrame.strips c.1).bottom * t.dec.curFrame.width))

/-- Whether the call `decodeImage(input)` is left by the `return` on an unknown
chunk ID (`some true`) or after the loop over the strips has run to its end
(`some false`); `none` when the call does not return. -/
def decodeImageStopped (fuel : Nat) (input : Stream) (d : CinepakDecoder) : Option Bool :=
  (stripLoop fuel (readFrameHeader input d).dec.curFrame.stripCount 0
    (readFrameHeader input d)).map Flow.stopped

instance (w : Nat) (st : CinepakStrip) : Decidable (WellFormedStrip w st) := by
  unfold WellFormedStrip
  exact inferInstance

/-! ## Example frames -/

/-- A 4x4 frame whose only strip declares 8 rows: frame header (10 bytes,
width 4, height 4, one strip), strip header (12 bytes, length 18, height
field 8), and a chunk 0x32 with the two V1 indices 0, 0. -/
def tallStripStream : List Nat :=
  [0x00, 0, 0, 28, 0, 4, 0, 4, 0, 1,
   0x10, 0x00, 0, 18, 0, 0, 0, 0, 0, 8, 0, 4,
   0x32, 0, 0, 6, 0, 0]

/-- A 4x4 frame of one strip of 4 rows whose only chunk, 0x32, codes the one
block as V1 index 3. -/
def codedFrameStream : List Nat :=
  [0x00, 0, 0, 27, 0, 4, 0, 4, 0, 1,
   0x10, 0x00, 0, 17, 0, 0, 0, 0, 0, 4, 0, 4,
   0x32, 0, 0, 5, 3]

/-- The states in which the chunk loop of strip `i` starts an iteration, in
order. Follows `chunkLoop` step by step. -/
def chunkLoopTrace (fuelV i pos : Nat) : Nat → DecState → List DecState
  | 0, _ => []
  | fuel + 1, s =>
    if ftell s.input < (pos + (s.dec.curFrame.strips i).length) % 4294967296 ∧ feof s.input = false
    then
      s ::
        match chunkBody fuelV i s with
        | some (.next s1, false) => chunkLoopTrace fuelV i pos fuel s1
        | _ => []
    else []

/-- The chunk loop iterations of the strips `i`, `i + 1`, ... in order: the
strip index and the state in which the iteration starts. Follows `stripLoop`
step by step. -/
def stripLoopTrace (fuel : Nat) : Nat → Nat → DecState → List (Nat × DecState)
  | 0, _, _ => []
  | n + 1, i, s =>
    (chunkLoopTrace fuel i
        (ftell (readStripHeader (s.withFrame s.input (inheritCodebooks s.dec.curFrame i)) i).input
          % 4294967296) fuel
        (readStripHeader (s.withFrame s.input (inheritCodebooks s.dec.curFrame i)) i)).map
        (fun t => (i, t)) ++
      match decodeStrip fuel i s with
      | some (.next s1) => stripLoopTrace fuel n (i + 1) s1
      | _ => []

/-- The chunk loop iterations of a `decodeImage` call, in order: the strip
index and the state in which the iteration starts (in front of the chunk ID). -/
def decodeImageTrace (fuel : Nat) (input : Stream) (d : CinepakDecoder) : List (Nat × DecState) :=
  stripLoopTrace fuel (readFrameHeader input d).dec.curFrame.stripCount 0
    (readFrameHeader input d)

/-- A 4x4 frame of one strip whose only chunk has the ID 0x40, which the
decoder does not know. -/
def unknownChunkStream : List Nat :=
  [0x00, 0, 0, 26, 0, 4, 0, 4, 0, 1,
   0x10, 0x00, 0, 16, 0, 0, 0, 0, 0, 4, 0, 4,
   0x40, 0, 0, 4]

/-- The frame of `codedFrameStream` followed, in the same strip, by a chunk
with the ID 0x40, which the decoder does not know. -/
def unknownAfterCodedStream : List Nat :=
  [0x00, 0, 0, 31, 0, 4, 0, 4, 0, 1,
   0x10, 0x00, 0, 21, 0, 0, 0, 0, 0, 4, 0, 4,
   0x32, 0, 0, 5, 3,
   0x40, 0, 0, 4]

/-! ## Further observations on the codebook loader -/

/-- The entry without chroma bytes that the reads number `4k .. 4k + 3` of the
stream `f` describe: they become `y[0..3]` in order, `u` and `v` are 128. -/
def lumaEntry (f : Stream) (k : Nat) : CinepakCodebook :=
  ⟨byteAt f (4 * k), byteAt f (4 * k + 1), byteAt f (4 * k + 2), byteAt f (4 * k + 3), 128, 128⟩

/-- A state of `loadCodebook` in a run on the stream `f0` and the table `c0`
in which everything was read in groups of four bytes: the stream is `f0` after
a multiple of four reads, and every entry is either the one of `c0` or made of
one such group, with `u = v = 128`. -/
def LumaLoaded (f0 : Stream) (c0 : Nat → CinepakCodebook) (s : CBState) : Prop :=
  (∃ m, s.input = skipBytes f0 (4 * m)) ∧
  ∀ j, s.codebook j = c0 j ∨ ∃ k, s.codebook j = lumaEntry f0 k

/-- The flag word that `loadCodebook` reads at the start of iteration `32 * k`
of a run started in state `s0`: `none` when the loop is left before that
iteration, or when fewer than four payload bytes remain there (line 284). -/
def loadCodebookFlagWord (chunkID chunkSize startPos : Nat) (s0 : CBState) (k : Nat) : Option Nat :=
  match loadCodebookLoop chunkID chunkSize startPos (32 * k) 0 s0 with
  | .stop _ => none
  | .next s =>
    if (ftell s.input : Int) - (startPos : Int) + 4 > (chunkSize : Int) then none
    else some (readUint32BE s.input).1

/-- What the mask and the flag word are in front of iteration `i` of the
conditional loader: the mask is at the bit of entry `i - 1`, and the flag word
is the one fetched at the last multiple of 32 before `i`. -/
def MaskAt (chunkID chunkSize startPos : Nat) (s0 : CBState) (i : Nat) (s : CBState) : Prop :=
  (i = 0 → s.mask = 0) ∧
  (0 < i → s.mask = 2 ^ (31 - (i - 1) % 32) ∧
    loadCodebookFlagWord chunkID chunkSize startPos s0 ((i - 1) / 32) = some s.flag)

/-! ## Chunk headers -/

/-- The payload size `chunkSize` that `decodeImage` computes at lines 235-236
from the chunk header at the front of `f` (`f` stands in front of the chunk
ID): `readByte << 16`, then `+= readUint16BE - 4`, in `uint32`. -/
def chunkSizeOf (f : Stream) : Nat :=
  (((readByte (readByte f).2).1 <<< 16) % 4294967296 +
    (4294967296 + (readUint16BE (readByte (readByte f).2).2).1 - 4)) % 4294967296

/-- The 24-bit big-endian size field of the chunk header at the front of `f`:
the three bytes after the chunk ID. -/
def chunkSizeField (f : Stream) : Nat := byteAt f 1 * 65536 + byteAt f 2 * 256 + byteAt f 3

/-- The position that `decodeImage` compares with and seeks to at lines
265-266, `startPos + chunkSize` in `uint32`, for the chunk at the front of `f`. -/
def chunkEnd (f : Stream) : Nat :=
  (ftell (skipBytes f 4) % 4294967296 + chunkSizeOf f) % 4294967296

/-- A chunk loop state in front of a chunk 0x32 with size field 10 whose
handler needs one index byte only: the strip is the one block of
`exampleFrame`. -/
def exampleChunkState : DecState :=
  { input := ⟨[0x32, 0, 0, 10, 3, 9, 9, 9, 9, 9, 0x20], 0, false⟩,
    dec := { curFrame := exampleFrame, y := 0 }, out := [], chunks := [] }

/-! ## Example inputs for the flag streams of `decodeVectors` -/

/-- An 8x4 frame of one strip, two blocks side by side, with the codebooks of
`exampleStrip`. -/
def exampleWide : CinepakFrame :=
  { exampleFrame with width := 8, surfaceAlloc := some 96,
                      strips := fun _ => { exampleStrip with right := 8 } }

/-- The payload of a chunk 0x31 for two blocks: one flag word, `A0 00 00 00`
(bits 31..28 are 1, 0, 1, 0), and two V1 index bytes. -/
def sharedFlagsStream : List Nat := [0xA0, 0, 0, 0, 1, 2]

/-! ## Stores of a V1-only vector chunk -/

/-- The store the spec prescribes for byte `t = (r, c, k)` of block `j` (from
the left) of row group `q` (from the top) of a strip of `n` blocks per row
group in a V1-only chunk: the block is painted as V1 from the entry selected
by payload byte number `n * q + j`, the row-major number of the block. -/
def v1ChunkWrite (v1 : Nat → CinepakCodebook) (left width top n : Nat) (f : Stream)
    (q j : Nat) (t : Nat × Nat × Nat) : Nat × Nat :=
  ((rowOffsets left width (top + 4 * q) t.1 + 12 * j + 3 * t.2.1) % 4294967296 + t.2.2,
   bgr (CPYUV2RGB ((v1 (byteAt f (n * q + j))).y ((t.1 / 2) * 2 + t.2.1 / 2))
     (v1 (byteAt f (n * q + j))).u (v1 (byteAt f (n * q + j))).v) t.2.2)

/-- The stores of a V1-only chunk on `g` row groups of `n` blocks, in row-major
order of the blocks: row groups top to bottom, blocks left to right. -/
def v1ChunkWrites (v1 : Nat → CinepakCodebook) (left width top n g : Nat) (f : Stream) :
    List (Nat × Nat) :=
  (List.range g).flatMap fun q =>
    (List.range n).flatMap fun j => blockOrder.map (v1ChunkWrite v1 left width top n f q j)

/-! ## Positions in the flag words of `decodeVectors` -/

/-- The mask of `decodeVectors` stands at bit `k` of the 32-bit flag word. -/
def FlagPos (s : VecState) (k : Nat) : Prop := k ≤ 31 ∧ s.mask = 2 ^ k

/-- The values the mask of `decodeVectors` takes: 0 on entry, one bit of a
32-bit word afterwards. -/
def FlagMask (s : VecState) : Prop := s.mask = 0 ∨ ∃ k, FlagPos s k

/-! ## Progress of the chunk loop -/

/-- The chunk loop iteration that starts in `s` stands in front of a
well-sized chunk: the ID is one of 0x20-0x27, 0x30-0x32, the 24-bit size field
is at least 4, the four header bytes are in the stream, and the position of
the ID byte plus the size field is below 2^32. -/
def WellSizedChunk (s : DecState) : Prop :=
  IsKnownID (byteAt s.input 0) ∧ 4 ≤ chunkSizeField s.input ∧
  s.input.pos + 4 ≤ s.input.data.length ∧
  ftell s.input + chunkSizeField s.input < 4294967296

/-! ## BMP output -/

/-- Source `readUint16LE`: `x = readByte; return x | readByte << 8`. -/
def readUint16LE (f : Stream) : Nat × Stream :=
  let a := readByte f
  let b := readByte a.2
  ((a.1 ||| (b.1 <<< 8)) % 65536, b.2)

/-- Source `readUint32LE`: `x = readUint16LE; return x | readUint16LE << 16`. -/
def readUint32LE (f : Stream) : Nat × Stream :=
  let a := readUint16LE f
  let b := readUint16LE a.2
  ((a.1 ||| (b.1 <<< 16)) % 4294967296, b.2)

/-- A `FILE *` opened for writing: contents and file position. -/
structure OutFile where
  data : List Nat
  pos : Nat
  deriving DecidableEq, Repr

/-- Source `writeByte`: `fwrite(&b, 1, 1, file)`. The byte replaces the one at
the file position, or is appended when the position is the end of the file (a
gap left by a seek past the end reads as zeros). -/
def writeByte (f : OutFile) (b : Nat) : OutFile :=
  if f.pos < f.data.length then { data := f.data.set f.pos (b % 256), pos := f.pos + 1 }
  else { data := f.data ++ List.replicate (f.pos - f.data.length) 0 ++ [b % 256],
         pos := f.pos + 1 }

/-- Source `writeUint16LE`: `writeByte(x & 0xff); writeByte(x >> 8)`, `x` a
`uint16`. -/
def writeUint16LE (f : OutFile) (x : Nat) : OutFile :=
  writeByte (writeByte f ((x % 65536) &&& 0xff)) ((x % 65536) >>> 8)

/-- Source `writeUint32LE`: `writeUint16LE(x & 0xffff); writeUint16LE(x >> 16)`,
`x` a `uint32`. -/
def writeUint32LE (f : OutFile) (x : Nat) : OutFile :=
  writeUint16LE (writeUint16LE f ((x % 4294967296) &&& 0xffff)) ((x % 4294967296) >>> 16)

/-- Source `writeUint16BE`: `writeByte(x >> 8); writeByte(x & 0xff)`. -/
def writeUint16BE (f : OutFile) (x : Nat) : OutFile :=
  writeByte (writeByte f ((x % 65536) >>> 8)) ((x % 65536) &&& 0xff)

/-- Source `getFileSize`: the size of the file as a `uint32`; the position is
saved in a `uint32` and restored. -/
def getFileSize (f : OutFile) : Nat × OutFile :=
  (f.data.length % 4294967296, { f with pos := f.pos % 4294967296 })

/-- Source `writeBMPHeader`: the 14-byte file header and the 40-byte info
header, with zeros where `fillBMPHeaderValues` patches later, and two more
zero words when the image is not paletted. `'BM'` is 0x424D. -/
def writeBMPHeader (output : OutFile) (width height bitsPerPixel : Nat) : OutFile :=
  let f := writeUint16BE output 0x424D
  let f := writeUint32LE f 0
  let f := writeUint16LE f 0
  let f := writeUint16LE f 0
  let f := writeUint32LE f 0
  let f := writeUint32LE f 40
  let f := writeUint32LE f (width % 65536)
  let f := writeUint32LE f (height % 65536)
  let f := writeUint16LE f 1
  let f := writeUint16LE f (bitsPerPixel % 65536)
  let f := writeUint32LE f 0
  let f := writeUint32LE f 0
  let f := writeUint32LE f 72
  let f := writeUint32LE f 72
  if bitsPerPixel % 65536 > 8 then writeUint32LE (writeUint32LE f 0) 0 else f

/-- Source `fillBMPHeaderValues`: the file size goes to offset 2, the image
offset to offset 10 and the image size to offset 34, each as a little-endian
`uint32`. -/
def fillBMPHeaderValues (output : OutFile) (imageOffset imageSize : Nat) : OutFile :=
  let fileSize := getFileSize output
  let f := writeUint32LE { fileSize.2 with pos := 2 } fileSize.1
  let f := writeUint32LE { f with pos := 10 } (imageOffset % 4294967296)
  writeUint32LE { f with pos := 34 } (imageSize % 4294967296)

/-- Source `extractImageToBMP`, line 444: `const uint32 pitch = width * 3`. -/
def pitch (width : Nat) : Nat := (width * 3) % 4294967296

/-- Source `extractImageToBMP`, line 445:
`extraDataLength = (pitch % 4) ? 4 - (pitch % 4) : 0`. -/
def extraDataLength (width : Nat) : Nat :=
  if pitch width % 4 ≠ 0 then 4 - pitch width % 4 else 0

/-- Source `extractImageToBMP`, line 459: the argument
`(pitch + extraDataLength) * height` of `fillBMPHeaderValues`, computed in
`uint32`. -/
def imageSize (width height : Nat) : Nat :=
  (((pitch width + extraDataLength width) % 4294967296) * height) % 4294967296

/-- Source `extractImageToBMP`, lines 449-453: the loop over `x`, `n` pixels
from the raster offset `row` on, three bytes each. -/
def writePixels (mem : Nat → Nat) : Nat → Nat → OutFile → OutFile
  | 0, _, f => f
  | n + 1, row, f =>
    writePixels mem n (row + 3)
      (writeByte (writeByte (writeByte f (mem row)) (mem (row + 1))) (mem (row + 2)))

/-- Source `extractImageToBMP`, lines 455-456: `n` zero bytes. -/
def writePadding : Nat → OutFile → OutFile
  | 0, f => f
  | n + 1, f => writePadding n (writeByte f 0)

/-- Source `extractImageToBMP`, lines 447-457: the loop
`for (int y = height - 1; y >= 0; y--)` with `n` rows left, so `y = n - 1`:
the row at raster offset `width * y * 3` (an `int` in the source, taken here
without overflow), then the padding. -/
def writeRows (mem : Nat → Nat) (width extra : Nat) : Nat → OutFile → OutFile
  | 0, f => f
  | n + 1, f =>
    writeRows mem width extra n (writePadding extra (writePixels mem width (width * n * 3) f))

/-- Source `extractImageToBMP`, lines 406-434: the checks of the enclosing BMP
file (`'BM'` tag, info header of 40 bytes, compression `'cvid'`) and the seek
to the image offset; `none` stands for the three `return false`. -/
def extractImageToBMPSeek (input : Stream) : Option Stream :=
  let tag := readUint16BE input
  if tag.1 ≠ 0x424D then none
  else
    let a := readUint32LE tag.2
    let b := readUint16LE a.2
    let c := readUint16LE b.2
    let imageOffset := readUint32LE c.2
    let size := readUint32LE imageOffset.2
    if size.1 ≠ 40 then none
    else
      let d := readUint32LE size.2
      let e := readUint32LE d.2
      let g := readUint16LE e.2
      let h := readUint16LE g.2
      let comp := readUint32BE h.2
      if comp.1 ≠ 0x63766964 then none
      else some (fseek comp.2 imageOffset.1)

/-- Source `extractImageToBMP`, lines 439-459: the BMP header, the rows of the
raster from the last to the first, each padded, and the patched header
fields. -/
def extractImageToBMPWrite (output : OutFile) (d : CinepakDecoder) : OutFile :=
  let width := d.getWidth % 65536
  let height := d.getHeight % 65536
  let f := writeBMPHeader output width height 24
  let f := writeRows d.curFrame.surface.mem width (extraDataLength width) height f
  fillBMPHeaderValues f 54 (imageSize width height)

/-- Source `extractImageToBMP`: the result and the output file; `none` when
`decodeImage` does not return. The decoder is created by the call; `fr`
supplies what its constructor leaves uninitialised. The messages printed
before `return false` are not part of the model. -/
def extractImageToBMP (fuel : Nat) (input : Stream) (output : OutFile) (fr : CinepakFrame) :
    Option (Bool × OutFile) :=
  match extractImageToBMPSeek input with
  | none => some (false, output)
  | some input1 =>
    match decodeImage fuel input1 (CinepakDecoder.new fr) with
    | none => none
    | some s => some (true, extractImageToBMPWrite output s.dec)

/-- A 5x2 Cinepak frame without strips inside a BMP file: the 14-byte file
header (image offset 54), the 40-byte info header with compression `cvid`, and
the 10-byte frame header. -/
def exampleBMP : List Nat :=
  [0x42, 0x4D, 64, 0, 0, 0, 0, 0, 0, 0, 54, 0, 0, 0,
   40, 0, 0, 0, 5, 0, 0, 0, 2, 0, 0, 0, 1, 0, 24, 0, 0x63, 0x76, 0x69, 0x64,
   10, 0, 0, 0, 0, 0, 0, 0, 0, 0, 0, 0, 0, 0, 0, 0, 0, 0, 0, 0,
   0, 0, 0, 10, 0, 5, 0, 2, 0, 0]

/-! ## Theorems -/

/-! ### Colour conversion -/

theorem tdiv_two_eq (a : Int) : Int.tdiv a 2 = truncHalf a := by
  unfold truncHalf
  split_ifs with h
  · exact Int.tdiv_eq_ediv h (by decide)
  · have h2 : a = -(-a) := by omega
    conv_lhs => rw [h2]
    rw [Int.neg_tdiv, Int.tdiv_eq_ediv (by omega) (by decide)]

/-- C1: for all `y`, `u`, `v` (in particular all bytes) `CPYUV2RGB` returns
`r = clip(y + 2*(v-128), 0, 255)`, `g = clip(y - (u-128)/2 - (v-128), 0, 255)`,
`b = clip(y + 2*(u-128), 0, 255)` in exact integer arithmetic with the division
truncating toward zero; every channel is at most 255; and `y = 100`, `u = 127`,
`v = 128` gives `g = 100`, where rounding down would give 101. -/
theorem CPYUV2RGB_formula (y u v : Nat) :
    ((CPYUV2RGB y u v).1 : Int) = clipSpec ((y : Int) + 2 * ((v : Int) - 128)) ∧
    ((CPYUV2RGB y u v).2.1 : Int)
      = clipSpec ((y : Int) - truncHalf ((u : Int) - 128) - ((v : Int) - 128)) ∧
    ((CPYUV2RGB y u v).2.2 : Int) = clipSpec ((y : Int) + 2 * ((u : Int) - 128)) ∧
    (CPYUV2RGB y u v).1 ≤ 255 ∧ (CPYUV2RGB y u v).2.1 ≤ 255 ∧ (CPYUV2RGB y u v).2.2 ≤ 255 ∧
    (CPYUV2RGB 100 127 128).2.1 = 100 ∧
    clipSpec ((100 : Int) - ((127 : Int) - 128) / 2 - ((128 : Int) - 128)) = 101 := by
  have hlast : (CPYUV2RGB 100 127 128).2.1 = 100 := by decide
  have hfloor : clipSpec ((100 : Int) - ((127 : Int) - 128) / 2 - ((128 : Int) - 128)) = 101 := by
    decide
  simp only [CPYUV2RGB, tdiv_two_eq]
  refine ⟨?_, ?_, ?_, ?_, ?_, ?_, hlast, hfloor⟩
  all_goals
    simp only [CLIP, clipSpec, truncHalf]
    split_ifs <;> omega

/-- C2, as the code behaves: at `y = u = v = 255` the green channel is
`255 - 63 - 127 = 65`, not 255. -/
theorem CPYUV2RGB_boundary_green_not_255 : (CPYUV2RGB 255 255 255).2.1 ≠ 255 := by decide

/-- C2, amended: at `y = u = v = 255` red and blue are clamped from 509 to 255
and green is the in-range value 65; no channel wraps. -/
theorem CPYUV2RGB_boundary : CPYUV2RGB 255 255 255 = (255, 65, 255) := by decide

/-! ### Codebook loader -/

theorem loadCodebookFlag_codebook (chunkID chunkSize startPos : Nat) (s : CBState) :
    (loadCodebookFlag chunkID chunkSize startPos s).state.codebook = s.codebook := by
  simp only [loadCodebookFlag]
  split_ifs <;> rfl

theorem loadCodebookEntry_codebook_of_ne (chunkID chunkSize startPos i j : Nat) (s : CBState)
    (h : j ≠ i) :
    (loadCodebookEntry chunkID chunkSize startPos i s).state.codebook j = s.codebook j := by
  simp only [loadCodebookEntry]
  split_ifs <;> simp only [Flow.state, Function.update_noteq h]

theorem loadCodebookEntry_skip (chunkID chunkSize startPos i : Nat) (s : CBState)
    (hc : chunkID &&& 0x01 ≠ 0) (hb : s.flag &&& s.mask = 0) :
    loadCodebookEntry chunkID chunkSize startPos i s = .next s := by
  simp only [loadCodebookEntry]
  rw [if_neg]
  rintro (h | h)
  · exact hc h
  · exact h hb

theorem loadCodebookBody_codebook_of_ne (chunkID chunkSize startPos i j : Nat) (s : CBState)
    (h : j ≠ i) :
    (loadCodebookBody chunkID chunkSize startPos i s).state.codebook j = s.codebook j := by
  unfold loadCodebookBody
  have h1 := loadCodebookFlag_codebook chunkID chunkSize startPos s
  cases hf : loadCodebookFlag chunkID chunkSize startPos s with
  | stop s1 => rw [hf] at h1; simpa [Flow.state] using congrFun h1 j
  | next s1 =>
    rw [hf] at h1
    simp only [Flow.state] at h1
    simp only []
    rw [loadCodebookEntry_codebook_of_ne _ _ _ _ _ _ h, h1]

theorem loadCodebookLoop_succ (chunkID chunkSize startPos n i : Nat) (s : CBState) :
    loadCodebookLoop chunkID chunkSize startPos (n + 1) i s =
      match loadCodebookBody chunkID chunkSize startPos i s with
      | .stop s1 => .stop s1
      | .next s1 => loadCodebookLoop chunkID chunkSize startPos n (i + 1) s1 := rfl

theorem loadCodebookLoop_codebook_outside (chunkID chunkSize startPos : Nat) (n i j : Nat)
    (s : CBState) (h : j < i ∨ i + n ≤ j) :
    (loadCodebookLoop chunkID chunkSize startPos n i s).state.codebook j = s.codebook j := by
  induction n generalizing i s with
  | zero => rfl
  | succ n ih =>
    have hb := loadCodebookBody_codebook_of_ne chunkID chunkSize startPos i j s (by omega)
    rw [loadCodebookLoop_succ]
    cases hf : loadCodebookBody chunkID chunkSize startPos i s with
    | stop s1 => rw [hf] at hb; simpa [Flow.state] using hb
    | next s1 =>
      rw [hf] at hb
      simp only [Flow.state] at hb
      simp only []
      rw [ih (i + 1) s1 (by omega), hb]

theorem loadCodebookLoop_add (chunkID chunkSize startPos : Nat) (a b i : Nat) (s : CBState) :
    loadCodebookLoop chunkID chunkSize startPos (a + b) i s =
      match loadCodebookLoop chunkID chunkSize startPos a i s with
      | .stop s1 => .stop s1
      | .next s1 => loadCodebookLoop chunkID chunkSize startPos b (i + a) s1 := by
  induction a generalizing i s with
  | zero => simp [loadCodebookLoop]
  | succ a ih =>
    rw [show a + 1 + b = (a + b) + 1 by omega, loadCodebookLoop_succ, loadCodebookLoop_succ]
    cases hf : loadCodebookBody chunkID chunkSize startPos i s with
    | stop s1 => rfl
    | next s1 =>
      simp only []
      rw [ih, show i + 1 + a = i + (a + 1) by omega]

theorem loadCodebookLoop_entry_unchanged (chunkID chunkSize startPos : Nat) (s0 : CBState)
    (hc : chunkID &&& 0x01 ≠ 0) (i : Nat)
    (h : i < 256 → ∀ b, loadCodebookFlagBit chunkID chunkSize startPos s0 i = some b → b = 0) :
    (loadCodebookLoop chunkID chunkSize startPos 256 0 s0).state.codebook i = s0.codebook i := by
  by_cases hi : i < 256
  · have h' := h hi
    rw [show 256 = i + ((255 - i) + 1) by omega, loadCodebookLoop_add]
    have hpre := loadCodebookLoop_codebook_outside chunkID chunkSize startPos i 0 i s0 (by omega)
    unfold loadCodebookFlagBit at h'
    cases hl : loadCodebookLoop chunkID chunkSize startPos i 0 s0 with
    | stop s => rw [hl] at hpre; exact hpre
    | next s =>
      rw [hl] at hpre h'
      simp only [Flow.state] at hpre
      simp only [] at h'
      simp only [loadCodebookLoop_succ, Nat.zero_add]
      have hflag := loadCodebookFlag_codebook chunkID chunkSize startPos s
      simp only [loadCodebookBody]
      cases hf : loadCodebookFlag chunkID chunkSize startPos s with
      | stop s1 =>
        rw [hf] at hflag
        simp only [Flow.state] at hflag ⊢
        rw [hflag, hpre]
      | next s1 =>
        rw [hf] at hflag h'
        simp only [Flow.state] at hflag
        simp only [] at h'
        have hbit : s1.flag &&& s1.mask = 0 := h' _ rfl
        simp only [loadCodebookEntry_skip _ _ _ _ _ hc hbit]
        rw [loadCodebookLoop_codebook_outside _ _ _ _ _ _ _ (by omega), hflag, hpre]
  · exact loadCodebookLoop_codebook_outside _ _ _ _ _ _ _ (by omega)

theorem loadCodebook_table (input : Stream) (fr : CinepakFrame)
    (strip codebookType chunkID chunkSize : Nat) :
    ((loadCodebook input fr strip codebookType chunkID chunkSize).2.strips strip).table codebookType
      = (loadCodebookLoop chunkID chunkSize (ftell input % 4294967296) 256 0
          (loadCodebookInit input ((fr.strips strip).table codebookType))).state.codebook := by
  simp only [loadCodebook, Function.update_same, CinepakStrip.table]
  split_ifs <;> rfl

/-- C5: in a `loadCodebook` call with bit 0 of `chunkID` set, an entry whose
flag bit (the `flag & mask` tested in its iteration) is 0 is equal, field by
field, to its value before the call; an entry that differs after the call has
index below 256 and a flag bit that was tested and was not 0. -/
theorem loadCodebook_conditional_keeps_unflagged (input : Stream) (fr : CinepakFrame)
    (strip codebookType chunkID chunkSize : Nat) (hc : chunkID &&& 0x01 ≠ 0) (i : Nat) :
    (loadCodebookFlagBit chunkID chunkSize (ftell input % 4294967296)
        (loadCodebookInit input ((fr.strips strip).table codebookType)) i = some 0 →
      ((loadCodebook input fr strip codebookType chunkID chunkSize).2.strips strip).table
          codebookType i = (fr.strips strip).table codebookType i) ∧
    (((loadCodebook input fr strip codebookType chunkID chunkSize).2.strips strip).table
          codebookType i ≠ (fr.strips strip).table codebookType i →
      i < 256 ∧ ∃ b, loadCodebookFlagBit chunkID chunkSize (ftell input % 4294967296)
        (loadCodebookInit input ((fr.strips strip).table codebookType)) i = some b ∧ b ≠ 0) := by
  rw [loadCodebook_table]
  constructor
  · intro h
    exact loadCodebookLoop_entry_unchanged _ _ _ _ hc i (fun _ b hb => by
      rw [h] at hb; exact (Option.some.inj hb).symm)
  · intro hne
    by_contra hcon
    apply hne
    refine loadCodebookLoop_entry_unchanged _ _ _ _ hc i (fun hi b hb => ?_)
    by_contra hb0
    exact hcon ⟨hi, b, hb, hb0⟩


/-- Witness for `loadCodebook_conditional_keeps_unflagged`: chunk ID 0x23 on
`exampleMasked` leaves entry 0, whose flag bit is 0, as it was, and replaces
entry 1. -/
theorem loadCodebook_conditional_keeps_unflagged_witness :
    loadCodebookFlagBit 0x23 10 (ftell exampleMasked % 4294967296)
        (loadCodebookInit exampleMasked ((exampleFrame.strips 0).table 1)) 0 = some 0 ∧
    ((loadCodebook exampleMasked exampleFrame 0 1 0x23 10).2.strips 0).table 1 0
      = (exampleFrame.strips 0).table 1 0 ∧
    ((loadCodebook exampleMasked exampleFrame 0 1 0x23 10).2.strips 0).table 1 1
      = ⟨1, 2, 3, 4, 133, 134⟩ :=
  ⟨by decide,
   (loadCodebook_conditional_keeps_unflagged exampleMasked exampleFrame 0 1 0x23 10
      (by decide) 0).1 (by decide),
   by decide⟩

/-! ### Stream positions -/

theorem Stream.Advances.refl (f : Stream) : f.Advances f := ⟨rfl, Nat.le_refl _⟩

theorem Stream.Advances.trans {f g h : Stream} (a : f.Advances g) (b : g.Advances h) :
    f.Advances h := ⟨b.1.trans a.1, Nat.le_trans a.2 b.2⟩

theorem readByte_advances (f : Stream) : f.Advances (readByte f).2 := by
  unfold readByte
  split
  · exact ⟨rfl, Nat.le_succ _⟩
  · exact ⟨rfl, Nat.le_refl _⟩

theorem readUint16BE_advances (f : Stream) : f.Advances (readUint16BE f).2 :=
  (readByte_advances f).trans (readByte_advances _)

theorem readUint32BE_advances (f : Stream) : f.Advances (readUint32BE f).2 :=
  (readUint16BE_advances f).trans (readUint16BE_advances _)

theorem loadCodebookFlag_advances (chunkID chunkSize startPos : Nat) (s : CBState) :
    s.input.Advances (loadCodebookFlag chunkID chunkSize startPos s).state.input := by
  simp only [loadCodebookFlag]
  split_ifs
  · exact Stream.Advances.refl _
  · exact readUint32BE_advances _
  · exact Stream.Advances.refl _
  · exact Stream.Advances.refl _

theorem readByte4_advances (f : Stream) :
    f.Advances (readByte (readByte (readByte (readByte f).2).2).2).2 :=
  ((readByte_advances _).trans (readByte_advances _)).trans
    ((readByte_advances _).trans (readByte_advances _))

theorem readByte6_advances (f : Stream) :
    f.Advances (readByte (readByte (readByte (readByte (readByte (readByte f).2).2).2).2).2).2 :=
  (readByte4_advances f).trans ((readByte_advances _).trans (readByte_advances _))

theorem loadCodebookEntry_advances (chunkID chunkSize startPos i : Nat) (s : CBState) :
    s.input.Advances (loadCodebookEntry chunkID chunkSize startPos i s).state.input := by
  simp only [loadCodebookEntry]
  split_ifs <;> simp only [Flow.state]
  all_goals first
    | with_reducible exact Stream.Advances.refl s.input
    | with_reducible exact readByte4_advances s.input
    | with_reducible exact readByte6_advances s.input

theorem loadCodebookBody_advances (chunkID chunkSize startPos i : Nat) (s : CBState) :
    s.input.Advances (loadCodebookBody chunkID chunkSize startPos i s).state.input := by
  have h1 := loadCodebookFlag_advances chunkID chunkSize startPos s
  simp only [loadCodebookBody]
  cases hf : loadCodebookFlag chunkID chunkSize startPos s with
  | stop s1 => rw [hf] at h1; exact h1
  | next s1 =>
    rw [hf] at h1
    exact h1.trans (loadCodebookEntry_advances chunkID chunkSize startPos i s1)

theorem loadCodebookLoop_advances (chunkID chunkSize startPos n i : Nat) (s : CBState) :
    s.input.Advances (loadCodebookLoop chunkID chunkSize startPos n i s).state.input := by
  induction n generalizing i s with
  | zero => exact Stream.Advances.refl _
  | succ n ih =>
    have h1 := loadCodebookBody_advances chunkID chunkSize startPos i s
    rw [loadCodebookLoop_succ]
    cases hf : loadCodebookBody chunkID chunkSize startPos i s with
    | stop s1 => rw [hf] at h1; exact h1
    | next s1 =>
      rw [hf] at h1
      exact h1.trans (ih (i + 1) s1)

theorem loadCodebook_advances (input : Stream) (fr : CinepakFrame)
    (strip codebookType chunkID chunkSize : Nat) :
    input.Advances (loadCodebook input fr strip codebookType chunkID chunkSize).1 :=
  loadCodebookLoop_advances _ _ _ _ _ _

theorem loadCodebook_length (input : Stream) (fr : CinepakFrame)
    (strip codebookType chunkID chunkSize j : Nat) :
    ((loadCodebook input fr strip codebookType chunkID chunkSize).2.strips j).length
      = (fr.strips j).length := by
  simp only [loadCodebook]
  by_cases h : j = strip
  · subst h
    rw [Function.update_same]
    split_ifs <;> rfl
  · rw [Function.update_noteq h]

/-! ### One block of the vector decoder -/

theorem replay_cons (m : Nat → Nat) (p : Nat × Nat) (w : List (Nat × Nat)) :
    replay m (p :: w) = replay (Function.update m p.1 p.2) w := rfl

theorem replay_append (m : Nat → Nat) (w1 w2 : List (Nat × Nat)) :
    replay m (w1 ++ w2) = replay (replay m w1) w2 := by
  simp [replay, List.foldl_append]

theorem replay_eq_of_forall (w : List (Nat × Nat)) (m : Nat → Nat) (o v : Nat)
    (h1 : (∃ p ∈ w, p.1 = o) ∨ m o = v) (h2 : ∀ p ∈ w, p.1 = o → p.2 = v) :
    replay m w o = v := by
  induction w generalizing m with
  | nil =>
    rcases h1 with ⟨p, hp, _⟩ | h
    · simp at hp
    · exact h
  | cons p w ih =>
    rw [replay_cons]
    apply ih
    · by_cases hpo : p.1 = o
      · right
        rw [← hpo, Function.update_same]
        exact h2 p (List.mem_cons_self _ _) hpo
      · rcases h1 with ⟨q, hq, hqo⟩ | h
        · rcases List.mem_cons.1 hq with rfl | hq'
          · exact absurd hqo hpo
          · exact Or.inl ⟨q, hq', hqo⟩
        · right
          rw [Function.update_noteq (Ne.symm hpo)]
          exact h
    · intro q hq
      exact h2 q (List.mem_cons_of_mem _ hq)

theorem replay_of_not_mem (w : List (Nat × Nat)) (m : Nat → Nat) (o : Nat)
    (h : ∀ p ∈ w, p.1 ≠ o) : replay m w o = m o :=
  replay_eq_of_forall w m o (m o) (Or.inr rfl) (fun p hp hpo => absurd hpo (h p hp))

theorem blockOrder_perm : blockOrder.Perm blockBytes := by decide

theorem mem_blockBytes (t : Nat × Nat × Nat) :
    t ∈ blockBytes ↔ t.1 < 4 ∧ t.2.1 < 4 ∧ t.2.2 < 3 := by
  obtain ⟨r, c, k⟩ := t
  simp only [blockBytes, List.mem_flatMap, List.mem_map, List.mem_range, Prod.mk.injEq]
  constructor
  · rintro ⟨r', hr, c', hc, k', hk, rfl, rfl, rfl⟩
    exact ⟨hr, hc, hk⟩
  · rintro ⟨hr, hc, hk⟩
    exact ⟨r, hr, c, hc, k, hk, rfl, rfl, rfl⟩

theorem mem_blockOrder (t : Nat × Nat × Nat) :
    t ∈ blockOrder ↔ t.1 < 4 ∧ t.2.1 < 4 ∧ t.2.2 < 3 := by
  rw [blockOrder_perm.mem_iff, mem_blockBytes]


theorem replay_block (iy : Nat → Nat) (val : Nat × Nat × Nat → Nat)
    (order : List (Nat × Nat × Nat))
    (hperm : order.Perm blockBytes) (m : Nat → Nat) (hdis : PixelsDisjoint iy)
    (r c k : Nat) (hr : r < 4) (hc : c < 4) (hk : k < 3) :
    replay m (order.map fun t => (pixOff (iy t.1) t.2.1 + t.2.2, val t))
      (pixOff (iy r) c + k) = val (r, c, k) := by
  apply replay_eq_of_forall
  · left
    exact ⟨_, List.mem_map_of_mem _ (hperm.mem_iff.2 ((mem_blockBytes (r, c, k)).2 ⟨hr, hc, hk⟩)),
      rfl⟩
  · intro p hp hpo
    obtain ⟨t, ht, rfl⟩ := List.mem_map.1 hp
    obtain ⟨r', c', k'⟩ := t
    obtain ⟨hr', hc', hk'⟩ := (mem_blockBytes _).1 (hperm.mem_iff.1 ht)
    simp only at hpo hr' hc' hk' ⊢
    by_cases hrc : (r', c') = (r, c)
    · obtain ⟨rfl, rfl⟩ := Prod.mk.inj hrc
      have : k' = k := by omega
      rw [this]
    · have := hdis r' hr' c' hc' r hr c hc hrc
      omega

set_option maxRecDepth 8192 in
theorem decodeVectorsV1_run (v1 : Nat → CinepakCodebook) (chunkSize startPos : Nat) (s : VecState)
    (hroom : (ftell s.input : Int) - (startPos : Int) + 1 ≤ (chunkSize : Int)) :
    ∃ s3, decodeVectorsV1 v1 chunkSize startPos s = .next s3 ∧
      s3.input = skipBytes s.input 1 ∧ s3.flag = s.flag ∧ s3.mask = s.mask ∧
      s3.iy0 = s.iy0 ∧ s3.iy1 = s.iy1 ∧ s3.iy2 = s.iy2 ∧ s3.iy3 = s.iy3 ∧
      s3.surface.log = s.surface.log ++ blockOrder.map (v1Write s.iy (v1 (byteAt s.input 0))) ∧
      s3.surface.mem = replay s.surface.mem (blockOrder.map (v1Write s.iy (v1 (byteAt s.input 0)))) := by
  simp only [decodeVectorsV1]
  rw [if_neg (by omega)]
  refine ⟨_, rfl, rfl, rfl, rfl, rfl, rfl, rfl, rfl, ?_, ?_⟩
  · simp only [PUT_PIXEL, Surface.store, List.append_assoc, List.singleton_append]
    rfl
  · rfl

set_option maxRecDepth 8192 in
theorem decodeVectorsV4_run (v4 : Nat → CinepakCodebook) (chunkSize startPos : Nat) (s : VecState)
    (hroom : (ftell s.input : Int) - (startPos : Int) + 4 ≤ (chunkSize : Int)) :
    ∃ s3, decodeVectorsV4 v4 chunkSize startPos s = .next s3 ∧
      s3.input = skipBytes s.input 4 ∧ s3.flag = s.flag ∧ s3.mask = s.mask ∧
      s3.iy0 = s.iy0 ∧ s3.iy1 = s.iy1 ∧ s3.iy2 = s.iy2 ∧ s3.iy3 = s.iy3 ∧
      s3.surface.log = s.surface.log ++
        blockOrder.map (v4Write s.iy (fun q => v4 (byteAt s.input q))) ∧
      s3.surface.mem = replay s.surface.mem
        (blockOrder.map (v4Write s.iy (fun q => v4 (byteAt s.input q)))) := by
  simp only [decodeVectorsV4]
  rw [if_neg (by omega)]
  refine ⟨_, rfl, rfl, rfl, rfl, rfl, rfl, rfl, rfl, ?_, ?_⟩
  · simp only [PUT_PIXEL, Surface.store, List.append_assoc, List.singleton_append]
    rfl
  · rfl

theorem decodeVectorsFlag_keeps (chunkSize startPos : Nat) (s : VecState) :
    (decodeVectorsFlag chunkSize startPos s).state.surface = s.surface ∧
    (decodeVectorsFlag chunkSize startPos s).state.iy0 = s.iy0 ∧
    (decodeVectorsFlag chunkSize startPos s).state.iy1 = s.iy1 ∧
    (decodeVectorsFlag chunkSize startPos s).state.iy2 = s.iy2 ∧
    (decodeVectorsFlag chunkSize startPos s).state.iy3 = s.iy3 := by
  simp only [decodeVectorsFlag]
  split_ifs <;> exact ⟨rfl, rfl, rfl, rfl, rfl⟩

theorem decodeVectorsSelect_keeps (chunkID chunkSize startPos : Nat) (s : VecState) :
    (if chunkID &&& 0x02 = 0 then decodeVectorsFlag chunkSize startPos s
      else Flow.next s).state.surface = s.surface ∧
    (if chunkID &&& 0x02 = 0 then decodeVectorsFlag chunkSize startPos s
      else Flow.next s).state.iy0 = s.iy0 ∧
    (if chunkID &&& 0x02 = 0 then decodeVectorsFlag chunkSize startPos s
      else Flow.next s).state.iy1 = s.iy1 ∧
    (if chunkID &&& 0x02 = 0 then decodeVectorsFlag chunkSize startPos s
      else Flow.next s).state.iy2 = s.iy2 ∧
    (if chunkID &&& 0x02 = 0 then decodeVectorsFlag chunkSize startPos s
      else Flow.next s).state.iy3 = s.iy3 := by
  split_ifs
  · exact decodeVectorsFlag_keeps chunkSize startPos s
  · exact ⟨rfl, rfl, rfl, rfl, rfl⟩

theorem VecState.iy_congr (s s1 : VecState)
    (h0 : s1.iy0 = s.iy0) (h1 : s1.iy1 = s.iy1) (h2 : s1.iy2 = s.iy2) (h3 : s1.iy3 = s.iy3) :
    s1.iy = s.iy := by
  funext r
  simp only [VecState.iy, h0, h1, h2, h3]

/-- C8: a V1-coded block with at least one payload byte left reads exactly one
index byte, takes the entry of that index from the strip's V1 table and makes
the 48 stores of the block: pixel (row `r`, column `c`) gets luma
`y[(r / 2) * 2 + c / 2]` (so `y[0]` on rows 0-1 x columns 0-1, `y[1]` on rows
0-1 x columns 2-3, `y[2]` on rows 2-3 x columns 0-1, `y[3]` on rows 2-3 x
columns 2-3), converted by `CPYUV2RGB` with the entry's `u`, `v` and stored as
B, G, R; when the sixteen pixels do not overlap, the raster holds these values
afterwards. -/
theorem decodeVectors_V1_block (st : CinepakStrip) (chunkID chunkSize startPos : Nat)
    (s s1 : VecState)
    (hsel : (if chunkID &&& 0x02 = 0 then decodeVectorsFlag chunkSize startPos s
      else Flow.next s) = Flow.next s1)
    (hv1 : chunkID &&& 0x02 ≠ 0 ∨ (s1.flag ^^^ 0xFFFFFFFF) &&& s1.mask ≠ 0)
    (hroom : (ftell s1.input : Int) - (startPos : Int) + 1 ≤ (chunkSize : Int)) :
    ∃ s3, decodeVectorsCoded st chunkID chunkSize startPos s = .next s3 ∧
      s3.input = skipBytes s1.input 1 ∧
      (∃ order : List (Nat × Nat × Nat), order.Perm blockBytes ∧ s3.surface.log = s.surface.log ++
        order.map (v1Write s.iy (st.v1_codebook (byteAt s1.input 0)))) ∧
      (PixelsDisjoint s.iy → ∀ r < 4, ∀ c < 4, ∀ k < 3,
        s3.surface.mem (pixOff (s.iy r) c + k) =
          bgr (CPYUV2RGB ((st.v1_codebook (byteAt s1.input 0)).y ((r / 2) * 2 + c / 2))
            (st.v1_codebook (byteAt s1.input 0)).u (st.v1_codebook (byteAt s1.input 0)).v) k) := by
  have hk := decodeVectorsSelect_keeps chunkID chunkSize startPos s
  rw [hsel] at hk
  simp only [Flow.state] at hk
  obtain ⟨hsurf, h0, h1, h2, h3⟩ := hk
  obtain ⟨s3, hrun, hin, -, -, -, -, -, -, hlog, hmem⟩ :=
    decodeVectorsV1_run st.v1_codebook chunkSize startPos s1 hroom
  rw [VecState.iy_congr s s1 h0 h1 h2 h3, hsurf] at hlog hmem
  refine ⟨s3, ?_, hin, ⟨blockOrder, blockOrder_perm, hlog⟩, ?_⟩
  · simp only [decodeVectorsCoded, hsel]
    rw [if_pos hv1, hrun]
  · intro hdis r hr c hc k hk
    rw [hmem]
    exact replay_block s.iy _ blockOrder blockOrder_perm _ hdis r c k hr hc hk

/-- C7: a V4-coded block with at least four payload bytes left reads four
index bytes `i0 .. i3`; quadrant `q = (r / 2) * 2 + c / 2` (top-left,
top-right, bottom-left, bottom-right) is painted from V4 entry `iq`, its pixel
at row `r % 2`, column `c % 2` with that entry's luma `y[(r % 2) * 2 + c % 2]`
and that entry's own `u`, `v`; when the sixteen pixels do not overlap, the
raster holds these values afterwards. -/
theorem decodeVectors_V4_block (st : CinepakStrip) (chunkID chunkSize startPos : Nat)
    (s s1 : VecState)
    (hsel : (if chunkID &&& 0x02 = 0 then decodeVectorsFlag chunkSize startPos s
      else Flow.next s) = Flow.next s1)
    (hv1 : ¬ (chunkID &&& 0x02 ≠ 0 ∨ (s1.flag ^^^ 0xFFFFFFFF) &&& s1.mask ≠ 0))
    (hv4 : s1.flag &&& s1.mask ≠ 0)
    (hroom : (ftell s1.input : Int) - (startPos : Int) + 4 ≤ (chunkSize : Int)) :
    ∃ s3, decodeVectorsCoded st chunkID chunkSize startPos s = .next s3 ∧
      s3.input = skipBytes s1.input 4 ∧
      (∃ order : List (Nat × Nat × Nat), order.Perm blockBytes ∧ s3.surface.log = s.surface.log ++
        order.map (v4Write s.iy (fun q => st.v4_codebook (byteAt s1.input q)))) ∧
      (PixelsDisjoint s.iy → ∀ r < 4, ∀ c < 4, ∀ k < 3,
        s3.surface.mem (pixOff (s.iy r) c + k) =
          bgr (CPYUV2RGB
            ((st.v4_codebook (byteAt s1.input ((r / 2) * 2 + c / 2))).y ((r % 2) * 2 + c % 2))
            (st.v4_codebook (byteAt s1.input ((r / 2) * 2 + c / 2))).u
            (st.v4_codebook (byteAt s1.input ((r / 2) * 2 + c / 2))).v) k) := by
  have hk := decodeVectorsSelect_keeps chunkID chunkSize startPos s
  rw [hsel] at hk
  simp only [Flow.state] at hk
  obtain ⟨hsurf, h0, h1, h2, h3⟩ := hk
  obtain ⟨s3, hrun, hin, -, -, -, -, -, -, hlog, hmem⟩ :=
    decodeVectorsV4_run st.v4_codebook chunkSize startPos s1 hroom
  rw [VecState.iy_congr s s1 h0 h1 h2 h3, hsurf] at hlog hmem
  refine ⟨s3, ?_, hin, ⟨blockOrder, blockOrder_perm, hlog⟩, ?_⟩
  · simp only [decodeVectorsCoded, hsel]
    rw [if_neg hv1, if_pos hv4, hrun]
  · intro hdis r hr c hc k hk
    rw [hmem]
    exact replay_block s.iy _ blockOrder blockOrder_perm _ hdis r c k hr hc hk

/-- Witness for `decodeVectors_V1_block`: chunk ID 0x32 on `exampleVec`. -/
theorem decodeVectors_V1_block_witness :
    ∃ s3, decodeVectorsCoded exampleStrip 0x32 4 0 exampleVec = .next s3 ∧
      s3.input = skipBytes exampleVec.input 1 :=
  let ⟨s3, h1, h2, _⟩ := decodeVectors_V1_block exampleStrip 0x32 4 0 exampleVec exampleVec
    (if_neg (by decide)) (Or.inl (by decide)) (by decide)
  ⟨s3, h1, h2⟩

/-- Witness for `decodeVectors_V4_block`: chunk ID 0x30 on `exampleVec`, whose
first flag bit is 1. -/
theorem decodeVectors_V4_block_witness :
    ∃ s3, decodeVectorsCoded exampleStrip 0x30 8 0 exampleVec = .next s3 ∧
      s3.input = skipBytes (decodeVectorsFlag 8 0 exampleVec).state.input 4 :=
  let ⟨s3, h1, h2, _⟩ := decodeVectors_V4_block exampleStrip 0x30 8 0 exampleVec
    (decodeVectorsFlag 8 0 exampleVec).state rfl (by decide) (by decide) (by decide)
  ⟨s3, h1, h2⟩

/-! ### Reading through `byteAt` and `skipBytes` -/

theorem skipBytes_add (f : Stream) (a b : Nat) :
    skipBytes (skipBytes f a) b = skipBytes f (a + b) := by
  induction b with
  | zero => rfl
  | succ b ih => rw [← Nat.add_assoc]; simp only [skipBytes, ih]

theorem byteAt_skipBytes (f : Stream) (a b : Nat) :
    byteAt (skipBytes f a) b = byteAt f (a + b) := by
  simp only [byteAt, skipBytes_add]

theorem readByte_of_lt (f : Stream) (h : f.pos < f.data.length) :
    readByte f = (f.data.getD f.pos 0 % 256, { f with pos := f.pos + 1 }) := by
  unfold readByte
  rw [List.getElem?_eq_getElem h, List.getD_eq_getElem _ _ h]

theorem skipBytes_of_le (f : Stream) (n : Nat) (h : f.pos + n ≤ f.data.length) :
    skipBytes f n = { f with pos := f.pos + n } := by
  induction n with
  | zero => rfl
  | succ n ih =>
    have ih' := ih (by omega)
    simp only [skipBytes, ih']
    rw [readByte_of_lt _ (by simp only; omega)]
    simp only [Nat.add_assoc]

theorem byteAt_of_lt (f : Stream) (q : Nat) (h : f.pos + q < f.data.length) :
    byteAt f q = f.data.getD (f.pos + q) 0 % 256 := by
  unfold byteAt
  rw [skipBytes_of_le f q (by omega), readByte_of_lt _ (by simp only; omega)]

theorem skipBytes_advances (f : Stream) (n : Nat) : f.Advances (skipBytes f n) := by
  induction n with
  | zero => exact Stream.Advances.refl f
  | succ n ih => exact ih.trans (readByte_advances _)

theorem byteAt_lt (f : Stream) (q : Nat) : byteAt f q < 256 := by
  unfold byteAt readByte
  split
  · exact Nat.mod_lt _ (by decide)
  · exact Nat.zero_lt_succ _

theorem entryWidth_cases (chunkID : Nat) : entryWidth chunkID = 4 ∨ entryWidth chunkID = 6 := by
  unfold entryWidth
  split_ifs
  · exact Or.inl rfl
  · exact Or.inr rfl

theorem loadCodebookFlag_uncond (chunkID chunkSize startPos : Nat) (s : CBState)
    (hc : chunkID &&& 0x01 = 0) : loadCodebookFlag chunkID chunkSize startPos s = .next s := by
  simp only [loadCodebookFlag]
  rw [if_neg (not_not.2 hc)]

theorem loadCodebookEntry_uncond (chunkID chunkSize startPos i : Nat) (s : CBState)
    (hc : chunkID &&& 0x01 = 0)
    (hroom : (ftell s.input : Int) - (startPos : Int) + (entryWidth chunkID : Nat)
      ≤ (chunkSize : Int)) :
    loadCodebookEntry chunkID chunkSize startPos i s =
      .next { s with input := skipBytes s.input (entryWidth chunkID),
                     codebook := Function.update s.codebook i
                       (specEntry s.input (entryWidth chunkID)) } := by
  simp only [loadCodebookEntry]
  rw [if_pos (Or.inl hc), if_neg (by omega)]
  rcases entryWidth_cases chunkID with h | h
  · rw [h, if_neg (by decide)]
    rfl
  · rw [h, if_pos rfl]
    rfl

theorem loadCodebookEntry_full (chunkID chunkSize startPos i : Nat) (s : CBState)
    (hc : chunkID &&& 0x01 = 0)
    (hroom : ¬ (ftell s.input : Int) - (startPos : Int) + (entryWidth chunkID : Nat)
      ≤ (chunkSize : Int)) :
    loadCodebookEntry chunkID chunkSize startPos i s = .stop s := by
  simp only [loadCodebookEntry]
  rw [if_pos (Or.inl hc), if_pos (by omega)]

/-- Unconditional loading: the first `m` of `k` iterations fit into the
payload budget and the next one, if any, does not. -/
theorem loadCodebookLoop_uncond (chunkID chunkSize startPos : Nat) (hc : chunkID &&& 0x01 = 0)
    (f0 : Stream) (k m i : Nat) (s : CBState) (hmk : m ≤ k)
    (hin : s.input = skipBytes f0 (entryWidth chunkID * i))
    (hroom : ∀ j, i ≤ j → j < i + m →
      (ftell (skipBytes f0 (entryWidth chunkID * j)) : Int) - (startPos : Int)
        + (entryWidth chunkID : Nat) ≤ (chunkSize : Int))
    (hfull : m < k →
      ¬ (ftell (skipBytes f0 (entryWidth chunkID * (i + m))) : Int) - (startPos : Int)
        + (entryWidth chunkID : Nat) ≤ (chunkSize : Int)) :
    (loadCodebookLoop chunkID chunkSize startPos k i s).stopped = decide (m < k) ∧
    (loadCodebookLoop chunkID chunkSize startPos k i s).state.input
      = skipBytes f0 (entryWidth chunkID * (i + m)) ∧
    (loadCodebookLoop chunkID chunkSize startPos k i s).state.flag = s.flag ∧
    (loadCodebookLoop chunkID chunkSize startPos k i s).state.mask = s.mask ∧
    ∀ j, (loadCodebookLoop chunkID chunkSize startPos k i s).state.codebook j =
      if i ≤ j ∧ j < i + m then specEntry (skipBytes f0 (entryWidth chunkID * j)) (entryWidth chunkID)
      else s.codebook j := by
  induction k generalizing m i s with
  | zero =>
    have hm : m = 0 := by omega
    subst hm
    refine ⟨by simp [loadCodebookLoop, Flow.stopped], hin, rfl, rfl, fun j => ?_⟩
    rw [if_neg (by omega)]
    rfl
  | succ k ih =>
    rw [loadCodebookLoop_succ]
    simp only [loadCodebookBody, loadCodebookFlag_uncond _ _ _ _ hc]
    rcases Nat.eq_zero_or_pos m with hm | hm
    · subst hm
      have hf := hfull (by omega)
      rw [Nat.add_zero, ← hin] at hf
      rw [loadCodebookEntry_full _ _ _ _ _ hc hf]
      refine ⟨by simp [Flow.stopped], hin, rfl, rfl, fun j => ?_⟩
      rw [if_neg (by omega)]
      rfl
    · have hr := hroom i (Nat.le_refl _) (by omega)
      rw [← hin] at hr
      rw [loadCodebookEntry_uncond _ _ _ _ _ hc hr]
      simp only []
      obtain ⟨h1, h2, h3, h4, h5⟩ := ih (m - 1) (i + 1)
        { s with input := skipBytes s.input (entryWidth chunkID),
                 codebook := Function.update s.codebook i
                   (specEntry s.input (entryWidth chunkID)) }
        (by omega)
        (by simp only [hin, skipBytes_add]; rw [Nat.mul_add, Nat.mul_one])
        (fun j hj1 hj2 => hroom j (by omega) (by omega))
        (fun hlt => by
          have := hfull (by omega)
          rwa [show i + 1 + (m - 1) = i + m by omega])
      refine ⟨?_, ?_, h3, h4, fun j => ?_⟩
      · rw [h1]
        simp only [decide_eq_decide]
        omega
      · rw [h2, show i + 1 + (m - 1) = i + m by omega]
      · rw [h5 j]
        by_cases hji : j = i
        · subst hji
          rw [if_neg (by omega), if_pos (by omega)]
          simp only [Function.update_same, hin]
        · simp only [Function.update_noteq hji]
          by_cases hj : i ≤ j ∧ j < i + m
          · rw [if_pos (by omega), if_pos hj]
          · rw [if_neg (by omega), if_neg hj]

theorem VecState.advance_iy (s : VecState) : s.advance.iy = shiftRows s.iy := by
  funext r
  rcases r with _ | _ | _ | r <;> rfl

theorem VecState.setRows_iy (s : VecState) (st : CinepakStrip) (width y : Nat) :
    (s.setRows st width y).iy = rowOffsets st.left width y := by
  funext r
  rcases r with _ | _ | _ | r <;> rfl

theorem decodeVectorsBlock_V1only (st : CinepakStrip) (chunkID chunkSize startPos : Nat)
    (s : VecState) (h1 : chunkID &&& 0x01 = 0) (h2 : chunkID &&& 0x02 ≠ 0)
    (hroom : (ftell s.input : Int) - (startPos : Int) + 1 ≤ (chunkSize : Int)) :
    ∃ s', decodeVectorsBlock st chunkID chunkSize startPos s = .next s' ∧
      s'.input = skipBytes s.input 1 ∧ s'.flag = s.flag ∧ s'.mask = s.mask ∧
      s'.iy = shiftRows s.iy ∧
      s'.surface.log = s.surface.log ++
        blockOrder.map (v1Write s.iy (st.v1_codebook (byteAt s.input 0))) ∧
      s'.surface.mem = replay s.surface.mem
        (blockOrder.map (v1Write s.iy (st.v1_codebook (byteAt s.input 0)))) := by
  obtain ⟨s3, hrun, hin, hflag, hmask, h0, h1', h2', h3, hlog, hmem⟩ :=
    decodeVectorsV1_run st.v1_codebook chunkSize startPos s hroom
  refine ⟨s3.advance, ?_, hin, hflag, hmask, ?_, hlog, hmem⟩
  · simp only [decodeVectorsBlock, decodeVectorsSkip, decodeVectorsCoded]
    rw [if_neg (not_not.2 h1)]
    simp only []
    rw [if_pos (Or.inl h1), if_neg h2]
    simp only []
    rw [if_pos (Or.inl h2), hrun]
  · rw [VecState.advance_iy, VecState.iy_congr s s3 h0 h1' h2' h3]

theorem decodeVectorsRow_V1only (st : CinepakStrip) (chunkID chunkSize startPos : Nat)
    (h1 : chunkID &&& 0x01 = 0) (h2 : chunkID &&& 0x02 ≠ 0) (n fuel x : Nat) (s : VecState)
    (hfuel : n ≤ fuel) (hhi : st.right ≤ x + 4 * n) (hwrap : x + 4 * n < 65536)
    (hlo : 0 < n → x + 4 * (n - 1) < st.right)
    (hroom : ∀ j < n, (ftell (skipBytes s.input j) : Int) - (startPos : Int) + 1
      ≤ (chunkSize : Int)) :
    ∃ s', decodeVectorsRow st chunkID chunkSize startPos fuel x s = some (.next s') ∧
      s'.input = skipBytes s.input n ∧ s'.flag = s.flag ∧ s'.mask = s.mask ∧
      s'.surface.log = s.surface.log ++ rowWritesV1 st.v1_codebook n s.iy s.input ∧
      s'.surface.mem = replay s.surface.mem (rowWritesV1 st.v1_codebook n s.iy s.input) := by
  induction n generalizing fuel x s with
  | zero =>
    refine ⟨s, ?_, rfl, rfl, rfl, by simp [rowWritesV1], rfl⟩
    cases fuel with
    | zero => simp only [decodeVectorsRow]; rw [if_neg (by omega)]
    | succ fuel => simp only [decodeVectorsRow]; rw [if_neg (by omega)]
  | succ n ih =>
    cases fuel with
    | zero => omega
    | succ fuel =>
      have hx : x < st.right := by have := hlo (by omega); omega
      obtain ⟨s1, hb, hin, hflag, hmask, hiy, hlog, hmem⟩ :=
        decodeVectorsBlock_V1only st chunkID chunkSize startPos s h1 h2
          (hroom 0 (by omega))
      obtain ⟨s2, hr, hin2, hflag2, hmask2, hlog2, hmem2⟩ := ih fuel (x + 4) s1 (by omega)
        (by omega) (by omega) (fun hn => by have := hlo (by omega); omega)
        (fun j hj => by
          rw [hin, skipBytes_add, Nat.add_comm]
          exact hroom (j + 1) (by omega))
      refine ⟨s2, ?_, ?_, hflag2.trans hflag, hmask2.trans hmask, ?_, ?_⟩
      · simp only [decodeVectorsRow]
        rw [if_pos hx, hb]
        simp only []
        rw [Nat.mod_eq_of_lt (by omega)]
        exact hr
      · rw [hin2, hin, skipBytes_add, Nat.add_comm]
      · rw [hlog2, hlog, hiy, hin, List.append_assoc]
        rfl
      · rw [hmem2, hmem, hiy, hin, ← replay_append]
        rfl

theorem decodeVectorsRows_V1only (st : CinepakStrip) (width chunkID chunkSize startPos : Nat)
    (h1 : chunkID &&& 0x01 = 0) (h2 : chunkID &&& 0x02 ≠ 0) (n fuelX : Nat)
    (hfuelX : n ≤ fuelX) (hhiX : st.right ≤ st.left + 4 * n) (hwrapX : st.left + 4 * n < 65536)
    (hloX : 0 < n → st.left + 4 * (n - 1) < st.right)
    (g fuel y : Nat) (s : VecState)
    (hfuel : g ≤ fuel) (hhi : st.bottom ≤ y + 4 * g) (hwrap : y + 4 * g < 65536)
    (hlo : 0 < g → y + 4 * (g - 1) < st.bottom)
    (hroom : ∀ j < g * n, (ftell (skipBytes s.input j) : Int) - (startPos : Int) + 1
      ≤ (chunkSize : Int)) :
    ∃ s', decodeVectorsRows st width chunkID chunkSize startPos fuelX fuel y s
        = some (.next s') ∧
      s'.input = skipBytes s.input (g * n) ∧ s'.flag = s.flag ∧ s'.mask = s.mask ∧
      s'.surface.log = s.surface.log ++
        rowsWritesV1 st.v1_codebook st.left width n g y s.input ∧
      s'.surface.mem = replay s.surface.mem
        (rowsWritesV1 st.v1_codebook st.left width n g y s.input) := by
  induction g generalizing fuel y s with
  | zero =>
    refine ⟨s, ?_, by simp [skipBytes], rfl, rfl, by simp [rowsWritesV1], rfl⟩
    cases fuel with
    | zero => simp only [decodeVectorsRows]; rw [if_neg (by omega)]
    | succ fuel => simp only [decodeVectorsRows]; rw [if_neg (by omega)]
  | succ g ih =>
    cases fuel with
    | zero => omega
    | succ fuel =>
      have hy : y < st.bottom := by have := hlo (by omega); omega
      have hgn : n ≤ (g + 1) * n := Nat.le_mul_of_pos_left n (by omega)
      obtain ⟨s1, hr, hin, hflag, hmask, hlog, hmem⟩ :=
        decodeVectorsRow_V1only st chunkID chunkSize startPos h1 h2 n fuelX st.left
          (s.setRows st width y) hfuelX hhiX hwrapX hloX
          (fun j hj => hroom j (by omega))
      have hsurf : (s.setRows st width y).surface = s.surface := rfl
      have hinp : (s.setRows st width y).input = s.input := rfl
      rw [hsurf, hinp, VecState.setRows_iy] at hlog hmem
      rw [hinp] at hin
      obtain ⟨s2, hr2, hin2, hflag2, hmask2, hlog2, hmem2⟩ := ih fuel (y + 4) s1 (by omega)
        (by omega) (by omega) (fun hn => by have := hlo (by omega); omega)
        (fun j hj => by
          rw [hin, skipBytes_add]
          refine hroom (n + j) ?_
          rw [Nat.add_mul, Nat.one_mul]
          omega)
      refine ⟨s2, ?_, ?_, hflag2.trans hflag, hmask2.trans hmask, ?_, ?_⟩
      · simp only [decodeVectorsRows]
        rw [if_pos hy, hr]
        simp only []
        rw [Nat.mod_eq_of_lt (by omega)]
        exact hr2
      · rw [hin2, hin, skipBytes_add, Nat.add_mul, Nat.one_mul, Nat.add_comm]
      · rw [hlog2, hlog, hin, List.append_assoc]
        simp only [rowsWritesV1]
        rw [Nat.mod_eq_of_lt (by omega)]
      · rw [hmem2, hmem, hin, ← replay_append]
        simp only [rowsWritesV1]
        rw [Nat.mod_eq_of_lt (by omega)]

theorem rowWritesV1_mem (v1 : Nat → CinepakCodebook) (n : Nat) (iy : Nat → Nat) (f : Stream)
    (p : Nat × Nat) :
    p ∈ rowWritesV1 v1 n iy f ↔
      ∃ j < n, ∃ t : Nat × Nat × Nat, (t.1 < 4 ∧ t.2.1 < 4 ∧ t.2.2 < 3) ∧
        p = rowWriteV1 v1 iy f j t := by
  induction n generalizing iy f with
  | zero => simp [rowWritesV1]
  | succ n ih =>
    simp only [rowWritesV1, List.mem_append, List.mem_map, ih]
    constructor
    · rintro (⟨t, ht, rfl⟩ | ⟨j, hj, t, ht, rfl⟩)
      · refine ⟨0, by omega, t, (mem_blockOrder t).1 ht, ?_⟩
        simp only [v1Write, rowWriteV1, pixOff, Nat.mul_zero, Nat.add_zero]
        rw [Nat.mul_comm]
      · refine ⟨j + 1, by omega, t, ht, ?_⟩
        simp only [rowWriteV1, shiftRows, byteAt_skipBytes, Prod.mk.injEq]
        refine ⟨by omega, ?_⟩
        rw [Nat.add_comm 1 j]
    · rintro ⟨j, hj, t, ht, rfl⟩
      rcases j with _ | j
      · left
        refine ⟨t, (mem_blockOrder t).2 ht, ?_⟩
        simp only [v1Write, rowWriteV1, pixOff, Nat.mul_zero, Nat.add_zero]
        rw [Nat.mul_comm]
      · right
        refine ⟨j, by omega, t, ht, ?_⟩
        simp only [rowWriteV1, shiftRows, byteAt_skipBytes, Prod.mk.injEq]
        refine ⟨by omega, ?_⟩
        rw [Nat.add_comm 1 j]

theorem rowsWritesV1_mem (v1 : Nat → CinepakCodebook) (left width n g y : Nat) (f : Stream)
    (hwrap : y + 4 * g < 65536) (p : Nat × Nat) :
    p ∈ rowsWritesV1 v1 left width n g y f ↔
      ∃ gi < g, ∃ j < n, ∃ t : Nat × Nat × Nat, (t.1 < 4 ∧ t.2.1 < 4 ∧ t.2.2 < 3) ∧
        p = rowWriteV1 v1 (rowOffsets left width (y + 4 * gi)) (skipBytes f (gi * n)) j t := by
  induction g generalizing y f with
  | zero => simp [rowsWritesV1]
  | succ g ih =>
    simp only [rowsWritesV1, List.mem_append, rowWritesV1_mem]
    rw [Nat.mod_eq_of_lt (by omega), ih (y + 4) (skipBytes f n) (by omega)]
    constructor
    · rintro (⟨j, hj, t, ht, rfl⟩ | ⟨gi, hgi, j, hj, t, ht, rfl⟩)
      · exact ⟨0, by omega, j, hj, t, ht, by simp [skipBytes]⟩
      · refine ⟨gi + 1, by omega, j, hj, t, ht, ?_⟩
        rw [skipBytes_add, show y + 4 + 4 * gi = y + 4 * (gi + 1) by omega,
          show n + gi * n = (gi + 1) * n by rw [Nat.add_mul, Nat.one_mul, Nat.add_comm]]
    · rintro ⟨gi, hgi, j, hj, t, ht, rfl⟩
      rcases gi with _ | gi
      · left
        exact ⟨j, hj, t, ht, by simp [skipBytes]⟩
      · right
        refine ⟨gi, by omega, j, hj, t, ht, ?_⟩
        rw [skipBytes_add, show y + 4 + 4 * gi = y + 4 * (gi + 1) by omega,
          show n + gi * n = (gi + 1) * n by rw [Nat.add_mul, Nat.one_mul, Nat.add_comm]]

theorem rowOffsets_eq (left width y r : Nat) (hr : r < 4) :
    rowOffsets left width y r = ((left + y * width) * 3 + r * (width * 3)) % 4294967296 := by
  unfold rowOffsets VecState.setRows VecState.iy
  generalize y * width = A
  interval_cases r <;> simp only [] <;> omega

theorem mul_add_unique (w a b a' b' : Nat) (hb : b < w) (hb' : b' < w)
    (h : a * w + b = a' * w + b') : a = a' ∧ b = b' := by
  have h1 : (a * w + b) / w = a := by
    rw [Nat.mul_comm, Nat.mul_add_div (by omega), Nat.div_eq_of_lt hb, Nat.add_zero]
  have h2 : (a' * w + b') / w = a' := by
    rw [Nat.mul_comm, Nat.mul_add_div (by omega), Nat.div_eq_of_lt hb', Nat.add_zero]
  have ha : a = a' := by rw [← h1, ← h2, h]
  subst ha
  exact ⟨rfl, by omega⟩

/-- The byte offset of the store `(r, c, k)` of block `j` of the row group at
row `y`, in a raster of width `w` with `left = 0`, when offsets do not wrap. -/
theorem rowWriteV1_offset (v1 : Nat → CinepakCodebook) (w y : Nat) (f : Stream)
    (j r c k : Nat) (hr : r < 4) (hc : 4 * j + c < w)
    (hM : 3 * ((y + 4) * w) ≤ 4294967296) :
    (rowWriteV1 v1 (rowOffsets 0 w y) f j (r, c, k)).1
      = 3 * ((y + r) * w + 4 * j + c) + k := by
  simp only [rowWriteV1, rowOffsets_eq 0 w y r hr]
  have e1 : (y + 4) * w = y * w + 4 * w := by rw [Nat.add_mul]
  have e2 : (y + r) * w = y * w + r * w := by rw [Nat.add_mul]
  rw [e1] at hM
  rw [e2]
  generalize y * w = A at hM ⊢
  interval_cases r <;> omega

theorem rowsWritesV1_replay (v1 : Nat → CinepakCodebook) (w n g top : Nat) (f : Stream)
    (m : Nat → Nat) (hw : w = 4 * n) (hwrap : top + 4 * g < 65536)
    (hM : 3 * ((top + 4 * g) * w) ≤ 4294967296)
    (gi bx r c k : Nat) (hgi : gi < g) (hbx : bx < n) (hr : r < 4) (hc : c < 4) (hk : k < 3) :
    replay m (rowsWritesV1 v1 0 w n g top f) (3 * ((top + 4 * gi + r) * w + 4 * bx + c) + k)
      = bgr (CPYUV2RGB ((v1 (byteAt f (gi * n + bx))).y ((r / 2) * 2 + c / 2))
          (v1 (byteAt f (gi * n + bx))).u (v1 (byteAt f (gi * n + bx))).v) k := by
  have hMi : ∀ gi' < g, 3 * ((top + 4 * gi' + 4) * w) ≤ 4294967296 := by
    intro gi' hgi'
    have : (top + 4 * gi' + 4) * w ≤ (top + 4 * g) * w := Nat.mul_le_mul_right _ (by omega)
    omega
  apply replay_eq_of_forall
  · left
    refine ⟨rowWriteV1 v1 (rowOffsets 0 w (top + 4 * gi)) (skipBytes f (gi * n)) bx (r, c, k),
      (rowsWritesV1_mem v1 0 w n g top f hwrap _).2 ⟨gi, hgi, bx, hbx, (r, c, k), ⟨hr, hc, hk⟩, rfl⟩,
      ?_⟩
    exact rowWriteV1_offset v1 w _ _ bx r c k hr (by omega) (hMi gi hgi)
  · intro p hp hpo
    obtain ⟨gi', hgi', j', hj', ⟨r', c', k'⟩, ⟨hr', hc', hk'⟩, rfl⟩ :=
      (rowsWritesV1_mem v1 0 w n g top f hwrap p).1 hp
    simp only at hr' hc' hk'
    rw [rowWriteV1_offset v1 w _ _ j' r' c' k' hr' (by omega) (hMi gi' hgi')] at hpo
    have hkk : k' = k := by omega
    subst hkk
    have hsum : (top + 4 * gi' + r') * w + (4 * j' + c')
        = (top + 4 * gi + r) * w + (4 * bx + c) := by omega
    obtain ⟨hrow, hcol⟩ := mul_add_unique w _ _ _ _ (by omega) (by omega) hsum
    have h1 : gi' = gi := by omega
    have h2 : r' = r := by omega
    have h3 : j' = bx := by omega
    have h4 : c' = c := by omega
    subst h1 h2 h3 h4
    simp only [rowWriteV1, byteAt_skipBytes]

theorem shl8_or (a b : Nat) (ha : a < 256) (hb : b < 256) :
    ((a <<< 8) % 65536 ||| b) % 65536 = a * 256 + b := by
  have h1 : a <<< 8 = 256 * a := by rw [Nat.shiftLeft_eq, Nat.mul_comm]
  have h2 : 256 * a + b = 256 * a ||| b := Nat.mul_add_lt_is_or (i := 8) hb a
  have h3 : 256 * a % 65536 = 256 * a := Nat.mod_eq_of_lt (by omega)
  rw [h1, h3, ← h2, Nat.mod_eq_of_lt (by omega)]
  omega

theorem readByte_eq (f : Stream) : readByte f = (byteAt f 0, skipBytes f 1) := rfl

theorem readUint16BE_eq (f : Stream) :
    readUint16BE f = (byteAt f 0 * 256 + byteAt f 1, skipBytes f 2) := by
  have h : readUint16BE f
      = (((byteAt f 0 <<< 8) % 65536 ||| byteAt f 1) % 65536, skipBytes f 2) := rfl
  rw [h, shl8_or _ _ (byteAt_lt f 0) (byteAt_lt f 1)]

theorem readFrameHeader_eq (f : Stream) (d : CinepakDecoder) :
    (readFrameHeader f d).input = skipBytes f 10 ∧
    (readFrameHeader f d).dec.curFrame.flags = byteAt f 0 ∧
    (readFrameHeader f d).dec.curFrame.width = byteAt f 4 * 256 + byteAt f 5 ∧
    (readFrameHeader f d).dec.curFrame.height = byteAt f 6 * 256 + byteAt f 7 ∧
    (readFrameHeader f d).dec.curFrame.stripCount = byteAt f 8 * 256 + byteAt f 9 ∧
    (readFrameHeader f d).dec.curFrame.strips = d.curFrame.strips ∧
    (readFrameHeader f d).dec.curFrame.surface = d.curFrame.surface ∧
    (readFrameHeader f d).dec.y = 0 ∧
    (readFrameHeader f d).out = [] ∧ (readFrameHeader f d).chunks = [] := by
  simp only [readFrameHeader, readByte_eq, readUint16BE_eq, skipBytes_add, byteAt_skipBytes,
    and_self]

theorem readStripHeader_eq (s : DecState) (i : Nat) :
    (readStripHeader s i).input = skipBytes s.input 12 ∧
    ((readStripHeader s i).dec.curFrame.strips i).length
      = (65536 + (byteAt s.input 2 * 256 + byteAt s.input 3) - 12) % 65536 ∧
    ((readStripHeader s i).dec.curFrame.strips i).top = s.dec.y % 65536 ∧
    ((readStripHeader s i).dec.curFrame.strips i).left = 0 ∧
    ((readStripHeader s i).dec.curFrame.strips i).bottom
      = ((s.dec.y + (byteAt s.input 8 * 256 + byteAt s.input 9)) % 4294967296) % 65536 ∧
    ((readStripHeader s i).dec.curFrame.strips i).right = s.dec.curFrame.width ∧
    (readStripHeader s i).dec.curFrame.width = s.dec.curFrame.width ∧
    (readStripHeader s i).dec.curFrame.height = s.dec.curFrame.height ∧
    (readStripHeader s i).dec.curFrame.stripCount = s.dec.curFrame.stripCount ∧
    (readStripHeader s i).dec.curFrame.surface = s.dec.curFrame.surface ∧
    (readStripHeader s i).dec.y = s.dec.y ∧
    (readStripHeader s i).out = s.out := by
  simp only [readStripHeader, readUint16BE_eq, skipBytes_add, byteAt_skipBytes,
    DecState.withFrame, Function.update_same, and_self]

/-! ### Chunk loop -/

theorem dispatchChunk_V4_codebook (fuel i chunkID chunkSize : Nat) (s : DecState)
    (h : chunkID = 0x20 ∨ chunkID = 0x21 ∨ chunkID = 0x24 ∨ chunkID = 0x25) :
    ∃ S, dispatchChunk fuel i chunkID chunkSize s = some (.next S) ∧
      S.input = (loadCodebook s.input s.dec.curFrame i 4 chunkID chunkSize).1 ∧
      S.dec.curFrame = (loadCodebook s.input s.dec.curFrame i 4 chunkID chunkSize).2 ∧
      S.dec.y = s.dec.y ∧ S.out = s.out ∧ S.chunks = s.chunks ++ [(i, chunkID)] := by
  simp only [dispatchChunk]
  rw [if_pos h]
  exact ⟨_, rfl, rfl, rfl, rfl, rfl, rfl⟩

theorem chunkBody_of_dispatch (fuelV i : Nat) (s S : DecState) (cid c0 c1 : Nat)
    (f1 f2 f3 : Stream)
    (h1 : readByte s.input = (cid, f1)) (he : feof f1 = false)
    (h2 : readByte f1 = (c0, f2)) (h3 : readUint16BE f2 = (c1, f3))
    (hd : dispatchChunk fuelV i cid
      ((((c0 <<< 16) % 4294967296) + (4294967296 + c1 - 4)) % 4294967296)
      { s with input := f3 } = some (.next S)) :
    chunkBody fuelV i s =
      some (.next
        (if ftell S.input ≠ (ftell f3 % 4294967296 +
            ((((c0 <<< 16) % 4294967296) + (4294967296 + c1 - 4)) % 4294967296)) % 4294967296
         then { S with input := fseek S.input ((ftell f3 % 4294967296 +
            ((((c0 <<< 16) % 4294967296) + (4294967296 + c1 - 4)) % 4294967296)) % 4294967296) }
         else S), false) := by
  simp only [chunkBody, h1, h2, h3, he, hd, Bool.false_eq_true, if_false]
  split_ifs <;> rfl

theorem chunkBody_shortSize (fuelV : Nat) (s : DecState)
    (hin : s.input = ⟨shortSizeStream, 22, false⟩)
    (hlen : (s.dec.curFrame.strips 0).length = 4) :
    ∃ s1, chunkBody fuelV 0 s = some (.next s1, false) ∧
      s1.input = ⟨shortSizeStream, 22, false⟩ ∧ (s1.dec.curFrame.strips 0).length = 4 := by
  have e1 : readByte s.input = (0x20, ⟨shortSizeStream, 23, false⟩) := by rw [hin]; rfl
  have e2 : readByte ⟨shortSizeStream, 23, false⟩ = (0, ⟨shortSizeStream, 24, false⟩) := rfl
  have e3 : readUint16BE ⟨shortSizeStream, 24, false⟩ = (0, ⟨shortSizeStream, 26, false⟩) := rfl
  obtain ⟨S, hd, hSin, hSfr, -, -, -⟩ := dispatchChunk_V4_codebook fuelV 0 0x20
    ((((0 <<< 16) % 4294967296) + (4294967296 + 0 - 4)) % 4294967296)
    { s with input := ⟨shortSizeStream, 26, false⟩ } (Or.inl rfl)
  have hadv := loadCodebook_advances ({ s with input := ⟨shortSizeStream, 26, false⟩ } : DecState).input
    ({ s with input := ⟨shortSizeStream, 26, false⟩ } : DecState).dec.curFrame 0 4 0x20
    ((((0 <<< 16) % 4294967296) + (4294967296 + 0 - 4)) % 4294967296)
  have hlen' := loadCodebook_length ({ s with input := ⟨shortSizeStream, 26, false⟩ } : DecState).input
    ({ s with input := ⟨shortSizeStream, 26, false⟩ } : DecState).dec.curFrame 0 4 0x20
    ((((0 <<< 16) % 4294967296) + (4294967296 + 0 - 4)) % 4294967296) 0
  rw [← hSin] at hadv
  rw [← hSfr] at hlen'
  have hb := chunkBody_of_dispatch fuelV 0 s S 0x20 0 0 _ _ _ e1 rfl e2 e3 hd
  have e5 : (ftell (⟨shortSizeStream, 26, false⟩ : Stream) % 4294967296 +
      ((((0 <<< 16) % 4294967296) + (4294967296 + 0 - 4)) % 4294967296)) % 4294967296 = 22 := by
    norm_num [ftell]
  rw [e5] at hb
  obtain ⟨hdata, hpos⟩ := hadv
  have hpos' : 26 ≤ S.input.pos := hpos
  have hne : ftell S.input ≠ 22 := fun h => by
    rw [ftell] at h; rw [h] at hpos'; exact absurd hpos' (by decide)
  rw [if_pos hne] at hb
  refine ⟨_, hb, ?_, ?_⟩
  · show fseek S.input 22 = _
    have hdata' : S.input.data = shortSizeStream := hdata
    simp only [fseek, hdata']
  · show (S.dec.curFrame.strips 0).length = 4
    rw [hlen']
    exact hlen

theorem chunkLoop_shortSize (fuelV fuel : Nat) (s : DecState)
    (hin : s.input = ⟨shortSizeStream, 22, false⟩)
    (hlen : (s.dec.curFrame.strips 0).length = 4) :
    chunkLoop fuelV 0 22 fuel s = none := by
  induction fuel generalizing s with
  | zero =>
    simp only [chunkLoop, hin, hlen, ftell, feof]
    norm_num
  | succ fuel ih =>
    obtain ⟨s1, hb, hin1, hlen1⟩ := chunkBody_shortSize fuelV s hin hlen
    have hc : ftell s.input < (22 + (s.dec.curFrame.strips 0).length) % 4294967296
        ∧ feof s.input = false := by
      rw [hin, hlen]; decide
    simp only [chunkLoop]
    rw [if_pos hc, hb]
    exact ih s1 hin1 hlen1

theorem readStripHeader_shortSize (s : DecState) (h : s.input = ⟨shortSizeStream, 10, false⟩) :
    (readStripHeader s 0).input = ⟨shortSizeStream, 22, false⟩ ∧
    ((readStripHeader s 0).dec.curFrame.strips 0).length = 4 := by
  constructor
  · simp only [readStripHeader, DecState.withFrame, h]
    rfl
  · simp only [readStripHeader, DecState.withFrame, h, Function.update_same]
    rfl

theorem decodeStrip_shortSize (fuel : Nat) (s : DecState)
    (h : s.input = ⟨shortSizeStream, 10, false⟩) : decodeStrip fuel 0 s = none := by
  obtain ⟨h1, h2⟩ := readStripHeader_shortSize
    (s.withFrame s.input (inheritCodebooks s.dec.curFrame 0)) h
  unfold decodeStrip
  generalize readStripHeader (s.withFrame s.input (inheritCodebooks s.dec.curFrame 0)) 0 = s1
    at h1 h2 ⊢
  have hpos : ftell s1.input % 4294967296 = 22 := by
    rw [h1]; norm_num [ftell]
  simp only [hpos, chunkLoop_shortSize fuel fuel s1 h1 h2]

/-- C10, failing input: on the 26-byte stream `shortSizeStream`, whose chunk
has ID 0x20 and size field 0, `decodeImage` never returns: the payload budget
wraps to `2^32 - 4`, the resynchronising `fseek` goes back to the chunk's own ID
byte and clears the end-of-file flag, so the chunk loop has not ended after
any number of iterations. -/
theorem decodeImage_shortSize_diverges (fuel : Nat) (d : CinepakDecoder) :
    decodeImage fuel ⟨shortSizeStream, 0, false⟩ d = none := by
  have hin : (readFrameHeader ⟨shortSizeStream, 0, false⟩ d).input
      = ⟨shortSizeStream, 10, false⟩ := rfl
  have hcount : (readFrameHeader ⟨shortSizeStream, 0, false⟩ d).dec.curFrame.stripCount = 1 := rfl
  unfold decodeImage
  generalize readFrameHeader ⟨shortSizeStream, 0, false⟩ d = s0 at hin hcount ⊢
  simp only [hcount, stripLoop, decodeStrip_shortSize fuel s0 hin]

/-! ### Codebook inheritance -/

theorem decodeVectors_strips (fuel : Nat) (input : Stream) (fr : CinepakFrame)
    (strip chunkID chunkSize : Nat) (r : Stream × CinepakFrame)
    (h : decodeVectors fuel input fr strip chunkID chunkSize = some r) :
    r.2.strips = fr.strips ∧ r.2.flags = fr.flags ∧ r.2.width = fr.width := by
  simp only [decodeVectors] at h
  split at h
  · exact absurd h (by simp)
  · cases h
    exact ⟨rfl, rfl, rfl⟩

theorem dispatchChunk_tables (fuel i chunkID chunkSize : Nat) (s : DecState) (fl : Flow DecState)
    (h : dispatchChunk fuel i chunkID chunkSize s = some fl) :
    fl.state.dec.curFrame.flags = s.dec.curFrame.flags ∧
    ∃ extra, fl.state.chunks = s.chunks ++ extra ∧ (∀ c ∈ extra, c.1 = i) ∧
      ((∀ c ∈ extra, IsVectorID c.2) →
        fl.state.dec.curFrame.strips = s.dec.curFrame.strips) := by
  simp only [dispatchChunk] at h
  split_ifs at h with h1 h2 h3
  · cases h
    refine ⟨rfl, [(i, chunkID)], rfl, by simp, fun hv => ?_⟩
    have := hv (i, chunkID) (List.mem_singleton.2 rfl)
    simp only [IsVectorID] at this
    omega
  · cases h
    refine ⟨rfl, [(i, chunkID)], rfl, by simp, fun hv => ?_⟩
    have := hv (i, chunkID) (List.mem_singleton.2 rfl)
    simp only [IsVectorID] at this
    omega
  · cases hd : decodeVectors fuel s.input s.dec.curFrame i chunkID chunkSize with
    | none => rw [hd] at h; exact absurd h (by simp)
    | some r =>
      rw [hd] at h
      cases h
      obtain ⟨hs, hf, -⟩ := decodeVectors_strips _ _ _ _ _ _ _ hd
      exact ⟨hf, [(i, chunkID)], rfl, by simp, fun _ => hs⟩
  · cases h
    exact ⟨rfl, [], by simp [Flow.state], by simp, fun _ => rfl⟩

theorem chunkBody_tables (fuel i : Nat) (s : DecState) (fl : Flow DecState) (b : Bool)
    (h : chunkBody fuel i s = some (fl, b)) :
    fl.state.dec.curFrame.flags = s.dec.curFrame.flags ∧
    ∃ extra, fl.state.chunks = s.chunks ++ extra ∧ (∀ c ∈ extra, c.1 = i) ∧
      ((∀ c ∈ extra, IsVectorID c.2) →
        fl.state.dec.curFrame.strips = s.dec.curFrame.strips) := by
  simp only [chunkBody] at h
  split_ifs at h with he
  · cases h
    exact ⟨rfl, [], by simp [Flow.state], by simp, fun _ => rfl⟩
  · generalize hcs : ((readByte (readByte s.input).2).1 <<< 16 % 4294967296 +
        (4294967296 + (readUint16BE (readByte (readByte s.input).2).2).1 - 4)) % 4294967296 = cs
      at h
    generalize hs' : ({ s with input := (readUint16BE (readByte (readByte s.input).2).2).2 }
      : DecState) = s' at h
    have hfl : s'.dec.curFrame.flags = s.dec.curFrame.flags := by rw [← hs']
    have hst : s'.dec.curFrame.strips = s.dec.curFrame.strips := by rw [← hs']
    have hch : s'.chunks = s.chunks := by rw [← hs']
    cases hd : dispatchChunk fuel i (readByte s.input).1 cs s' with
    | none => rw [hd] at h; exact absurd h (by simp)
    | some f =>
      rw [hd] at h
      obtain ⟨hflags, extra, hex, hi, htab⟩ := dispatchChunk_tables _ _ _ _ _ _ hd
      rw [hfl] at hflags
      rw [hst] at htab
      rw [hch] at hex
      cases f with
      | stop s1 =>
        simp only [Option.some.injEq, Prod.mk.injEq] at h
        obtain ⟨rfl, -⟩ := h
        exact ⟨hflags, extra, hex, hi, htab⟩
      | next s1 =>
        simp only at h
        split_ifs at h
        · simp only [Option.some.injEq, Prod.mk.injEq] at h
          obtain ⟨rfl, -⟩ := h
          exact ⟨hflags, extra, hex, hi, htab⟩
        · simp only [Option.some.injEq, Prod.mk.injEq] at h
          obtain ⟨rfl, -⟩ := h
          exact ⟨hflags, extra, hex, hi, htab⟩

theorem chunkLoop_tables (fuelV i pos fuel : Nat) (s : DecState) (fl : Flow DecState)
    (h : chunkLoop fuelV i pos fuel s = some fl)
    (hv : ∀ c ∈ fl.state.chunks, c.1 = i → IsVectorID c.2) :
    fl.state.dec.curFrame.flags = s.dec.curFrame.flags ∧
    fl.state.dec.curFrame.strips = s.dec.curFrame.strips ∧
    ∃ extra, fl.state.chunks = s.chunks ++ extra := by
  induction fuel generalizing s with
  | zero =>
    simp only [chunkLoop] at h
    split_ifs at h
    cases h
    exact ⟨rfl, rfl, [], by simp [Flow.state]⟩
  | succ fuel ih =>
    simp only [chunkLoop] at h
    split_ifs at h
    · cases hb : chunkBody fuelV i s with
      | none => rw [hb] at h; exact absurd h (by simp)
      | some p =>
        obtain ⟨f, b⟩ := p
        rw [hb] at h
        obtain ⟨hflags, extra, hex, hi, htab⟩ := chunkBody_tables _ _ _ _ _ hb
        cases f with
        | stop s1 =>
          simp only [Option.some.injEq] at h
          subst h
          refine ⟨hflags, htab (fun c hc => hv c ?_ (hi c hc)), extra, hex⟩
          rw [hex]; exact List.mem_append_right _ hc
        | next s1 =>
          cases b with
          | true =>
            simp only [Option.some.injEq] at h
            subst h
            refine ⟨hflags, htab (fun c hc => hv c ?_ (hi c hc)), extra, hex⟩
            rw [hex]; exact List.mem_append_right _ hc
          | false =>
            simp only at h
            obtain ⟨hf2, hs2, extra2, hex2⟩ := ih s1 h
            simp only [Flow.state] at hflags hex htab
            refine ⟨hf2.trans hflags, hs2.trans (htab (fun c hc => hv c ?_ (hi c hc))),
              extra ++ extra2, ?_⟩
            · rw [hex2, hex]
              exact List.mem_append_left _ (List.mem_append_right _ hc)
            · rw [hex2, hex, List.append_assoc]
    · cases h
      exact ⟨rfl, rfl, [], by simp [Flow.state]⟩

theorem inheritCodebooks_tables (fr : CinepakFrame) (i : Nat) (hi : 0 < i)
    (hflag : fr.flags &&& 1 = 0) (j : Nat) (hj : j < 256) :
    ((inheritCodebooks fr i).strips i).v1_codebook j = (fr.strips (i - 1)).v1_codebook j ∧
    ((inheritCodebooks fr i).strips i).v4_codebook j = (fr.strips (i - 1)).v4_codebook j := by
  simp only [inheritCodebooks]
  rw [if_pos ⟨hi, hflag⟩]
  simp only [Function.update_same, if_pos hj, and_self]

theorem inheritCodebooks_other (fr : CinepakFrame) (i k : Nat) (hk : k ≠ i) :
    (inheritCodebooks fr i).strips k = fr.strips k ∧
    (inheritCodebooks fr i).flags = fr.flags := by
  simp only [inheritCodebooks]
  split_ifs
  · exact ⟨Function.update_noteq hk _ _, rfl⟩
  · exact ⟨rfl, rfl⟩

theorem inheritCodebooks_flags (fr : CinepakFrame) (i : Nat) :
    (inheritCodebooks fr i).flags = fr.flags := by
  simp only [inheritCodebooks]
  split_ifs <;> rfl

theorem readStripHeader_tables (s : DecState) (i k : Nat) :
    ((readStripHeader s i).dec.curFrame.strips k).v1_codebook
      = (s.dec.curFrame.strips k).v1_codebook ∧
    ((readStripHeader s i).dec.curFrame.strips k).v4_codebook
      = (s.dec.curFrame.strips k).v4_codebook ∧
    (readStripHeader s i).dec.curFrame.flags = s.dec.curFrame.flags ∧
    (readStripHeader s i).chunks = s.chunks := by
  simp only [readStripHeader, DecState.withFrame]
  by_cases hk : k = i
  · subst hk
    simp only [Function.update_same, and_self]
  · simp only [Function.update_noteq hk, and_self]

/-- C4: in a frame whose flag bit 0 is clear, the iteration for strip `i > 0`
first copies the 256 entries of the V1 and of the V4 table of strip `i - 1`
into strip `i` (before the strip header is read); when every chunk the
iteration then dispatches for strip `i` is a vector chunk, so that the strip
carries no codebook chunk, both tables of strip `i` after the iteration equal,
entry for entry, the tables strip `i - 1` had when the iteration began, and
strip `i - 1` still has them. -/
theorem decodeStrip_inherits (fuel i : Nat) (s : DecState) (hi : 0 < i)
    (hflag : s.dec.curFrame.flags &&& 1 = 0) :
    (∀ j < 256,
      ((inheritCodebooks s.dec.curFrame i).strips i).v1_codebook j
        = (s.dec.curFrame.strips (i - 1)).v1_codebook j ∧
      ((inheritCodebooks s.dec.curFrame i).strips i).v4_codebook j
        = (s.dec.curFrame.strips (i - 1)).v4_codebook j) ∧
    (∀ fl, decodeStrip fuel i s = some fl →
      (∀ c ∈ fl.state.chunks, c.1 = i → c.2 = 0x30 ∨ c.2 = 0x31 ∨ c.2 = 0x32) →
      ∀ j < 256,
        (fl.state.dec.curFrame.strips i).v1_codebook j
          = (s.dec.curFrame.strips (i - 1)).v1_codebook j ∧
        (fl.state.dec.curFrame.strips i).v4_codebook j
          = (s.dec.curFrame.strips (i - 1)).v4_codebook j ∧
        (fl.state.dec.curFrame.strips (i - 1)).v1_codebook j
          = (s.dec.curFrame.strips (i - 1)).v1_codebook j ∧
        (fl.state.dec.curFrame.strips (i - 1)).v4_codebook j
          = (s.dec.curFrame.strips (i - 1)).v4_codebook j) := by
  refine ⟨fun j hj => inheritCodebooks_tables _ i hi hflag j hj, ?_⟩
  intro fl hrun hv j hj
  simp only [decodeStrip] at hrun
  generalize hs1 : readStripHeader (s.withFrame s.input (inheritCodebooks s.dec.curFrame i)) i = s1
    at hrun
  have hhdr := fun k => readStripHeader_tables
    (s.withFrame s.input (inheritCodebooks s.dec.curFrame i)) i k
  rw [hs1] at hhdr
  simp only [DecState.withFrame] at hhdr
  have hinh := inheritCodebooks_tables s.dec.curFrame i hi hflag j hj
  have hoth := (inheritCodebooks_other s.dec.curFrame i (i - 1) (by omega)).1
  cases hl : chunkLoop fuel i (ftell s1.input % 4294967296) fuel s1 with
  | none => rw [hl] at hrun; exact absurd hrun (by simp)
  | some f =>
    rw [hl] at hrun
    have key : ∀ f' : Flow DecState, f'.state.chunks = f.state.chunks →
        f'.state.dec.curFrame.strips = f.state.dec.curFrame.strips → fl = f' →
        (fl.state.dec.curFrame.strips i).v1_codebook j
          = (s.dec.curFrame.strips (i - 1)).v1_codebook j ∧
        (fl.state.dec.curFrame.strips i).v4_codebook j
          = (s.dec.curFrame.strips (i - 1)).v4_codebook j ∧
        (fl.state.dec.curFrame.strips (i - 1)).v1_codebook j
          = (s.dec.curFrame.strips (i - 1)).v1_codebook j ∧
        (fl.state.dec.curFrame.strips (i - 1)).v4_codebook j
          = (s.dec.curFrame.strips (i - 1)).v4_codebook j := by
      intro f' hch hst hfl
      subst hfl
      rw [hch] at hv
      obtain ⟨-, hstr, -⟩ := chunkLoop_tables _ _ _ _ _ _ hl hv
      rw [hst, hstr, (hhdr i).1, (hhdr i).2.1, (hhdr (i - 1)).1, (hhdr (i - 1)).2.1, hoth]
      exact ⟨hinh.1, hinh.2, rfl, rfl⟩
    cases f with
    | stop s2 =>
      simp only [Option.some.injEq] at hrun
      exact key _ rfl rfl hrun.symm
    | next s2 =>
      simp only [Option.some.injEq] at hrun
      refine key _ ?_ ?_ hrun.symm <;> rfl

/-- The iteration for the second strip of `exampleSecondStrip` returns. -/
theorem exampleSecondStrip_runs : (decodeStrip 3 1 exampleSecondStrip).isSome = true := by
  decide

/-- Witness for `decodeStrip_inherits`: the second strip of
`exampleSecondStrip` ends with the tables of `exampleStrip`. -/
theorem decodeStrip_inherits_witness :
    ∃ fl, decodeStrip 3 1 exampleSecondStrip = some fl ∧
      (fl.state.dec.curFrame.strips 1).v1_codebook 5 = exampleStrip.v1_codebook 5 ∧
      (fl.state.dec.curFrame.strips 1).v4_codebook 7 = exampleStrip.v4_codebook 7 :=
  have h := (decodeStrip_inherits 3 1 exampleSecondStrip (by decide) (by decide)).2
    ((decodeStrip 3 1 exampleSecondStrip).get exampleSecondStrip_runs)
    (Option.some_get exampleSecondStrip_runs).symm (by decide) 5 (by decide)
  have h' := (decodeStrip_inherits 3 1 exampleSecondStrip (by decide) (by decide)).2
    ((decodeStrip 3 1 exampleSecondStrip).get exampleSecondStrip_runs)
    (Option.some_get exampleSecondStrip_runs).symm (by decide) 7 (by decide)
  ⟨_, (Option.some_get exampleSecondStrip_runs).symm, h.1, h'.2.1⟩

/-! ### A frame of V1 blocks -/

theorem dispatchChunk_V1_codebook (fuel i chunkID chunkSize : Nat) (s : DecState)
    (h : chunkID = 0x22 ∨ chunkID = 0x23 ∨ chunkID = 0x26 ∨ chunkID = 0x27) :
    ∃ S, dispatchChunk fuel i chunkID chunkSize s = some (.next S) ∧
      S.input = (loadCodebook s.input s.dec.curFrame i 1 chunkID chunkSize).1 ∧
      S.dec.curFrame = (loadCodebook s.input s.dec.curFrame i 1 chunkID chunkSize).2 ∧
      S.dec.y = s.dec.y ∧ S.out = s.out ∧ S.chunks = s.chunks ++ [(i, chunkID)] := by
  simp only [dispatchChunk]
  rw [if_neg (by omega), if_pos h]
  exact ⟨_, rfl, rfl, rfl, rfl, rfl, rfl⟩

theorem chunkSize_eq (c0 c1 size : Nat) (h : c0 * 65536 + c1 = 4 + size)
    (hs : 4 + size < 4294967296) :
    ((c0 <<< 16) % 4294967296 + (4294967296 + c1 - 4)) % 4294967296 = size := by
  have h1 : c0 <<< 16 = c0 * 65536 := by rw [Nat.shiftLeft_eq]
  rw [h1]
  omega

/-- What an unconditional `loadCodebook` call does when its payload budget is
exactly `m <= 256` entries and the stream holds them. -/
theorem loadCodebook_uncond_exact (f : Stream) (fr : CinepakFrame)
    (strip codebookType chunkID m : Nat) (hc : chunkID &&& 0x01 = 0) (hm : m ≤ 256)
    (havail : f.pos + entryWidth chunkID * m ≤ f.data.length)
    (hpos : f.pos < 4294967296) :
    (loadCodebook f fr strip codebookType chunkID (entryWidth chunkID * m)).1
      = skipBytes f (entryWidth chunkID * m) ∧
    ∀ j, ((loadCodebook f fr strip codebookType chunkID
        (entryWidth chunkID * m)).2.strips strip).table codebookType j =
      if j < m then specEntry (skipBytes f (entryWidth chunkID * j)) (entryWidth chunkID)
      else (fr.strips strip).table codebookType j := by
  have hn : 0 < entryWidth chunkID := by
    rcases entryWidth_cases chunkID with h | h <;> omega
  have hft : ∀ j, j ≤ m → ftell (skipBytes f (entryWidth chunkID * j))
      = f.pos + entryWidth chunkID * j := by
    intro j hj
    have : entryWidth chunkID * j ≤ entryWidth chunkID * m := Nat.mul_le_mul_left _ hj
    rw [skipBytes_of_le f _ (by omega)]
    rfl
  have hsp : ftell f % 4294967296 = f.pos := Nat.mod_eq_of_lt hpos
  obtain ⟨-, h2, -, -, h5⟩ := loadCodebookLoop_uncond chunkID
    (entryWidth chunkID * m) (ftell f % 4294967296) hc f 256 m 0
    (loadCodebookInit f ((fr.strips strip).table codebookType)) hm
    (by simp [loadCodebookInit, skipBytes])
    (fun j _ hj => by
      rw [hft j (by omega), hsp]
      have : entryWidth chunkID * (j + 1) ≤ entryWidth chunkID * m :=
        Nat.mul_le_mul_left _ (by omega)
      rw [Nat.mul_add, Nat.mul_one] at this
      push_cast
      omega)
    (fun _ => by
      rw [Nat.zero_add, hft m (Nat.le_refl _), hsp]
      push_cast
      omega)
  rw [Nat.zero_add] at h2
  refine ⟨h2, fun j => ?_⟩
  rw [loadCodebook_table, h5 j]
  simp only [Nat.zero_le, true_and, Nat.zero_add]
  rfl

theorem loadCodebook_frame (f : Stream) (fr : CinepakFrame)
    (strip codebookType chunkID chunkSize : Nat) :
    (loadCodebook f fr strip codebookType chunkID chunkSize).2.flags = fr.flags ∧
    (loadCodebook f fr strip codebookType chunkID chunkSize).2.width = fr.width ∧
    (loadCodebook f fr strip codebookType chunkID chunkSize).2.height = fr.height ∧
    (loadCodebook f fr strip codebookType chunkID chunkSize).2.stripCount = fr.stripCount ∧
    (loadCodebook f fr strip codebookType chunkID chunkSize).2.surface = fr.surface ∧
    ∀ j,
      ((loadCodebook f fr strip codebookType chunkID chunkSize).2.strips j).length
        = (fr.strips j).length ∧
      ((loadCodebook f fr strip codebookType chunkID chunkSize).2.strips j).top
        = (fr.strips j).top ∧
      ((loadCodebook f fr strip codebookType chunkID chunkSize).2.strips j).bottom
        = (fr.strips j).bottom ∧
      ((loadCodebook f fr strip codebookType chunkID chunkSize).2.strips j).left
        = (fr.strips j).left ∧
      ((loadCodebook f fr strip codebookType chunkID chunkSize).2.strips j).right
        = (fr.strips j).right := by
  refine ⟨rfl, rfl, rfl, rfl, rfl, fun j => ?_⟩
  simp only [loadCodebook]
  by_cases h : j = strip
  · subst h
    rw [Function.update_same]
    split_ifs <;> exact ⟨rfl, rfl, rfl, rfl, rfl⟩
  · rw [Function.update_noteq h]
    exact ⟨rfl, rfl, rfl, rfl, rfl⟩

/-- One iteration of the chunk loop on an unconditional V1 codebook chunk whose
size field is `4 + n * m` (header plus `m <= 256` whole entries) and whose
payload is present in the stream. -/
theorem chunkBody_V1_codebook_exact (fuelV i : Nat) (s : DecState) (m : Nat)
    (hcid : byteAt s.input 0 = 0x22 ∨ byteAt s.input 0 = 0x26)
    (hsize : byteAt s.input 1 * 65536 + (byteAt s.input 2 * 256 + byteAt s.input 3)
      = 4 + entryWidth (byteAt s.input 0) * m)
    (hm : m ≤ 256)
    (havail : s.input.pos + 4 + entryWidth (byteAt s.input 0) * m ≤ s.input.data.length)
    (heof : s.input.eof = false)
    (hpos : s.input.pos + 4 + entryWidth (byteAt s.input 0) * m < 4294967296) :
    ∃ s', chunkBody fuelV i s = some (.next s', false) ∧
      s'.input = skipBytes s.input (4 + entryWidth (byteAt s.input 0) * m) ∧
      s'.dec.curFrame = (loadCodebook (skipBytes s.input 4) s.dec.curFrame i 1
        (byteAt s.input 0) (entryWidth (byteAt s.input 0) * m)).2 ∧
      s'.dec.y = s.dec.y ∧ s'.out = s.out ∧
      s'.chunks = s.chunks ++ [(i, byteAt s.input 0)] := by
  generalize hn : entryWidth (byteAt s.input 0) * m = nm at *
  have hc : byteAt s.input 0 &&& 0x01 = 0 := by rcases hcid with h | h <;> rw [h] <;> decide
  have hs4 : skipBytes s.input 4 = { s.input with pos := s.input.pos + 4 } :=
    skipBytes_of_le _ _ (by omega)
  have hs1 : skipBytes s.input 1 = { s.input with pos := s.input.pos + 1 } :=
    skipBytes_of_le _ _ (by omega)
  have hcs := chunkSize_eq (byteAt s.input 1) (byteAt s.input 2 * 256 + byteAt s.input 3) nm
    hsize (by omega)
  obtain ⟨S, hd, hSin, hSfr, hSy, hSout, hSch⟩ := dispatchChunk_V1_codebook fuelV i
    (byteAt s.input 0) nm { s with input := skipBytes s.input 4 }
    (by rcases hcid with h | h <;> rw [h] <;> simp)
  have hload := (loadCodebook_uncond_exact (skipBytes s.input 4) s.dec.curFrame i 1
    (byteAt s.input 0) m hc hm (by rw [hs4, hn]; simp only; omega)
    (by rw [hs4]; simp only; omega)).1
  rw [hn] at hload
  have hb := chunkBody_of_dispatch fuelV i s S (byteAt s.input 0) (byteAt s.input 1)
    (byteAt s.input 2 * 256 + byteAt s.input 3) (skipBytes s.input 1) (skipBytes s.input 2)
    (skipBytes s.input 4) (readByte_eq _)
    (by rw [hs1]; exact heof)
    (by rw [readByte_eq, byteAt_skipBytes, skipBytes_add])
    (by rw [readUint16BE_eq, byteAt_skipBytes, byteAt_skipBytes, skipBytes_add])
    (by rw [hcs]; exact hd)
  rw [hcs] at hb
  have hSin' : S.input = skipBytes s.input (4 + nm) := by
    rw [hSin]
    show (loadCodebook (skipBytes s.input 4) s.dec.curFrame i 1 (byteAt s.input 0) nm).1 = _
    rw [hload, skipBytes_add]
  have hfin : skipBytes s.input (4 + nm) = { s.input with pos := s.input.pos + (4 + nm) } :=
    skipBytes_of_le _ _ (by omega)
  have htarget : ¬ ftell S.input ≠ (ftell (skipBytes s.input 4) % 4294967296 + nm) % 4294967296 := by
    rw [hSin', hfin, hs4]
    simp only [ftell]
    omega
  rw [if_neg htarget] at hb
  exact ⟨S, hb, hSin', hSfr, hSy, hSout, hSch⟩

theorem chunkLoop_step (fuelV i pos fuel : Nat) (s : DecState)
    (h : ftell s.input < (pos + (s.dec.curFrame.strips i).length) % 4294967296)
    (he : feof s.input = false) :
    chunkLoop fuelV i pos (fuel + 1) s =
      match chunkBody fuelV i s with
      | none => none
      | some (.stop s1, _) => some (.stop s1)
      | some (.next s1, true) => some (.next s1)
      | some (.next s1, false) => chunkLoop fuelV i pos fuel s1 := by
  simp only [chunkLoop]
  rw [if_pos ⟨h, he⟩]

theorem chunkLoop_done (fuelV i pos fuel : Nat) (s : DecState)
    (h : ¬ ftell s.input < (pos + (s.dec.curFrame.strips i).length) % 4294967296) :
    chunkLoop fuelV i pos fuel s = some (.next s) := by
  cases fuel with
  | zero => simp only [chunkLoop]; rw [if_neg (fun hc => h hc.1)]
  | succ fuel => simp only [chunkLoop]; rw [if_neg (fun hc => h hc.1)]

theorem dispatchChunk_vectors (fuel i chunkID chunkSize : Nat) (s : DecState)
    (r : Stream × CinepakFrame)
    (h : chunkID = 0x30 ∨ chunkID = 0x31 ∨ chunkID = 0x32)
    (hd : decodeVectors fuel s.input s.dec.curFrame i chunkID chunkSize = some r) :
    ∃ S, dispatchChunk fuel i chunkID chunkSize s = some (.next S) ∧
      S.input = r.1 ∧ S.dec.curFrame = r.2 ∧
      S.dec.y = s.dec.y ∧ S.out = s.out ∧ S.chunks = s.chunks ++ [(i, chunkID)] := by
  simp only [dispatchChunk]
  rw [if_neg (by omega), if_neg (by omega), if_pos h, hd]
  exact ⟨_, rfl, rfl, rfl, rfl, rfl, rfl⟩

/-- What `decodeVectors` does on a V1-only chunk whose payload budget is exactly
one index byte for each of the `g` row groups of `n` blocks, the bytes being
present in the stream. -/
theorem decodeVectors_V1only_exact (fuel : Nat) (f : Stream) (fr : CinepakFrame)
    (i chunkID n g : Nat) (h1 : chunkID &&& 0x01 = 0) (h2 : chunkID &&& 0x02 ≠ 0)
    (hfuel : n ≤ fuel ∧ g ≤ fuel)
    (hhiX : (fr.strips i).right ≤ (fr.strips i).left + 4 * n)
    (hwrapX : (fr.strips i).left + 4 * n < 65536)
    (hloX : 0 < n → (fr.strips i).left + 4 * (n - 1) < (fr.strips i).right)
    (hhi : (fr.strips i).bottom ≤ (fr.strips i).top + 4 * g)
    (hwrap : (fr.strips i).top + 4 * g < 65536)
    (hlo : 0 < g → (fr.strips i).top + 4 * (g - 1) < (fr.strips i).bottom)
    (havail : f.pos + g * n ≤ f.data.length) (hpos : f.pos < 4294967296) :
    ∃ r, decodeVectors fuel f fr i chunkID (g * n) = some r ∧
      r.1 = skipBytes f (g * n) ∧
      r.2.strips = fr.strips ∧ r.2.flags = fr.flags ∧ r.2.width = fr.width ∧
      r.2.height = fr.height ∧ r.2.stripCount = fr.stripCount ∧
      r.2.surface.mem = replay fr.surface.mem
        (rowsWritesV1 (fr.strips i).v1_codebook (fr.strips i).left fr.width n g
          (fr.strips i).top f) := by
  have hsp : ftell f % 4294967296 = f.pos := Nat.mod_eq_of_lt hpos
  obtain ⟨s', hr, hin, -, -, -, hmem⟩ := decodeVectorsRows_V1only (fr.strips i) fr.width chunkID
    (g * n) (ftell f % 4294967296) h1 h2 n fuel hfuel.1 hhiX hwrapX hloX g fuel
    (fr.strips i).top (decodeVectorsInit f fr.surface) hfuel.2 hhi hwrap hlo
    (fun j hj => by
      have e : (decodeVectorsInit f fr.surface).input = f := rfl
      rw [e, skipBytes_of_le f j (by omega), hsp]
      simp only [ftell]
      push_cast
      omega)
  refine ⟨(s'.input, { fr with surface := s'.surface }), ?_, hin, rfl, rfl, rfl, rfl, rfl, hmem⟩
  simp only [decodeVectors, hr, Flow.state]

/-- One iteration of the chunk loop on a V1-only vector chunk (ID 0x32) whose
size field is `4 + g * n`: header plus one index byte for each of the `g` row
groups of `n` blocks of strip `i`. -/
theorem chunkBody_V1only_exact (fuelV i : Nat) (s : DecState) (n g : Nat)
    (hcid : byteAt s.input 0 = 0x32)
    (hsize : byteAt s.input 1 * 65536 + (byteAt s.input 2 * 256 + byteAt s.input 3)
      = 4 + g * n)
    (hfuel : n ≤ fuelV ∧ g ≤ fuelV)
    (hhiX : (s.dec.curFrame.strips i).right ≤ (s.dec.curFrame.strips i).left + 4 * n)
    (hwrapX : (s.dec.curFrame.strips i).left + 4 * n < 65536)
    (hloX : 0 < n →
      (s.dec.curFrame.strips i).left + 4 * (n - 1) < (s.dec.curFrame.strips i).right)
    (hhi : (s.dec.curFrame.strips i).bottom ≤ (s.dec.curFrame.strips i).top + 4 * g)
    (hwrap : (s.dec.curFrame.strips i).top + 4 * g < 65536)
    (hlo : 0 < g →
      (s.dec.curFrame.strips i).top + 4 * (g - 1) < (s.dec.curFrame.strips i).bottom)
    (havail : s.input.pos + 4 + g * n ≤ s.input.data.length)
    (heof : s.input.eof = false)
    (hpos : s.input.pos + 4 + g * n < 4294967296) :
    ∃ s', chunkBody fuelV i s = some (.next s', false) ∧
      s'.input = skipBytes s.input (4 + g * n) ∧
      s'.dec.curFrame.strips = s.dec.curFrame.strips ∧
      s'.dec.curFrame.flags = s.dec.curFrame.flags ∧
      s'.dec.curFrame.width = s.dec.curFrame.width ∧
      s'.dec.curFrame.height = s.dec.curFrame.height ∧
      s'.dec.curFrame.stripCount = s.dec.curFrame.stripCount ∧
      s'.dec.curFrame.surface.mem = replay s.dec.curFrame.surface.mem
        (rowsWritesV1 (s.dec.curFrame.strips i).v1_codebook (s.dec.curFrame.strips i).left
          s.dec.curFrame.width n g (s.dec.curFrame.strips i).top (skipBytes s.input 4)) ∧
      s'.dec.y = s.dec.y ∧ s'.out = s.out ∧
      s'.chunks = s.chunks ++ [(i, 0x32)] := by
  generalize hgn : g * n = gn at *
  have hs4 : skipBytes s.input 4 = { s.input with pos := s.input.pos + 4 } :=
    skipBytes_of_le _ _ (by omega)
  have hs1 : skipBytes s.input 1 = { s.input with pos := s.input.pos + 1 } :=
    skipBytes_of_le _ _ (by omega)
  have hcs := chunkSize_eq (byteAt s.input 1) (byteAt s.input 2 * 256 + byteAt s.input 3) gn
    hsize (by omega)
  obtain ⟨r, hdv, hr1, hr2, hr3, hr4, hr5, hr6, hr7⟩ := decodeVectors_V1only_exact fuelV
    (skipBytes s.input 4) s.dec.curFrame i 0x32 n g (by decide) (by decide) hfuel hhiX hwrapX hloX
    hhi hwrap hlo (by rw [hs4, hgn]; simp only; omega) (by rw [hs4]; simp only; omega)
  rw [hgn] at hdv hr1
  obtain ⟨S, hd, hSin, hSfr, hSy, hSout, hSch⟩ := dispatchChunk_vectors fuelV i 0x32 gn
    { s with input := skipBytes s.input 4 } r (by simp) hdv
  have hb := chunkBody_of_dispatch fuelV i s S (byteAt s.input 0) (byteAt s.input 1)
    (byteAt s.input 2 * 256 + byteAt s.input 3) (skipBytes s.input 1) (skipBytes s.input 2)
    (skipBytes s.input 4) (readByte_eq _)
    (by rw [hs1]; exact heof)
    (by rw [readByte_eq, byteAt_skipBytes, skipBytes_add])
    (by rw [readUint16BE_eq, byteAt_skipBytes, byteAt_skipBytes, skipBytes_add])
    (by rw [hcs, hcid]; exact hd)
  rw [hcs] at hb
  have hSin' : S.input = skipBytes s.input (4 + gn) := by
    rw [hSin, hr1, skipBytes_add]
  have hfin : skipBytes s.input (4 + gn) = { s.input with pos := s.input.pos + (4 + gn) } :=
    skipBytes_of_le _ _ (by omega)
  have htarget : ¬ ftell S.input ≠ (ftell (skipBytes s.input 4) % 4294967296 + gn) % 4294967296 := by
    rw [hSin', hfin, hs4]
    simp only [ftell]
    omega
  rw [if_neg htarget] at hb
  refine ⟨S, hb, hSin', ?_, ?_, ?_, ?_, ?_, ?_, hSy, hSout, hSch⟩
  · rw [hSfr, hr2]
  · rw [hSfr, hr3]
  · rw [hSfr, hr4]
  · rw [hSfr, hr5]
  · rw [hSfr, hr6]
  · rw [hSfr, hr7]

theorem V1Frame.header_length (F : V1Frame) : F.header.length = 26 := rfl

theorem V1Frame.bytes_length (F : V1Frame) (hv : F.Valid) :
    F.bytes.length = 30 + 256 * entryWidth F.chunkID + F.bw * F.bh := by
  obtain ⟨-, he, hi, -⟩ := hv
  simp only [V1Frame.bytes, List.length_append, V1Frame.header_length, he, hi,
    V1Frame.vectorHeader, List.length_cons, List.length_nil]
  omega

theorem V1Frame.bytes_header (F : V1Frame) (q : Nat) (hq : q < 26) :
    F.bytes.getD q 0 = F.header.getD q 0 :=
  List.getD_append _ _ _ _ (by rw [V1Frame.header_length]; exact hq)

theorem V1Frame.bytes_entries (F : V1Frame) (q : Nat) (hq : q < F.entries.length) :
    F.bytes.getD (26 + q) 0 = F.entries.getD q 0 := by
  unfold V1Frame.bytes
  rw [List.getD_append_right _ _ _ _ (by rw [V1Frame.header_length]; omega),
    V1Frame.header_length, Nat.add_sub_cancel_left, List.getD_append _ _ _ _ hq]

theorem V1Frame.bytes_vectorHeader (F : V1Frame) (q : Nat) (hq : q < 4) :
    F.bytes.getD (26 + F.entries.length + q) 0 = F.vectorHeader.getD q 0 := by
  unfold V1Frame.bytes
  rw [List.getD_append_right _ _ _ _ (by rw [V1Frame.header_length]; omega),
    V1Frame.header_length, List.getD_append_right _ _ _ _ (by omega),
    show 26 + F.entries.length + q - 26 - F.entries.length = q by omega,
    List.getD_append _ _ _ _ (by simpa [V1Frame.vectorHeader] using hq)]

theorem V1Frame.bytes_indices (F : V1Frame) (q : Nat) :
    F.bytes.getD (30 + F.entries.length + q) 0 = F.indices.getD q 0 := by
  unfold V1Frame.bytes
  rw [List.getD_append_right _ _ _ _ (by rw [V1Frame.header_length]; omega),
    V1Frame.header_length, List.getD_append_right _ _ _ _ (by omega),
    List.getD_append_right _ _ _ _ (by simp [V1Frame.vectorHeader]; omega)]
  congr 1
  simp [V1Frame.vectorHeader]
  omega

theorem inheritCodebooks_zero (fr : CinepakFrame) : inheritCodebooks fr 0 = fr := by
  simp only [inheritCodebooks]
  rw [if_neg (fun h => absurd h.1 (by decide))]

theorem decodeStrip_zero (fuel : Nat) (s : DecState) :
    decodeStrip fuel 0 s =
      match chunkLoop fuel 0 (ftell (readStripHeader s 0).input % 4294967296) fuel
          (readStripHeader s 0) with
      | none => none
      | some (.stop s2) => some (.stop s2)
      | some (.next s2) =>
        some (.next { s2 with dec := { s2.dec with y := (s2.dec.curFrame.strips 0).bottom } }) := by
  simp only [decodeStrip, inheritCodebooks_zero]
  rfl

theorem specEntry_bytes (F : V1Frame) (hv : F.Valid) (e : Bool) (j : Nat) (hj : j < 256) :
    specEntry (skipBytes ⟨F.bytes, 26, e⟩ (entryWidth F.chunkID * j)) (entryWidth F.chunkID)
      = F.entry j := by
  have hlen := F.bytes_length hv
  obtain ⟨-, he, -, -, -, -⟩ := hv
  have hn : entryWidth F.chunkID = 4 ∨ entryWidth F.chunkID = 6 := entryWidth_cases _
  have hjn : entryWidth F.chunkID * j + entryWidth F.chunkID ≤ 256 * entryWidth F.chunkID := by
    have : entryWidth F.chunkID * (j + 1) ≤ entryWidth F.chunkID * 256 :=
      Nat.mul_le_mul_left _ (by omega)
    rw [Nat.mul_add, Nat.mul_one] at this
    omega
  generalize hnj : entryWidth F.chunkID * j = nj at *
  have hb : ∀ q, q < entryWidth F.chunkID →
      byteAt (skipBytes ⟨F.bytes, 26, e⟩ nj) q = F.entries.getD (nj + q) 0 % 256 := by
    intro q hq
    rw [byteAt_skipBytes, byteAt_of_lt _ _ (by simp only; omega)]
    simp only
    rw [← Nat.add_assoc, Nat.add_assoc 26, F.bytes_entries _ (by omega)]
  unfold specEntry V1Frame.entry
  rw [hnj]
  rcases hn with h | h
  · rw [h] at hb ⊢
    rw [hb 0 (by omega), hb 1 (by omega), hb 2 (by omega), hb 3 (by omega)]
    simp
  · rw [h] at hb ⊢
    rw [hb 0 (by omega), hb 1 (by omega), hb 2 (by omega), hb 3 (by omega), hb 4 (by omega),
      hb 5 (by omega)]
    simp

theorem V1Frame.header_values (F : V1Frame) (hv : F.Valid) :
    let f0 : Stream := ⟨F.bytes, 0, false⟩
    byteAt f0 4 * 256 + byteAt f0 5 = 4 * F.bw ∧
    byteAt f0 6 * 256 + byteAt f0 7 = 4 * F.bh ∧
    byteAt f0 8 * 256 + byteAt f0 9 = 1 ∧
    byteAt f0 12 * 256 + byteAt f0 13 = F.stripLength ∧
    byteAt f0 18 * 256 + byteAt f0 19 = 4 * F.bh ∧
    byteAt f0 22 = F.chunkID ∧
    byteAt f0 23 * 65536 + (byteAt f0 24 * 256 + byteAt f0 25)
      = 4 + entryWidth F.chunkID * 256 := by
  have hlen := F.bytes_length hv
  obtain ⟨hcid, -, -, hbw, hbh, hL⟩ := hv
  have hn : entryWidth F.chunkID = 4 ∨ entryWidth F.chunkID = 6 := entryWidth_cases _
  intro f0
  have hb : ∀ q, q < 26 → byteAt f0 q = F.header.getD q 0 % 256 := by
    intro q hq
    rw [byteAt_of_lt f0 q (by simp only [f0]; omega)]
    simp only [f0, Nat.zero_add]
    rw [F.bytes_header q hq]
  rw [hb 4 (by omega), hb 5 (by omega), hb 6 (by omega), hb 7 (by omega), hb 8 (by omega),
    hb 9 (by omega), hb 12 (by omega), hb 13 (by omega), hb 18 (by omega), hb 19 (by omega),
    hb 22 (by omega), hb 23 (by omega), hb 24 (by omega), hb 25 (by omega)]
  simp only [V1Frame.header, List.getD_cons_succ, List.getD_cons_zero]
  unfold V1Frame.stripLength at hL ⊢
  generalize F.bw * F.bh = N at *
  refine ⟨by omega, by omega, ?_, by omega, by omega, ?_, ?_⟩
  · trivial
  · rcases hcid with h | h <;> rw [h]
  · rcases hn with h | h <;> rw [h]

theorem V1Frame.vector_values (F : V1Frame) (hv : F.Valid) :
    let f : Stream := ⟨F.bytes, 26 + entryWidth F.chunkID * 256, false⟩
    byteAt f 0 = 0x32 ∧
    byteAt f 1 * 65536 + (byteAt f 2 * 256 + byteAt f 3) = 4 + F.bh * F.bw := by
  have hlen := F.bytes_length hv
  obtain ⟨-, he, -, hbw, hbh, hL⟩ := hv
  intro f
  have hb : ∀ q, q < 4 → byteAt f q = F.vectorHeader.getD q 0 % 256 := by
    intro q hq
    rw [byteAt_of_lt f q (by simp only [f]; omega)]
    simp only [f]
    rw [show 26 + entryWidth F.chunkID * 256 + q = 26 + F.entries.length + q by omega,
      F.bytes_vectorHeader q hq]
  rw [hb 0 (by omega), hb 1 (by omega), hb 2 (by omega), hb 3 (by omega)]
  simp only [V1Frame.vectorHeader, List.getD_cons_succ, List.getD_cons_zero]
  unfold V1Frame.stripLength at hL
  rw [Nat.mul_comm F.bh F.bw]
  generalize F.bw * F.bh = N at *
  constructor
  · trivial
  · omega

/-- C3: for every well-formed single-strip frame (whatever its flags byte, so in
particular with flag bit 0 set) of width `4 * bw` and height `4 * bh` whose
strip holds one complete unconditional V1 codebook chunk (0x22 or 0x26) and
then one V1-only vector chunk (0x32) with one index byte per block,
`decodeImage` returns, prints nothing, and leaves a raster in which byte `k` of
pixel `(x, y)`, at offset `(y * width + x) * 3 + k`, is byte `k` of the
(B, G, R) result of `CPYUV2RGB` applied to luma quadrant
`((y % 4) / 2) * 2 + (x % 4) / 2` and the chroma pair of the V1 entry selected
by the index byte of the pixel's own block `(y / 4) * bw + x / 4`. -/
theorem decodeImage_V1only_frame (F : V1Frame) (hv : F.Valid) (d : CinepakDecoder) (fuel : Nat)
    (hfuel : 2 ≤ fuel ∧ F.bw ≤ fuel ∧ F.bh ≤ fuel) :
    ∃ r, decodeImage fuel ⟨F.bytes, 0, false⟩ d = some r ∧ r.out = [] ∧
      r.dec.getWidth = 4 * F.bw ∧ r.dec.getHeight = 4 * F.bh ∧
      ∀ x < 4 * F.bw, ∀ y < 4 * F.bh, ∀ k < 3,
        r.dec.curFrame.surface.mem ((y * (4 * F.bw) + x) * 3 + k) =
          bgr (CPYUV2RGB
            ((F.entry (F.indices.getD ((y / 4) * F.bw + x / 4) 0 % 256)).y
              (((y % 4) / 2) * 2 + (x % 4) / 2))
            (F.entry (F.indices.getD ((y / 4) * F.bw + x / 4) 0 % 256)).u
            (F.entry (F.indices.getD ((y / 4) * F.bw + x / 4) 0 % 256)).v) k := by
  have hlen := F.bytes_length hv
  obtain ⟨hW, hH, hC, hLen, hB, hID, hSize1⟩ := F.header_values hv
  obtain ⟨hID2, hSize2⟩ := F.vector_values hv
  have hspec := specEntry_bytes F hv false
  obtain ⟨hcid, he, hi, hbw, hbh, hL⟩ := hv
  have hn : entryWidth F.chunkID = 4 ∨ entryWidth F.chunkID = 6 := entryWidth_cases _
  have hNM : 3 * ((0 + 4 * F.bh) * (4 * F.bw)) ≤ 4294967296 := by
    have e : (0 + 4 * F.bh) * (4 * F.bw) = 16 * (F.bw * F.bh) := by ring
    rw [e]
    unfold V1Frame.stripLength at hL
    omega
  unfold V1Frame.stripLength at hL hLen
  obtain ⟨fk, rfl⟩ : ∃ fk, fuel = fk + 2 := ⟨fuel - 2, by omega⟩
  generalize hf0 : (⟨F.bytes, 0, false⟩ : Stream) = f0 at *
  have hsk : ∀ q, q ≤ F.bytes.length → skipBytes f0 q = ⟨F.bytes, q, false⟩ := by
    intro q hq
    rw [← hf0, skipBytes_of_le _ q (by simpa using hq)]
    simp
  -- frame header
  obtain ⟨h0in, -, h0w, h0h, h0c, -, h0su, h0y, h0out, -⟩ := readFrameHeader_eq f0 d
  rw [hW] at h0w
  rw [hH] at h0h
  rw [hC] at h0c
  unfold decodeImage
  generalize readFrameHeader f0 d = s0 at *
  simp only [h0c, stripLoop]
  rw [decodeStrip_zero]
  -- strip header
  obtain ⟨h1in, h1len, h1top, h1left, h1bot, h1right, h1w, h1h, -, h1su, -, h1out⟩ :=
    readStripHeader_eq s0 0
  rw [h0in, skipBytes_add] at h1in
  simp only [h0in, byteAt_skipBytes] at h1len h1bot
  rw [hLen] at h1len
  rw [hB, h0y] at h1bot
  rw [h0y] at h1top
  rw [h0w] at h1right h1w
  rw [h0h] at h1h
  rw [h0su] at h1su
  rw [h0out] at h1out
  generalize readStripHeader s0 0 = s1 at *
  have hpos1 : ftell s1.input % 4294967296 = 22 := by
    rw [h1in, hsk 22 (by omega)]
    rfl
  rw [hpos1]
  have hlen1 : (22 + (s1.dec.curFrame.strips 0).length) % 4294967296
      = 30 + 256 * entryWidth F.chunkID + F.bw * F.bh := by
    rw [h1len]
    omega
  -- first chunk: the codebook
  have hs1 : s1.input = ⟨F.bytes, 22, false⟩ := by rw [h1in, hsk 22 (by omega)]
  have hb0 : byteAt s1.input 0 = F.chunkID := by rw [h1in, byteAt_skipBytes]; exact hID
  obtain ⟨s2, hbody1, h2in, h2fr, -, h2out, -⟩ := chunkBody_V1_codebook_exact (fk + 2) 0 s1 256
    (by rw [hb0]; exact hcid)
    (by rw [hb0, h1in]; simp only [byteAt_skipBytes]; exact hSize1)
    (Nat.le_refl _)
    (by rw [hb0, hs1]; simp only; omega)
    (by rw [hs1])
    (by rw [hb0, hs1]; simp only; omega)
  rw [hb0] at h2in h2fr
  rw [h1in, skipBytes_add, hsk _ (by omega)] at h2fr
  rw [h1in, skipBytes_add, hsk _ (by omega)] at h2in
  have hload := loadCodebook_uncond_exact ⟨F.bytes, 22 + 4, false⟩ s1.dec.curFrame 0 1 F.chunkID
    256 (by rcases hcid with h | h <;> rw [h] <;> decide) (Nat.le_refl _)
    (by simp only; omega) (by simp only; omega)
  obtain ⟨-, h2w, h2h, -, h2su, h2geo⟩ := loadCodebook_frame ⟨F.bytes, 22 + 4, false⟩
    s1.dec.curFrame 0 1 F.chunkID (entryWidth F.chunkID * 256)
  obtain ⟨h2len, h2top, h2bot, h2left, h2right⟩ := h2geo 0
  have htab := hload.2
  generalize loadCodebook ⟨F.bytes, 22 + 4, false⟩ s1.dec.curFrame 0 1 F.chunkID
    (entryWidth F.chunkID * 256) = L at *
  rw [← h2fr] at h2w h2h h2su h2len h2top h2bot h2left h2right htab
  rw [h1w] at h2w
  rw [h1h] at h2h
  rw [h1su] at h2su
  rw [h1len] at h2len
  rw [h1top] at h2top
  rw [h1bot] at h2bot
  rw [h1left] at h2left
  rw [h1right] at h2right
  rw [h1out] at h2out
  rw [chunkLoop_step (fk + 2) 0 22 (fk + 1) s1 (by rw [hlen1, hs1]; simp only [ftell]; omega)
    (by rw [hs1]; rfl), hbody1]
  simp only []
  -- second chunk: the vectors
  have hs2 : s2.input = ⟨F.bytes, 26 + entryWidth F.chunkID * 256, false⟩ := by
    rw [h2in, show 10 + 12 + (4 + entryWidth F.chunkID * 256)
      = 26 + entryWidth F.chunkID * 256 by omega]
  have hlen2 : (22 + (s2.dec.curFrame.strips 0).length) % 4294967296
      = 30 + 256 * entryWidth F.chunkID + F.bw * F.bh := by
    rw [h2len]
    omega
  obtain ⟨s3, hbody2, h3in, h3st, -, h3w, h3h, -, h3mem, -, h3out, -⟩ :=
    chunkBody_V1only_exact (fk + 2) 0 s2 F.bw F.bh
      (by rw [hs2]; exact hID2)
      (by rw [hs2]; exact hSize2)
      ⟨hfuel.2.1, hfuel.2.2⟩
      (by rw [h2right, h2left]; omega)
      (by rw [h2left]; omega)
      (fun _ => by rw [h2right, h2left]; omega)
      (by rw [h2bot, h2top]; omega)
      (by rw [h2top]; omega)
      (fun _ => by rw [h2bot, h2top]; omega)
      (by rw [hs2]; simp only; rw [Nat.mul_comm F.bh]; omega)
      (by rw [hs2])
      (by rw [hs2]; simp only; rw [Nat.mul_comm F.bh]; omega)
  rw [chunkLoop_step (fk + 2) 0 22 fk s2 (by rw [hlen2, hs2]; simp only [ftell]; omega)
    (by rw [hs2]; rfl), hbody2]
  simp only []
  have hs3 : s3.input = ⟨F.bytes, 30 + 256 * entryWidth F.chunkID + F.bw * F.bh, false⟩ := by
    rw [h3in, hs2, skipBytes_of_le _ _ (by simp only; rw [Nat.mul_comm F.bh]; omega)]
    simp only [Stream.mk.injEq, and_true, true_and]
    rw [Nat.mul_comm F.bh]
    omega
  have hlen3 : (22 + (s3.dec.curFrame.strips 0).length) % 4294967296
      = 30 + 256 * entryWidth F.chunkID + F.bw * F.bh := by
    rw [h3st, h2len]
    omega
  rw [chunkLoop_done (fk + 2) 0 22 fk s3 (by rw [hlen3, hs3]; simp only [ftell]; omega)]
  simp only []
  refine ⟨_, rfl, ?_, ?_, ?_, ?_⟩
  · show s3.out = []
    rw [h3out, h2out]
  · show s3.dec.curFrame.width = 4 * F.bw
    rw [h3w, h2w]
  · show s3.dec.curFrame.height = 4 * F.bh
    rw [h3h, h2h]
  · intro x hx y hy k hk
    show s3.dec.curFrame.surface.mem ((y * (4 * F.bw) + x) * 3 + k) = _
    rw [h3mem, h2left, h2top, h2w, hs2]
    have hxy : (y * (4 * F.bw) + x) * 3 + k
        = 3 * ((0 + 4 * (y / 4) + y % 4) * (4 * F.bw) + 4 * (x / 4) + x % 4) + k := by
      have e1 : 0 + 4 * (y / 4) + y % 4 = y := by omega
      have e2 : 4 * (x / 4) + x % 4 = x := by omega
      rw [e1, Nat.add_assoc, e2]
      omega
    rw [hxy, rowsWritesV1_replay _ (4 * F.bw) F.bw F.bh 0 _ _ rfl (by omega) hNM
      (y / 4) (x / 4) (y % 4) (x % 4) k (by omega) (by omega) (by omega) (by omega) hk]
    have hidx : byteAt (skipBytes ⟨F.bytes, 26 + entryWidth F.chunkID * 256, false⟩ 4)
        (y / 4 * F.bw + x / 4) = F.indices.getD (y / 4 * F.bw + x / 4) 0 % 256 := by
      have hlt : y / 4 * F.bw + x / 4 < F.bw * F.bh := by
        have h1 : y / 4 + 1 ≤ F.bh := by omega
        have h2 : (y / 4 + 1) * F.bw ≤ F.bh * F.bw := Nat.mul_le_mul_right _ h1
        rw [Nat.add_mul, Nat.one_mul, Nat.mul_comm F.bh] at h2
        omega
      rw [byteAt_skipBytes, byteAt_of_lt _ _ (by simp only; omega)]
      simp only
      rw [show 26 + entryWidth F.chunkID * 256 + (4 + (y / 4 * F.bw + x / 4))
        = 30 + F.entries.length + (y / 4 * F.bw + x / 4) by omega, F.bytes_indices]
    rw [hidx]
    have hv1 : ∀ j < 256, (s2.dec.curFrame.strips 0).v1_codebook j = F.entry j := by
      intro j hj
      have := htab j
      rw [if_pos hj] at this
      rw [← hspec j hj, ← this]
      rfl
    rw [hv1 _ (Nat.mod_lt _ (by decide))]

set_option maxRecDepth 20000 in
/-- Witness for `decodeImage_V1only_frame`: the one-block frame
`exampleV1Frame` on a fresh decoder. -/
theorem decodeImage_V1only_frame_witness :
    exampleV1Frame.Valid ∧
    ∃ r, decodeImage 2 ⟨exampleV1Frame.bytes, 0, false⟩ (CinepakDecoder.new exampleFrame) = some r ∧
      r.out = [] ∧ r.dec.getWidth = 4 * exampleV1Frame.bw :=
  have hv : exampleV1Frame.Valid := by unfold V1Frame.Valid; decide
  let ⟨r, h1, h2, h3, _⟩ := decodeImage_V1only_frame exampleV1Frame hv
    (CinepakDecoder.new exampleFrame) 2 (by decide)
  ⟨hv, r, h1, h2, h3⟩


/-! ### Loops of the frame and the vector decoder -/

theorem decodeImage_of_stripLoop (fuel : Nat) (f : Stream) (d : CinepakDecoder)
    (fl : Flow DecState)
    (h : stripLoop fuel (readFrameHeader f d).dec.curFrame.stripCount 0 (readFrameHeader f d)
      = some fl) :
    decodeImage fuel f d = some fl.state := by
  unfold decodeImage
  simp only [h]

theorem stripLoop_succ (fuel n i : Nat) (s : DecState) :
    stripLoop fuel (n + 1) i s =
      match decodeStrip fuel i s with
      | none => none
      | some (.stop s1) => some (.stop s1)
      | some (.next s1) => stripLoop fuel n (i + 1) s1 := rfl

theorem decodeStrip_eq (fuel i : Nat) (s : DecState) :
    decodeStrip fuel i s =
      match chunkLoop fuel i
          (ftell (readStripHeader (s.withFrame s.input (inheritCodebooks s.dec.curFrame i)) i).input
            % 4294967296) fuel
          (readStripHeader (s.withFrame s.input (inheritCodebooks s.dec.curFrame i)) i) with
      | none => none
      | some (.stop s2) => some (.stop s2)
      | some (.next s2) =>
        some (.next { s2 with dec := { s2.dec with y := (s2.dec.curFrame.strips i).bottom } }) :=
  rfl

theorem chunkLoop_step_pos (fuelV i pos fuel : Nat) (s : DecState) (hf : 0 < fuel)
    (h : ftell s.input < (pos + (s.dec.curFrame.strips i).length) % 4294967296)
    (he : feof s.input = false) :
    chunkLoop fuelV i pos fuel s =
      match chunkBody fuelV i s with
      | none => none
      | some (.stop s1, _) => some (.stop s1)
      | some (.next s1, true) => some (.next s1)
      | some (.next s1, false) => chunkLoop fuelV i pos (fuel - 1) s1 := by
  obtain ⟨k, rfl⟩ : ∃ k, fuel = k + 1 := ⟨fuel - 1, by omega⟩
  exact chunkLoop_step fuelV i pos k s h he

/-- A block whose flag bit is 0 in a chunk with a skip-flag stream: the
iteration consumes nothing but the flag bit and leaves the raster alone. -/
theorem decodeVectorsBlock_skipped (st : CinepakStrip) (chunkID chunkSize startPos : Nat)
    (s s1 : VecState) (hc : chunkID &&& 0x01 ≠ 0)
    (hf : decodeVectorsSkip chunkID chunkSize startPos s = .next s1)
    (hbit : s1.flag &&& s1.mask = 0) :
    decodeVectorsBlock st chunkID chunkSize startPos s = .next s1.advance ∧
    s1.surface = s.surface ∧ s1.iy = s.iy := by
  constructor
  · simp only [decodeVectorsBlock, hf]
    rw [if_neg]
    rintro (h | h)
    · exact hc h
    · exact h hbit
  · have hk := decodeVectorsFlag_keeps chunkSize startPos s
    simp only [decodeVectorsSkip] at hf
    rw [if_pos hc] at hf
    rw [hf] at hk
    simp only [Flow.state] at hk
    exact ⟨hk.1, VecState.iy_congr s s1 hk.2.1 hk.2.2.1 hk.2.2.2.1 hk.2.2.2.2⟩

theorem decodeVectorsRow_succ (st : CinepakStrip) (chunkID chunkSize startPos fuel x : Nat)
    (s : VecState) (hx : x < st.right) :
    decodeVectorsRow st chunkID chunkSize startPos (fuel + 1) x s =
      match decodeVectorsBlock st chunkID chunkSize startPos s with
      | .stop s1 => some (.stop s1)
      | .next s1 => decodeVectorsRow st chunkID chunkSize startPos fuel ((x + 4) % 65536) s1 := by
  simp only [decodeVectorsRow]
  (rw [if_pos hx]; try rfl)

theorem decodeVectorsRow_done (st : CinepakStrip) (chunkID chunkSize startPos fuel x : Nat)
    (s : VecState) (hx : ¬ x < st.right) :
    decodeVectorsRow st chunkID chunkSize startPos fuel x s = some (.next s) := by
  cases fuel with
  | zero => simp only [decodeVectorsRow]; rw [if_neg hx]
  | succ fuel => simp only [decodeVectorsRow]; rw [if_neg hx]

theorem decodeVectorsRows_succ (st : CinepakStrip)
    (width chunkID chunkSize startPos fuelX fuel y : Nat) (s : VecState) (hy : y < st.bottom) :
    decodeVectorsRows st width chunkID chunkSize startPos fuelX (fuel + 1) y s =
      match decodeVectorsRow st chunkID chunkSize startPos fuelX st.left
          (s.setRows st width y) with
      | none => none
      | some (.stop s1) => some (.stop s1)
      | some (.next s1) =>
        decodeVectorsRows st width chunkID chunkSize startPos fuelX fuel ((y + 4) % 65536) s1 := by
  simp only [decodeVectorsRows]
  (rw [if_pos hy]; try rfl)

theorem decodeVectorsRows_done (st : CinepakStrip)
    (width chunkID chunkSize startPos fuelX fuel y : Nat) (s : VecState) (hy : ¬ y < st.bottom) :
    decodeVectorsRows st width chunkID chunkSize startPos fuelX fuel y s = some (.next s) := by
  cases fuel with
  | zero => simp only [decodeVectorsRows]; rw [if_neg hy]
  | succ fuel => simp only [decodeVectorsRows]; rw [if_neg hy]

/-- A chunk with ID 0x31 on a strip of one row group of two blocks whose flag
word is 0: both blocks are skipped, only the flag word is consumed. -/
theorem decodeVectors_two_skipped (fuel : Nat) (f f' : Stream) (fr : CinepakFrame)
    (i chunkSize : Nat) (hfuel : 2 ≤ fuel)
    (hleft : (fr.strips i).left = 0) (hright : (fr.strips i).right = 8)
    (hlo : (fr.strips i).top < (fr.strips i).bottom)
    (hhi : (fr.strips i).bottom ≤ (fr.strips i).top + 4)
    (hwrap : (fr.strips i).top + 4 < 65536)
    (hword : readUint32BE f = (0, f'))
    (hroom : (ftell f : Int) - ((ftell f % 4294967296 : Nat) : Int) + 4 ≤ (chunkSize : Int)) :
    decodeVectors fuel f fr i 0x31 chunkSize = some (f', fr) := by
  obtain ⟨fk, rfl⟩ : ∃ fk, fuel = fk + 2 := ⟨fuel - 2, by omega⟩
  generalize hsp : ftell f % 4294967296 = sp at *
  generalize hst : fr.strips i = st at *
  -- first block
  have hskip1 : ∀ s : VecState, s.input = f → s.mask = 0 →
      decodeVectorsSkip 0x31 chunkSize sp s
        = .next { s with input := f', flag := 0, mask := 0x80000000 } := by
    intro s hin hmask
    simp only [decodeVectorsSkip, decodeVectorsFlag, hin, hmask, hword]
    rw [if_pos (by decide), if_pos (by decide), if_neg (by omega)]
  have hskip2 : ∀ s : VecState, s.mask = 0x80000000 →
      decodeVectorsSkip 0x31 chunkSize sp s = .next { s with mask := 0x40000000 } := by
    intro s hmask
    simp only [decodeVectorsSkip, decodeVectorsFlag, hmask]
    rw [if_pos (by decide), if_neg (by decide)]
    rfl
  have hrow : ∀ s : VecState, s.input = f → s.mask = 0 →
      ∃ s', decodeVectorsRow st 0x31 chunkSize sp (fk + 2) 0 s = some (.next s') ∧
        s'.input = f' ∧ s'.surface = s.surface := by
    intro s hin hmask
    obtain ⟨hb1, -, -⟩ := decodeVectorsBlock_skipped st 0x31 chunkSize sp s _ (by decide)
      (hskip1 s hin hmask) (Nat.zero_and _)
    obtain ⟨hb2, -, -⟩ := decodeVectorsBlock_skipped st 0x31 chunkSize sp
      (VecState.advance { s with input := f', flag := 0, mask := 0x80000000 }) _ (by decide)
      (hskip2 _ rfl) (Nat.zero_and _)
    rw [decodeVectorsRow_succ _ _ _ _ _ _ _ (by omega), hb1]
    simp only []
    rw [decodeVectorsRow_succ _ _ _ _ _ _ _ (by rw [hright]; decide), hb2]
    simp only []
    rw [decodeVectorsRow_done _ _ _ _ _ _ _ (by rw [hright]; decide)]
    exact ⟨_, rfl, rfl, rfl⟩
  obtain ⟨s', hr, hin', hsurf'⟩ := hrow ((decodeVectorsInit f fr.surface).setRows st fr.width
    st.top) rfl rfl
  simp only [decodeVectors, hst, hsp]
  rw [decodeVectorsRows_succ _ _ _ _ _ _ _ _ _ hlo, hleft, hr]
  simp only []
  rw [decodeVectorsRows_done _ _ _ _ _ _ _ _ _ (by rw [Nat.mod_eq_of_lt (by omega)]; omega)]
  simp only [Flow.state, hin', hsurf']
  rfl

/-! ### A frame of two strips, end to end -/

theorem inheritCodebooks_frame (fr : CinepakFrame) (i : Nat) :
    (inheritCodebooks fr i).width = fr.width ∧ (inheritCodebooks fr i).height = fr.height ∧
    (inheritCodebooks fr i).surface = fr.surface ∧
    (inheritCodebooks fr i).stripCount = fr.stripCount := by
  simp only [inheritCodebooks]
  split_ifs <;> exact ⟨rfl, rfl, rfl, rfl⟩

theorem endToEndStream_byteAt (h0 : Nat) (h4 : h0 ≤ 4) (e : Bool) (q : Nat) (hq : q < 58) :
    byteAt ⟨endToEndStream h0, 0, e⟩ q = (endToEndStream h0).getD q 0 := by
  rw [byteAt_of_lt _ _ (by simpa [endToEndStream] using hq)]
  simp only [Nat.zero_add]
  interval_cases h0 <;> interval_cases q <;> rfl

/-- C9, end to end: for every decoder state (a fresh decoder in
particular), every fuel of at least 2 and every split of the four rows into a
strip 0 of `h0` rows and a strip 1 of `4 - h0` rows, decoding the two-strip
stream `endToEndStream h0` (width 8, height 4, frame flag bit 0 clear; strip 0
loads V1 entry 0 = (100, 100, 100, 100, u 150, v 150) unconditionally and codes
both blocks as V1 index 0; strip 1 inherits the codebooks and skips both blocks)
returns, prints nothing, and leaves every pixel of the 8x4 raster equal to
`CPYUV2RGB 100 150 150`, stored as b, g, r. -/
theorem decodeImage_endToEnd (h0 : Nat) (h1 : 1 ≤ h0) (h4 : h0 ≤ 3) (d : CinepakDecoder)
    (fuel : Nat) (hfuel : 2 ≤ fuel) :
    ∃ r, decodeImage fuel ⟨endToEndStream h0, 0, false⟩ d = some r ∧ r.out = [] ∧
      r.dec.getWidth = 8 ∧ r.dec.getHeight = 4 ∧
      ∀ x < 8, ∀ y < 4, ∀ k < 3,
        r.dec.curFrame.surface.mem ((y * 8 + x) * 3 + k) = bgr (CPYUV2RGB 100 150 150) k := by
  have hxy : ∀ x y k : Nat, (y * 8 + x) * 3 + k
      = 3 * ((0 + 4 * 0 + y) * 8 + 4 * (x / 4) + x % 4) + k := by
    intro x y k
    omega
  have hx4 : ∀ x : Nat, x < 8 → x / 4 < 2 ∧ x % 4 < 4 := by
    intro x hx
    omega
  have hy100 : ∀ q, CinepakCodebook.y ⟨100, 100, 100, 100, 150, 150⟩ q = 100 := by
    intro q
    rcases q with _ | _ | _ | q <;> rfl
  have a1 : h0 % 65536 = h0 := by omega
  have a2 : (h0 + (0 * 256 + (4 - h0))) % 4294967296 % 65536 = 4 := by omega
  have a3 : (0 + (0 * 256 + h0)) % 4294967296 % 65536 = h0 := by omega
  have a4 : h0 ≤ 0 + 4 * 1 := by omega
  have a5 : 0 + 4 * (1 - 1) < h0 := by omega
  have a6 : h0 < 4 := by omega
  have a7 : 4 ≤ h0 + 4 := by omega
  have a8 : h0 + 4 < 65536 := by omega
  have hlen : (endToEndStream h0).length = 58 := rfl
  have hb := endToEndStream_byteAt h0 (by omega) false
  have f1 : 0 < fuel := by omega
  have f2 : 0 < fuel - 1 := by omega
  have f3 : 1 ≤ fuel := by omega
  generalize hf0 : (⟨endToEndStream h0, 0, false⟩ : Stream) = f0 at *
  have hsk : ∀ q, q ≤ 58 → skipBytes f0 q = ⟨endToEndStream h0, q, false⟩ := by
    intro q hq
    rw [← hf0, skipBytes_of_le _ q (by simpa [hlen] using hq)]
    simp
  have hget : ∀ q, q < 58 → q ≠ 19 → q ≠ 47 →
      byteAt f0 q = (endToEndStream 0).getD q 0 := by
    intro q hq h19 h47
    rw [hb q hq]
    interval_cases q <;> first | rfl | omega
  have hget19 : byteAt f0 19 = h0 := by rw [hb 19 (by omega)]; rfl
  have hget47 : byteAt f0 47 = 4 - h0 := by rw [hb 47 (by omega)]; rfl
  have hv : ∀ q v, q < 58 → q ≠ 19 → q ≠ 47 → (endToEndStream 0).getD q 0 = v →
      byteAt f0 q = v := fun q v a b c e => (hget q a b c).trans e
  -- frame header
  obtain ⟨h0in, h0fl, h0w, h0h, h0c, -, h0su, h0y, h0out, -⟩ := readFrameHeader_eq f0 d
  rw [hv 0 0 (by decide) (by decide) (by decide) rfl] at h0fl
  rw [hv 4 0 (by decide) (by decide) (by decide) rfl, hv 5 8 (by decide) (by decide) (by decide) rfl]
    at h0w
  rw [hv 6 0 (by decide) (by decide) (by decide) rfl, hv 7 4 (by decide) (by decide) (by decide) rfl]
    at h0h
  rw [hv 8 0 (by decide) (by decide) (by decide) rfl, hv 9 2 (by decide) (by decide) (by decide) rfl]
    at h0c
  -- strip 0: header
  obtain ⟨h1in, h1len, h1top, h1left, h1bot, h1right, h1w, h1h, -, h1su, -, h1out⟩ :=
    readStripHeader_eq (readFrameHeader f0 d) 0
  rw [h0in, skipBytes_add] at h1in
  simp only [h0in, byteAt_skipBytes] at h1len h1bot
  rw [hv 12 0 (by decide) (by decide) (by decide) rfl,
    hv 13 28 (by decide) (by decide) (by decide) rfl] at h1len
  rw [hv 18 0 (by decide) (by decide) (by decide) rfl, hget19, h0y] at h1bot
  rw [h0y] at h1top
  rw [h0w] at h1right h1w
  rw [h0h] at h1h
  rw [h0su] at h1su
  rw [h0out] at h1out
  have hstrip := decodeStrip_zero fuel (readFrameHeader f0 d)
  generalize readStripHeader (readFrameHeader f0 d) 0 = s1 at *
  have h1len : (s1.dec.curFrame.strips 0).length = 16 := h1len
  have h1bot : (s1.dec.curFrame.strips 0).bottom = h0 := by rw [h1bot]; exact a3
  have h1top : (s1.dec.curFrame.strips 0).top = 0 := h1top
  have h1right : (s1.dec.curFrame.strips 0).right = 8 := h1right
  have h1w : s1.dec.curFrame.width = 8 := h1w
  have h1h : s1.dec.curFrame.height = 4 := h1h
  have hs1 : s1.input = ⟨endToEndStream h0, 22, false⟩ := by rw [h1in, hsk 22 (by decide)]
  have hew : entryWidth 0x22 = 6 := by decide
  -- strip 0, first chunk: the codebook
  have hb0 : byteAt s1.input 0 = 0x22 := by
    rw [h1in, byteAt_skipBytes]; exact hv 22 0x22 (by decide) (by decide) (by decide) rfl
  obtain ⟨s2, hbody1, h2in, h2fr, h2y, h2out, -⟩ := chunkBody_V1_codebook_exact fuel 0 s1 1
    (by rw [hb0]; exact Or.inl rfl)
    (by
      rw [hb0, h1in]; simp only [byteAt_skipBytes]
      rw [hv (10 + 12 + 1) 0 (by decide) (by decide) (by decide) rfl,
        hv (10 + 12 + 2) 0 (by decide) (by decide) (by decide) rfl,
        hv (10 + 12 + 3) 10 (by decide) (by decide) (by decide) rfl, hew])
    (by omega)
    (by rw [hb0, hs1, hew]; simp only; omega)
    (by rw [hs1])
    (by rw [hb0, hs1, hew]; simp only; omega)
  rw [hb0, hew] at h2in h2fr
  rw [h1in, skipBytes_add, hsk _ (by omega)] at h2fr
  rw [h1in, skipBytes_add, hsk _ (by omega)] at h2in
  have hload := loadCodebook_uncond_exact ⟨endToEndStream h0, 10 + 12 + 4, false⟩ s1.dec.curFrame
    0 1 0x22 1 (by decide) (by omega) (by rw [hew]; simp only; omega) (by simp only; omega)
  obtain ⟨-, h2w, h2h, -, h2su, h2geo⟩ := loadCodebook_frame
    ⟨endToEndStream h0, 10 + 12 + 4, false⟩ s1.dec.curFrame 0 1 0x22 (6 * 1)
  obtain ⟨h2len, h2top, h2bot, h2left, h2right⟩ := h2geo 0
  have htab := hload.2 0
  rw [hew] at htab
  generalize loadCodebook ⟨endToEndStream h0, 10 + 12 + 4, false⟩ s1.dec.curFrame 0 1 0x22
    (6 * 1) = L at *
  rw [← h2fr] at h2w h2h h2su h2len h2top h2bot h2left h2right htab
  rw [h1w] at h2w
  rw [h1h] at h2h
  rw [h1su] at h2su
  rw [h1len] at h2len
  rw [h1top] at h2top
  rw [h1bot] at h2bot
  rw [h1left] at h2left
  rw [h1right] at h2right
  rw [h1out] at h2out
  have hentry : (s2.dec.curFrame.strips 0).v1_codebook 0 = ⟨100, 100, 100, 100, 150, 150⟩ := by
    have hq : ∀ q, byteAt (skipBytes ⟨endToEndStream h0, 10 + 12 + 4, false⟩ (6 * 0)) q
        = byteAt f0 (26 + q) := by
      intro q
      rw [← hsk (10 + 12 + 4) (by decide), skipBytes_add, byteAt_skipBytes]
    rw [if_pos (by decide)] at htab
    simp only [specEntry, hq, if_true] at htab
    rw [hv (26 + 0) 100 (by decide) (by decide) (by decide) rfl,
      hv (26 + 1) 100 (by decide) (by decide) (by decide) rfl,
      hv (26 + 2) 100 (by decide) (by decide) (by decide) rfl,
      hv (26 + 3) 100 (by decide) (by decide) (by decide) rfl,
      hv (26 + 4) 22 (by decide) (by decide) (by decide) rfl,
      hv (26 + 5) 22 (by decide) (by decide) (by decide) rfl] at htab
    exact htab
  have hpos1 : ftell s1.input % 4294967296 = 22 := by rw [hs1]; rfl
  rw [hpos1] at hstrip
  rw [chunkLoop_step_pos fuel 0 22 fuel s1 f1 (by rw [h1len, hs1]; simp only [ftell]; omega)
    (by rw [hs1]; rfl), hbody1] at hstrip
  simp only [] at hstrip
  -- strip 0, second chunk: the vectors
  have hs2 : s2.input = ⟨endToEndStream h0, 32, false⟩ := h2in
  have hb2 : ∀ q, byteAt s2.input q = byteAt f0 (32 + q) := by
    intro q
    rw [hs2, ← hsk 32 (by decide), byteAt_skipBytes]
  obtain ⟨s3, hbody2, h3in, h3st, -, h3w, h3h, -, h3mem, h3y, h3out, -⟩ :=
    chunkBody_V1only_exact fuel 0 s2 2 1
      (by rw [hb2]; exact hv (32 + 0) 0x32 (by decide) (by decide) (by decide) rfl)
      (by
        rw [hb2, hb2, hb2, hv (32 + 1) 0 (by decide) (by decide) (by decide) rfl,
          hv (32 + 2) 0 (by decide) (by decide) (by decide) rfl,
          hv (32 + 3) 6 (by decide) (by decide) (by decide) rfl])
      ⟨hfuel, f3⟩
      (by rw [h2right, h2left])
      (by rw [h2left]; decide)
      (fun _ => by rw [h2right, h2left]; decide)
      (by rw [h2bot, h2top]; exact a4)
      (by rw [h2top]; decide)
      (fun _ => by rw [h2bot, h2top]; exact a5)
      (by rw [hs2]; simp only [hlen]; omega)
      (by rw [hs2])
      (by rw [hs2]; simp only; omega)
  rw [chunkLoop_step_pos fuel 0 22 (fuel - 1) s2 f2 (by rw [h2len, hs2]; simp only [ftell]; omega)
    (by rw [hs2]; rfl), hbody2] at hstrip
  simp only [] at hstrip
  have hs3 : s3.input = ⟨endToEndStream h0, 38, false⟩ := by
    rw [h3in, hs2, ← hsk 32 (by decide), skipBytes_add, hsk _ (by omega)]
  rw [chunkLoop_done fuel 0 22 (fuel - 1 - 1) s3 (by rw [h3st, h2len, hs3]; simp only [ftell]; omega)] at hstrip
  simp only [] at hstrip
  -- strip 1: header
  obtain ⟨S3, hS3⟩ : ∃ S3 : DecState, DecState.mk s3.input
      ⟨s3.dec.curFrame, (s3.dec.curFrame.strips 0).bottom⟩ s3.out s3.chunks = S3 := ⟨_, rfl⟩
  rw [hS3] at hstrip
  have hS3in : S3.input = s3.input := by rw [← hS3]
  have hS3fr : S3.dec.curFrame = s3.dec.curFrame := by rw [← hS3]
  have hS3y : S3.dec.y = h0 := by rw [← hS3]; show (s3.dec.curFrame.strips 0).bottom = h0; rw [h3st, h2bot]
  have hS3out : S3.out = [] := by rw [← hS3]; show s3.out = []; rw [h3out, h2out]
  have hstrip1 := decodeStrip_eq fuel 1 S3
  obtain ⟨h4in, h4len, h4top, h4left, h4bot, h4right, h4w, h4h, -, h4su, -, h4out⟩ :=
    readStripHeader_eq (S3.withFrame S3.input (inheritCodebooks S3.dec.curFrame 1)) 1
  obtain ⟨hiw, hih, hisu, -⟩ := inheritCodebooks_frame S3.dec.curFrame 1
  have e1 : (S3.withFrame S3.input (inheritCodebooks S3.dec.curFrame 1)).input = s3.input := hS3in
  have e2 : (S3.withFrame S3.input (inheritCodebooks S3.dec.curFrame 1)).dec.y = h0 := hS3y
  have e3 : (S3.withFrame S3.input (inheritCodebooks S3.dec.curFrame 1)).dec.curFrame.width = 8 := by
    show (inheritCodebooks S3.dec.curFrame 1).width = 8
    rw [hiw, hS3fr, h3w, h2w]
  have e4 : (S3.withFrame S3.input (inheritCodebooks S3.dec.curFrame 1)).dec.curFrame.height = 4 := by
    show (inheritCodebooks S3.dec.curFrame 1).height = 4
    rw [hih, hS3fr, h3h, h2h]
  have e5 : (S3.withFrame S3.input (inheritCodebooks S3.dec.curFrame 1)).dec.curFrame.surface
      = s3.dec.curFrame.surface := by
    show (inheritCodebooks S3.dec.curFrame 1).surface = _
    rw [hisu, hS3fr]
  have e6 : (S3.withFrame S3.input (inheritCodebooks S3.dec.curFrame 1)).out = [] := hS3out
  rw [e1] at h4in h4len h4bot
  rw [e2] at h4top h4bot
  rw [e3] at h4right h4w
  rw [e4] at h4h
  rw [e5] at h4su
  rw [e6] at h4out
  rw [hs3, ← hsk 38 (by decide)] at h4in h4len h4bot
  simp only [byteAt_skipBytes, skipBytes_add] at h4in h4len h4bot
  rw [hv (38 + 2) 0 (by decide) (by decide) (by decide) rfl,
    hv (38 + 3) 20 (by decide) (by decide) (by decide) rfl] at h4len
  rw [hv (38 + 8) 0 (by decide) (by decide) (by decide) rfl, hget47] at h4bot
  generalize readStripHeader (S3.withFrame S3.input (inheritCodebooks S3.dec.curFrame 1)) 1 = s4
    at h4in h4len h4top h4left h4bot h4right h4w h4h h4su h4out hstrip1
  have h4len : (s4.dec.curFrame.strips 1).length = 8 := h4len
  have h4top : (s4.dec.curFrame.strips 1).top = h0 := by rw [h4top]; exact a1
  have h4bot : (s4.dec.curFrame.strips 1).bottom = 4 := by rw [h4bot]; exact a2
  have hs4 : s4.input = ⟨endToEndStream h0, 50, false⟩ := by rw [h4in, hsk _ (by decide)]
  have h4right : (s4.dec.curFrame.strips 1).right = 8 := h4right
  have hpos4 : ftell s4.input % 4294967296 = 50 := by rw [hs4]; rfl
  rw [hpos4] at hstrip1
  -- strip 1: the vector chunk
  have hr : ∀ q, q < 58 → readByte ⟨endToEndStream h0, q, false⟩
      = (byteAt f0 q, ⟨endToEndStream h0, q + 1, false⟩) := by
    intro q hq
    rw [readByte_eq, ← hsk q (Nat.le_of_lt hq), skipBytes_add, byteAt_skipBytes, hsk (q + 1) hq,
      Nat.add_zero]
  have hr16 : ∀ q, q + 2 ≤ 58 → readUint16BE ⟨endToEndStream h0, q, false⟩
      = (byteAt f0 q * 256 + byteAt f0 (q + 1), ⟨endToEndStream h0, q + 2, false⟩) := by
    intro q hq
    rw [readUint16BE_eq, ← hsk q (by omega), skipBytes_add, byteAt_skipBytes, byteAt_skipBytes,
      hsk (q + 2) hq, Nat.add_zero]
  have hword : readUint32BE ⟨endToEndStream h0, 54, false⟩
      = (0, ⟨endToEndStream h0, 58, false⟩) := by
    simp only [readUint32BE]
    rw [hr16 54 (by decide)]
    simp only []
    rw [hr16 (54 + 2) (by decide), hv 54 0 (by decide) (by decide) (by decide) rfl,
      hv (54 + 1) 0 (by decide) (by decide) (by decide) rfl,
      hv (54 + 2) 0 (by decide) (by decide) (by decide) rfl,
      hv (54 + 2 + 1) 0 (by decide) (by decide) (by decide) rfl]
    simp
  obtain ⟨S, hdisp, hSin, hSfr, -, hSout, -⟩ := dispatchChunk_vectors fuel 1 0x31
    ((((0 <<< 16) % 4294967296) + (4294967296 + (0 * 256 + 8) - 4)) % 4294967296)
    { s4 with input := ⟨endToEndStream h0, 54, false⟩ }
    (⟨endToEndStream h0, 58, false⟩, s4.dec.curFrame) (Or.inr (Or.inl rfl))
    (decodeVectors_two_skipped fuel _ _ _ 1 _ hfuel h4left h4right
      (by rw [h4top, h4bot]; exact a6) (by rw [h4top, h4bot]; exact a7)
      (by rw [h4top]; exact a8) hword (by simp only [ftell]; decide))
  have hbody := chunkBody_of_dispatch fuel 1 s4 S 0x31 0 (0 * 256 + 8)
    ⟨endToEndStream h0, 51, false⟩ ⟨endToEndStream h0, 52, false⟩ ⟨endToEndStream h0, 54, false⟩
    (by rw [hs4, hr 50 (by decide), hv 50 0x31 (by decide) (by decide) (by decide) rfl])
    rfl
    (by rw [hr 51 (by decide), hv 51 0 (by decide) (by decide) (by decide) rfl])
    (by rw [hr16 52 (by decide), hv 52 0 (by decide) (by decide) (by decide) rfl,
      hv (52 + 1) 8 (by decide) (by decide) (by decide) rfl])
    hdisp
  have hSin : S.input = ⟨endToEndStream h0, 58, false⟩ := hSin
  have hSfr : S.dec.curFrame = s4.dec.curFrame := hSfr
  have hSout : S.out = [] := hSout.trans h4out
  rw [if_neg (fun h => h (by rw [hSin]; rfl))] at hbody
  rw [chunkLoop_step_pos fuel 1 50 fuel s4 f1 (by rw [h4len, hs4]; simp only [ftell]; decide)
    (by rw [hs4]; rfl), hbody] at hstrip1
  simp only [] at hstrip1
  rw [chunkLoop_done fuel 1 50 (fuel - 1) S (by rw [hSfr, h4len, hSin]; simp only [ftell]; decide)]
    at hstrip1
  simp only [] at hstrip1
  have hloop : stripLoop fuel (0 * 256 + 2) 0 (readFrameHeader f0 d)
      = some (.next ⟨S.input, ⟨S.dec.curFrame, (S.dec.curFrame.strips 1).bottom⟩, S.out,
          S.chunks⟩) := by
    show stripLoop fuel (1 + 1) 0 (readFrameHeader f0 d) = _
    rw [stripLoop_succ, hstrip]
    simp only []
    rw [stripLoop_succ, hstrip1]
    rfl
  rw [← h0c] at hloop
  refine ⟨_, decodeImage_of_stripLoop _ _ _ _ hloop, hSout, ?_, ?_, ?_⟩
  · show S.dec.curFrame.width = 8
    rw [hSfr, h4w]
  · show S.dec.curFrame.height = 4
    rw [hSfr, h4h]
  · intro x hx y hy k hk
    show S.dec.curFrame.surface.mem ((y * 8 + x) * 3 + k) = _
    rw [hSfr, h4su, h3mem, h2left, h2top, h2w, hs2]
    have hidx : ∀ j, j < 2 →
        byteAt (skipBytes ⟨endToEndStream h0, 32, false⟩ 4) (0 * 2 + j) = 0 := by
      intro j hj
      rw [← hsk 32 (by decide), skipBytes_add, byteAt_skipBytes]
      interval_cases j
      · exact hv 36 0 (by decide) (by decide) (by decide) rfl
      · exact hv 37 0 (by decide) (by decide) (by decide) rfl
    rw [hxy x y k, rowsWritesV1_replay _ 8 2 1 0 _ _ rfl (by decide) (by decide)
      0 (x / 4) y (x % 4) k (by decide) (hx4 x hx).1 hy (hx4 x hx).2 hk,
      hidx _ (hx4 x hx).1, hentry, hy100]

/-- Witness for `decodeImage_endToEnd`: two strips of two rows each, decoded
by a fresh decoder with fuel 2. -/
theorem decodeImage_endToEnd_witness :
    ∃ r, decodeImage 2 ⟨endToEndStream 2, 0, false⟩ (CinepakDecoder.new exampleFrame) = some r ∧
      r.out = [] ∧ r.dec.getWidth = 8 ∧ r.dec.getHeight = 4 ∧
      r.dec.curFrame.surface.mem ((3 * 8 + 7) * 3 + 2) = bgr (CPYUV2RGB 100 150 150) 2 :=
  let ⟨r, h1, h2, h3, h4, h5⟩ := decodeImage_endToEnd 2 (by decide) (by decide)
    (CinepakDecoder.new exampleFrame) 2 (by decide)
  ⟨r, h1, h2, h3, h4, h5 7 (by decide) 3 (by decide) 2 (by decide)⟩

/-! ### Truncated codebook payload -/

set_option maxRecDepth 20000 in
/-- C13, as the code behaves: a chunk 0x20 whose size field announces one
six-byte entry (`chunkSize = 6`) in a file that ends right after the chunk
header. Every read fails and leaves the position where it is, so the byte
budget test of `loadCodebook` never fires: entry 1, which lies beyond
`min 256 (6 / 6) = 1`, is overwritten (with zero luma and chroma 128). -/
theorem loadCodebook_truncated_stream_overwrites :
    ¬ (1 < min 256 (6 / entryWidth 0x20)) ∧
    ((loadCodebook ⟨[0x20, 0, 0, 10], 4, false⟩ exampleFrame 0 4 0x20 6).2.strips 0).v4_codebook 1
      = ⟨0, 0, 0, 0, 128, 128⟩ ∧
    (exampleFrame.strips 0).v4_codebook 1 ≠ ⟨0, 0, 0, 0, 128, 128⟩ := by
  decide

/-- C13, amended: in unconditional mode (bit 0 of `chunkID` clear), when the
stream really holds the bytes of the entries that fit the budget and the file
position is below 2^32, `loadCodebook` with budget `chunkSize` and entry width
`n = entryWidth chunkID` sets exactly the entries `j < min 256 (chunkSize / n)`,
each completely from its own `n` stream bytes (`specEntry`), leaves every other
entry as it was, and consumes exactly those `n * min 256 (chunkSize / n)`
bytes. -/
theorem loadCodebook_truncated_payload (f : Stream) (fr : CinepakFrame)
    (strip codebookType chunkID chunkSize : Nat) (hc : chunkID &&& 0x01 = 0)
    (havail : f.pos + entryWidth chunkID * min 256 (chunkSize / entryWidth chunkID)
      ≤ f.data.length)
    (hpos : f.pos < 4294967296) :
    (loadCodebook f fr strip codebookType chunkID chunkSize).1
      = skipBytes f (entryWidth chunkID * min 256 (chunkSize / entryWidth chunkID)) ∧
    ∀ j, ((loadCodebook f fr strip codebookType chunkID chunkSize).2.strips strip).table
        codebookType j =
      if j < min 256 (chunkSize / entryWidth chunkID)
      then specEntry (skipBytes f (entryWidth chunkID * j)) (entryWidth chunkID)
      else (fr.strips strip).table codebookType j := by
  have hn : 0 < entryWidth chunkID := by
    rcases entryWidth_cases chunkID with h | h <;> omega
  generalize hm : min 256 (chunkSize / entryWidth chunkID) = m at *
  have hm256 : m ≤ 256 := by rw [← hm]; exact Nat.min_le_left _ _
  have hmq : m ≤ chunkSize / entryWidth chunkID := by rw [← hm]; exact Nat.min_le_right _ _
  have hfit : entryWidth chunkID * m ≤ chunkSize :=
    Nat.le_trans (Nat.mul_le_mul_left _ hmq) (Nat.mul_div_le _ _)
  have hover : m < 256 → chunkSize < entryWidth chunkID * (m + 1) := by
    intro h
    have e : m = chunkSize / entryWidth chunkID := by
      rw [← hm]; rw [← hm] at h; omega
    rw [e]
    exact Nat.lt_mul_div_succ _ hn
  have hft : ∀ j, j ≤ m → ftell (skipBytes f (entryWidth chunkID * j))
      = f.pos + entryWidth chunkID * j := by
    intro j hj
    have : entryWidth chunkID * j ≤ entryWidth chunkID * m := Nat.mul_le_mul_left _ hj
    rw [skipBytes_of_le f _ (by omega)]
    rfl
  have hsp : ftell f % 4294967296 = f.pos := Nat.mod_eq_of_lt hpos
  obtain ⟨-, h2, -, -, h5⟩ := loadCodebookLoop_uncond chunkID
    chunkSize (ftell f % 4294967296) hc f 256 m 0
    (loadCodebookInit f ((fr.strips strip).table codebookType)) hm256
    (by simp [loadCodebookInit, skipBytes])
    (fun j _ hj => by
      rw [hft j (by omega), hsp]
      have : entryWidth chunkID * (j + 1) ≤ entryWidth chunkID * m :=
        Nat.mul_le_mul_left _ (by omega)
      rw [Nat.mul_add, Nat.mul_one] at this
      push_cast
      omega)
    (fun h => by
      have := hover h
      rw [Nat.mul_add, Nat.mul_one] at this
      rw [Nat.zero_add, hft m (Nat.le_refl _), hsp]
      push_cast
      omega)
  rw [Nat.zero_add] at h2
  refine ⟨h2, fun j => ?_⟩
  rw [loadCodebook_table, h5 j]
  simp only [Nat.zero_le, true_and, Nat.zero_add]
  rfl

/-- Witness for `loadCodebook_truncated_payload`: a budget of 8 bytes holds one
six-byte entry; entry 0 is read from the stream, entry 1 keeps its value. -/
theorem loadCodebook_truncated_payload_witness :
    ((loadCodebook ⟨[1, 2, 3, 4, 5, 6, 7, 8, 9], 0, false⟩ exampleFrame 0 4 0x20 8).2.strips 0).table
        4 0 = ⟨1, 2, 3, 4, 133, 134⟩ ∧
    ((loadCodebook ⟨[1, 2, 3, 4, 5, 6, 7, 8, 9], 0, false⟩ exampleFrame 0 4 0x20 8).2.strips 0).table
        4 1 = (exampleFrame.strips 0).table 4 1 :=
  have h := (loadCodebook_truncated_payload ⟨[1, 2, 3, 4, 5, 6, 7, 8, 9], 0, false⟩ exampleFrame
    0 4 0x20 8 (by decide) (by decide) (by decide)).2
  ⟨(h 0).trans (by decide), (h 1).trans (by decide)⟩

/-! ### Chunk dispatch -/

theorem loadCodebook_strips (f : Stream) (fr : CinepakFrame)
    (strip codebookType chunkID chunkSize : Nat) :
    (∀ j, j ≠ strip →
      (loadCodebook f fr strip codebookType chunkID chunkSize).2.strips j = fr.strips j) ∧
    (codebookType = 1 →
      ((loadCodebook f fr strip codebookType chunkID chunkSize).2.strips strip).v4_codebook
        = (fr.strips strip).v4_codebook ∧
      ((loadCodebook f fr strip codebookType chunkID chunkSize).2.strips strip).v1_codebook
        = (loadCodebookLoop chunkID chunkSize (ftell f % 4294967296) 256 0
            (loadCodebookInit f (fr.strips strip).v1_codebook)).state.codebook) ∧
    (codebookType ≠ 1 →
      ((loadCodebook f fr strip codebookType chunkID chunkSize).2.strips strip).v1_codebook
        = (fr.strips strip).v1_codebook ∧
      ((loadCodebook f fr strip codebookType chunkID chunkSize).2.strips strip).v4_codebook
        = (loadCodebookLoop chunkID chunkSize (ftell f % 4294967296) 256 0
            (loadCodebookInit f (fr.strips strip).v4_codebook)).state.codebook) := by
  refine ⟨fun j hj => ?_, fun h => ?_, fun h => ?_⟩
  · simp only [loadCodebook]
    exact Function.update_noteq hj _ _
  · simp only [loadCodebook, Function.update_same, CinepakStrip.table, if_pos h]
    constructor <;> trivial
  · simp only [loadCodebook, Function.update_same, CinepakStrip.table, if_neg h]
    constructor <;> trivial

/-- C15: the `switch` of `decodeImage`. A chunk with ID 0x20, 0x21, 0x24 or
0x25 runs the codebook loader on the V4 table of the current strip `i`, and a
chunk with ID 0x22, 0x23, 0x26 or 0x27 on its V1 table: the table named is the
result of the 256-iteration loop started on its previous contents, the other
table of strip `i` is unchanged, every other strip is unchanged, and the raster
(memory and store log) is unchanged. A vector chunk (0x30, 0x31, 0x32) leaves
all strips, hence every codebook entry, unchanged. -/
theorem dispatchChunk_frame (fuel i chunkID chunkSize : Nat) (s : DecState) :
    ((chunkID = 0x20 ∨ chunkID = 0x21 ∨ chunkID = 0x24 ∨ chunkID = 0x25) →
      ∃ S, dispatchChunk fuel i chunkID chunkSize s = some (.next S) ∧
        (S.dec.curFrame.strips i).v4_codebook
          = (loadCodebookLoop chunkID chunkSize (ftell s.input % 4294967296) 256 0
              (loadCodebookInit s.input (s.dec.curFrame.strips i).v4_codebook)).state.codebook ∧
        (S.dec.curFrame.strips i).v1_codebook = (s.dec.curFrame.strips i).v1_codebook ∧
        (∀ j, j ≠ i → S.dec.curFrame.strips j = s.dec.curFrame.strips j) ∧
        S.dec.curFrame.surface = s.dec.curFrame.surface) ∧
    ((chunkID = 0x22 ∨ chunkID = 0x23 ∨ chunkID = 0x26 ∨ chunkID = 0x27) →
      ∃ S, dispatchChunk fuel i chunkID chunkSize s = some (.next S) ∧
        (S.dec.curFrame.strips i).v1_codebook
          = (loadCodebookLoop chunkID chunkSize (ftell s.input % 4294967296) 256 0
              (loadCodebookInit s.input (s.dec.curFrame.strips i).v1_codebook)).state.codebook ∧
        (S.dec.curFrame.strips i).v4_codebook = (s.dec.curFrame.strips i).v4_codebook ∧
        (∀ j, j ≠ i → S.dec.curFrame.strips j = s.dec.curFrame.strips j) ∧
        S.dec.curFrame.surface = s.dec.curFrame.surface) ∧
    ((chunkID = 0x30 ∨ chunkID = 0x31 ∨ chunkID = 0x32) →
      ∀ fl, dispatchChunk fuel i chunkID chunkSize s = some fl →
        fl.state.dec.curFrame.strips = s.dec.curFrame.strips) := by
  refine ⟨fun h => ?_, fun h => ?_, fun h fl hfl => ?_⟩
  · obtain ⟨S, hS, -, hfr, -⟩ := dispatchChunk_V4_codebook fuel i chunkID chunkSize s h
    obtain ⟨h1, -, h3⟩ := loadCodebook_strips s.input s.dec.curFrame i 4 chunkID chunkSize
    obtain ⟨-, -, -, -, h5, -⟩ := loadCodebook_frame s.input s.dec.curFrame i 4 chunkID chunkSize
    rw [← hfr] at h1 h3 h5
    exact ⟨S, hS, (h3 (by decide)).2, (h3 (by decide)).1, h1, h5⟩
  · obtain ⟨S, hS, -, hfr, -⟩ := dispatchChunk_V1_codebook fuel i chunkID chunkSize s h
    obtain ⟨h1, h2, -⟩ := loadCodebook_strips s.input s.dec.curFrame i 1 chunkID chunkSize
    obtain ⟨-, -, -, -, h5, -⟩ := loadCodebook_frame s.input s.dec.curFrame i 1 chunkID chunkSize
    rw [← hfr] at h1 h2 h5
    exact ⟨S, hS, (h2 rfl).2, (h2 rfl).1, h1, h5⟩
  · simp only [dispatchChunk] at hfl
    split_ifs at hfl with h1 h2
    · omega
    · omega
    · cases hd : decodeVectors fuel s.input s.dec.curFrame i chunkID chunkSize with
      | none => rw [hd] at hfl; exact absurd hfl (by simp)
      | some r =>
        rw [hd] at hfl
        cases hfl
        exact (decodeVectors_strips _ _ _ _ _ _ _ hd).1

/-- Witness for `dispatchChunk_frame`: a chunk 0x22 on strip 0 of
`exampleFrame` loads the V1 table and keeps the V4 table; a chunk 0x31 keeps
both. -/
theorem dispatchChunk_frame_witness :
    (∃ S, dispatchChunk 1 0 0x22 6
        ⟨⟨[1, 2, 3, 4, 5, 6], 0, false⟩, ⟨exampleFrame, 0⟩, [], []⟩ = some (.next S) ∧
      (S.dec.curFrame.strips 0).v4_codebook = exampleStrip.v4_codebook) ∧
    (∃ fl, dispatchChunk 1 0 0x31 4
        ⟨⟨[0, 0, 0, 0], 0, false⟩, ⟨exampleFrame, 0⟩, [], []⟩ = some fl ∧
      fl.state.dec.curFrame.strips = exampleFrame.strips) :=
  have a := (dispatchChunk_frame 1 0 0x22 6
    ⟨⟨[1, 2, 3, 4, 5, 6], 0, false⟩, ⟨exampleFrame, 0⟩, [], []⟩).2.1 (Or.inl rfl)
  have b := (dispatchChunk_frame 1 0 0x31 4
    ⟨⟨[0, 0, 0, 0], 0, false⟩, ⟨exampleFrame, 0⟩, [], []⟩).2.2 (Or.inr (Or.inl rfl))
  have c : (dispatchChunk 1 0 0x31 4
      ⟨⟨[0, 0, 0, 0], 0, false⟩, ⟨exampleFrame, 0⟩, [], []⟩).isSome = true := by decide
  ⟨a.elim fun S h => ⟨S, h.1, h.2.2.1⟩,
    (Option.isSome_iff_exists.1 c).elim fun fl h => ⟨fl, h, b fl h⟩⟩

/-! ### Raster stores of the vector decoder -/

theorem Surface.Extends.nil (a : Surface) : a.Extends a [] :=
  ⟨(List.append_nil _).symm, rfl⟩

theorem Surface.Extends.append {a b c : Surface} {W1 W2 : List (Nat × Nat)}
    (h1 : a.Extends b W1) (h2 : b.Extends c W2) : a.Extends c (W1 ++ W2) := by
  refine ⟨?_, ?_⟩
  · rw [h2.1, h1.1, List.append_assoc]
  · rw [h2.2, h1.2, replay_append]

theorem Surface.Extends.of_eq {a b : Surface} (h : b = a) : a.Extends b [] := by
  rw [h]
  exact Surface.Extends.nil a

theorem Surface.Extends.mem_of_not_written {a b : Surface} {W : List (Nat × Nat)}
    (h : a.Extends b W) (o : Nat) (ho : ∀ p ∈ W, p.1 ≠ o) : b.mem o = a.mem o := by
  rw [h.2]
  exact replay_of_not_mem W a.mem o ho

theorem inBlock_of_mem_blockOrder (iy : Nat → Nat) (val : Nat × Nat × Nat → Nat)
    (p : Nat × Nat)
    (hp : p ∈ blockOrder.map (fun t => (pixOff (iy t.1) t.2.1 + t.2.2, val t))) :
    InBlock iy 0 p.1 := by
  obtain ⟨t, ht, rfl⟩ := List.mem_map.1 hp
  obtain ⟨h1, h2, h3⟩ := (mem_blockOrder t).1 ht
  refine ⟨t.1, t.2.1, t.2.2, h1, h2, h3, ?_⟩
  simp only [pixOff, Nat.mul_zero, Nat.add_zero, Nat.mul_comm 3]

theorem decodeVectorsV1_trace (v1 : Nat → CinepakCodebook) (chunkSize startPos : Nat)
    (s : VecState) :
    ∃ W, s.surface.Extends (decodeVectorsV1 v1 chunkSize startPos s).state.surface W ∧
      (∀ p ∈ W, InBlock s.iy 0 p.1) ∧
      ((decodeVectorsV1 v1 chunkSize startPos s).stopped = true → W = []) ∧
      (decodeVectorsV1 v1 chunkSize startPos s).state.iy = s.iy := by
  by_cases hroom : (ftell s.input : Int) - (startPos : Int) + 1 ≤ (chunkSize : Int)
  · obtain ⟨s3, h, -, -, -, i0, i1, i2, i3, hlog, hmem⟩ :=
      decodeVectorsV1_run v1 chunkSize startPos s hroom
    rw [h]
    exact ⟨_, ⟨hlog, hmem⟩, fun p hp => inBlock_of_mem_blockOrder s.iy _ p hp,
      fun hs => by simp [Flow.stopped] at hs, VecState.iy_congr s s3 i0 i1 i2 i3⟩
  · have h : decodeVectorsV1 v1 chunkSize startPos s = .stop s := by
      simp only [decodeVectorsV1]
      rw [if_pos (by omega)]
    rw [h]
    exact ⟨[], Surface.Extends.nil _, fun p hp => by simp at hp, fun _ => rfl, rfl⟩

theorem decodeVectorsV4_trace (v4 : Nat → CinepakCodebook) (chunkSize startPos : Nat)
    (s : VecState) :
    ∃ W, s.surface.Extends (decodeVectorsV4 v4 chunkSize startPos s).state.surface W ∧
      (∀ p ∈ W, InBlock s.iy 0 p.1) ∧
      ((decodeVectorsV4 v4 chunkSize startPos s).stopped = true → W = []) ∧
      (decodeVectorsV4 v4 chunkSize startPos s).state.iy = s.iy := by
  by_cases hroom : (ftell s.input : Int) - (startPos : Int) + 4 ≤ (chunkSize : Int)
  · obtain ⟨s3, h, -, -, -, i0, i1, i2, i3, hlog, hmem⟩ :=
      decodeVectorsV4_run v4 chunkSize startPos s hroom
    rw [h]
    exact ⟨_, ⟨hlog, hmem⟩, fun p hp => inBlock_of_mem_blockOrder s.iy _ p hp,
      fun hs => by simp [Flow.stopped] at hs, VecState.iy_congr s s3 i0 i1 i2 i3⟩
  · have h : decodeVectorsV4 v4 chunkSize startPos s = .stop s := by
      simp only [decodeVectorsV4]
      rw [if_pos (by omega)]
    rw [h]
    exact ⟨[], Surface.Extends.nil _, fun p hp => by simp at hp, fun _ => rfl, rfl⟩

theorem Surface.Extends.eq_of_nil {a b : Surface} (h : a.Extends b []) : b = a := by
  obtain ⟨h1, h2⟩ := h
  rw [List.append_nil] at h1
  cases a
  cases b
  simp only [replay, List.foldl_nil] at h1 h2
  simp only [h1, h2]

theorem Surface.Extends.stores {a b : Surface} {W : List (Nat × Nat)} (h : a.Extends b W) :
    b.log.drop a.log.length = W := by
  rw [h.1, List.drop_left]

theorem decodeVectorsCoded_trace (st : CinepakStrip) (chunkID chunkSize startPos : Nat)
    (s : VecState) :
    ∃ W, s.surface.Extends (decodeVectorsCoded st chunkID chunkSize startPos s).state.surface W ∧
      (∀ p ∈ W, InBlock s.iy 0 p.1) ∧
      ((decodeVectorsCoded st chunkID chunkSize startPos s).stopped = true → W = []) ∧
      (decodeVectorsCoded st chunkID chunkSize startPos s).state.iy = s.iy := by
  obtain ⟨k0, k1, k2, k3, k4⟩ := decodeVectorsSelect_keeps chunkID chunkSize startPos s
  simp only [decodeVectorsCoded]
  cases hsel : (if chunkID &&& 0x02 = 0 then decodeVectorsFlag chunkSize startPos s
      else Flow.next s) with
  | stop s1 =>
    rw [hsel] at k0 k1 k2 k3 k4
    exact ⟨[], Surface.Extends.of_eq k0, fun p hp => by simp at hp, fun _ => rfl,
      VecState.iy_congr s s1 k1 k2 k3 k4⟩
  | next s1 =>
    rw [hsel] at k0 k1 k2 k3 k4
    simp only [Flow.state] at k0 k1 k2 k3 k4
    have hiy : s1.iy = s.iy := VecState.iy_congr s s1 k1 k2 k3 k4
    simp only []
    split_ifs with h1 h2
    · obtain ⟨W, a, b, c, d⟩ := decodeVectorsV1_trace st.v1_codebook chunkSize startPos s1
      rw [k0] at a
      rw [hiy] at b d
      exact ⟨W, a, b, c, d⟩
    · obtain ⟨W, a, b, c, d⟩ := decodeVectorsV4_trace st.v4_codebook chunkSize startPos s1
      rw [k0] at a
      rw [hiy] at b d
      exact ⟨W, a, b, c, d⟩
    · exact ⟨[], Surface.Extends.of_eq k0, fun p hp => by simp at hp, fun _ => rfl, hiy⟩

theorem decodeVectorsSkip_keeps (chunkID chunkSize startPos : Nat) (s : VecState) :
    (decodeVectorsSkip chunkID chunkSize startPos s).state.surface = s.surface ∧
    (decodeVectorsSkip chunkID chunkSize startPos s).state.iy = s.iy := by
  simp only [decodeVectorsSkip]
  split_ifs
  · obtain ⟨k0, k1, k2, k3, k4⟩ := decodeVectorsFlag_keeps chunkSize startPos s
    exact ⟨k0, VecState.iy_congr s _ k1 k2 k3 k4⟩
  · exact ⟨rfl, rfl⟩

theorem decodeVectorsBlock_trace (st : CinepakStrip) (chunkID chunkSize startPos : Nat)
    (s : VecState) :
    s.surface.Extends (decodeVectorsBlock st chunkID chunkSize startPos s).state.surface
      (blockStores st chunkID chunkSize startPos s) ∧
    (∀ p ∈ blockStores st chunkID chunkSize startPos s, InBlock s.iy 0 p.1) ∧
    ((decodeVectorsBlock st chunkID chunkSize startPos s).stopped = true →
      blockStores st chunkID chunkSize startPos s = []) ∧
    (∀ s1, decodeVectorsBlock st chunkID chunkSize startPos s = .next s1 →
      s1.iy = shiftRows s.iy) := by
  have key : ∃ W, s.surface.Extends
      (decodeVectorsBlock st chunkID chunkSize startPos s).state.surface W ∧
      (∀ p ∈ W, InBlock s.iy 0 p.1) ∧
      ((decodeVectorsBlock st chunkID chunkSize startPos s).stopped = true → W = []) ∧
      (∀ s1, decodeVectorsBlock st chunkID chunkSize startPos s = .next s1 →
        s1.iy = shiftRows s.iy) := by
    obtain ⟨k0, k1⟩ := decodeVectorsSkip_keeps chunkID chunkSize startPos s
    simp only [decodeVectorsBlock]
    cases hskip : decodeVectorsSkip chunkID chunkSize startPos s with
    | stop s1 =>
      rw [hskip] at k0 k1
      exact ⟨[], Surface.Extends.of_eq k0, fun p hp => by simp at hp, fun _ => rfl,
        fun s2 h => by cases h⟩
    | next s1 =>
      rw [hskip] at k0 k1
      simp only [Flow.state] at k0 k1
      simp only []
      split_ifs with h1
      · obtain ⟨W, a, b, c, d⟩ := decodeVectorsCoded_trace st chunkID chunkSize startPos s1
        rw [k0] at a
        rw [k1] at b d
        cases hc : decodeVectorsCoded st chunkID chunkSize startPos s1 with
        | stop s2 =>
          rw [hc] at a c
          exact ⟨W, a, b, c, fun s3 h => by cases h⟩
        | next s2 =>
          rw [hc] at a c d
          refine ⟨W, a, b, fun h => by simp [Flow.stopped] at h, fun s3 h => ?_⟩
          cases h
          rw [VecState.advance_iy]
          exact congrArg shiftRows d
      · refine ⟨[], Surface.Extends.of_eq k0, fun p hp => by simp at hp, fun _ => rfl,
          fun s3 h => ?_⟩
        cases h
        rw [VecState.advance_iy, k1]
  obtain ⟨W, a, b, c, d⟩ := key
  have e : blockStores st chunkID chunkSize startPos s = W := a.stores
  rw [e]
  exact ⟨a, b, c, d⟩

theorem decodeVectorsRowTrace_succ (st : CinepakStrip) (chunkID chunkSize startPos fuel x : Nat)
    (s : VecState) (hx : x < st.right) :
    decodeVectorsRowTrace st chunkID chunkSize startPos (fuel + 1) x s =
      (x, s) ::
        match decodeVectorsBlock st chunkID chunkSize startPos s with
        | .stop _ => []
        | .next s1 =>
          decodeVectorsRowTrace st chunkID chunkSize startPos fuel ((x + 4) % 65536) s1 := by
  simp only [decodeVectorsRowTrace]
  (rw [if_pos hx]; try rfl)

theorem decodeVectorsRowTrace_done (st : CinepakStrip) (chunkID chunkSize startPos fuel x : Nat)
    (s : VecState) (hx : ¬ x < st.right) :
    decodeVectorsRowTrace st chunkID chunkSize startPos fuel x s = [] := by
  cases fuel with
  | zero => rfl
  | succ fuel => simp only [decodeVectorsRowTrace]; rw [if_neg hx]

theorem decodeVectorsRowsTrace_succ (st : CinepakStrip)
    (width chunkID chunkSize startPos fuelX fuel y : Nat) (s : VecState) (hy : y < st.bottom) :
    decodeVectorsRowsTrace st width chunkID chunkSize startPos fuelX (fuel + 1) y s =
      (decodeVectorsRowTrace st chunkID chunkSize startPos fuelX st.left
          (s.setRows st width y)).map (fun b => (y, b.1, b.2)) ++
        match decodeVectorsRow st chunkID chunkSize startPos fuelX st.left
            (s.setRows st width y) with
        | some (.next s1) =>
          decodeVectorsRowsTrace st width chunkID chunkSize startPos fuelX fuel
            ((y + 4) % 65536) s1
        | _ => [] := by
  simp only [decodeVectorsRowsTrace]
  (rw [if_pos hy]; try rfl)

theorem decodeVectorsRowsTrace_done (st : CinepakStrip)
    (width chunkID chunkSize startPos fuelX fuel y : Nat) (s : VecState) (hy : ¬ y < st.bottom) :
    decodeVectorsRowsTrace st width chunkID chunkSize startPos fuelX fuel y s = [] := by
  cases fuel with
  | zero => rfl
  | succ fuel => simp only [decodeVectorsRowsTrace]; rw [if_neg hy]

theorem decodeVectorsRow_zero (st : CinepakStrip) (chunkID chunkSize startPos x : Nat)
    (s : VecState) (hx : x < st.right) :
    decodeVectorsRow st chunkID chunkSize startPos 0 x s = none := by
  simp only [decodeVectorsRow]
  rw [if_pos hx]

theorem decodeVectorsRows_zero (st : CinepakStrip)
    (width chunkID chunkSize startPos fuelX y : Nat) (s : VecState) (hy : y < st.bottom) :
    decodeVectorsRows st width chunkID chunkSize startPos fuelX 0 y s = none := by
  simp only [decodeVectorsRows]
  rw [if_pos hy]

/-- The raster after the loop over `x` is the raster before it with the stores
of the visited blocks replayed in order. -/
theorem decodeVectorsRow_trace (st : CinepakStrip) (chunkID chunkSize startPos : Nat) :
    ∀ (fuel x : Nat) (s : VecState) (fl : Flow VecState),
      decodeVectorsRow st chunkID chunkSize startPos fuel x s = some fl →
      s.surface.Extends fl.state.surface
        ((decodeVectorsRowTrace st chunkID chunkSize startPos fuel x s).flatMap
          (fun b => blockStores st chunkID chunkSize startPos b.2)) := by
  intro fuel
  induction fuel with
  | zero =>
    intro x s fl h
    by_cases hx : x < st.right
    · rw [decodeVectorsRow_zero _ _ _ _ _ _ hx] at h
      cases h
    · rw [decodeVectorsRow_done _ _ _ _ _ _ _ hx] at h
      cases h
      rw [decodeVectorsRowTrace_done _ _ _ _ _ _ _ hx]
      exact Surface.Extends.nil _
  | succ fuel ih =>
    intro x s fl h
    by_cases hx : x < st.right
    · rw [decodeVectorsRow_succ _ _ _ _ _ _ _ hx] at h
      rw [decodeVectorsRowTrace_succ _ _ _ _ _ _ _ hx, List.flatMap_cons]
      obtain ⟨hb, -, -, -⟩ := decodeVectorsBlock_trace st chunkID chunkSize startPos s
      cases hblk : decodeVectorsBlock st chunkID chunkSize startPos s with
      | stop s1 =>
        rw [hblk] at h hb
        cases h
        simp only [List.flatMap_nil, List.append_nil]
        exact hb
      | next s1 =>
        rw [hblk] at h hb
        exact hb.append (ih _ s1 fl h)
    · rw [decodeVectorsRow_done _ _ _ _ _ _ _ hx] at h
      cases h
      rw [decodeVectorsRowTrace_done _ _ _ _ _ _ _ hx]
      exact Surface.Extends.nil _

/-- The raster after the loop over `y` is the raster before it with the stores
of the visited blocks replayed in order. -/
theorem decodeVectorsRows_trace (st : CinepakStrip)
    (width chunkID chunkSize startPos fuelX : Nat) :
    ∀ (fuel y : Nat) (s : VecState) (fl : Flow VecState),
      decodeVectorsRows st width chunkID chunkSize startPos fuelX fuel y s = some fl →
      s.surface.Extends fl.state.surface
        ((decodeVectorsRowsTrace st width chunkID chunkSize startPos fuelX fuel y s).flatMap
          (fun b => blockStores st chunkID chunkSize startPos b.2.2)) := by
  intro fuel
  induction fuel with
  | zero =>
    intro y s fl h
    by_cases hy : y < st.bottom
    · rw [decodeVectorsRows_zero _ _ _ _ _ _ _ _ hy] at h
      cases h
    · rw [decodeVectorsRows_done _ _ _ _ _ _ _ _ _ hy] at h
      cases h
      rw [decodeVectorsRowsTrace_done _ _ _ _ _ _ _ _ _ hy]
      exact Surface.Extends.nil _
  | succ fuel ih =>
    intro y s fl h
    by_cases hy : y < st.bottom
    · rw [decodeVectorsRows_succ _ _ _ _ _ _ _ _ _ hy] at h
      rw [decodeVectorsRowsTrace_succ _ _ _ _ _ _ _ _ _ hy, List.flatMap_append,
        List.flatMap_map]
      cases hrow : decodeVectorsRow st chunkID chunkSize startPos fuelX st.left
          (s.setRows st width y) with
      | none =>
        rw [hrow] at h
        cases h
      | some fr =>
        have hr := decodeVectorsRow_trace st chunkID chunkSize startPos _ _ _ _ hrow
        have hs : (s.setRows st width y).surface = s.surface := rfl
        rw [hs] at hr
        cases fr with
        | stop s1 =>
          rw [hrow] at h
          cases h
          simp only [List.flatMap_nil, List.append_nil]
          exact hr
        | next s1 =>
          rw [hrow] at h
          exact hr.append (ih _ s1 fl h)
    · rw [decodeVectorsRows_done _ _ _ _ _ _ _ _ _ hy] at h
      cases h
      rw [decodeVectorsRowsTrace_done _ _ _ _ _ _ _ _ _ hy]
      exact Surface.Extends.nil _

/-- The raster returned by `decodeVectors` is the raster it was given with the
stores of the visited blocks replayed in order. -/
theorem decodeVectors_trace (fuel : Nat) (input : Stream) (fr : CinepakFrame)
    (strip chunkID chunkSize : Nat) (r : Stream × CinepakFrame)
    (h : decodeVectors fuel input fr strip chunkID chunkSize = some r) :
    fr.surface.Extends r.2.surface
      ((decodeVectorsTrace fuel input fr strip chunkID chunkSize).flatMap
        (fun b => blockStores (fr.strips strip) chunkID chunkSize (ftell input % 4294967296)
          b.2.2)) ∧
    r.2.strips = fr.strips ∧ r.2.flags = fr.flags ∧ r.2.width = fr.width ∧
    r.2.height = fr.height ∧ r.2.stripCount = fr.stripCount ∧
    r.2.stripsAlloc = fr.stripsAlloc ∧ r.2.surfaceAlloc = fr.surfaceAlloc := by
  simp only [decodeVectors] at h
  cases hrows : decodeVectorsRows (fr.strips strip) fr.width chunkID chunkSize
      (ftell input % 4294967296) fuel fuel (fr.strips strip).top
      (decodeVectorsInit input fr.surface) with
  | none =>
    rw [hrows] at h
    cases h
  | some fl =>
    rw [hrows] at h
    cases h
    exact ⟨decodeVectorsRows_trace _ _ _ _ _ _ _ _ _ _ hrows, rfl, rfl, rfl, rfl, rfl, rfl, rfl⟩

/-! ### Truncated vector payload -/

/-- A block that stops ends the loop over `x` at once: the loop returns the
state of the stop and the block is the last one visited. -/
theorem decodeVectorsRow_stop (st : CinepakStrip) (chunkID chunkSize startPos : Nat) :
    ∀ (fuel x : Nat) (s : VecState) (b : Nat × VecState),
      b ∈ decodeVectorsRowTrace st chunkID chunkSize startPos fuel x s →
      (decodeVectorsBlock st chunkID chunkSize startPos b.2).stopped = true →
      decodeVectorsRow st chunkID chunkSize startPos fuel x s
        = some (.stop (decodeVectorsBlock st chunkID chunkSize startPos b.2).state) ∧
      ∃ l, decodeVectorsRowTrace st chunkID chunkSize startPos fuel x s = l ++ [b] := by
  intro fuel
  induction fuel with
  | zero =>
    intro x s b hb
    exact absurd hb (by simp [decodeVectorsRowTrace])
  | succ fuel ih =>
    intro x s b hb hstop
    by_cases hx : x < st.right
    · rw [decodeVectorsRowTrace_succ _ _ _ _ _ _ _ hx] at hb ⊢
      rw [decodeVectorsRow_succ _ _ _ _ _ _ _ hx]
      cases hblk : decodeVectorsBlock st chunkID chunkSize startPos s with
      | stop s1 =>
        rw [hblk] at hb
        simp only [List.mem_singleton] at hb
        subst hb
        rw [hblk]
        exact ⟨rfl, [], rfl⟩
      | next s1 =>
        rw [hblk] at hb
        simp only [List.mem_cons] at hb
        rcases hb with hb | hb
        · subst hb
          rw [hblk] at hstop
          simp [Flow.stopped] at hstop
        · obtain ⟨h1, l, h2⟩ := ih _ s1 b hb hstop
          simp only []
          exact ⟨h1, (x, s) :: l, by rw [h2]; rfl⟩
    · rw [decodeVectorsRowTrace_done _ _ _ _ _ _ _ hx] at hb
      exact absurd hb (by simp)

/-- A block that stops ends the loop over `y` at once. -/
theorem decodeVectorsRows_stop (st : CinepakStrip)
    (width chunkID chunkSize startPos fuelX : Nat) :
    ∀ (fuel y : Nat) (s : VecState) (b : Nat × Nat × VecState),
      b ∈ decodeVectorsRowsTrace st width chunkID chunkSize startPos fuelX fuel y s →
      (decodeVectorsBlock st chunkID chunkSize startPos b.2.2).stopped = true →
      decodeVectorsRows st width chunkID chunkSize startPos fuelX fuel y s
        = some (.stop (decodeVectorsBlock st chunkID chunkSize startPos b.2.2).state) ∧
      ∃ l, decodeVectorsRowsTrace st width chunkID chunkSize startPos fuelX fuel y s
        = l ++ [b] := by
  intro fuel
  induction fuel with
  | zero =>
    intro y s b hb
    exact absurd hb (by simp [decodeVectorsRowsTrace])
  | succ fuel ih =>
    intro y s b hb hstop
    by_cases hy : y < st.bottom
    · rw [decodeVectorsRowsTrace_succ _ _ _ _ _ _ _ _ _ hy] at hb ⊢
      rw [decodeVectorsRows_succ _ _ _ _ _ _ _ _ _ hy]
      rcases List.mem_append.1 hb with hb | hb
      · obtain ⟨b1, hb1, rfl⟩ := List.mem_map.1 hb
        obtain ⟨h1, l, h2⟩ := decodeVectorsRow_stop st chunkID chunkSize startPos _ _ _ b1 hb1 hstop
        rw [h1, h2]
        refine ⟨rfl, l.map (fun b => (y, b.1, b.2)), ?_⟩
        simp only [List.map_append, List.map_cons, List.map_nil, List.append_nil]
      · cases hrow : decodeVectorsRow st chunkID chunkSize startPos fuelX st.left
            (s.setRows st width y) with
        | none =>
          rw [hrow] at hb
          exact absurd hb (by simp)
        | some fr =>
          cases fr with
          | stop s1 =>
            rw [hrow] at hb
            exact absurd hb (by simp)
          | next s1 =>
            rw [hrow] at hb
            simp only [] at hb
            obtain ⟨h1, l, h2⟩ := ih _ s1 b hb hstop
            simp only []
            refine ⟨h1, (decodeVectorsRowTrace st chunkID chunkSize startPos fuelX st.left
              (s.setRows st width y)).map (fun b => (y, b.1, b.2)) ++ l, ?_⟩
            rw [h2, List.append_assoc]
    · rw [decodeVectorsRowsTrace_done _ _ _ _ _ _ _ _ _ hy] at hb
      exact absurd hb (by simp)

theorem decodeVectorsBlock_stop_surface (st : CinepakStrip) (chunkID chunkSize startPos : Nat)
    (s : VecState)
    (h : (decodeVectorsBlock st chunkID chunkSize startPos s).stopped = true) :
    (decodeVectorsBlock st chunkID chunkSize startPos s).state.surface = s.surface := by
  obtain ⟨a, -, c, -⟩ := decodeVectorsBlock_trace st chunkID chunkSize startPos s
  rw [c h] at a
  exact a.eq_of_nil

theorem decodeVectorsFlag_stop (chunkSize startPos : Nat) (s : VecState)
    (hm : s.mask >>> 1 = 0)
    (hroom : (ftell s.input : Int) - (startPos : Int) + 4 > (chunkSize : Int)) :
    (decodeVectorsFlag chunkSize startPos s).stopped = true := by
  simp only [decodeVectorsFlag]
  rw [if_pos hm, if_pos hroom]
  rfl

theorem decodeVectorsBlock_needs (st : CinepakStrip) (chunkID chunkSize startPos : Nat)
    (s : VecState) (h : NeedsMissingBytes chunkID chunkSize startPos s) :
    (decodeVectorsBlock st chunkID chunkSize startPos s).stopped = true := by
  rcases h with ⟨hc, hm, hroom⟩ | ⟨s1, hskip, hcoded, h⟩
  · have h1 := decodeVectorsFlag_stop chunkSize startPos s hm hroom
    simp only [decodeVectorsBlock, decodeVectorsSkip]
    rw [if_pos hc]
    cases hf : decodeVectorsFlag chunkSize startPos s with
    | stop s1 => rfl
    | next s1 => rw [hf] at h1; simp [Flow.stopped] at h1
  · simp only [decodeVectorsBlock]
    rw [hskip]
    simp only []
    rw [if_pos hcoded]
    simp only [decodeVectorsCoded]
    rcases h with ⟨hc2, hm, hroom⟩ | ⟨s2, hsel, h⟩
    · have h1 := decodeVectorsFlag_stop chunkSize startPos s1 hm hroom
      rw [if_pos hc2]
      cases hf : decodeVectorsFlag chunkSize startPos s1 with
      | stop s2 => rfl
      | next s2 => rw [hf] at h1; simp [Flow.stopped] at h1
    · rw [hsel]
      simp only []
      rcases h with ⟨hv1, hroom⟩ | ⟨hv1, hv4, hroom⟩
      · rw [if_pos hv1]
        simp only [decodeVectorsV1]
        rw [if_pos hroom]
        rfl
      · rw [if_neg hv1, if_pos hv4]
        simp only [decodeVectorsV4]
        rw [if_pos hroom]
        rfl

/-- C14: when the body of the block loop, entered in state `sb` for the block
at `(x, y)`, needs a flag word, a V1 index or the four V4 indices that the
chunk payload no longer holds (`NeedsMissingBytes`), `decodeVectors` returns
at once: the call returns, the block is the last one visited, and the raster
it returns is the raster as it was when that block was entered. Hence the
current block and all later ones keep the bytes they had, and the blocks
decoded before keep what was decoded into them. -/
theorem decodeVectors_truncated (fuel : Nat) (input : Stream) (fr : CinepakFrame)
    (strip chunkID chunkSize : Nat) (y x : Nat) (sb : VecState)
    (hmem : (y, x, sb) ∈ decodeVectorsTrace fuel input fr strip chunkID chunkSize)
    (hneed : NeedsMissingBytes chunkID chunkSize (ftell input % 4294967296) sb) :
    ∃ r, decodeVectors fuel input fr strip chunkID chunkSize = some r ∧
      r.2.surface = sb.surface ∧
      r.2.strips = fr.strips ∧
      ∃ l, decodeVectorsTrace fuel input fr strip chunkID chunkSize = l ++ [(y, x, sb)] := by
  have hstop := decodeVectorsBlock_needs (fr.strips strip) chunkID chunkSize
    (ftell input % 4294967296) sb hneed
  obtain ⟨h1, l, h2⟩ := decodeVectorsRows_stop (fr.strips strip) fr.width chunkID chunkSize
    (ftell input % 4294967296) fuel fuel (fr.strips strip).top
    (decodeVectorsInit input fr.surface) (y, x, sb) hmem hstop
  have hsurf := decodeVectorsBlock_stop_surface (fr.strips strip) chunkID chunkSize
    (ftell input % 4294967296) sb hstop
  refine ⟨((decodeVectorsBlock (fr.strips strip) chunkID chunkSize
      (ftell input % 4294967296) sb).state.input,
    { fr with surface := (decodeVectorsBlock (fr.strips strip) chunkID chunkSize
      (ftell input % 4294967296) sb).state.surface }), ?_, hsurf, rfl, l, h2⟩
  simp only [decodeVectors]
  rw [h1]
  rfl

/-- Witness for `decodeVectors_truncated`: a chunk 0x32 with an empty payload
on the one-block strip of `exampleFrame`; the first block needs a V1 index,
none is left, and the raster comes back as it was. -/
theorem decodeVectors_truncated_witness :
    ∃ r, decodeVectors 1 ⟨[], 0, false⟩ exampleFrame 0 0x32 0 = some r ∧
      r.2.surface = exampleFrame.surface :=
  have hmem : (0, 0, (decodeVectorsInit ⟨[], 0, false⟩ exampleFrame.surface).setRows
      exampleStrip 4 0) ∈ decodeVectorsTrace 1 ⟨[], 0, false⟩ exampleFrame 0 0x32 0 :=
    List.mem_singleton.2 rfl
  have hneed : NeedsMissingBytes 0x32 0 (ftell ⟨[], 0, false⟩ % 4294967296)
      ((decodeVectorsInit ⟨[], 0, false⟩ exampleFrame.surface).setRows exampleStrip 4 0) :=
    Or.inr ⟨_, rfl, Or.inl rfl, Or.inr ⟨_, rfl, Or.inl ⟨Or.inl (by decide), by decide⟩⟩⟩
  let ⟨r, h1, h2, _⟩ := decodeVectors_truncated 1 ⟨[], 0, false⟩ exampleFrame 0 0x32 0 0 0 _
    hmem hneed
  ⟨r, h1, h2⟩

/-! ### Blocks of a well-formed strip -/

theorem inBlock_shiftRows (iy : Nat → Nat) (j o : Nat) (h : InBlock (shiftRows iy) j o) :
    InBlock iy (j + 1) o := by
  obtain ⟨r, c, k, hr, hc, hk, rfl⟩ := h
  refine ⟨r, c, k, hr, hc, hk, ?_⟩
  simp only [shiftRows]
  omega

/-- The blocks of a row group whose width is a multiple of 4: block number `j`
is visited at `x + 4 * j`, lies inside the strip, and addresses the bytes
`InBlock iy j` for the row offsets `iy` the row group starts with. -/
theorem decodeVectorsRowTrace_geometry (st : CinepakStrip) (chunkID chunkSize startPos : Nat)
    (hr : st.right < 65536) :
    ∀ (fuel x : Nat) (s : VecState), x ≤ st.right → (st.right - x) % 4 = 0 →
      ∀ b ∈ decodeVectorsRowTrace st chunkID chunkSize startPos fuel x s,
        ∃ j, b.1 = x + 4 * j ∧ b.1 + 4 ≤ st.right ∧
          ∀ o, InBlock b.2.iy 0 o → InBlock s.iy j o := by
  intro fuel
  induction fuel with
  | zero =>
    intro x s _ _ b hb
    exact absurd hb (by simp [decodeVectorsRowTrace])
  | succ fuel ih =>
    intro x s hx1 hx4 b hb
    by_cases hx : x < st.right
    · rw [decodeVectorsRowTrace_succ _ _ _ _ _ _ _ hx] at hb
      rcases List.mem_cons.1 hb with hb | hb
      · subst hb
        exact ⟨0, rfl, by simp only; omega, fun o ho => ho⟩
      · obtain ⟨-, -, -, hiy⟩ := decodeVectorsBlock_trace st chunkID chunkSize startPos s
        cases hblk : decodeVectorsBlock st chunkID chunkSize startPos s with
        | stop s1 =>
          rw [hblk] at hb
          exact absurd hb (by simp)
        | next s1 =>
          rw [hblk] at hb
          simp only [] at hb
          have hx' : (x + 4) % 65536 = x + 4 := Nat.mod_eq_of_lt (by omega)
          rw [hx'] at hb
          obtain ⟨j, h1, h2, h3⟩ := ih (x + 4) s1 (by omega) (by omega) b hb
          refine ⟨j + 1, by omega, h2, fun o ho => ?_⟩
          have := h3 o ho
          rw [hiy s1 hblk] at this
          exact inBlock_shiftRows _ _ _ this
    · rw [decodeVectorsRowTrace_done _ _ _ _ _ _ _ hx] at hb
      exact absurd hb (by simp)

/-- The blocks of a strip whose width and height are multiples of 4: the block
visited at `(x, y)` has `y = top + 4 * gi`, `x = left + 4 * j`, lies inside the
strip, and addresses the bytes `InBlock (rowOffsets left width y) j`. -/
theorem decodeVectorsRowsTrace_geometry (st : CinepakStrip)
    (width chunkID chunkSize startPos fuelX : Nat)
    (hl : st.left ≤ st.right) (hr4 : (st.right - st.left) % 4 = 0) (hr : st.right < 65536)
    (hb : st.bottom < 65536) :
    ∀ (fuel y : Nat) (s : VecState), y ≤ st.bottom → (st.bottom - y) % 4 = 0 →
      ∀ b ∈ decodeVectorsRowsTrace st width chunkID chunkSize startPos fuelX fuel y s,
        ∃ gi j, b.1 = y + 4 * gi ∧ b.1 + 4 ≤ st.bottom ∧
          b.2.1 = st.left + 4 * j ∧ b.2.1 + 4 ≤ st.right ∧
          ∀ o, InBlock b.2.2.iy 0 o → InBlock (rowOffsets st.left width b.1) j o := by
  intro fuel
  induction fuel with
  | zero =>
    intro y s _ _ b hb
    exact absurd hb (by simp [decodeVectorsRowsTrace])
  | succ fuel ih =>
    intro y s hy1 hy4 b hbm
    by_cases hy : y < st.bottom
    · rw [decodeVectorsRowsTrace_succ _ _ _ _ _ _ _ _ _ hy] at hbm
      rcases List.mem_append.1 hbm with hbm | hbm
      · obtain ⟨b1, hb1, rfl⟩ := List.mem_map.1 hbm
        obtain ⟨j, h1, h2, h3⟩ := decodeVectorsRowTrace_geometry st chunkID chunkSize startPos hr
          _ _ _ hl hr4 b1 hb1
        refine ⟨0, j, rfl, by simp only; omega, h1, h2, fun o ho => ?_⟩
        have := h3 o ho
        rw [VecState.setRows_iy] at this
        exact this
      · cases hrow : decodeVectorsRow st chunkID chunkSize startPos fuelX st.left
            (s.setRows st width y) with
        | none =>
          rw [hrow] at hbm
          exact absurd hbm (by simp)
        | some fr =>
          cases fr with
          | stop s1 =>
            rw [hrow] at hbm
            exact absurd hbm (by simp)
          | next s1 =>
            rw [hrow] at hbm
            simp only [] at hbm
            have hy' : (y + 4) % 65536 = y + 4 := Nat.mod_eq_of_lt (by omega)
            rw [hy'] at hbm
            obtain ⟨gi, j, h1, h2, h3, h4, h5⟩ := ih (y + 4) s1 (by omega) (by omega) b hbm
            exact ⟨gi + 1, j, by omega, h2, h3, h4, h5⟩
    · rw [decodeVectorsRowsTrace_done _ _ _ _ _ _ _ _ _ hy] at hbm
      exact absurd hbm (by simp)

theorem decodeVectorsRowTrace_unique (st : CinepakStrip) (chunkID chunkSize startPos : Nat)
    (hr : st.right < 65536) :
    ∀ (fuel x : Nat) (s : VecState), x ≤ st.right → (st.right - x) % 4 = 0 →
      ∀ b ∈ decodeVectorsRowTrace st chunkID chunkSize startPos fuel x s,
      ∀ b' ∈ decodeVectorsRowTrace st chunkID chunkSize startPos fuel x s,
        b.1 = b'.1 → b = b' := by
  intro fuel
  induction fuel with
  | zero =>
    intro x s _ _ b hb
    exact absurd hb (by simp [decodeVectorsRowTrace])
  | succ fuel ih =>
    intro x s hx1 hx4 b hb b' hb' he
    by_cases hx : x < st.right
    · rw [decodeVectorsRowTrace_succ _ _ _ _ _ _ _ hx] at hb hb'
      cases hblk : decodeVectorsBlock st chunkID chunkSize startPos s with
      | stop s1 =>
        rw [hblk] at hb hb'
        simp only [List.mem_singleton] at hb hb'
        rw [hb, hb']
      | next s1 =>
        rw [hblk] at hb hb'
        simp only [] at hb hb'
        have hx' : (x + 4) % 65536 = x + 4 := Nat.mod_eq_of_lt (by omega)
        rw [hx'] at hb hb'
        have hge : ∀ c ∈ decodeVectorsRowTrace st chunkID chunkSize startPos fuel (x + 4) s1,
            x + 4 ≤ c.1 := by
          intro c hc
          obtain ⟨j, h1, -, -⟩ := decodeVectorsRowTrace_geometry st chunkID chunkSize startPos hr
            fuel (x + 4) s1 (by omega) (by omega) c hc
          omega
        rcases List.mem_cons.1 hb with hb | hb <;> rcases List.mem_cons.1 hb' with hb' | hb'
        · rw [hb, hb']
        · have := hge b' hb'
          rw [hb] at he
          simp only at he
          omega
        · have := hge b hb
          rw [hb'] at he
          simp only at he
          omega
        · exact ih (x + 4) s1 (by omega) (by omega) b hb b' hb' he
    · rw [decodeVectorsRowTrace_done _ _ _ _ _ _ _ hx] at hb
      exact absurd hb (by simp)

theorem decodeVectorsRowsTrace_unique (st : CinepakStrip)
    (width chunkID chunkSize startPos fuelX : Nat)
    (hl : st.left ≤ st.right) (hr4 : (st.right - st.left) % 4 = 0) (hr : st.right < 65536)
    (hb : st.bottom < 65536) :
    ∀ (fuel y : Nat) (s : VecState), y ≤ st.bottom → (st.bottom - y) % 4 = 0 →
      ∀ b ∈ decodeVectorsRowsTrace st width chunkID chunkSize startPos fuelX fuel y s,
      ∀ b' ∈ decodeVectorsRowsTrace st width chunkID chunkSize startPos fuelX fuel y s,
        b.1 = b'.1 → b.2.1 = b'.2.1 → b = b' := by
  intro fuel
  induction fuel with
  | zero =>
    intro y s _ _ b hb
    exact absurd hb (by simp [decodeVectorsRowsTrace])
  | succ fuel ih =>
    intro y s hy1 hy4 b hbm b' hbm' hey hex
    by_cases hy : y < st.bottom
    · rw [decodeVectorsRowsTrace_succ _ _ _ _ _ _ _ _ _ hy] at hbm hbm'
      have hrowy : ∀ c ∈ (decodeVectorsRowTrace st chunkID chunkSize startPos fuelX st.left
          (s.setRows st width y)).map (fun b => (y, b.1, b.2)), c.1 = y := by
        intro c hc
        obtain ⟨c1, -, rfl⟩ := List.mem_map.1 hc
        rfl
      have hy' : (y + 4) % 65536 = y + 4 := Nat.mod_eq_of_lt (by omega)
      have hrest : ∀ c ∈ (match decodeVectorsRow st chunkID chunkSize startPos fuelX st.left
            (s.setRows st width y) with
          | some (.next s1) =>
            decodeVectorsRowsTrace st width chunkID chunkSize startPos fuelX fuel
              ((y + 4) % 65536) s1
          | _ => []), y + 4 ≤ c.1 := by
        intro c hc
        cases hrow : decodeVectorsRow st chunkID chunkSize startPos fuelX st.left
            (s.setRows st width y) with
        | none => rw [hrow] at hc; exact absurd hc (by simp)
        | some fr =>
          cases fr with
          | stop s1 => rw [hrow] at hc; exact absurd hc (by simp)
          | next s1 =>
            rw [hrow] at hc
            simp only [] at hc
            rw [hy'] at hc
            obtain ⟨gi, j, h1, -⟩ := decodeVectorsRowsTrace_geometry st width chunkID chunkSize
              startPos fuelX hl hr4 hr hb fuel (y + 4) s1 (by omega) (by omega) c hc
            omega
      rcases List.mem_append.1 hbm with hbm | hbm <;>
        rcases List.mem_append.1 hbm' with hbm' | hbm'
      · obtain ⟨b1, hb1, rfl⟩ := List.mem_map.1 hbm
        obtain ⟨b2, hb2, rfl⟩ := List.mem_map.1 hbm'
        have := decodeVectorsRowTrace_unique st chunkID chunkSize startPos hr _ _ _ hl hr4
          b1 hb1 b2 hb2 hex
        rw [this]
      · have h1 := hrowy b hbm
        have h2 := hrest b' hbm'
        omega
      · have h1 := hrowy b' hbm'
        have h2 := hrest b hbm
        omega
      · cases hrow : decodeVectorsRow st chunkID chunkSize startPos fuelX st.left
            (s.setRows st width y) with
        | none => rw [hrow] at hbm; exact absurd hbm (by simp)
        | some fr =>
          cases fr with
          | stop s1 => rw [hrow] at hbm; exact absurd hbm (by simp)
          | next s1 =>
            rw [hrow] at hbm hbm'
            simp only [] at hbm hbm'
            rw [hy'] at hbm hbm'
            exact ih (y + 4) s1 (by omega) (by omega) b hbm b' hbm' hey hex
    · rw [decodeVectorsRowsTrace_done _ _ _ _ _ _ _ _ _ hy] at hbm
      exact absurd hbm (by simp)

theorem inBlock_rowOffsets (w y j o : Nat) (hj : 4 * j + 4 ≤ w)
    (hM : 3 * ((y + 4) * w) ≤ 4294967296) (h : InBlock (rowOffsets 0 w y) j o) :
    ∃ r c k, r < 4 ∧ c < 4 ∧ k < 3 ∧ o = 3 * ((y + r) * w + 4 * j + c) + k := by
  obtain ⟨r, c, k, hr, hc, hk, rfl⟩ := h
  refine ⟨r, c, k, hr, hc, hk, ?_⟩
  exact rowWriteV1_offset (fun _ => ⟨0, 0, 0, 0, 0, 0⟩) w y ⟨[], 0, false⟩ j r c k hr
    (by omega) hM

theorem pixel_row (w a x k : Nat) (hx : x < w) (hk : k < 3) :
    (3 * (a * w + x) + k) / (3 * w) = a := by
  apply Nat.div_eq_of_lt_le
  · have : a * (3 * w) = 3 * (a * w) := by ring
    omega
  · have : (a + 1) * (3 * w) = 3 * (a * w) + 3 * w := by ring
    omega

theorem decodeVectorsRow_total (st : CinepakStrip) (chunkID chunkSize startPos : Nat)
    (hr : st.right < 65536) :
    ∀ (fuel x : Nat) (s : VecState), x ≤ st.right → (st.right - x) % 4 = 0 →
      st.right ≤ x + 4 * fuel →
      ∃ fl, decodeVectorsRow st chunkID chunkSize startPos fuel x s = some fl := by
  intro fuel
  induction fuel with
  | zero =>
    intro x s _ _ hf
    exact ⟨_, decodeVectorsRow_done _ _ _ _ _ _ _ (by omega)⟩
  | succ fuel ih =>
    intro x s hx1 hx4 hf
    by_cases hx : x < st.right
    · rw [decodeVectorsRow_succ _ _ _ _ _ _ _ hx]
      cases decodeVectorsBlock st chunkID chunkSize startPos s with
      | stop s1 => exact ⟨_, rfl⟩
      | next s1 =>
        have hx' : (x + 4) % 65536 = x + 4 := Nat.mod_eq_of_lt (by omega)
        simp only [hx']
        exact ih (x + 4) s1 (by omega) (by omega) (by omega)
    · exact ⟨_, decodeVectorsRow_done _ _ _ _ _ _ _ hx⟩

theorem decodeVectorsRows_total (st : CinepakStrip)
    (width chunkID chunkSize startPos fuelX : Nat)
    (hl : st.left ≤ st.right) (hr4 : (st.right - st.left) % 4 = 0) (hr : st.right < 65536)
    (hb : st.bottom < 65536) (hfx : st.right ≤ st.left + 4 * fuelX) :
    ∀ (fuel y : Nat) (s : VecState), y ≤ st.bottom → (st.bottom - y) % 4 = 0 →
      st.bottom ≤ y + 4 * fuel →
      ∃ fl, decodeVectorsRows st width chunkID chunkSize startPos fuelX fuel y s = some fl := by
  intro fuel
  induction fuel with
  | zero =>
    intro y s _ _ hf
    exact ⟨_, decodeVectorsRows_done _ _ _ _ _ _ _ _ _ (by omega)⟩
  | succ fuel ih =>
    intro y s hy1 hy4 hf
    by_cases hy : y < st.bottom
    · rw [decodeVectorsRows_succ _ _ _ _ _ _ _ _ _ hy]
      obtain ⟨fl, hfl⟩ := decodeVectorsRow_total st chunkID chunkSize startPos hr fuelX st.left
        (s.setRows st width y) hl hr4 hfx
      rw [hfl]
      cases fl with
      | stop s1 => exact ⟨_, rfl⟩
      | next s1 =>
        have hy' : (y + 4) % 65536 = y + 4 := Nat.mod_eq_of_lt (by omega)
        simp only [hy']
        exact ih (y + 4) s1 (by omega) (by omega) (by omega)
    · exact ⟨_, decodeVectorsRows_done _ _ _ _ _ _ _ _ _ hy⟩

/-- On a well-formed strip `decodeVectors` returns when the fuel covers the
blocks of a row and the row groups of the strip. -/
theorem decodeVectors_total (fuel : Nat) (input : Stream) (fr : CinepakFrame)
    (strip chunkID chunkSize : Nat) (hwf : WellFormedStrip fr.width (fr.strips strip))
    (hfuel : fr.width ≤ 4 * fuel ∧ (fr.strips strip).bottom ≤ (fr.strips strip).top + 4 * fuel) :
    ∃ r, decodeVectors fuel input fr strip chunkID chunkSize = some r := by
  obtain ⟨h1, h2, h3, h4, h5, h6, h7, h8⟩ := hwf
  obtain ⟨fl, hfl⟩ := decodeVectorsRows_total (fr.strips strip) fr.width chunkID chunkSize
    (ftell input % 4294967296) fuel (by omega) (by rw [h1, h2]; omega) (by omega) h7
    (by omega) fuel (fr.strips strip).top (decodeVectorsInit input fr.surface) h5 h6 hfuel.2
  refine ⟨(fl.state.input, { fr with surface := fl.state.surface }), ?_⟩
  simp only [decodeVectors]
  rw [hfl]

/-- Every store of a `decodeVectors` call on a well-formed strip comes from a
visited block `(y, x, sb)` of the trace and hits one of its 48 bytes, at row
`y + r` and column `x + c` of the raster. -/
theorem decodeVectors_stores (fuel : Nat) (input : Stream) (fr : CinepakFrame)
    (strip chunkID chunkSize : Nat) (hwf : WellFormedStrip fr.width (fr.strips strip))
    (p : Nat × Nat)
    (hp : p ∈ (decodeVectorsTrace fuel input fr strip chunkID chunkSize).flatMap
      (fun b => blockStores (fr.strips strip) chunkID chunkSize (ftell input % 4294967296)
        b.2.2)) :
    ∃ b ∈ decodeVectorsTrace fuel input fr strip chunkID chunkSize,
      p ∈ blockStores (fr.strips strip) chunkID chunkSize (ftell input % 4294967296) b.2.2 ∧
      (fr.strips strip).top ≤ b.1 ∧ (b.1 - (fr.strips strip).top) % 4 = 0 ∧
      b.1 + 4 ≤ (fr.strips strip).bottom ∧ b.2.1 % 4 = 0 ∧ b.2.1 + 4 ≤ fr.width ∧
      ∃ r c k, r < 4 ∧ c < 4 ∧ k < 3 ∧ p.1 = 3 * ((b.1 + r) * fr.width + b.2.1 + c) + k := by
  obtain ⟨h1, h2, h3, h4, h5, h6, h7, h8⟩ := hwf
  obtain ⟨b, hb, hpb⟩ := List.mem_flatMap.1 hp
  obtain ⟨-, hin, -, -⟩ := decodeVectorsBlock_trace (fr.strips strip) chunkID chunkSize
    (ftell input % 4294967296) b.2.2
  obtain ⟨gi, j, g1, g2, g3, g4, g5⟩ := decodeVectorsRowsTrace_geometry (fr.strips strip)
    fr.width chunkID chunkSize (ftell input % 4294967296) fuel (by omega) (by rw [h1, h2]; omega)
    (by omega) h7 fuel (fr.strips strip).top (decodeVectorsInit input fr.surface) h5 h6 b hb
  have hin' := g5 p.1 (hin p hpb)
  rw [h1] at hin' g3
  rw [h2] at g4
  have hM : 3 * ((b.1 + 4) * fr.width) ≤ 4294967296 := by
    have : (b.1 + 4) * fr.width ≤ (fr.strips strip).bottom * fr.width :=
      Nat.mul_le_mul_right _ g2
    omega
  obtain ⟨r, c, k, hr, hc, hk, ho⟩ := inBlock_rowOffsets fr.width b.1 j p.1 (by omega) hM hin'
  refine ⟨b, hb, hpb, by omega, by omega, g2, by omega, g4, r, c, k, hr, hc, hk, ?_⟩
  rw [ho, g3]
  omega

set_option maxRecDepth 20000 in
/-- C16, as the code behaves: a strip of two rows (`top = 0`, `bottom = 2`) in
a 4x4 raster and a chunk 0x32 holding one V1 index. The loop over `y` runs for
`y = 0` and the block written there is four rows high: byte 26, the red byte
of pixel (0, 2) in row 2, outside `[top, bottom)`, changes from 0 to 149. -/
theorem decodeVectors_writes_below_strip :
    (decodeVectors 1 ⟨[3], 0, false⟩ exampleShortStrip 0 0x32 1).map
        (fun r => r.2.surface.mem 26) = some 149 ∧
    exampleShortStrip.surface.mem 26 = 0 ∧
    (exampleShortStrip.strips 0).bottom ≤ 26 / (3 * exampleShortStrip.width) := by
  decide

/-- C16, amended: on a well-formed strip (full raster width, width and strip
height multiples of 4, offsets within `uint32`) and with enough fuel,
`decodeVectors` returns, every store it makes goes to a byte of a row in
`[top, bottom)` (the row of byte `o` is `o / (3 * width)`), and every byte of
a row outside that range is unchanged by the call. -/
theorem decodeVectors_rows_inside (fuel : Nat) (input : Stream) (fr : CinepakFrame)
    (strip chunkID chunkSize : Nat) (hwf : WellFormedStrip fr.width (fr.strips strip))
    (hfuel : fr.width ≤ 4 * fuel ∧ (fr.strips strip).bottom ≤ (fr.strips strip).top + 4 * fuel) :
    ∃ r, decodeVectors fuel input fr strip chunkID chunkSize = some r ∧
      (∀ p ∈ r.2.surface.log.drop fr.surface.log.length,
        (fr.strips strip).top ≤ p.1 / (3 * fr.width) ∧
        p.1 / (3 * fr.width) < (fr.strips strip).bottom) ∧
      ∀ o, (o / (3 * fr.width) < (fr.strips strip).top ∨
          (fr.strips strip).bottom ≤ o / (3 * fr.width)) →
        r.2.surface.mem o = fr.surface.mem o := by
  obtain ⟨r, hr⟩ := decodeVectors_total fuel input fr strip chunkID chunkSize hwf hfuel
  obtain ⟨hext, -⟩ := decodeVectors_trace fuel input fr strip chunkID chunkSize r hr
  have hin : ∀ p ∈ (decodeVectorsTrace fuel input fr strip chunkID chunkSize).flatMap
      (fun b => blockStores (fr.strips strip) chunkID chunkSize (ftell input % 4294967296)
        b.2.2),
      (fr.strips strip).top ≤ p.1 / (3 * fr.width) ∧
      p.1 / (3 * fr.width) < (fr.strips strip).bottom := by
    intro p hp
    obtain ⟨b, -, -, g1, -, g2, -, g4, r, c, k, hr, hc, hk, ho⟩ :=
      decodeVectors_stores fuel input fr strip chunkID chunkSize hwf p hp
    rw [ho, Nat.add_assoc, pixel_row fr.width (b.1 + r) (b.2.1 + c) k (by omega) hk]
    omega
  refine ⟨r, hr, ?_, fun o ho => ?_⟩
  · rw [hext.stores]
    exact hin
  · apply hext.mem_of_not_written
    intro p hp he
    have := hin p hp
    rw [he] at this
    omega

/-- Witness for `decodeVectors_rows_inside`: the 4x4 strip of `exampleFrame`
and a chunk 0x32 with one index byte. -/
theorem decodeVectors_rows_inside_witness :
    WellFormedStrip exampleFrame.width (exampleFrame.strips 0) ∧
    ∃ r, decodeVectors 1 ⟨[3], 0, false⟩ exampleFrame 0 0x32 1 = some r ∧
      r.2.surface.mem 48 = exampleFrame.surface.mem 48 :=
  have hwf : WellFormedStrip exampleFrame.width (exampleFrame.strips 0) := by
    unfold WellFormedStrip
    decide
  let ⟨r, h1, _, h3⟩ := decodeVectors_rows_inside 1 ⟨[3], 0, false⟩ exampleFrame 0 0x32 1 hwf
    (by decide)
  ⟨hwf, r, h1, h3 48 (Or.inr (by decide))⟩

theorem blockStores_skipped (st : CinepakStrip) (chunkID chunkSize startPos : Nat)
    (s s1 : VecState) (hc : chunkID &&& 0x01 ≠ 0)
    (hf : decodeVectorsSkip chunkID chunkSize startPos s = .next s1)
    (hbit : s1.flag &&& s1.mask = 0) :
    blockStores st chunkID chunkSize startPos s = [] := by
  obtain ⟨h1, h2, -⟩ := decodeVectorsBlock_skipped st chunkID chunkSize startPos s s1 hc hf hbit
  simp only [blockStores]
  rw [h1]
  show List.drop s.surface.log.length s1.surface.log = []
  rw [h2, List.drop_length]

set_option maxRecDepth 20000 in
/-- C6, as the code behaves: a chunk 0x31 on the 4x4 strip of `exampleFrame`
whose flag word is `80 00 00 00`. The bit tested for the first block is set
(`flag & mask = 0x80000000`), and the block is coded, not skipped: its red
byte at offset 2 changes from 0 to 147 (V1 entry 3). -/
theorem decodeVectors_set_flag_bit_writes :
    (decodeVectorsSkip 0x31 5 0
        ((decodeVectorsInit ⟨[0x80, 0, 0, 0, 3], 0, false⟩ exampleFrame.surface).setRows
          exampleStrip 4 0)).state.flag &&&
      (decodeVectorsSkip 0x31 5 0
        ((decodeVectorsInit ⟨[0x80, 0, 0, 0, 3], 0, false⟩ exampleFrame.surface).setRows
          exampleStrip 4 0)).state.mask = 0x80000000 ∧
    (decodeVectors 1 ⟨[0x80, 0, 0, 0, 3], 0, false⟩ exampleFrame 0 0x31 5).map
        (fun r => r.2.surface.mem 2) = some 147 ∧
    exampleFrame.surface.mem 2 = 0 := by
  decide

/-- C6, amended: in a `decodeVectors` call whose `chunkID` has bit 0 set, on a
well-formed strip and with enough fuel, a block whose flag bit is clear (the
`flag & mask` tested at line 333 for that block is 0) receives no write: all
48 bytes of the 4x4 block at `(x, y)` are, after the call, what they were
before it. (A set bit means the block is coded.) -/
theorem decodeVectors_skipped_block (fuel : Nat) (input : Stream) (fr : CinepakFrame)
    (strip chunkID chunkSize : Nat) (hc : chunkID &&& 0x01 ≠ 0)
    (hwf : WellFormedStrip fr.width (fr.strips strip))
    (hfuel : fr.width ≤ 4 * fuel ∧ (fr.strips strip).bottom ≤ (fr.strips strip).top + 4 * fuel)
    (y x : Nat) (sb s1 : VecState)
    (hmem : (y, x, sb) ∈ decodeVectorsTrace fuel input fr strip chunkID chunkSize)
    (hskip : decodeVectorsSkip chunkID chunkSize (ftell input % 4294967296) sb = .next s1)
    (hbit : s1.flag &&& s1.mask = 0) :
    ∃ r, decodeVectors fuel input fr strip chunkID chunkSize = some r ∧
      ∀ r1 < 4, ∀ c < 4, ∀ k < 3,
        r.2.surface.mem (3 * ((y + r1) * fr.width + x + c) + k)
          = fr.surface.mem (3 * ((y + r1) * fr.width + x + c) + k) := by
  obtain ⟨r, hr⟩ := decodeVectors_total fuel input fr strip chunkID chunkSize hwf hfuel
  obtain ⟨hext, -⟩ := decodeVectors_trace fuel input fr strip chunkID chunkSize r hr
  have hempty := blockStores_skipped (fr.strips strip) chunkID chunkSize
    (ftell input % 4294967296) sb s1 hc hskip hbit
  obtain ⟨h1, h2, h3, h4, h5, h6, h7, h8⟩ := hwf
  obtain ⟨gi, j, g1, g2, g3, g4, -⟩ := decodeVectorsRowsTrace_geometry (fr.strips strip)
    fr.width chunkID chunkSize (ftell input % 4294967296) fuel (by omega) (by rw [h1, h2]; omega)
    (by omega) h7 fuel (fr.strips strip).top (decodeVectorsInit input fr.surface) h5 h6
    (y, x, sb) hmem
  simp only at g1 g2 g3 g4
  rw [h1] at g3
  rw [h2] at g4
  refine ⟨r, hr, fun r1 hr1 c hc1 k hk => ?_⟩
  apply hext.mem_of_not_written
  intro p hp he
  obtain ⟨b, hb, hpb, q1, q2, q3, q4, q5, r2, c2, k2, hr2, hc2, hk2, ho⟩ :=
    decodeVectors_stores fuel input fr strip chunkID chunkSize
      ⟨h1, h2, h3, h4, h5, h6, h7, h8⟩ p hp
  rw [he] at ho
  have e2 : (y + r1) * fr.width + (x + c) = (b.1 + r2) * fr.width + (b.2.1 + c2) := by
    generalize (y + r1) * fr.width = P at ho ⊢
    generalize (b.1 + r2) * fr.width = Q at ho ⊢
    omega
  obtain ⟨e3, e4⟩ := mul_add_unique fr.width _ _ _ _ (by omega) (by omega) e2
  have hb1 : b.1 = y := by omega
  have hb2 : b.2.1 = x := by omega
  have hbe := decodeVectorsRowsTrace_unique (fr.strips strip)
    fr.width chunkID chunkSize (ftell input % 4294967296) fuel (by omega) (by rw [h1, h2]; omega)
    (by omega) h7 fuel (fr.strips strip).top (decodeVectorsInit input fr.surface) h5 h6
    b hb (y, x, sb) hmem hb1 hb2
  rw [hbe] at hpb
  simp only at hpb
  rw [hempty] at hpb
  exact absurd hpb (by simp)

/-- Witness for `decodeVectors_skipped_block`: a chunk 0x31 with the flag word
`00 00 00 00` on the 4x4 strip of `exampleFrame`; the only block is skipped. -/
theorem decodeVectors_skipped_block_witness :
    ∃ r, decodeVectors 1 ⟨[0, 0, 0, 0], 0, false⟩ exampleFrame 0 0x31 4 = some r ∧
      r.2.surface.mem 47 = exampleFrame.surface.mem 47 :=
  have hwf : WellFormedStrip exampleFrame.width (exampleFrame.strips 0) := by
    unfold WellFormedStrip
    decide
  have hmem : (0, 0, (decodeVectorsInit ⟨[0, 0, 0, 0], 0, false⟩ exampleFrame.surface).setRows
      exampleStrip 4 0) ∈ decodeVectorsTrace 1 ⟨[0, 0, 0, 0], 0, false⟩ exampleFrame 0 0x31 4 :=
    List.mem_singleton.2 rfl
  let ⟨r, h1, h2⟩ := decodeVectors_skipped_block 1 ⟨[0, 0, 0, 0], 0, false⟩ exampleFrame 0 0x31 4
    (by decide) hwf (by decide) 0 0 _ _ hmem rfl rfl
  ⟨r, h1, h2 3 (by decide) 3 (by decide) 2 (by decide)⟩

/-! ### Effects of chunks and strips -/

theorem CinepakFrame.SameShape.same (a : CinepakFrame) : a.SameShape a :=
  ⟨rfl, rfl, rfl, rfl, rfl, rfl, rfl, fun _ => ⟨rfl, rfl, rfl, rfl, rfl, rfl⟩⟩

theorem CinepakFrame.SameShape.chain {a b c : CinepakFrame} (h1 : a.SameShape b)
    (h2 : b.SameShape c) : a.SameShape c := by
  obtain ⟨a1, a2, a3, a4, a5, a6, a7, a8⟩ := h1
  obtain ⟨b1, b2, b3, b4, b5, b6, b7, b8⟩ := h2
  refine ⟨b1.trans a1, b2.trans a2, b3.trans a3, b4.trans a4, b5.trans a5, b6.trans a6,
    b7.trans a7, fun j => ?_⟩
  obtain ⟨c1, c2, c3, c4, c5, c6⟩ := a8 j
  obtain ⟨d1, d2, d3, d4, d5, d6⟩ := b8 j
  exact ⟨d1.trans c1, d2.trans c2, d3.trans c3, d4.trans c4, d5.trans c5, d6.trans c6⟩

theorem WellFormedStrip.of_fields {w w1 : Nat} {st st1 : CinepakStrip} (hw : w1 = w)
    (hl : st1.left = st.left) (ht : st1.top = st.top) (hr : st1.right = st.right)
    (hb : st1.bottom = st.bottom) (h : WellFormedStrip w st) : WellFormedStrip w1 st1 := by
  unfold WellFormedStrip at h ⊢
  rw [hw, hl, ht, hr, hb]
  exact h

theorem loadCodebook_shape (f : Stream) (fr : CinepakFrame)
    (strip codebookType chunkID chunkSize : Nat) :
    fr.SameShape (loadCodebook f fr strip codebookType chunkID chunkSize).2 := by
  refine ⟨rfl, rfl, rfl, rfl, rfl, rfl, rfl, fun j => ?_⟩
  simp only [loadCodebook]
  by_cases hj : j = strip
  · subst hj
    rw [Function.update_same]
    split_ifs <;> exact ⟨rfl, rfl, rfl, rfl, rfl, rfl⟩
  · rw [Function.update_noteq hj]
    exact ⟨rfl, rfl, rfl, rfl, rfl, rfl⟩

theorem ChunkEffect.idle (i : Nat) (s : DecState) : ChunkEffect i s s :=
  ⟨CinepakFrame.SameShape.same _, rfl, fun _ _ => rfl, [], [], Surface.Extends.nil _,
    (List.append_nil _).symm, fun c hc => by simp at hc, fun p hp => by simp at hp⟩

theorem ChunkEffect.recast {i : Nat} {s t s1 t1 : DecState} (h : ChunkEffect i s t)
    (hs : s1.dec = s.dec) (hsc : s1.chunks = s.chunks)
    (ht : t1.dec = t.dec) (htc : t1.chunks = t.chunks) : ChunkEffect i s1 t1 := by
  unfold ChunkEffect at h ⊢
  rw [hs, hsc, ht, htc]
  exact h

theorem ChunkEffect.seq {i : Nat} {s t u : DecState} (h1 : ChunkEffect i s t)
    (h2 : ChunkEffect i t u) : ChunkEffect i s u := by
  obtain ⟨a1, a2, a3, W1, e1, a4, a5, a6, a7⟩ := h1
  obtain ⟨b1, b2, b3, W2, e2, b4, b5, b6, b7⟩ := h2
  refine ⟨a1.chain b1, b2.trans a2, fun j hj => (b3 j hj).trans (a3 j hj), W1 ++ W2, e1 ++ e2,
    a4.append b4, ?_, ?_, ?_⟩
  · rw [b5, a5, List.append_assoc]
  · intro c hc
    rcases List.mem_append.1 hc with hc | hc
    · exact a6 c hc
    · exact b6 c hc
  · intro p hp
    rcases List.mem_append.1 hp with hp | hp
    · obtain ⟨⟨c, hc, hv⟩, hbnd⟩ := a7 p hp
      exact ⟨⟨c, List.mem_append_left _ hc, hv⟩, hbnd⟩
    · obtain ⟨⟨c, hc, hv⟩, hbnd⟩ := b7 p hp
      refine ⟨⟨c, List.mem_append_right _ hc, hv⟩, fun hwf => ?_⟩
      obtain ⟨-, -, w3, -, -, -, -, g⟩ := a1
      obtain ⟨-, -, g3, g4, g5, g6⟩ := g i
      have := hbnd (WellFormedStrip.of_fields w3 g3 g4 g5 g6 hwf)
      rw [g6, w3] at this
      exact this

theorem decodeVectors_shape (fuel : Nat) (input : Stream) (fr : CinepakFrame)
    (strip chunkID chunkSize : Nat) (r : Stream × CinepakFrame)
    (h : decodeVectors fuel input fr strip chunkID chunkSize = some r) :
    fr.SameShape r.2 ∧ r.2.strips = fr.strips := by
  simp only [decodeVectors] at h
  cases hrows : decodeVectorsRows (fr.strips strip) fr.width chunkID chunkSize
      (ftell input % 4294967296) fuel fuel (fr.strips strip).top
      (decodeVectorsInit input fr.surface) with
  | none =>
    rw [hrows] at h
    cases h
  | some fl =>
    rw [hrows] at h
    cases h
    exact ⟨CinepakFrame.SameShape.same _, rfl⟩

theorem store_below_strip (w bottom y x r c k : Nat) (hy : y + 4 ≤ bottom) (hx : x + 4 ≤ w)
    (hr : r < 4) (hc : c < 4) (hk : k < 3) :
    3 * ((y + r) * w + x + c) + k < 3 * (bottom * w) := by
  have h1 : (y + r + 1) * w ≤ bottom * w := Nat.mul_le_mul_right _ (by omega)
  have h2 : (y + r + 1) * w = (y + r) * w + w := by ring
  generalize (y + r) * w = A at *
  generalize (y + r + 1) * w = B at *
  generalize bottom * w = C at *
  omega

theorem dispatchChunk_effect (fuel i chunkID chunkSize : Nat) (s : DecState)
    (fl : Flow DecState) (h : dispatchChunk fuel i chunkID chunkSize s = some fl) :
    ChunkEffect i s fl.state ∧ OutEffect s fl ∧
    (fl.stopped = true → ¬ IsKnownID chunkID ∧ fl.state.dec = s.dec ∧
      fl.state.chunks = s.chunks ∧ fl.state.out = s.out ++ [chunkID]) := by
  simp only [dispatchChunk] at h
  split_ifs at h with h1 h2 h3
  · cases h
    obtain ⟨k1, -, -⟩ := loadCodebook_strips s.input s.dec.curFrame i 4 chunkID chunkSize
    obtain ⟨-, -, -, -, k5, -⟩ := loadCodebook_frame s.input s.dec.curFrame i 4 chunkID chunkSize
    refine ⟨⟨loadCodebook_shape _ _ _ _ _ _, rfl, k1, [], [(i, chunkID)],
      Surface.Extends.of_eq k5, rfl, fun c hc => ?_, fun p hp => by simp at hp⟩,
      ⟨fun _ => rfl, fun hs => by simp [Flow.stopped] at hs⟩,
      fun hs => by simp [Flow.stopped] at hs⟩
    rw [List.mem_singleton.1 hc]
  · cases h
    obtain ⟨k1, -, -⟩ := loadCodebook_strips s.input s.dec.curFrame i 1 chunkID chunkSize
    obtain ⟨-, -, -, -, k5, -⟩ := loadCodebook_frame s.input s.dec.curFrame i 1 chunkID chunkSize
    refine ⟨⟨loadCodebook_shape _ _ _ _ _ _, rfl, k1, [], [(i, chunkID)],
      Surface.Extends.of_eq k5, rfl, fun c hc => ?_, fun p hp => by simp at hp⟩,
      ⟨fun _ => rfl, fun hs => by simp [Flow.stopped] at hs⟩,
      fun hs => by simp [Flow.stopped] at hs⟩
    rw [List.mem_singleton.1 hc]
  · cases hd : decodeVectors fuel s.input s.dec.curFrame i chunkID chunkSize with
    | none => rw [hd] at h; exact absurd h (by simp)
    | some r =>
      rw [hd] at h
      cases h
      obtain ⟨hext, -⟩ := decodeVectors_trace _ _ _ _ _ _ _ hd
      obtain ⟨hshape, hstrips⟩ := decodeVectors_shape _ _ _ _ _ _ _ hd
      refine ⟨⟨hshape, rfl, fun j _ => congrFun hstrips j, _, [(i, chunkID)], hext, rfl,
        fun c hc => ?_, fun p hp => ⟨⟨(i, chunkID), List.mem_singleton.2 rfl, h3⟩,
          fun hwf => ?_⟩⟩,
        ⟨fun _ => rfl, fun hs => by simp [Flow.stopped] at hs⟩,
        fun hs => by simp [Flow.stopped] at hs⟩
      · rw [List.mem_singleton.1 hc]
      · obtain ⟨b, -, -, -, -, g2, -, g4, r1, c1, k1, hr1, hc1, hk1, ho⟩ :=
          decodeVectors_stores fuel s.input s.dec.curFrame i chunkID chunkSize hwf p hp
        rw [ho]
        exact store_below_strip _ _ _ _ _ _ _ g2 g4 hr1 hc1 hk1
  · cases h
    refine ⟨(ChunkEffect.idle i s).recast rfl rfl rfl rfl, ⟨fun hs => by simp [Flow.stopped] at hs,
      fun _ => ⟨chunkID, ?_, rfl⟩⟩, fun _ => ⟨?_, rfl, rfl, rfl⟩⟩
    · simp only [IsKnownID]
      omega
    · simp only [IsKnownID]
      omega

theorem chunkBody_effect (fuel i : Nat) (s : DecState) (fl : Flow DecState) (b : Bool)
    (h : chunkBody fuel i s = some (fl, b)) :
    ChunkEffect i s fl.state ∧ OutEffect s fl := by
  simp only [chunkBody] at h
  split_ifs at h with h1
  · cases h
    exact ⟨(ChunkEffect.idle i s).recast rfl rfl rfl rfl,
      fun _ => rfl, fun hs => by simp [Flow.stopped] at hs⟩
  · generalize hcs : (((readByte (readByte s.input).2).1 <<< 16) % 4294967296 +
      (4294967296 + (readUint16BE (readByte (readByte s.input).2).2).1 - 4)) % 4294967296
      = cs at h
    cases hd : dispatchChunk fuel i (readByte s.input).1 cs
        { s with input := (readUint16BE (readByte (readByte s.input).2).2).2 } with
    | none => rw [hd] at h; exact absurd h (by simp)
    | some fl1 =>
      obtain ⟨e1, e2, -⟩ := dispatchChunk_effect _ _ _ _ _ _ hd
      rw [hd] at h
      cases fl1 with
      | stop s1 =>
        simp only [] at h
        cases h
        exact ⟨e1.recast rfl rfl rfl rfl, e2⟩
      | next s1 =>
        simp only [] at h
        split_ifs at h
        · cases h
          exact ⟨e1.recast rfl rfl rfl rfl, fun _ => e2.1 rfl,
            fun hs => by simp [Flow.stopped] at hs⟩
        · cases h
          exact ⟨e1.recast rfl rfl rfl rfl, e2⟩

theorem chunkLoop_zero (fuelV i pos : Nat) (s : DecState)
    (h : ftell s.input < (pos + (s.dec.curFrame.strips i).length) % 4294967296 ∧
      feof s.input = false) :
    chunkLoop fuelV i pos 0 s = none := by
  simp only [chunkLoop]
  rw [if_pos h]

theorem chunkLoop_exit (fuelV i pos fuel : Nat) (s : DecState)
    (h : ¬ (ftell s.input < (pos + (s.dec.curFrame.strips i).length) % 4294967296 ∧
      feof s.input = false)) :
    chunkLoop fuelV i pos fuel s = some (.next s) := by
  cases fuel with
  | zero => simp only [chunkLoop]; rw [if_neg h]
  | succ fuel => simp only [chunkLoop]; rw [if_neg h]

theorem chunkLoop_succ (fuelV i pos fuel : Nat) (s : DecState)
    (h : ftell s.input < (pos + (s.dec.curFrame.strips i).length) % 4294967296 ∧
      feof s.input = false) :
    chunkLoop fuelV i pos (fuel + 1) s =
      match chunkBody fuelV i s with
      | none => none
      | some (.stop s1, _) => some (.stop s1)
      | some (.next s1, true) => some (.next s1)
      | some (.next s1, false) => chunkLoop fuelV i pos fuel s1 :=
  chunkLoop_step fuelV i pos fuel s h.1 h.2

theorem chunkLoop_effect (fuelV i pos : Nat) :
    ∀ (fuel : Nat) (s : DecState) (fl : Flow DecState),
      chunkLoop fuelV i pos fuel s = some fl → ChunkEffect i s fl.state ∧ OutEffect s fl := by
  intro fuel
  induction fuel with
  | zero =>
    intro s fl h
    by_cases hc : ftell s.input < (pos + (s.dec.curFrame.strips i).length) % 4294967296 ∧
        feof s.input = false
    · rw [chunkLoop_zero _ _ _ _ hc] at h
      cases h
    · rw [chunkLoop_exit _ _ _ _ _ hc] at h
      cases h
      exact ⟨ChunkEffect.idle i s, fun _ => rfl, fun hs => by simp [Flow.stopped] at hs⟩
  | succ fuel ih =>
    intro s fl h
    by_cases hc : ftell s.input < (pos + (s.dec.curFrame.strips i).length) % 4294967296 ∧
        feof s.input = false
    · rw [chunkLoop_succ _ _ _ _ _ hc] at h
      cases hb : chunkBody fuelV i s with
      | none => rw [hb] at h; cases h
      | some r =>
        obtain ⟨fl1, b⟩ := r
        obtain ⟨e1, e2⟩ := chunkBody_effect _ _ _ _ _ hb
        rw [hb] at h
        cases fl1 with
        | stop s1 =>
          simp only [] at h
          cases h
          exact ⟨e1, e2⟩
        | next s1 =>
          cases b with
          | true =>
            simp only [] at h
            cases h
            exact ⟨e1, e2⟩
          | false =>
            simp only [] at h
            obtain ⟨e3, e4⟩ := ih s1 fl h
            have ho : s1.out = s.out := e2.1 rfl
            refine ⟨e1.seq e3, fun hs => (e4.1 hs).trans ho, fun hs => ?_⟩
            obtain ⟨cid, hk, hout⟩ := e4.2 hs
            exact ⟨cid, hk, by rw [hout, ho]⟩
    · rw [chunkLoop_exit _ _ _ _ _ hc] at h
      cases h
      exact ⟨ChunkEffect.idle i s, fun _ => rfl, fun hs => by simp [Flow.stopped] at hs⟩

theorem inheritCodebooks_fields (fr : CinepakFrame) (i : Nat) :
    (inheritCodebooks fr i).flags = fr.flags ∧ (inheritCodebooks fr i).width = fr.width ∧
    (inheritCodebooks fr i).height = fr.height ∧
    (inheritCodebooks fr i).stripCount = fr.stripCount ∧
    (inheritCodebooks fr i).stripsAlloc = fr.stripsAlloc ∧
    (inheritCodebooks fr i).surfaceAlloc = fr.surfaceAlloc ∧
    (inheritCodebooks fr i).surface = fr.surface ∧
    ∀ j, j ≠ i → (inheritCodebooks fr i).strips j = fr.strips j := by
  simp only [inheritCodebooks]
  split_ifs
  · exact ⟨rfl, rfl, rfl, rfl, rfl, rfl, rfl, fun j hj => Function.update_noteq hj _ _⟩
  · exact ⟨rfl, rfl, rfl, rfl, rfl, rfl, rfl, fun j _ => rfl⟩

theorem readStripHeader_fields (s : DecState) (i : Nat) :
    (readStripHeader s i).dec.curFrame.flags = s.dec.curFrame.flags ∧
    (readStripHeader s i).dec.curFrame.stripsAlloc = s.dec.curFrame.stripsAlloc ∧
    (readStripHeader s i).dec.curFrame.surfaceAlloc = s.dec.curFrame.surfaceAlloc ∧
    (readStripHeader s i).chunks = s.chunks ∧
    ∀ j, j ≠ i → (readStripHeader s i).dec.curFrame.strips j = s.dec.curFrame.strips j := by
  simp only [readStripHeader, DecState.withFrame]
  exact ⟨trivial, trivial, trivial, trivial, fun j hj => Function.update_noteq hj _ _⟩

/-- One iteration of the loop over the strips. -/
theorem decodeStrip_effect (fuel i : Nat) (s : DecState) (fl : Flow DecState)
    (h : decodeStrip fuel i s = some fl) :
    StripsEffect i s fl.state ∧ OutEffect s fl ∧
    (∀ j, j ≠ i → fl.state.dec.curFrame.strips j = s.dec.curFrame.strips j) ∧
    (∀ c ∈ fl.state.chunks.drop s.chunks.length, c.1 = i) ∧
    (fl.state.dec.curFrame.strips i).top = s.dec.y % 65536 ∧
    (fl.state.dec.curFrame.strips i).left = 0 ∧
    (fl.state.dec.curFrame.strips i).right = fl.state.dec.curFrame.width ∧
    (fl.state.dec.curFrame.strips i).bottom
      = ((s.dec.y + (byteAt s.input 8 * 256 + byteAt s.input 9)) % 4294967296) % 65536 ∧
    (fl.stopped = false → fl.state.dec.y = (fl.state.dec.curFrame.strips i).bottom) := by
  rw [decodeStrip_eq] at h
  obtain ⟨i1, i2, i3, i4, i5, i6, i7, i8⟩ := inheritCodebooks_fields s.dec.curFrame i
  obtain ⟨r1, r2, r3, r4, r5⟩ :=
    readStripHeader_fields (s.withFrame s.input (inheritCodebooks s.dec.curFrame i)) i
  obtain ⟨-, -, q3, q4, q5, q6, q7, q8, q9, q10, q11, q12⟩ :=
    readStripHeader_eq (s.withFrame s.input (inheritCodebooks s.dec.curFrame i)) i
  have e0 : (s.withFrame s.input (inheritCodebooks s.dec.curFrame i)).dec.curFrame
      = inheritCodebooks s.dec.curFrame i := rfl
  have e1 : (s.withFrame s.input (inheritCodebooks s.dec.curFrame i)).dec.y = s.dec.y := rfl
  have e2 : (s.withFrame s.input (inheritCodebooks s.dec.curFrame i)).input = s.input := rfl
  have e3 : (s.withFrame s.input (inheritCodebooks s.dec.curFrame i)).chunks = s.chunks := rfl
  have e4 : (s.withFrame s.input (inheritCodebooks s.dec.curFrame i)).out = s.out := rfl
  rw [e0] at r1 r2 r3 r5 q6 q7 q8 q9 q10
  rw [e1] at q3 q5 q11
  rw [e2] at q5
  rw [e3] at r4
  rw [e4] at q12
  rw [i1] at r1
  rw [i2] at q6 q7
  rw [i3] at q8
  rw [i4] at q9
  rw [i5] at r2
  rw [i6] at r3
  rw [i7] at q10
  generalize readStripHeader (s.withFrame s.input (inheritCodebooks s.dec.curFrame i)) i = s1
    at h r1 r2 r3 r4 r5 q3 q4 q5 q6 q7 q8 q9 q10 q11 q12
  cases hl : chunkLoop fuel i (ftell s1.input % 4294967296) fuel s1 with
  | none => rw [hl] at h; cases h
  | some fl1 =>
    obtain ⟨⟨sh, cy, co, W, extra, cext, cch, cex, cbnd⟩, oe⟩ := chunkLoop_effect _ _ _ _ _ _ hl
    obtain ⟨a1, -, a3, a4, a5, a6, a7, a8⟩ := sh
    obtain ⟨-, -, g3, g4, g5, g6⟩ := a8 i
    have hstrips : ∀ j, j ≠ i → fl1.state.dec.curFrame.strips j = s.dec.curFrame.strips j :=
      fun j hj => (co j hj).trans ((r5 j hj).trans (i8 j hj))
    have hext : s.dec.curFrame.surface.Extends fl1.state.dec.curFrame.surface W := by
      rw [q10] at cext
      exact cext
    have hch : fl1.state.chunks = s.chunks ++ extra := by rw [cch, r4]
    have hdrop : ∀ c ∈ fl1.state.chunks.drop s.chunks.length, c.1 = i := by
      rw [hch, List.drop_left]
      exact cex
    have hbnd : ∀ p ∈ W, ∃ c ∈ extra, IsVectorID c.2 ∧
        (WellFormedStrip fl1.state.dec.curFrame.width (fl1.state.dec.curFrame.strips c.1) →
          p.1 < 3 * ((fl1.state.dec.curFrame.strips c.1).bottom *
            fl1.state.dec.curFrame.width)) := by
      intro p hp
      obtain ⟨⟨c, hc, hv⟩, hb⟩ := cbnd p hp
      refine ⟨c, hc, hv, fun hwf => ?_⟩
      rw [cex c hc] at hwf ⊢
      have := hb (WellFormedStrip.of_fields a3.symm g3.symm g4.symm g5.symm g6.symm hwf)
      rw [g6, a3]
      exact this
    have hse : StripsEffect i s fl1.state :=
      ⟨a1.trans r1, a3.trans q7, a4.trans q8, a5.trans q9, a6.trans r2, a7.trans r3,
        fun j hj => hstrips j (by omega), W, extra, hext, hch,
        fun c hc => by rw [cex c hc], hbnd⟩
    have hoe : OutEffect s fl1 := by
      refine ⟨fun hs => (oe.1 hs).trans q12, fun hs => ?_⟩
      obtain ⟨cid, hk, ho⟩ := oe.2 hs
      exact ⟨cid, hk, by rw [ho, q12]⟩
    rw [hl] at h
    cases fl1 with
    | stop s2 =>
      simp only [] at h
      cases h
      simp only [Flow.state] at *
      exact ⟨hse, hoe, hstrips, hdrop, by rw [g4, q3], by rw [g3, q4], by rw [g5, q6, a3, q7],
        by rw [g6, q5], fun hs => by simp [Flow.stopped] at hs⟩
    | next s2 =>
      simp only [] at h
      cases h
      simp only [Flow.state] at *
      exact ⟨hse, hoe, hstrips, hdrop, by rw [g4, q3], by rw [g3, q4], by rw [g5, q6, a3, q7],
        by rw [g6, q5], fun _ => trivial⟩

theorem StripsEffect.noStrip (i : Nat) (s : DecState) : StripsEffect i s s :=
  ⟨rfl, rfl, rfl, rfl, rfl, rfl, fun _ _ => rfl, [], [], Surface.Extends.nil _,
    (List.append_nil _).symm, fun c hc => by simp at hc, fun p hp => by simp at hp⟩

theorem stripLoop_effect (fuel : Nat) :
    ∀ (n i : Nat) (s : DecState) (fl : Flow DecState),
      stripLoop fuel n i s = some fl → StripsEffect i s fl.state ∧ OutEffect s fl := by
  intro n
  induction n with
  | zero =>
    intro i s fl h
    cases h
    exact ⟨StripsEffect.noStrip i s, fun _ => rfl, fun hs => by simp [Flow.stopped] at hs⟩
  | succ n ih =>
    intro i s fl h
    rw [stripLoop_succ] at h
    cases hd : decodeStrip fuel i s with
    | none => rw [hd] at h; cases h
    | some fl1 =>
      obtain ⟨hse, hoe, -⟩ := decodeStrip_effect fuel i s fl1 hd
      rw [hd] at h
      cases fl1 with
      | stop s1 =>
        simp only [] at h
        cases h
        exact ⟨hse, hoe⟩
      | next s1 =>
        simp only [] at h
        obtain ⟨hse2, hoe2⟩ := ih (i + 1) s1 fl h
        simp only [Flow.state] at hse hoe
        obtain ⟨a1, a2, a3, a4, a5, a6, a7, W1, e1, a8, a9, a10, a11⟩ := hse
        obtain ⟨b1, b2, b3, b4, b5, b6, b7, W2, e2, b8, b9, b10, b11⟩ := hse2
        have ho : s1.out = s.out := hoe.1 rfl
        refine ⟨⟨b1.trans a1, b2.trans a2, b3.trans a3, b4.trans a4, b5.trans a5, b6.trans a6,
          fun j hj => (b7 j (by omega)).trans (a7 j hj), W1 ++ W2, e1 ++ e2, a8.append b8, ?_,
          ?_, ?_⟩, fun hs => (hoe2.1 hs).trans ho, fun hs => ?_⟩
        · rw [b9, a9, List.append_assoc]
        · intro c hc
          rcases List.mem_append.1 hc with hc | hc
          · exact a10 c hc
          · have := b10 c hc
            omega
        · intro p hp
          rcases List.mem_append.1 hp with hp | hp
          · obtain ⟨c, hc, hv, hb⟩ := a11 p hp
            refine ⟨c, List.mem_append_left _ hc, hv, fun hwf => ?_⟩
            have hci : c.1 = i := by
              obtain ⟨-, -, -, hdrop, -⟩ := decodeStrip_effect fuel i s _ hd
              simp only [Flow.state] at hdrop
              rw [a9, List.drop_left] at hdrop
              exact hdrop c hc
            have hst : fl.state.dec.curFrame.strips c.1 = s1.dec.curFrame.strips c.1 :=
              b7 c.1 (by omega)
            rw [hst, b2] at hwf ⊢
            exact hb hwf
          · obtain ⟨c, hc, hv, hb⟩ := b11 p hp
            exact ⟨c, List.mem_append_right _ hc, hv, hb⟩
        · obtain ⟨cid, hk, hout⟩ := hoe2.2 hs
          exact ⟨cid, hk, by rw [hout, ho]⟩

theorem decodeImage_none (fuel : Nat) (f : Stream) (d : CinepakDecoder)
    (h : stripLoop fuel (readFrameHeader f d).dec.curFrame.stripCount 0 (readFrameHeader f d)
      = none) :
    decodeImage fuel f d = none := by
  unfold decodeImage
  simp only [h]

/-- The effect of a whole `decodeImage` call: what it returns is the state the
loop over the strips ends in, whether that loop ran to its end or was left by
the `return` on an unknown chunk ID. -/
theorem decodeImage_effect (fuel : Nat) (f : Stream) (d : CinepakDecoder) (r : DecState)
    (h : decodeImage fuel f d = some r) :
    ∃ fl, stripLoop fuel (readFrameHeader f d).dec.curFrame.stripCount 0 (readFrameHeader f d)
        = some fl ∧ fl.state = r ∧
      StripsEffect 0 (readFrameHeader f d) r ∧ OutEffect (readFrameHeader f d) fl := by
  cases hl : stripLoop fuel (readFrameHeader f d).dec.curFrame.stripCount 0
      (readFrameHeader f d) with
  | none =>
    rw [decodeImage_none fuel f d hl] at h
    cases h
  | some fl =>
    rw [decodeImage_of_stripLoop fuel f d fl hl] at h
    have hr : fl.state = r := Option.some.inj h
    obtain ⟨h1, h2⟩ := stripLoop_effect fuel _ _ _ _ hl
    rw [hr] at h1
    exact ⟨fl, rfl, hr, h1, h2⟩

/-! ### Raster bounds and raster reuse -/

set_option maxRecDepth 20000 in
theorem codedFrameStream_runs :
    (decodeImage 2 ⟨codedFrameStream, 0, false⟩ (CinepakDecoder.new exampleFrame)).isSome
      = true := by
  decide

theorem stripLoop_contiguous (fuel : Nat) :
    ∀ (n i : Nat) (s t : DecState), stripLoop fuel n i s = some (.next t) →
      (∀ j, i ≤ j → j < i + n →
        (t.dec.curFrame.strips j).left = 0 ∧
        (t.dec.curFrame.strips j).right = t.dec.curFrame.width ∧
        (t.dec.curFrame.strips j).bottom < 65536) ∧
      (0 < n → (t.dec.curFrame.strips i).top = s.dec.y % 65536) ∧
      (∀ j, i < j → j < i + n →
        (t.dec.curFrame.strips j).top = (t.dec.curFrame.strips (j - 1)).bottom) ∧
      (0 < n → t.dec.y = (t.dec.curFrame.strips (i + n - 1)).bottom) := by
  intro n
  induction n with
  | zero =>
    intro i s t _
    exact ⟨fun j h1 h2 => by omega, fun h => by omega, fun j h1 h2 => by omega,
      fun h => by omega⟩
  | succ n ih =>
    intro i s t h
    rw [stripLoop_succ] at h
    cases hd : decodeStrip fuel i s with
    | none => rw [hd] at h; cases h
    | some fl1 =>
      rw [hd] at h
      cases fl1 with
      | stop s1 =>
        simp only [] at h
        cases h
      | next s1 =>
        simp only [] at h
        obtain ⟨-, -, -, -, d1, d2, d3, d4, d5⟩ := decodeStrip_effect fuel i s _ hd
        simp only [Flow.state] at d1 d2 d3 d4
        have d5 := d5 rfl
        simp only [Flow.state] at d5
        obtain ⟨⟨-, b2, -, -, -, -, b7, -⟩, -⟩ := stripLoop_effect fuel n (i + 1) s1 _ h
        simp only [Flow.state] at b2 b7
        have hsi : t.dec.curFrame.strips i = s1.dec.curFrame.strips i := b7 i (by omega)
        have hbot : (s1.dec.curFrame.strips i).bottom < 65536 := by
          rw [d4]
          exact Nat.mod_lt _ (by decide)
        obtain ⟨c1, c2, c3, c4⟩ := ih (i + 1) s1 t h
        refine ⟨fun j h1 h2 => ?_, fun _ => by rw [hsi, d1], fun j h1 h2 => ?_, fun _ => ?_⟩
        · by_cases hj : j = i
          · subst hj
            rw [hsi, b2]
            exact ⟨d2, d3, hbot⟩
          · exact c1 j (by omega) (by omega)
        · by_cases hj : j = i + 1
          · subst hj
            rw [c2 (by omega), d5, Nat.add_sub_cancel, hsi]
            exact Nat.mod_eq_of_lt hbot
          · exact c3 j (by omega) (by omega)
        · cases n with
          | zero =>
            cases h
            exact d5
          | succ m =>
            have e : i + 1 + (m + 1) - 1 = i + (m + 1 + 1) - 1 := by omega
            rw [c4 (by omega), e]

/-- C18: after a `decodeImage` call that returns with all strips processed (a
first call or a later one: the decoder `d` is arbitrary), strip 0 has `top =
0`, every strip `i > 0` has the `bottom` of strip `i - 1` as its `top`, and
every strip has `left = 0` and `right` equal to the frame width. -/
theorem decodeImage_strips_contiguous (fuel : Nat) (f : Stream) (d : CinepakDecoder)
    (t : DecState) (h : decodeImage fuel f d = some t)
    (hall : decodeImageStopped fuel f d = some false) :
    (0 < t.dec.curFrame.stripCount → (t.dec.curFrame.strips 0).top = 0) ∧
    (∀ i, 0 < i → i < t.dec.curFrame.stripCount →
      (t.dec.curFrame.strips i).top = (t.dec.curFrame.strips (i - 1)).bottom) ∧
    ∀ i, i < t.dec.curFrame.stripCount →
      (t.dec.curFrame.strips i).left = 0 ∧
      (t.dec.curFrame.strips i).right = t.dec.curFrame.width := by
  obtain ⟨fl, hl, hr, hse, -⟩ := decodeImage_effect fuel f d t h
  simp only [decodeImageStopped, hl, Option.map_some'] at hall
  have hst : fl.stopped = false := Option.some.inj hall
  cases fl with
  | stop s1 => simp [Flow.stopped] at hst
  | next s1 =>
    simp only [Flow.state] at hr
    subst hr
    obtain ⟨-, -, -, a4, -⟩ := hse
    obtain ⟨-, -, -, -, -, -, -, hy, -⟩ := readFrameHeader_eq f d
    obtain ⟨c1, c2, c3, -⟩ := stripLoop_contiguous fuel _ 0 _ _ hl
    rw [← a4] at c1 c2 c3
    rw [hy] at c2
    exact ⟨c2, fun i h1 h2 => c3 i h1 (by omega),
      fun i hi => ⟨(c1 i (by omega) (by omega)).1, (c1 i (by omega) (by omega)).2.1⟩⟩

set_option maxRecDepth 20000 in
/-- Witness for `decodeImage_strips_contiguous`: the one-strip frame
`codedFrameStream` on a fresh decoder. -/
theorem decodeImage_strips_contiguous_witness :
    ∃ t, decodeImage 2 ⟨codedFrameStream, 0, false⟩ (CinepakDecoder.new exampleFrame) = some t ∧
      (t.dec.curFrame.strips 0).top = 0 ∧ (t.dec.curFrame.strips 0).left = 0 ∧
      (t.dec.curFrame.strips 0).right = t.dec.curFrame.width :=
  have h := decodeImage_strips_contiguous 2 ⟨codedFrameStream, 0, false⟩
    (CinepakDecoder.new exampleFrame) _ (Option.some_get codedFrameStream_runs).symm
    (by decide)
  ⟨_, (Option.some_get codedFrameStream_runs).symm, h.1 (by decide),
    (h.2.2 0 (by decide)).1, (h.2.2 0 (by decide)).2⟩

set_option maxRecDepth 20000 in
/-- C19, as the code behaves: `tallStripStream` declares a frame height of 4
and a strip of 8 rows. The call processes its one strip completely, prints
nothing, and leaves the last strip with `bottom = 8`, not 4. -/
theorem decodeImage_last_bottom_not_height :
    decodeImageStopped 2 ⟨tallStripStream, 0, false⟩ (CinepakDecoder.new exampleFrame)
      = some false ∧
    (decodeImage 2 ⟨tallStripStream, 0, false⟩ (CinepakDecoder.new exampleFrame)).map
      (fun r => (r.out, (r.dec.curFrame.strips (r.dec.curFrame.stripCount - 1)).bottom,
        r.dec.curFrame.height)) = some ([], 8, 4) := by
  decide

/-- C19, amended: when `decodeImage` has processed strip `i` (the iteration
ends without the `return` on an unknown chunk), the strip's `bottom` is the row
cursor `_y` the iteration started with (0 for the first strip, the `bottom` of
the strip before otherwise) plus the height field of the strip header (bytes 8
and 9), modulo 2^16; its `top` is that cursor, the cursor moves on to
`bottom`, and the frame height is neither consulted nor changed. -/
theorem decodeStrip_bottom (fuel i : Nat) (s : DecState) (fl : Flow DecState)
    (h : decodeStrip fuel i s = some fl) (hnext : fl.stopped = false) :
    (fl.state.dec.curFrame.strips i).bottom
      = (s.dec.y + (byteAt s.input 8 * 256 + byteAt s.input 9)) % 65536 ∧
    (fl.state.dec.curFrame.strips i).top = s.dec.y % 65536 ∧
    fl.state.dec.y = (fl.state.dec.curFrame.strips i).bottom ∧
    fl.state.dec.curFrame.height = s.dec.curFrame.height := by
  obtain ⟨⟨-, -, a3, -⟩, -, -, -, d1, -, -, d4, d5⟩ := decodeStrip_effect fuel i s fl h
  refine ⟨?_, d1, d5 hnext, a3⟩
  rw [d4]
  omega

set_option maxRecDepth 20000 in
theorem tallStrip_runs :
    (decodeStrip 2 0 (readFrameHeader ⟨tallStripStream, 0, false⟩
      (CinepakDecoder.new exampleFrame))).isSome = true := by
  decide

set_option maxRecDepth 20000 in
/-- Witness for `decodeStrip_bottom`: the strip of `tallStripStream`, whose
height field is 8 in a frame of height 4. -/
theorem decodeStrip_bottom_witness :
    ∃ fl, decodeStrip 2 0 (readFrameHeader ⟨tallStripStream, 0, false⟩
        (CinepakDecoder.new exampleFrame)) = some fl ∧
      (fl.state.dec.curFrame.strips 0).bottom = 8 ∧ fl.state.dec.curFrame.height = 4 :=
  have h := decodeStrip_bottom 2 0 _ _ (Option.some_get tallStrip_runs).symm (by decide)
  ⟨_, (Option.some_get tallStrip_runs).symm, h.1.trans (by decide), h.2.2.2.trans (by decide)⟩

theorem dispatchChunk_unknown (fuel i chunkID chunkSize : Nat) (s : DecState)
    (h : ¬ IsKnownID chunkID) :
    dispatchChunk fuel i chunkID chunkSize s = some (.stop { s with out := s.out ++ [chunkID] }) := by
  simp only [IsKnownID] at h
  simp only [dispatchChunk]
  rw [if_neg (by omega), if_neg (by omega), if_neg (by omega)]

theorem chunkBody_unknown (fuelV i : Nat) (s : DecState)
    (heof : feof (readByte s.input).2 = false) (hunk : ¬ IsKnownID (byteAt s.input 0)) :
    ∃ t, chunkBody fuelV i s = some (.stop t, false) ∧ t.dec = s.dec ∧
      t.chunks = s.chunks ∧ t.out = s.out ++ [byteAt s.input 0] := by
  have hb : (readByte s.input).1 = byteAt s.input 0 := rfl
  simp only [chunkBody]
  rw [if_neg (by rw [heof]; decide), dispatchChunk_unknown _ _ _ _ _ (by rw [hb]; exact hunk)]
  exact ⟨_, rfl, rfl, rfl, rfl⟩

theorem chunkLoopTrace_succ (fuelV i pos fuel : Nat) (s : DecState)
    (h : ftell s.input < (pos + (s.dec.curFrame.strips i).length) % 4294967296 ∧
      feof s.input = false) :
    chunkLoopTrace fuelV i pos (fuel + 1) s =
      s ::
        match chunkBody fuelV i s with
        | some (.next s1, false) => chunkLoopTrace fuelV i pos fuel s1
        | _ => [] := by
  simp only [chunkLoopTrace]
  (rw [if_pos h]; try rfl)

theorem chunkLoopTrace_exit (fuelV i pos fuel : Nat) (s : DecState)
    (h : ¬ (ftell s.input < (pos + (s.dec.curFrame.strips i).length) % 4294967296 ∧
      feof s.input = false)) :
    chunkLoopTrace fuelV i pos fuel s = [] := by
  cases fuel with
  | zero => rfl
  | succ fuel => simp only [chunkLoopTrace]; rw [if_neg h]

theorem stripLoopTrace_succ (fuel n i : Nat) (s : DecState) :
    stripLoopTrace fuel (n + 1) i s =
      (chunkLoopTrace fuel i
          (ftell (readStripHeader (s.withFrame s.input
            (inheritCodebooks s.dec.curFrame i)) i).input % 4294967296) fuel
          (readStripHeader (s.withFrame s.input (inheritCodebooks s.dec.curFrame i)) i)).map
          (fun t => (i, t)) ++
        match decodeStrip fuel i s with
        | some (.next s1) => stripLoopTrace fuel n (i + 1) s1
        | _ => [] := rfl

/-- An iteration of the chunk loop that ends with the `return` on an unknown
chunk ID ends the loop: the loop returns the state of the `return`, and the
iteration is the last one. -/
theorem chunkLoop_stop (fuelV i pos : Nat) :
    ∀ (fuel : Nat) (s b t : DecState) (bb : Bool),
      b ∈ chunkLoopTrace fuelV i pos fuel s → chunkBody fuelV i b = some (.stop t, bb) →
      chunkLoop fuelV i pos fuel s = some (.stop t) ∧
      ∃ l, chunkLoopTrace fuelV i pos fuel s = l ++ [b] := by
  intro fuel
  induction fuel with
  | zero =>
    intro s b t bb hb
    exact absurd hb (by simp [chunkLoopTrace])
  | succ fuel ih =>
    intro s b t bb hb hstop
    by_cases hc : ftell s.input < (pos + (s.dec.curFrame.strips i).length) % 4294967296 ∧
        feof s.input = false
    · rw [chunkLoopTrace_succ _ _ _ _ _ hc] at hb ⊢
      rw [chunkLoop_succ _ _ _ _ _ hc]
      cases hbody : chunkBody fuelV i s with
      | none =>
        rw [hbody] at hb
        simp only [List.mem_singleton] at hb
        subst hb
        rw [hbody] at hstop
        cases hstop
      | some r =>
        obtain ⟨fl, e⟩ := r
        cases fl with
        | stop s1 =>
          rw [hbody] at hb
          simp only [List.mem_singleton] at hb
          subst hb
          rw [hbody] at hstop
          cases hstop
          exact ⟨rfl, [], rfl⟩
        | next s1 =>
          cases e with
          | true =>
            rw [hbody] at hb
            simp only [List.mem_singleton] at hb
            subst hb
            rw [hbody] at hstop
            cases hstop
          | false =>
            rw [hbody] at hb
            simp only [List.mem_cons] at hb
            rcases hb with hb | hb
            · subst hb
              rw [hbody] at hstop
              cases hstop
            · obtain ⟨h1, l, h2⟩ := ih s1 b t bb hb hstop
              simp only []
              exact ⟨h1, s :: l, by rw [h2]; rfl⟩
    · rw [chunkLoopTrace_exit _ _ _ _ _ hc] at hb
      exact absurd hb (by simp)

/-- The `return` on an unknown chunk ID ends the loop over the strips. -/
theorem stripLoop_stop (fuel : Nat) :
    ∀ (n i : Nat) (s : DecState) (b : Nat × DecState) (t : DecState) (bb : Bool),
      b ∈ stripLoopTrace fuel n i s → chunkBody fuel b.1 b.2 = some (.stop t, bb) →
      stripLoop fuel n i s = some (.stop t) ∧
      ∃ l, stripLoopTrace fuel n i s = l ++ [b] := by
  intro n
  induction n with
  | zero =>
    intro i s b t bb hb
    exact absurd hb (by simp [stripLoopTrace])
  | succ n ih =>
    intro i s b t bb hb hstop
    rw [stripLoopTrace_succ] at hb ⊢
    rw [stripLoop_succ]
    rcases List.mem_append.1 hb with hb | hb
    · obtain ⟨b1, hb1, rfl⟩ := List.mem_map.1 hb
      obtain ⟨h1, l, h2⟩ := chunkLoop_stop fuel i _ fuel _ b1 t bb hb1 hstop
      have hd : decodeStrip fuel i s = some (.stop t) := by
        rw [decodeStrip_eq, h1]
      rw [hd, h2]
      refine ⟨rfl, l.map (fun t => (i, t)), ?_⟩
      simp only [List.map_append, List.map_cons, List.map_nil, List.append_nil]
    · cases hd : decodeStrip fuel i s with
      | none =>
        rw [hd] at hb
        exact absurd hb (by simp)
      | some fl =>
        cases fl with
        | stop s1 =>
          rw [hd] at hb
          exact absurd hb (by simp)
        | next s1 =>
          rw [hd] at hb
          simp only [] at hb
          obtain ⟨h1, l, h2⟩ := ih (i + 1) s1 b t bb hb hstop
          simp only []
          refine ⟨h1, (chunkLoopTrace fuel i
            (ftell (readStripHeader (s.withFrame s.input
              (inheritCodebooks s.dec.curFrame i)) i).input % 4294967296) fuel
            (readStripHeader (s.withFrame s.input (inheritCodebooks s.dec.curFrame i)) i)).map
            (fun t => (i, t)) ++ l, ?_⟩
          rw [h2, List.append_assoc]

/-- C11: when an iteration of a chunk loop of `decodeImage`, started in state
`s` in strip `i`, reads a chunk ID (the read does not hit the end of the file)
that is none of 0x20-0x27 and 0x30-0x32, `decodeImage` returns at once: the
call returns, the decoder it returns (raster, codebooks, strips) is the decoder
of state `s`, no further chunk is handed to `loadCodebook` or `decodeVectors`,
the ID is printed, and the iteration is the last one of the call. -/
theorem decodeImage_unknown_chunk (fuel : Nat) (f : Stream) (d : CinepakDecoder) (i : Nat)
    (s : DecState) (hmem : (i, s) ∈ decodeImageTrace fuel f d)
    (heof : feof (readByte s.input).2 = false) (hunk : ¬ IsKnownID (byteAt s.input 0)) :
    ∃ t, decodeImage fuel f d = some t ∧ t.dec = s.dec ∧ t.chunks = s.chunks ∧
      t.out = s.out ++ [byteAt s.input 0] ∧
      ∃ l, decodeImageTrace fuel f d = l ++ [(i, s)] := by
  obtain ⟨t, hb, h1, h2, h3⟩ := chunkBody_unknown fuel i s heof hunk
  obtain ⟨hl, l, htr⟩ := stripLoop_stop fuel _ 0 _ (i, s) t false hmem hb
  exact ⟨t, decodeImage_of_stripLoop fuel f d _ hl, h1, h2, h3, l, htr⟩


set_option maxRecDepth 20000 in
theorem unknownChunkStream_trace :
    decodeImageTrace 2 ⟨unknownChunkStream, 0, false⟩ (CinepakDecoder.new exampleFrame) =
      [(0, readStripHeader
        ((readFrameHeader ⟨unknownChunkStream, 0, false⟩
            (CinepakDecoder.new exampleFrame)).withFrame
          (readFrameHeader ⟨unknownChunkStream, 0, false⟩ (CinepakDecoder.new exampleFrame)).input
          (inheritCodebooks (readFrameHeader ⟨unknownChunkStream, 0, false⟩
            (CinepakDecoder.new exampleFrame)).dec.curFrame 0)) 0)] :=
  rfl

set_option maxRecDepth 20000 in
/-- Witness for `decodeImage_unknown_chunk`: in `unknownChunkStream` the first
chunk of the only strip has the ID 0x40; the call returns with no store to the
raster, no chunk handed on, and the ID printed. -/
theorem decodeImage_unknown_chunk_witness :
    ∃ t, decodeImage 2 ⟨unknownChunkStream, 0, false⟩ (CinepakDecoder.new exampleFrame) = some t ∧
      t.dec.curFrame.surface.log = [] ∧ t.chunks = [] ∧ t.out = [0x40] := by
  have h := decodeImage_unknown_chunk 2 ⟨unknownChunkStream, 0, false⟩
    (CinepakDecoder.new exampleFrame) 0
    (readStripHeader
      ((readFrameHeader ⟨unknownChunkStream, 0, false⟩ (CinepakDecoder.new exampleFrame)).withFrame
        (readFrameHeader ⟨unknownChunkStream, 0, false⟩ (CinepakDecoder.new exampleFrame)).input
        (inheritCodebooks (readFrameHeader ⟨unknownChunkStream, 0, false⟩
          (CinepakDecoder.new exampleFrame)).dec.curFrame 0)) 0)
    (by rw [unknownChunkStream_trace]; exact List.mem_singleton.2 rfl) (by decide) (by decide)
  obtain ⟨t, h1, h2, h3, h4, -⟩ := h
  exact ⟨t, h1, by rw [h2]; rfl, by rw [h3]; rfl, by rw [h4]; rfl⟩

theorem Surface.Extends.unique {a b c : Surface} {W : List (Nat × Nat)}
    (h1 : a.Extends b W) (h2 : a.Extends c W) : b = c := by
  obtain ⟨b1, b2⟩ := h1
  obtain ⟨c1, c2⟩ := h2
  cases b
  cases c
  simp only at b1 b2 c1 c2
  simp only [b1, b2, c1, c2]

/-- The raster after a `decodeImage` call is the raster of the decoder before
the call with the stores of the call applied. -/
theorem decodeImage_extends (fuel : Nat) (f : Stream) (d : CinepakDecoder) (r : DecState)
    (h : decodeImage fuel f d = some r) :
    d.curFrame.surface.Extends r.dec.curFrame.surface
      (r.dec.curFrame.surface.log.drop d.curFrame.surface.log.length) := by
  obtain ⟨-, -, -, hse, -⟩ := decodeImage_effect fuel f d r h
  obtain ⟨-, -, -, -, -, -, -, W, extra, hext, -⟩ := hse
  obtain ⟨-, -, -, -, -, -, hsu, -⟩ := readFrameHeader_eq f d
  rw [hsu] at hext
  rw [hext.stores]
  exact hext

set_option maxRecDepth 20000 in
theorem unknownAfterCodedStream_runs :
    (decodeImage 2 ⟨unknownAfterCodedStream, 0, false⟩ (CinepakDecoder.new exampleFrame)).isSome
      = true := by
  decide

set_option maxRecDepth 20000 in
theorem unknownAfterCoded_stores :
    ((decodeImage 2 ⟨unknownAfterCodedStream, 0, false⟩ (CinepakDecoder.new exampleFrame)).get
        unknownAfterCodedStream_runs).dec.curFrame.surface.log.drop
        (CinepakDecoder.new exampleFrame).curFrame.surface.log.length =
      ((decodeImage 2 ⟨codedFrameStream, 0, false⟩ (CinepakDecoder.new exampleFrame)).get
        codedFrameStream_runs).dec.curFrame.surface.log.drop
        (CinepakDecoder.new exampleFrame).curFrame.surface.log.length := by
  decide

set_option maxRecDepth 20000 in
/-- C12, as the code behaves: `unknownAfterCodedStream` makes `decodeImage`
stop on the unknown chunk ID 0x40, `codedFrameStream` is decoded to the end of
the loop over the strips. A fresh decoder returns the same raster in both
cases, and `getWidth` and `getHeight` give the same values: nothing the caller
receives tells the two apart. -/
theorem decodeImage_stop_same_result :
    ∃ rA rB,
      decodeImage 2 ⟨unknownAfterCodedStream, 0, false⟩ (CinepakDecoder.new exampleFrame)
        = some rA ∧
      decodeImageStopped 2 ⟨unknownAfterCodedStream, 0, false⟩ (CinepakDecoder.new exampleFrame)
        = some true ∧
      decodeImage 2 ⟨codedFrameStream, 0, false⟩ (CinepakDecoder.new exampleFrame) = some rB ∧
      decodeImageStopped 2 ⟨codedFrameStream, 0, false⟩ (CinepakDecoder.new exampleFrame)
        = some false ∧
      rA.dec.curFrame.surface = rB.dec.curFrame.surface ∧
      rA.dec.getWidth = rB.dec.getWidth ∧ rA.dec.getHeight = rB.dec.getHeight := by
  have hA := (Option.some_get unknownAfterCodedStream_runs).symm
  have hB := (Option.some_get codedFrameStream_runs).symm
  have eA := decodeImage_extends _ _ _ _ hA
  have eB := decodeImage_extends _ _ _ _ hB
  rw [unknownAfterCoded_stores] at eA
  exact ⟨_, _, hA, by decide, hB, by decide, eA.unique eB, by decide, by decide⟩

/-- C12, amended: a `decodeImage` call that returns hands back the raster of
the decoder in either case, after the `return` on an unknown chunk ID and after
the loop over the strips has run to its end; what tells the two cases apart is
the output alone: the call prints exactly one line, naming an ID that is none
of 0x20-0x27 and 0x30-0x32, when it stopped on an unknown chunk, and prints
nothing when it did not. -/
theorem decodeImage_stop_message (fuel : Nat) (f : Stream) (d : CinepakDecoder)
    (r : DecState) (h : decodeImage fuel f d = some r) :
    (decodeImageStopped fuel f d = some true ∨ decodeImageStopped fuel f d = some false) ∧
    (decodeImageStopped fuel f d = some true → ∃ cid, ¬ IsKnownID cid ∧ r.out = [cid]) ∧
    (decodeImageStopped fuel f d = some false → r.out = []) := by
  obtain ⟨fl, hl, hr, -, ho1, ho2⟩ := decodeImage_effect fuel f d r h
  obtain ⟨-, -, -, -, -, -, -, -, hout, -⟩ := readFrameHeader_eq f d
  rw [hout] at ho1 ho2
  rw [hr] at ho1 ho2
  have hs : decodeImageStopped fuel f d = some fl.stopped := by
    unfold decodeImageStopped
    rw [hl]
    rfl
  rw [hs]
  refine ⟨?_, fun e => ?_, fun e => ho1 (Option.some.inj e)⟩
  · cases fl.stopped
    · exact Or.inr rfl
    · exact Or.inl rfl
  · obtain ⟨cid, c1, c2⟩ := ho2 (Option.some.inj e)
    exact ⟨cid, c1, by rw [c2]; rfl⟩

set_option maxRecDepth 20000 in
/-- Witness for `decodeImage_stop_message`: `unknownAfterCodedStream`
on a fresh decoder; the call stops on the chunk ID 0x40 and prints it. -/
theorem decodeImage_stop_message_witness :
    ∃ r, decodeImage 2 ⟨unknownAfterCodedStream, 0, false⟩ (CinepakDecoder.new exampleFrame)
        = some r ∧
      decodeImageStopped 2 ⟨unknownAfterCodedStream, 0, false⟩ (CinepakDecoder.new exampleFrame)
        = some true ∧
      ∃ cid, ¬ IsKnownID cid ∧ r.out = [cid] :=
  have h := decodeImage_stop_message 2 ⟨unknownAfterCodedStream, 0, false⟩
    (CinepakDecoder.new exampleFrame) _ (Option.some_get unknownAfterCodedStream_runs).symm
  ⟨_, (Option.some_get unknownAfterCodedStream_runs).symm, by decide, h.2.1 (by decide)⟩

/-! ### Full codebook load -/

/-- C21: for an unconditional chunk with six-byte entries (`chunkID` 0x20 or
0x22) and `chunkSize >= 1536`, read from a stream that holds the 1536 payload
bytes (at a position below 2^32), `loadCodebook` sets every entry `i` of
0..255 of the selected table to `y[j]` = payload byte `6i + j` (`j` = 0..3),
`u` = (payload byte `6i + 4` + 128) mod 256, `v` = (payload byte `6i + 5` +
128) mod 256, and leaves the stream exactly 1536 bytes further on. -/
theorem loadCodebook_full_load (f : Stream) (fr : CinepakFrame)
    (strip codebookType chunkID chunkSize : Nat)
    (hid : chunkID = 0x20 ∨ chunkID = 0x22) (hsize : 1536 ≤ chunkSize)
    (havail : f.pos + 1536 ≤ f.data.length) (hpos : f.pos < 4294967296) :
    (loadCodebook f fr strip codebookType chunkID chunkSize).1 = { f with pos := f.pos + 1536 } ∧
    ∀ i, i < 256 →
      ((loadCodebook f fr strip codebookType chunkID chunkSize).2.strips strip).table
          codebookType i =
        { y0 := f.data.getD (f.pos + (6 * i + 0)) 0 % 256,
          y1 := f.data.getD (f.pos + (6 * i + 1)) 0 % 256,
          y2 := f.data.getD (f.pos + (6 * i + 2)) 0 % 256,
          y3 := f.data.getD (f.pos + (6 * i + 3)) 0 % 256,
          u := (f.data.getD (f.pos + (6 * i + 4)) 0 % 256 + 128) % 256,
          v := (f.data.getD (f.pos + (6 * i + 5)) 0 % 256 + 128) % 256 } := by
  have hc : chunkID &&& 0x01 = 0 := by rcases hid with h | h <;> subst h <;> decide
  have hw : entryWidth chunkID = 6 := by rcases hid with h | h <;> subst h <;> decide
  have hft : ∀ j, j ≤ 256 → ftell (skipBytes f (6 * j)) = f.pos + 6 * j := by
    intro j hj
    rw [skipBytes_of_le f _ (by omega)]
    rfl
  have hsp : ftell f % 4294967296 = f.pos := Nat.mod_eq_of_lt hpos
  obtain ⟨-, h2, -, -, h5⟩ := loadCodebookLoop_uncond chunkID chunkSize
    (ftell f % 4294967296) hc f 256 256 0
    (loadCodebookInit f ((fr.strips strip).table codebookType)) (Nat.le_refl _)
    (by simp [loadCodebookInit, skipBytes])
    (fun j _ hj => by
      rw [hw, hft j (by omega), hsp]
      push_cast
      omega)
    (fun h => absurd h (by decide))
  rw [hw] at h2 h5
  refine ⟨?_, fun i hi => ?_⟩
  · have e : (loadCodebook f fr strip codebookType chunkID chunkSize).1
        = skipBytes f (6 * (0 + 256)) := h2
    rw [e, skipBytes_of_le f _ (by omega)]
  · rw [loadCodebook_table, h5 i, if_pos ⟨Nat.zero_le _, by omega⟩]
    simp only [specEntry, byteAt_skipBytes, if_true]
    rw [byteAt_of_lt f _ (by omega), byteAt_of_lt f _ (by omega), byteAt_of_lt f _ (by omega),
      byteAt_of_lt f _ (by omega), byteAt_of_lt f _ (by omega), byteAt_of_lt f _ (by omega)]

/-- Witness for `loadCodebook_full_load`: the payload bytes `0, 1, ..., 1535`
(taken mod 256 by the reads) with `chunkSize = 2000`; entry 255 is read from
the bytes 1530..1535. -/
theorem loadCodebook_full_load_witness :
    (loadCodebook ⟨List.range 1536, 0, false⟩ exampleFrame 0 1 0x22 2000).1
      = ⟨List.range 1536, 1536, false⟩ ∧
    ((loadCodebook ⟨List.range 1536, 0, false⟩ exampleFrame 0 1 0x22 2000).2.strips 0).table 1 255
      = ⟨250, 251, 252, 253, 126, 127⟩ := by
  have h := loadCodebook_full_load ⟨List.range 1536, 0, false⟩ exampleFrame 0 1 0x22 2000
    (Or.inr rfl) (by decide) (by simp) (by decide)
  refine ⟨?_, ?_⟩
  · rw [h.1]
  · rw [h.2 255 (by decide)]
    simp

/-! ### Luma-only codebook entries -/

theorem readUint32BE_eq (f : Stream) : (readUint32BE f).2 = skipBytes f 4 := by
  simp only [readUint32BE, readUint16BE_eq, skipBytes_add]

theorem entryWidth_luma (chunkID : Nat) (h4 : chunkID &&& 0x04 ≠ 0) : entryWidth chunkID = 4 := by
  unfold entryWidth
  rw [if_pos h4]

/-- What one pass through lines 290-308 does when bit 2 of `chunkID` is set:
nothing (the entry is not selected), `break` (the four bytes do not fit), or
four `readByte` calls whose values become `y[0..3]`, with `u = v = 128`. -/
theorem loadCodebookEntry_luma (chunkID chunkSize startPos i : Nat) (s : CBState)
    (h4 : chunkID &&& 0x04 ≠ 0) :
    loadCodebookEntry chunkID chunkSize startPos i s = .next s ∨
    loadCodebookEntry chunkID chunkSize startPos i s = .stop s ∨
    loadCodebookEntry chunkID chunkSize startPos i s =
      .next { s with input := skipBytes s.input 4,
                     codebook := Function.update s.codebook i
                       ⟨byteAt s.input 0, byteAt s.input 1, byteAt s.input 2, byteAt s.input 3,
                        128, 128⟩ } := by
  have hw := entryWidth_luma chunkID h4
  simp only [loadCodebookEntry]
  by_cases a : chunkID &&& 0x01 = 0 ∨ s.flag &&& s.mask ≠ 0
  · rw [if_pos a]
    by_cases b : (ftell s.input : Int) - (startPos : Int) + (entryWidth chunkID : Nat)
        > (chunkSize : Int)
    · rw [if_pos b]
      right; left; rfl
    · rw [if_neg b, hw, if_neg (by decide)]
      right; right; rfl
  · rw [if_neg a]
    left; rfl

theorem loadCodebookFlag_luma (chunkID chunkSize startPos : Nat) (f0 : Stream)
    (c0 : Nat → CinepakCodebook) (s : CBState) (h : LumaLoaded f0 c0 s) :
    LumaLoaded f0 c0 (loadCodebookFlag chunkID chunkSize startPos s).state := by
  obtain ⟨⟨m, hm⟩, hc⟩ := h
  refine ⟨?_, fun j => by rw [loadCodebookFlag_codebook]; exact hc j⟩
  simp only [loadCodebookFlag]
  split_ifs
  · exact ⟨m, hm⟩
  · refine ⟨m + 1, ?_⟩
    simp only [Flow.state, readUint32BE_eq, hm, skipBytes_add]
    rw [Nat.mul_add]
  · exact ⟨m, hm⟩
  · exact ⟨m, hm⟩

theorem loadCodebookBody_luma (chunkID chunkSize startPos i : Nat) (f0 : Stream)
    (c0 : Nat → CinepakCodebook) (s : CBState) (h4 : chunkID &&& 0x04 ≠ 0)
    (h : LumaLoaded f0 c0 s) :
    LumaLoaded f0 c0 (loadCodebookBody chunkID chunkSize startPos i s).state := by
  have hf := loadCodebookFlag_luma chunkID chunkSize startPos f0 c0 s h
  simp only [loadCodebookBody]
  cases hfl : loadCodebookFlag chunkID chunkSize startPos s with
  | stop s1 =>
    rw [hfl] at hf
    exact hf
  | next s1 =>
    rw [hfl] at hf
    simp only [Flow.state] at hf ⊢
    rcases loadCodebookEntry_luma chunkID chunkSize startPos i s1 h4 with e | e | e
    · rw [e]; exact hf
    · rw [e]; exact hf
    · rw [e]
      obtain ⟨⟨m, hm⟩, hc⟩ := hf
      refine ⟨⟨m + 1, ?_⟩, fun j => ?_⟩
      · simp only [Flow.state, hm, skipBytes_add]
        rw [Nat.mul_add]
      · simp only [Flow.state]
        by_cases hj : j = i
        · subst hj
          rw [Function.update_same]
          refine Or.inr ⟨m, ?_⟩
          simp only [lumaEntry, hm, byteAt_skipBytes, Nat.add_zero]
        · rw [Function.update_noteq hj]
          exact hc j

theorem loadCodebookLoop_luma (chunkID chunkSize startPos : Nat) (f0 : Stream)
    (c0 : Nat → CinepakCodebook) (h4 : chunkID &&& 0x04 ≠ 0) :
    ∀ (n i : Nat) (s : CBState), LumaLoaded f0 c0 s →
      LumaLoaded f0 c0 (loadCodebookLoop chunkID chunkSize startPos n i s).state := by
  intro n
  induction n with
  | zero => intro i s h; exact h
  | succ n ih =>
    intro i s h
    have hb := loadCodebookBody_luma chunkID chunkSize startPos i f0 c0 s h4 h
    rw [loadCodebookLoop_succ]
    cases hbl : loadCodebookBody chunkID chunkSize startPos i s with
    | stop s1 =>
      rw [hbl] at hb
      exact hb
    | next s1 =>
      rw [hbl] at hb
      exact ih (i + 1) s1 hb

/-- C22: with bit 2 of `chunkID` set (0x24-0x27), every pass of `loadCodebook`
through the entry code either leaves the state alone (entry not selected, or
`break` because four bytes do not fit) or makes exactly four `readByte` calls,
whose values become `y[0]`, `y[1]`, `y[2]`, `y[3]` of the entry in this order,
and sets `u = 128` and `v = 128`. For the whole call: the stream is left after
a multiple of four reads, and every entry of the table is either its value
before the call or made of one aligned group of four payload reads with
`u = v = 128`. -/
theorem loadCodebook_luma_only (f : Stream) (fr : CinepakFrame)
    (strip codebookType chunkID chunkSize : Nat) (h4 : chunkID &&& 0x04 ≠ 0) :
    (∀ (startPos i : Nat) (s : CBState),
      loadCodebookEntry chunkID chunkSize startPos i s = .next s ∨
      loadCodebookEntry chunkID chunkSize startPos i s = .stop s ∨
      loadCodebookEntry chunkID chunkSize startPos i s =
        .next { s with input := skipBytes s.input 4,
                       codebook := Function.update s.codebook i
                         ⟨byteAt s.input 0, byteAt s.input 1, byteAt s.input 2,
                          byteAt s.input 3, 128, 128⟩ }) ∧
    (∃ m, (loadCodebook f fr strip codebookType chunkID chunkSize).1 = skipBytes f (4 * m)) ∧
    ∀ j, ((loadCodebook f fr strip codebookType chunkID chunkSize).2.strips strip).table
          codebookType j = (fr.strips strip).table codebookType j ∨
      ∃ k, ((loadCodebook f fr strip codebookType chunkID chunkSize).2.strips strip).table
          codebookType j =
        ⟨byteAt f (4 * k), byteAt f (4 * k + 1), byteAt f (4 * k + 2), byteAt f (4 * k + 3),
         128, 128⟩ := by
  have h := loadCodebookLoop_luma chunkID chunkSize (ftell f % 4294967296) f
    ((fr.strips strip).table codebookType) h4 256 0
    (loadCodebookInit f ((fr.strips strip).table codebookType))
    ⟨⟨0, rfl⟩, fun j => Or.inl rfl⟩
  refine ⟨fun startPos i s => loadCodebookEntry_luma chunkID chunkSize startPos i s h4, h.1,
    fun j => ?_⟩
  rw [loadCodebook_table]
  exact h.2 j

set_option maxRecDepth 20000 in
/-- Witness for `loadCodebook_luma_only`: chunk 0x26 with the payload
`1 2 3 4 5 6 7 8`: entries 0 and 1 are made of four bytes each, entry 2 keeps
its value. -/
theorem loadCodebook_luma_only_witness :
    (∃ m, (loadCodebook ⟨[1, 2, 3, 4, 5, 6, 7, 8], 0, false⟩ exampleFrame 0 1 0x26 8).1
      = skipBytes ⟨[1, 2, 3, 4, 5, 6, 7, 8], 0, false⟩ (4 * m)) ∧
    ((loadCodebook ⟨[1, 2, 3, 4, 5, 6, 7, 8], 0, false⟩ exampleFrame 0 1 0x26 8).2.strips 0).table
      1 1 = ⟨5, 6, 7, 8, 128, 128⟩ ∧
    ((loadCodebook ⟨[1, 2, 3, 4, 5, 6, 7, 8], 0, false⟩ exampleFrame 0 1 0x26 8).2.strips 0).table
      1 2 = ⟨2, 3, 4, 5, 100, 200⟩ :=
  ⟨(loadCodebook_luma_only ⟨[1, 2, 3, 4, 5, 6, 7, 8], 0, false⟩ exampleFrame 0 1 0x26 8
    (by decide)).2.1, by decide, by decide⟩

/-! ### Flag words of the conditional loader -/

theorem loadCodebookFlag_fetch (chunkID chunkSize startPos : Nat) (s : CBState)
    (hc : chunkID &&& 0x01 ≠ 0) (hm : s.mask >>> 1 = 0)
    (hfit : ¬ (ftell s.input : Int) - (startPos : Int) + 4 > (chunkSize : Int)) :
    loadCodebookFlag chunkID chunkSize startPos s =
      .next { s with input := (readUint32BE s.input).2, flag := (readUint32BE s.input).1,
                     mask := 0x80000000 } := by
  simp only [loadCodebookFlag]
  rw [if_pos hc, if_pos hm, if_neg hfit]

theorem loadCodebookFlag_break (chunkID chunkSize startPos : Nat) (s : CBState)
    (hc : chunkID &&& 0x01 ≠ 0) (hm : s.mask >>> 1 = 0)
    (hfit : (ftell s.input : Int) - (startPos : Int) + 4 > (chunkSize : Int)) :
    loadCodebookFlag chunkID chunkSize startPos s = .stop { s with mask := s.mask >>> 1 } := by
  simp only [loadCodebookFlag]
  rw [if_pos hc, if_pos hm, if_pos hfit]

theorem loadCodebookFlag_shift (chunkID chunkSize startPos : Nat) (s : CBState)
    (hc : chunkID &&& 0x01 ≠ 0) (hm : s.mask >>> 1 ≠ 0) :
    loadCodebookFlag chunkID chunkSize startPos s = .next { s with mask := s.mask >>> 1 } := by
  simp only [loadCodebookFlag]
  rw [if_pos hc, if_neg hm]

theorem loadCodebookEntry_flag_mask (chunkID chunkSize startPos i : Nat) (s : CBState) :
    (loadCodebookEntry chunkID chunkSize startPos i s).state.flag = s.flag ∧
    (loadCodebookEntry chunkID chunkSize startPos i s).state.mask = s.mask := by
  simp only [loadCodebookEntry]
  split_ifs <;> simp only [Flow.state, and_self]

theorem loadCodebookLoop_snoc (chunkID chunkSize startPos i : Nat) (s0 s : CBState)
    (h : loadCodebookLoop chunkID chunkSize startPos i 0 s0 = .next s) :
    loadCodebookLoop chunkID chunkSize startPos (i + 1) 0 s0
      = loadCodebookBody chunkID chunkSize startPos i s := by
  rw [loadCodebookLoop_add, h]
  simp only [Nat.zero_add]
  rw [loadCodebookLoop_succ]
  cases loadCodebookBody chunkID chunkSize startPos i s <;> rfl

theorem loadCodebookLoop_prev (chunkID chunkSize startPos i : Nat) (s0 s' : CBState)
    (h : loadCodebookLoop chunkID chunkSize startPos (i + 1) 0 s0 = .next s') :
    ∃ s, loadCodebookLoop chunkID chunkSize startPos i 0 s0 = .next s ∧
      loadCodebookBody chunkID chunkSize startPos i s = .next s' := by
  cases hl : loadCodebookLoop chunkID chunkSize startPos i 0 s0 with
  | stop s =>
    rw [loadCodebookLoop_add, hl] at h
    cases h
  | next s =>
    rw [loadCodebookLoop_snoc _ _ _ _ _ _ hl] at h
    exact ⟨s, rfl, h⟩

theorem maskShift (k : Nat) (hk : k < 32) :
    (2 ^ (31 - k)) >>> 1 = if k = 31 then 0 else 2 ^ (31 - (k + 1)) := by
  revert k
  decide

theorem maskBit (w k : Nat) : w &&& 2 ^ k ≠ 0 ↔ w.testBit k = true := by
  constructor
  · intro h
    obtain ⟨i, hi⟩ := Nat.ne_zero_implies_bit_true h
    rw [Nat.testBit_and, Nat.testBit_two_pow, Bool.and_eq_true, decide_eq_true_eq] at hi
    rw [hi.2]
    exact hi.1
  · intro h h0
    have : (w &&& 2 ^ k).testBit k = true := by
      rw [Nat.testBit_and, h, Nat.testBit_two_pow_self]
      rfl
    rw [h0, Nat.zero_testBit] at this
    cases this

theorem loadCodebookFlagWord_eq (chunkID chunkSize startPos : Nat) (s0 s : CBState) (k i : Nat)
    (hk : 32 * k = i) (hs : loadCodebookLoop chunkID chunkSize startPos i 0 s0 = .next s)
    (hfit : ¬ (ftell s.input : Int) - (startPos : Int) + 4 > (chunkSize : Int)) :
    loadCodebookFlagWord chunkID chunkSize startPos s0 k = some (readUint32BE s.input).1 := by
  unfold loadCodebookFlagWord
  rw [hk, hs]
  simp only []
  rw [if_neg hfit]

theorem loadCodebookFlag_of_mask (chunkID chunkSize startPos : Nat) (s0 : CBState)
    (hc : chunkID &&& 0x01 ≠ 0) (i : Nat) (s : CBState)
    (hs : loadCodebookLoop chunkID chunkSize startPos i 0 s0 = .next s)
    (hinv : MaskAt chunkID chunkSize startPos s0 i s) :
    (i % 32 = 0 → ¬ (ftell s.input : Int) - (startPos : Int) + 4 > (chunkSize : Int) →
      loadCodebookFlag chunkID chunkSize startPos s =
        .next { s with input := (readUint32BE s.input).2, flag := (readUint32BE s.input).1,
                       mask := 0x80000000 }) ∧
    (i % 32 = 0 → (ftell s.input : Int) - (startPos : Int) + 4 > (chunkSize : Int) →
      loadCodebookFlag chunkID chunkSize startPos s = .stop { s with mask := 0 }) ∧
    (i % 32 ≠ 0 →
      loadCodebookFlag chunkID chunkSize startPos s = .next { s with mask := 2 ^ (31 - i % 32) }) ∧
    ∀ s1, loadCodebookFlag chunkID chunkSize startPos s = .next s1 →
      s1.mask = 2 ^ (31 - i % 32) ∧
      loadCodebookFlagWord chunkID chunkSize startPos s0 (i / 32) = some s1.flag := by
  have key : (i % 32 = 0 → s.mask >>> 1 = 0) ∧
      (i % 32 ≠ 0 → s.mask >>> 1 = 2 ^ (31 - i % 32) ∧
        loadCodebookFlagWord chunkID chunkSize startPos s0 (i / 32) = some s.flag) := by
    rcases Nat.eq_zero_or_pos i with hi | hi
    · subst hi
      rw [hinv.1 rfl]
      exact ⟨fun _ => rfl, fun h => absurd rfl h⟩
    · obtain ⟨hm, hw⟩ := hinv.2 hi
      have hk : (i - 1) % 32 < 32 := Nat.mod_lt _ (by decide)
      have hsh := maskShift ((i - 1) % 32) hk
      rw [hm]
      constructor
      · intro h
        rw [hsh, if_pos (by omega)]
      · intro h
        have e1 : (i - 1) % 32 + 1 = i % 32 := by omega
        have e2 : (i - 1) / 32 = i / 32 := by omega
        rw [hsh, if_neg (by omega), e1]
        rw [e2] at hw
        exact ⟨rfl, hw⟩
  have hpow : ∀ k, (2 : Nat) ^ k ≠ 0 := fun k => Nat.pos_iff_ne_zero.1 (Nat.two_pow_pos k)
  refine ⟨fun h hfit => loadCodebookFlag_fetch _ _ _ _ hc (key.1 h) hfit, fun h hfit => ?_,
    fun h => ?_, fun s1 h1 => ?_⟩
  · rw [loadCodebookFlag_break _ _ _ _ hc (key.1 h) hfit, key.1 h]
  · rw [loadCodebookFlag_shift _ _ _ _ hc (by rw [(key.2 h).1]; exact hpow _), (key.2 h).1]
  · by_cases h : i % 32 = 0
    · by_cases hfit : (ftell s.input : Int) - (startPos : Int) + 4 > (chunkSize : Int)
      · rw [loadCodebookFlag_break _ _ _ _ hc (key.1 h) hfit] at h1
        cases h1
      · rw [loadCodebookFlag_fetch _ _ _ _ hc (key.1 h) hfit] at h1
        cases h1
        refine ⟨by rw [h]; rfl, ?_⟩
        exact loadCodebookFlagWord_eq _ _ _ _ _ _ _ (by omega) hs hfit
    · rw [loadCodebookFlag_shift _ _ _ _ hc (by rw [(key.2 h).1]; exact hpow _)] at h1
      cases h1
      exact ⟨(key.2 h).1, (key.2 h).2⟩

theorem loadCodebookLoop_mask (chunkID chunkSize startPos : Nat) (s0 : CBState)
    (hc : chunkID &&& 0x01 ≠ 0) (h0 : s0.mask = 0) :
    ∀ (i : Nat) (s : CBState), loadCodebookLoop chunkID chunkSize startPos i 0 s0 = .next s →
      MaskAt chunkID chunkSize startPos s0 i s := by
  intro i
  induction i with
  | zero =>
    intro s hs
    cases hs
    exact ⟨fun _ => h0, fun h => absurd h (by decide)⟩
  | succ i ih =>
    intro s' hs'
    obtain ⟨s, hs, hb⟩ := loadCodebookLoop_prev _ _ _ _ _ _ hs'
    have hflag := (loadCodebookFlag_of_mask _ _ _ _ hc i s hs (ih s hs)).2.2.2
    simp only [loadCodebookBody] at hb
    cases hf : loadCodebookFlag chunkID chunkSize startPos s with
    | stop s1 =>
      rw [hf] at hb
      cases hb
    | next s1 =>
      rw [hf] at hb
      simp only [] at hb
      obtain ⟨a1, a2⟩ := hflag s1 hf
      obtain ⟨b1, b2⟩ := loadCodebookEntry_flag_mask chunkID chunkSize startPos i s1
      rw [hb] at b1 b2
      simp only [Flow.state] at b1 b2
      refine ⟨fun h => absurd h (Nat.succ_ne_zero i), fun _ => ?_⟩
      rw [Nat.add_sub_cancel, b1, b2]
      exact ⟨a1, a2⟩

/-- C23: in a `loadCodebook` call in conditional mode (bit 0 of `chunkID`
set), let iteration `i` be reached in state `s`. When `i` is a multiple of 32
and four more bytes fit into the payload, the iteration starts by reading a
big-endian 32-bit flag word and sets the mask to bit 31; when `i` is not a
multiple of 32 nothing is read and the mask moves to bit `31 - i mod 32`. The
value tested for entry `i` is bit `31 - i mod 32` of the flag word read at
iteration `32 * floor(i / 32)`, and an entry whose bit is 0 keeps its value.
When `i` is a multiple of 32 and fewer than four payload bytes remain, the
loop ends there: the stream stays where it is and every entry with index `i`
or larger has the value it had before the call. -/
theorem loadCodebook_flag_words (input : Stream) (fr : CinepakFrame)
    (strip codebookType chunkID chunkSize : Nat) (hc : chunkID &&& 0x01 ≠ 0)
    (i : Nat) (s : CBState)
    (hs : loadCodebookLoop chunkID chunkSize (ftell input % 4294967296) i 0
      (loadCodebookInit input ((fr.strips strip).table codebookType)) = .next s) :
    (i % 32 = 0 →
      ¬ (ftell s.input : Int) - ((ftell input % 4294967296 : Nat) : Int) + 4 > (chunkSize : Int) →
      loadCodebookFlag chunkID chunkSize (ftell input % 4294967296) s =
        .next { s with input := (readUint32BE s.input).2, flag := (readUint32BE s.input).1,
                       mask := 0x80000000 }) ∧
    (i % 32 ≠ 0 →
      loadCodebookFlag chunkID chunkSize (ftell input % 4294967296) s =
        .next { s with mask := 2 ^ (31 - i % 32) }) ∧
    (∀ b, loadCodebookFlagBit chunkID chunkSize (ftell input % 4294967296)
        (loadCodebookInit input ((fr.strips strip).table codebookType)) i = some b →
      ∃ w, loadCodebookFlagWord chunkID chunkSize (ftell input % 4294967296)
          (loadCodebookInit input ((fr.strips strip).table codebookType)) (i / 32) = some w ∧
        b = w &&& 2 ^ (31 - i % 32) ∧ (b ≠ 0 ↔ w.testBit (31 - i % 32) = true)) ∧
    (∀ w, loadCodebookFlagWord chunkID chunkSize (ftell input % 4294967296)
        (loadCodebookInit input ((fr.strips strip).table codebookType)) (i / 32) = some w →
      w.testBit (31 - i % 32) = false →
      ((loadCodebook input fr strip codebookType chunkID chunkSize).2.strips strip).table
        codebookType i = (fr.strips strip).table codebookType i) ∧
    (i % 32 = 0 → i < 256 →
      (ftell s.input : Int) - ((ftell input % 4294967296 : Nat) : Int) + 4 > (chunkSize : Int) →
      (loadCodebook input fr strip codebookType chunkID chunkSize).1 = s.input ∧
      ∀ j, i ≤ j →
        ((loadCodebook input fr strip codebookType chunkID chunkSize).2.strips strip).table
          codebookType j = (fr.strips strip).table codebookType j) := by
  have hinv := loadCodebookLoop_mask chunkID chunkSize (ftell input % 4294967296)
    (loadCodebookInit input ((fr.strips strip).table codebookType)) hc rfl i s hs
  obtain ⟨p1, p2, p3, p4⟩ := loadCodebookFlag_of_mask chunkID chunkSize
    (ftell input % 4294967296) _ hc i s hs hinv
  have hbit : ∀ b, loadCodebookFlagBit chunkID chunkSize (ftell input % 4294967296)
        (loadCodebookInit input ((fr.strips strip).table codebookType)) i = some b →
      ∃ w, loadCodebookFlagWord chunkID chunkSize (ftell input % 4294967296)
          (loadCodebookInit input ((fr.strips strip).table codebookType)) (i / 32) = some w ∧
        b = w &&& 2 ^ (31 - i % 32) ∧ (b ≠ 0 ↔ w.testBit (31 - i % 32) = true) := by
    intro b hb
    unfold loadCodebookFlagBit at hb
    rw [hs] at hb
    simp only [] at hb
    cases hf : loadCodebookFlag chunkID chunkSize (ftell input % 4294967296) s with
    | stop s1 =>
      rw [hf] at hb
      cases hb
    | next s1 =>
      rw [hf] at hb
      simp only [Option.some.injEq] at hb
      obtain ⟨a1, a2⟩ := p4 s1 hf
      refine ⟨s1.flag, a2, ?_, ?_⟩
      · rw [← hb, a1]
      · rw [← hb, a1]
        exact maskBit _ _
  refine ⟨p1, p3, hbit, fun w hw hbit0 => ?_, fun h32 h256 hfit => ?_⟩
  · rw [loadCodebook_table]
    refine loadCodebookLoop_entry_unchanged chunkID chunkSize _ _ hc i (fun _ b hb => ?_)
    obtain ⟨w', e1, e2, e3⟩ := hbit b hb
    rw [hw] at e1
    cases e1
    by_contra hne
    rw [e3.1 hne] at hbit0
    cases hbit0
  · have hstop : loadCodebookLoop chunkID chunkSize (ftell input % 4294967296) 256 0
        (loadCodebookInit input ((fr.strips strip).table codebookType))
        = .stop { s with mask := 0 } := by
      rw [show 256 = i + ((255 - i) + 1) by omega, loadCodebookLoop_add, hs]
      simp only []
      rw [loadCodebookLoop_succ]
      simp only [loadCodebookBody]
      rw [p2 h32 hfit]
    have hpre : ∀ j, i ≤ j → s.codebook j = (fr.strips strip).table codebookType j := by
      intro j hj
      have := loadCodebookLoop_codebook_outside chunkID chunkSize (ftell input % 4294967296)
        i 0 j (loadCodebookInit input ((fr.strips strip).table codebookType)) (Or.inr (by omega))
      rw [hs] at this
      exact this
    refine ⟨?_, fun j hj => ?_⟩
    · have e : (loadCodebook input fr strip codebookType chunkID chunkSize).1
          = (loadCodebookLoop chunkID chunkSize (ftell input % 4294967296) 256 0
            (loadCodebookInit input ((fr.strips strip).table codebookType))).state.input := rfl
      rw [e, hstop]
      rfl
    · rw [loadCodebook_table, hstop]
      exact hpre j hj

/-- Witness for `loadCodebook_flag_words`: chunk 0x21 on the payload
`40 00 00 00 01 02 03 04 05 06`. Iteration 1 is reached with the flag word
0x40000000 read at iteration 0; it reads nothing, moves the mask to bit 30,
and that bit of the word is set. -/
theorem loadCodebook_flag_words_witness :
    loadCodebookFlag 0x21 10 (ftell exampleMasked % 4294967296)
        ⟨⟨[0x40, 0, 0, 0, 1, 2, 3, 4, 5, 6], 4, false⟩, 0x40000000, 0x80000000,
          (exampleFrame.strips 0).table 4⟩ =
      .next ⟨⟨[0x40, 0, 0, 0, 1, 2, 3, 4, 5, 6], 4, false⟩, 0x40000000, 2 ^ (31 - 1 % 32),
          (exampleFrame.strips 0).table 4⟩ ∧
    ∃ w, loadCodebookFlagWord 0x21 10 (ftell exampleMasked % 4294967296)
        (loadCodebookInit exampleMasked ((exampleFrame.strips 0).table 4)) (1 / 32) = some w ∧
      0x40000000 = w &&& 2 ^ (31 - 1 % 32) ∧ (0x40000000 ≠ 0 ↔ w.testBit (31 - 1 % 32) = true) :=
  have h := loadCodebook_flag_words exampleMasked exampleFrame 0 4 0x21 10 (by decide) 1
    ⟨⟨[0x40, 0, 0, 0, 1, 2, 3, 4, 5, 6], 4, false⟩, 0x40000000, 0x80000000,
      (exampleFrame.strips 0).table 4⟩ rfl
  ⟨h.2.1 (by decide), h.2.2.1 0x40000000 rfl⟩

/-! ### Byte budget of the handlers -/

theorem readByte_pos_le (f : Stream) : (readByte f).2.pos ≤ f.pos + 1 := by
  unfold readByte
  cases f.data[f.pos]? with
  | none => exact Nat.le_succ _
  | some b => exact Nat.le_refl _

theorem readUint16BE_pos_le (f : Stream) : (readUint16BE f).2.pos ≤ f.pos + 2 := by
  have h1 := readByte_pos_le f
  have h2 := readByte_pos_le (readByte f).2
  simp only [readUint16BE]
  omega

theorem readUint32BE_pos_le (f : Stream) : (readUint32BE f).2.pos ≤ f.pos + 4 := by
  have h1 := readUint16BE_pos_le f
  have h2 := readUint16BE_pos_le (readUint16BE f).2
  simp only [readUint32BE]
  omega

theorem loadCodebookFlag_budget (chunkID chunkSize startPos B : Nat) (s : CBState)
    (hB : startPos + chunkSize ≤ B) (h : s.input.pos ≤ B) :
    (loadCodebookFlag chunkID chunkSize startPos s).state.input.pos ≤ B := by
  have h4 := readUint32BE_pos_le s.input
  simp only [loadCodebookFlag, ftell]
  split_ifs with a b c <;> simp only [Flow.state]
  · exact h
  · omega
  · exact h
  · exact h

theorem loadCodebookEntry_budget (chunkID chunkSize startPos i B : Nat) (s : CBState)
    (hB : startPos + chunkSize ≤ B) (h : s.input.pos ≤ B) :
    (loadCodebookEntry chunkID chunkSize startPos i s).state.input.pos ≤ B := by
  have r0 := readByte_pos_le s.input
  have r1 := readByte_pos_le (readByte s.input).2
  have r2 := readByte_pos_le (readByte (readByte s.input).2).2
  have r3 := readByte_pos_le (readByte (readByte (readByte s.input).2).2).2
  have r4 := readByte_pos_le (readByte (readByte (readByte (readByte s.input).2).2).2).2
  have r5 := readByte_pos_le
    (readByte (readByte (readByte (readByte (readByte s.input).2).2).2).2).2
  simp only [loadCodebookEntry, ftell]
  split_ifs with a b c <;> simp only [Flow.state]
  · exact h
  · rw [c] at b
    push_cast at b
    omega
  · rcases entryWidth_cases chunkID with e | e
    · rw [e] at b
      push_cast at b
      omega
    · exact absurd e c
  · exact h

theorem loadCodebookLoop_budget (chunkID chunkSize startPos B : Nat)
    (hB : startPos + chunkSize ≤ B) :
    ∀ (n i : Nat) (s : CBState), s.input.pos ≤ B →
      (loadCodebookLoop chunkID chunkSize startPos n i s).state.input.pos ≤ B := by
  intro n
  induction n with
  | zero => intro i s h; exact h
  | succ n ih =>
    intro i s h
    have hf := loadCodebookFlag_budget chunkID chunkSize startPos B s hB h
    rw [loadCodebookLoop_succ]
    simp only [loadCodebookBody]
    cases hfl : loadCodebookFlag chunkID chunkSize startPos s with
    | stop s1 =>
      rw [hfl] at hf
      exact hf
    | next s1 =>
      rw [hfl] at hf
      simp only [Flow.state] at hf
      have he := loadCodebookEntry_budget chunkID chunkSize startPos i B s1 hB hf
      simp only []
      cases hel : loadCodebookEntry chunkID chunkSize startPos i s1 with
      | stop s2 =>
        rw [hel] at he
        exact he
      | next s2 =>
        rw [hel] at he
        exact ih (i + 1) s2 he

theorem loadCodebook_budget (input : Stream) (fr : CinepakFrame)
    (strip codebookType chunkID chunkSize : Nat) :
    (loadCodebook input fr strip codebookType chunkID chunkSize).1.pos
      ≤ input.pos + chunkSize := by
  have e : (loadCodebook input fr strip codebookType chunkID chunkSize).1
      = (loadCodebookLoop chunkID chunkSize (ftell input % 4294967296) 256 0
        (loadCodebookInit input ((fr.strips strip).table codebookType))).state.input := rfl
  rw [e]
  have hle : ftell input % 4294967296 ≤ input.pos := Nat.mod_le _ _
  exact loadCodebookLoop_budget chunkID chunkSize _ _ (by omega) 256 0 _
    (Nat.le_add_right _ _)

/-- A property of the state that every block keeps holds after the loop over
`x`, however it ends. -/
theorem decodeVectorsRow_invariant (st : CinepakStrip) (chunkID chunkSize startPos : Nat)
    (P : VecState → Prop)
    (hblk : ∀ s, P s → P (decodeVectorsBlock st chunkID chunkSize startPos s).state) :
    ∀ (fuel x : Nat) (s : VecState) (fl : Flow VecState),
      decodeVectorsRow st chunkID chunkSize startPos fuel x s = some fl → P s → P fl.state := by
  intro fuel
  induction fuel with
  | zero =>
    intro x s fl h hp
    by_cases hx : x < st.right
    · rw [decodeVectorsRow_zero _ _ _ _ _ _ hx] at h
      cases h
    · rw [decodeVectorsRow_done _ _ _ _ _ _ _ hx] at h
      cases h
      exact hp
  | succ fuel ih =>
    intro x s fl h hp
    by_cases hx : x < st.right
    · rw [decodeVectorsRow_succ _ _ _ _ _ _ _ hx] at h
      have hb := hblk s hp
      cases hblk1 : decodeVectorsBlock st chunkID chunkSize startPos s with
      | stop s1 =>
        rw [hblk1] at h hb
        cases h
        exact hb
      | next s1 =>
        rw [hblk1] at h hb
        exact ih _ s1 fl h hb
    · rw [decodeVectorsRow_done _ _ _ _ _ _ _ hx] at h
      cases h
      exact hp

/-- A property of the state that every block and every assignment of the row
offsets keeps holds after the loop over `y`, however it ends. -/
theorem decodeVectorsRows_invariant (st : CinepakStrip)
    (width chunkID chunkSize startPos fuelX : Nat) (P : VecState → Prop)
    (hblk : ∀ s, P s → P (decodeVectorsBlock st chunkID chunkSize startPos s).state)
    (hset : ∀ s y, P s → P (s.setRows st width y)) :
    ∀ (fuel y : Nat) (s : VecState) (fl : Flow VecState),
      decodeVectorsRows st width chunkID chunkSize startPos fuelX fuel y s = some fl →
      P s → P fl.state := by
  intro fuel
  induction fuel with
  | zero =>
    intro y s fl h hp
    by_cases hy : y < st.bottom
    · rw [decodeVectorsRows_zero _ _ _ _ _ _ _ _ hy] at h
      cases h
    · rw [decodeVectorsRows_done _ _ _ _ _ _ _ _ _ hy] at h
      cases h
      exact hp
  | succ fuel ih =>
    intro y s fl h hp
    by_cases hy : y < st.bottom
    · rw [decodeVectorsRows_succ _ _ _ _ _ _ _ _ _ hy] at h
      cases hrow : decodeVectorsRow st chunkID chunkSize startPos fuelX st.left
          (s.setRows st width y) with
      | none =>
        rw [hrow] at h
        cases h
      | some fr =>
        have hr := decodeVectorsRow_invariant st chunkID chunkSize startPos P hblk _ _ _ _ hrow
          (hset s y hp)
        cases fr with
        | stop s1 =>
          rw [hrow] at h
          cases h
          exact hr
        | next s1 =>
          rw [hrow] at h
          exact ih _ s1 fl h hr
    · rw [decodeVectorsRows_done _ _ _ _ _ _ _ _ _ hy] at h
      cases h
      exact hp

theorem decodeVectorsFlag_budget (chunkSize startPos B : Nat) (s : VecState)
    (hB : startPos + chunkSize ≤ B) (h : s.input.pos ≤ B) :
    (decodeVectorsFlag chunkSize startPos s).state.input.pos ≤ B := by
  have h4 := readUint32BE_pos_le s.input
  simp only [decodeVectorsFlag, ftell]
  split_ifs with a b <;> simp only [Flow.state]
  · exact h
  · omega
  · exact h

theorem decodeVectorsV1_budget (v1 : Nat → CinepakCodebook) (chunkSize startPos B : Nat)
    (s : VecState) (hB : startPos + chunkSize ≤ B) (h : s.input.pos ≤ B) :
    (decodeVectorsV1 v1 chunkSize startPos s).state.input.pos ≤ B := by
  have r0 := readByte_pos_le s.input
  simp only [decodeVectorsV1, ftell]
  split_ifs with a <;> simp only [Flow.state]
  · exact h
  · omega

theorem decodeVectorsV4_budget (v4 : Nat → CinepakCodebook) (chunkSize startPos B : Nat)
    (s : VecState) (hB : startPos + chunkSize ≤ B) (h : s.input.pos ≤ B) :
    (decodeVectorsV4 v4 chunkSize startPos s).state.input.pos ≤ B := by
  have r0 := readByte_pos_le s.input
  have r1 := readByte_pos_le (readByte s.input).2
  have r2 := readByte_pos_le (readByte (readByte s.input).2).2
  have r3 := readByte_pos_le (readByte (readByte (readByte s.input).2).2).2
  simp only [decodeVectorsV4, ftell]
  split_ifs with a <;> simp only [Flow.state]
  · exact h
  · omega

theorem decodeVectorsBlock_budget (st : CinepakStrip) (chunkID chunkSize startPos B : Nat)
    (hB : startPos + chunkSize ≤ B) (s : VecState) (h : s.input.pos ≤ B) :
    (decodeVectorsBlock st chunkID chunkSize startPos s).state.input.pos ≤ B := by
  have hcoded : ∀ s1 : VecState, s1.input.pos ≤ B →
      (decodeVectorsCoded st chunkID chunkSize startPos s1).state.input.pos ≤ B := by
    intro s1 h1
    simp only [decodeVectorsCoded]
    have hsel : (if chunkID &&& 0x02 = 0 then decodeVectorsFlag chunkSize startPos s1
        else .next s1).state.input.pos ≤ B := by
      split_ifs
      · exact decodeVectorsFlag_budget chunkSize startPos B s1 hB h1
      · exact h1
    cases hf : (if chunkID &&& 0x02 = 0 then decodeVectorsFlag chunkSize startPos s1
        else Flow.next s1) with
    | stop s2 =>
      rw [hf] at hsel
      exact hsel
    | next s2 =>
      rw [hf] at hsel
      simp only [Flow.state] at hsel
      simp only []
      split_ifs
      · exact decodeVectorsV1_budget _ chunkSize startPos B s2 hB hsel
      · exact decodeVectorsV4_budget _ chunkSize startPos B s2 hB hsel
      · exact hsel
  have hskip : (decodeVectorsSkip chunkID chunkSize startPos s).state.input.pos ≤ B := by
    simp only [decodeVectorsSkip]
    split_ifs
    · exact decodeVectorsFlag_budget chunkSize startPos B s hB h
    · exact h
  simp only [decodeVectorsBlock]
  cases hs : decodeVectorsSkip chunkID chunkSize startPos s with
  | stop s1 =>
    rw [hs] at hskip
    exact hskip
  | next s1 =>
    rw [hs] at hskip
    simp only [Flow.state] at hskip
    simp only []
    split_ifs
    · have hc := hcoded s1 hskip
      cases hcd : decodeVectorsCoded st chunkID chunkSize startPos s1 with
      | stop s2 =>
        rw [hcd] at hc
        exact hc
      | next s2 =>
        rw [hcd] at hc
        exact hc
    · exact hskip

theorem decodeVectors_budget (fuel : Nat) (input : Stream) (fr : CinepakFrame)
    (strip chunkID chunkSize : Nat) (r : Stream × CinepakFrame)
    (h : decodeVectors fuel input fr strip chunkID chunkSize = some r) :
    r.1.pos ≤ input.pos + chunkSize := by
  simp only [decodeVectors] at h
  have hle : ftell input % 4294967296 ≤ input.pos := Nat.mod_le _ _
  cases hrows : decodeVectorsRows (fr.strips strip) fr.width chunkID chunkSize
      (ftell input % 4294967296) fuel fuel (fr.strips strip).top
      (decodeVectorsInit input fr.surface) with
  | none =>
    rw [hrows] at h
    cases h
  | some fl =>
    rw [hrows] at h
    cases h
    exact decodeVectorsRows_invariant (fr.strips strip) fr.width chunkID chunkSize
      (ftell input % 4294967296) fuel (fun s => s.input.pos ≤ input.pos + chunkSize)
      (fun s hs => decodeVectorsBlock_budget _ _ _ _ _ (by omega) s hs)
      (fun s y hs => hs) _ _ _ _ hrows (Nat.le_add_right _ _)

theorem decodeVectorsFlag_advances (chunkSize startPos : Nat) (s : VecState) :
    s.input.Advances (decodeVectorsFlag chunkSize startPos s).state.input := by
  simp only [decodeVectorsFlag]
  split_ifs <;> simp only [Flow.state]
  · exact Stream.Advances.refl _
  · exact readUint32BE_advances _
  · exact Stream.Advances.refl _

theorem decodeVectorsV1_advances (v1 : Nat → CinepakCodebook) (chunkSize startPos : Nat)
    (s : VecState) : s.input.Advances (decodeVectorsV1 v1 chunkSize startPos s).state.input := by
  simp only [decodeVectorsV1]
  split_ifs <;> simp only [Flow.state]
  · exact Stream.Advances.refl _
  · exact readByte_advances _

theorem decodeVectorsV4_advances (v4 : Nat → CinepakCodebook) (chunkSize startPos : Nat)
    (s : VecState) : s.input.Advances (decodeVectorsV4 v4 chunkSize startPos s).state.input := by
  simp only [decodeVectorsV4]
  split_ifs <;> simp only [Flow.state]
  · exact Stream.Advances.refl _
  · exact readByte4_advances _

theorem decodeVectorsBlock_advances (st : CinepakStrip) (chunkID chunkSize startPos : Nat)
    (s : VecState) :
    s.input.Advances (decodeVectorsBlock st chunkID chunkSize startPos s).state.input := by
  have hcoded : ∀ s1 : VecState,
      s1.input.Advances (decodeVectorsCoded st chunkID chunkSize startPos s1).state.input := by
    intro s1
    simp only [decodeVectorsCoded]
    have hsel : s1.input.Advances (if chunkID &&& 0x02 = 0
        then decodeVectorsFlag chunkSize startPos s1 else .next s1).state.input := by
      split_ifs
      · exact decodeVectorsFlag_advances chunkSize startPos s1
      · exact Stream.Advances.refl _
    cases hf : (if chunkID &&& 0x02 = 0 then decodeVectorsFlag chunkSize startPos s1
        else Flow.next s1) with
    | stop s2 =>
      rw [hf] at hsel
      exact hsel
    | next s2 =>
      rw [hf] at hsel
      simp only [Flow.state] at hsel
      simp only []
      split_ifs
      · exact hsel.trans (decodeVectorsV1_advances _ chunkSize startPos s2)
      · exact hsel.trans (decodeVectorsV4_advances _ chunkSize startPos s2)
      · exact hsel
  have hskip : s.input.Advances (decodeVectorsSkip chunkID chunkSize startPos s).state.input := by
    simp only [decodeVectorsSkip]
    split_ifs
    · exact decodeVectorsFlag_advances chunkSize startPos s
    · exact Stream.Advances.refl _
  simp only [decodeVectorsBlock]
  cases hs : decodeVectorsSkip chunkID chunkSize startPos s with
  | stop s1 =>
    rw [hs] at hskip
    exact hskip
  | next s1 =>
    rw [hs] at hskip
    simp only [Flow.state] at hskip
    simp only []
    split_ifs
    · have hc := hcoded s1
      cases hcd : decodeVectorsCoded st chunkID chunkSize startPos s1 with
      | stop s2 =>
        rw [hcd] at hc
        exact hskip.trans hc
      | next s2 =>
        rw [hcd] at hc
        exact hskip.trans hc
    · exact hskip

theorem decodeVectors_advances (fuel : Nat) (input : Stream) (fr : CinepakFrame)
    (strip chunkID chunkSize : Nat) (r : Stream × CinepakFrame)
    (h : decodeVectors fuel input fr strip chunkID chunkSize = some r) :
    input.Advances r.1 := by
  simp only [decodeVectors] at h
  cases hrows : decodeVectorsRows (fr.strips strip) fr.width chunkID chunkSize
      (ftell input % 4294967296) fuel fuel (fr.strips strip).top
      (decodeVectorsInit input fr.surface) with
  | none =>
    rw [hrows] at h
    cases h
  | some fl =>
    rw [hrows] at h
    cases h
    exact decodeVectorsRows_invariant (fr.strips strip) fr.width chunkID chunkSize
      (ftell input % 4294967296) fuel (fun s => input.Advances s.input)
      (fun s hs => hs.trans (decodeVectorsBlock_advances _ _ _ _ s))
      (fun s y hs => hs) _ _ _ _ hrows (Stream.Advances.refl _)

/-- C24: for every `chunkID`, `chunkSize`, decoder state and stream, a
`loadCodebook` call, and a `decodeVectors` call that returns, leaves the stream
contents alone and moves the position forward by at most `chunkSize`: the
number of bytes either handler reads is at most `chunkSize`. -/
theorem handlers_read_within_budget (fuel : Nat) (input : Stream) (fr : CinepakFrame)
    (strip codebookType chunkID chunkSize : Nat) :
    (input.Advances (loadCodebook input fr strip codebookType chunkID chunkSize).1 ∧
      (loadCodebook input fr strip codebookType chunkID chunkSize).1.pos - input.pos
        ≤ chunkSize) ∧
    ∀ r, decodeVectors fuel input fr strip chunkID chunkSize = some r →
      input.Advances r.1 ∧ r.1.pos - input.pos ≤ chunkSize := by
  have h1 := loadCodebook_budget input fr strip codebookType chunkID chunkSize
  refine ⟨⟨loadCodebook_advances input fr strip codebookType chunkID chunkSize, by omega⟩,
    fun r hr => ?_⟩
  have h2 := decodeVectors_budget fuel input fr strip chunkID chunkSize r hr
  exact ⟨decodeVectors_advances fuel input fr strip chunkID chunkSize r hr, by omega⟩

set_option maxRecDepth 20000 in
theorem budgetExample_runs :
    (decodeVectors 1 ⟨[0xC0, 0, 0, 0, 1, 2, 3, 4, 5], 0, false⟩ exampleFrame 0 0x31 7).isSome
      = true := by
  decide

set_option maxRecDepth 20000 in
/-- Witness for `handlers_read_within_budget`: chunk 0x31 on one block with a
budget of 7 bytes and the payload `C0 00 00 00 01 02 03 04 05`: the flag
word selects a V4 block, whose four index bytes do not fit after the flag word,
so four bytes are read. -/
theorem handlers_read_within_budget_witness :
    ∃ r, decodeVectors 1 ⟨[0xC0, 0, 0, 0, 1, 2, 3, 4, 5], 0, false⟩ exampleFrame 0 0x31 7
        = some r ∧
      r.1.pos - 0 ≤ 7 ∧ r.1.pos = 4 :=
  ⟨_, (Option.some_get budgetExample_runs).symm,
    ((handlers_read_within_budget 1 ⟨[0xC0, 0, 0, 0, 1, 2, 3, 4, 5], 0, false⟩ exampleFrame 0 4
      0x31 7).2 _ (Option.some_get budgetExample_runs).symm).2, by decide⟩

/-! ### Chunk header, payload size and resync -/

theorem chunkHeader_reads (f : Stream) :
    (readByte f).1 = byteAt f 0 ∧
    (readByte (readByte f).2).1 = byteAt f 1 ∧
    (readUint16BE (readByte (readByte f).2).2).1 = byteAt f 2 * 256 + byteAt f 3 ∧
    (readUint16BE (readByte (readByte f).2).2).2 = skipBytes f 4 := by
  simp only [readByte_eq, readUint16BE_eq, skipBytes_add, byteAt_skipBytes, and_self]

theorem chunkSizeOf_eq (f : Stream) :
    chunkSizeOf f = (chunkSizeField f + 4294967296 - 4) % 4294967296 := by
  obtain ⟨-, h1, h2, -⟩ := chunkHeader_reads f
  have b1 := byteAt_lt f 1
  have b2 := byteAt_lt f 2
  have b3 := byteAt_lt f 3
  unfold chunkSizeOf chunkSizeField
  rw [h1, h2, Nat.shiftLeft_eq]
  norm_num
  omega

/-- The chunk loop body in terms of the chunk header: the ID, the payload size
and the resync position. -/
theorem chunkBody_cases (fuel i : Nat) (s : DecState)
    (heof : feof (readByte s.input).2 = false) :
    (dispatchChunk fuel i (byteAt s.input 0) (chunkSizeOf s.input)
        { s with input := skipBytes s.input 4 } = none → chunkBody fuel i s = none) ∧
    (∀ S, dispatchChunk fuel i (byteAt s.input 0) (chunkSizeOf s.input)
        { s with input := skipBytes s.input 4 } = some (.stop S) →
      chunkBody fuel i s = some (.stop S, false)) ∧
    (∀ S, dispatchChunk fuel i (byteAt s.input 0) (chunkSizeOf s.input)
        { s with input := skipBytes s.input 4 } = some (.next S) →
      chunkBody fuel i s =
        some (.next (if ftell S.input ≠ chunkEnd s.input
          then { S with input := fseek S.input (chunkEnd s.input) } else S), false)) := by
  obtain ⟨h0, -, -, h3⟩ := chunkHeader_reads s.input
  have hb : chunkBody fuel i s =
      match dispatchChunk fuel i (byteAt s.input 0) (chunkSizeOf s.input)
        { s with input := skipBytes s.input 4 } with
      | none => none
      | some (.stop s1) => some (.stop s1, false)
      | some (.next s1) =>
        if ftell s1.input ≠ chunkEnd s.input
        then some (.next { s1 with input := fseek s1.input (chunkEnd s.input) }, false)
        else some (.next s1, false) := by
    simp only [chunkBody]
    rw [if_neg (by rw [heof]; decide)]
    simp only [chunkEnd, chunkSizeOf, h0, h3]
    try rfl
  rw [hb]
  refine ⟨fun h => by rw [h], fun S h => by rw [h], fun S h => ?_⟩
  rw [h]
  simp only []
  split_ifs <;> rfl

theorem chunkEnd_eq (f : Stream) (havail : f.pos + 4 ≤ f.data.length) :
    chunkEnd f = (ftell f + chunkSizeField f) % 4294967296 := by
  have hf : ftell (skipBytes f 4) = f.pos + 4 := by
    rw [skipBytes_of_le f 4 havail]
    rfl
  have hs := chunkSizeOf_eq f
  have ht : ftell f = f.pos := rfl
  unfold chunkEnd
  rw [hf, hs, ht]
  omega

theorem readByte_feof (f : Stream) (h : f.pos < f.data.length) :
    feof (readByte f).2 = feof f := by
  rw [readByte_of_lt f h]
  rfl

/-- C25: let a chunk loop iteration start in state `s` (end-of-file indicator
clear) in front of a chunk whose four header bytes are in the stream and whose
ID is one of 0x20-0x27, 0x30-0x32. Whatever the handler consumed, if the
iteration returns then the next iteration starts at the position
`startPos + chunkSize` (computed in `uint32`), which is the position of the
chunk ID byte plus the 24-bit size field, modulo 2^32, hence exactly that sum
when it is below 2^32. The iteration returns for every codebook chunk, and for
a vector chunk on a well-formed strip given enough fuel. -/
theorem chunkBody_resync (fuel i : Nat) (s : DecState)
    (hid : IsKnownID (byteAt s.input 0)) (hne : feof s.input = false)
    (havail : s.input.pos + 4 ≤ s.input.data.length) :
    (∀ r, chunkBody fuel i s = some r →
      ∃ s1, r = (.next s1, false) ∧
        ftell s1.input = chunkEnd s.input ∧
        ftell s1.input = (ftell s.input + chunkSizeField s.input) % 4294967296 ∧
        (ftell s.input + chunkSizeField s.input < 4294967296 →
          ftell s1.input = ftell s.input + chunkSizeField s.input)) ∧
    (byteAt s.input 0 ≤ 0x27 → ∃ r, chunkBody fuel i s = some r) ∧
    (WellFormedStrip s.dec.curFrame.width (s.dec.curFrame.strips i) →
      s.dec.curFrame.width ≤ 4 * fuel →
      (s.dec.curFrame.strips i).bottom ≤ (s.dec.curFrame.strips i).top + 4 * fuel →
      ∃ r, chunkBody fuel i s = some r) := by
  have heof : feof (readByte s.input).2 = false := by
    rw [readByte_feof s.input (by omega)]
    exact hne
  obtain ⟨c1, c2, c3⟩ := chunkBody_cases fuel i s heof
  have hend := chunkEnd_eq s.input havail
  have hnext : ∀ S, dispatchChunk fuel i (byteAt s.input 0) (chunkSizeOf s.input)
      { s with input := skipBytes s.input 4 } = some (.next S) →
      ∃ s1, chunkBody fuel i s = some (.next s1, false) ∧ ftell s1.input = chunkEnd s.input := by
    intro S hS
    refine ⟨_, c3 S hS, ?_⟩
    split_ifs with hT
    · rfl
    · exact not_not.1 hT
  refine ⟨fun r hr => ?_, fun hcb => ?_, fun hwf hf1 hf2 => ?_⟩
  · cases hd : dispatchChunk fuel i (byteAt s.input 0) (chunkSizeOf s.input)
        { s with input := skipBytes s.input 4 } with
    | none =>
      rw [c1 hd] at hr
      cases hr
    | some fl =>
      cases fl with
      | stop S =>
        exact absurd hid ((dispatchChunk_effect _ _ _ _ _ _ hd).2.2 rfl).1
      | next S =>
        obtain ⟨s1, e1, e2⟩ := hnext S hd
        rw [e1] at hr
        cases hr
        refine ⟨s1, rfl, e2, by rw [e2, hend], fun hlt => ?_⟩
        rw [e2, hend, Nat.mod_eq_of_lt hlt]
  · have hk : (byteAt s.input 0 = 0x20 ∨ byteAt s.input 0 = 0x21 ∨ byteAt s.input 0 = 0x24 ∨
        byteAt s.input 0 = 0x25) ∨ (byteAt s.input 0 = 0x22 ∨ byteAt s.input 0 = 0x23 ∨
        byteAt s.input 0 = 0x26 ∨ byteAt s.input 0 = 0x27) := by
      simp only [IsKnownID] at hid
      omega
    rcases hk with hk | hk
    · obtain ⟨S, hS, -⟩ := dispatchChunk_V4_codebook fuel i _ (chunkSizeOf s.input)
        { s with input := skipBytes s.input 4 } hk
      obtain ⟨s1, e1, -⟩ := hnext S hS
      exact ⟨_, e1⟩
    · obtain ⟨S, hS, -⟩ := dispatchChunk_V1_codebook fuel i _ (chunkSizeOf s.input)
        { s with input := skipBytes s.input 4 } hk
      obtain ⟨s1, e1, -⟩ := hnext S hS
      exact ⟨_, e1⟩
  · by_cases hcb : byteAt s.input 0 ≤ 0x27
    · have hk : (byteAt s.input 0 = 0x20 ∨ byteAt s.input 0 = 0x21 ∨ byteAt s.input 0 = 0x24 ∨
          byteAt s.input 0 = 0x25) ∨ (byteAt s.input 0 = 0x22 ∨ byteAt s.input 0 = 0x23 ∨
          byteAt s.input 0 = 0x26 ∨ byteAt s.input 0 = 0x27) := by
        simp only [IsKnownID] at hid
        omega
      rcases hk with hk | hk
      · obtain ⟨S, hS, -⟩ := dispatchChunk_V4_codebook fuel i _ (chunkSizeOf s.input)
          { s with input := skipBytes s.input 4 } hk
        obtain ⟨s1, e1, -⟩ := hnext S hS
        exact ⟨_, e1⟩
      · obtain ⟨S, hS, -⟩ := dispatchChunk_V1_codebook fuel i _ (chunkSizeOf s.input)
          { s with input := skipBytes s.input 4 } hk
        obtain ⟨s1, e1, -⟩ := hnext S hS
        exact ⟨_, e1⟩
    · have hv : byteAt s.input 0 = 0x30 ∨ byteAt s.input 0 = 0x31 ∨ byteAt s.input 0 = 0x32 := by
        simp only [IsKnownID] at hid
        omega
      obtain ⟨r, hr⟩ := decodeVectors_total fuel (skipBytes s.input 4) s.dec.curFrame i
        (byteAt s.input 0) (chunkSizeOf s.input) hwf ⟨hf1, hf2⟩
      obtain ⟨S, hS, -⟩ := dispatchChunk_vectors fuel i _ (chunkSizeOf s.input)
        { s with input := skipBytes s.input 4 } r hv hr
      obtain ⟨s1, e1, -⟩ := hnext S hS
      exact ⟨_, e1⟩

/-- C26: for a chunk whose ID was read (no end of file), with the size bytes
`s0`, `s1`, `s2` following the ID, the payload size `chunkSize` computed by
`decodeImage` is the 24-bit big-endian value `s0 * 65536 + s1 * 256 + s2`
minus 4 in `uint32` arithmetic, which is that value minus 4 whenever the field
is at least 4; and this `chunkSize` is the budget handed to the handler:
`loadCodebook` for the codebook IDs, `decodeVectors` for the vector IDs, both
called on the stream right behind the four header bytes. -/
theorem chunkBody_payload_size (fuel i : Nat) (s : DecState)
    (heof : feof (readByte s.input).2 = false) :
    chunkSizeOf s.input = (chunkSizeField s.input + 4294967296 - 4) % 4294967296 ∧
    (4 ≤ chunkSizeField s.input → chunkSizeOf s.input = chunkSizeField s.input - 4) ∧
    (byteAt s.input 0 = 0x20 ∨ byteAt s.input 0 = 0x21 ∨ byteAt s.input 0 = 0x24 ∨
        byteAt s.input 0 = 0x25 →
      ∃ s1, chunkBody fuel i s = some (.next s1, false) ∧
        s1.dec.curFrame = (loadCodebook (skipBytes s.input 4) s.dec.curFrame i 4
          (byteAt s.input 0) (chunkSizeOf s.input)).2) ∧
    (byteAt s.input 0 = 0x22 ∨ byteAt s.input 0 = 0x23 ∨ byteAt s.input 0 = 0x26 ∨
        byteAt s.input 0 = 0x27 →
      ∃ s1, chunkBody fuel i s = some (.next s1, false) ∧
        s1.dec.curFrame = (loadCodebook (skipBytes s.input 4) s.dec.curFrame i 1
          (byteAt s.input 0) (chunkSizeOf s.input)).2) ∧
    (byteAt s.input 0 = 0x30 ∨ byteAt s.input 0 = 0x31 ∨ byteAt s.input 0 = 0x32 →
      ∀ r, decodeVectors fuel (skipBytes s.input 4) s.dec.curFrame i (byteAt s.input 0)
          (chunkSizeOf s.input) = some r →
        ∃ s1, chunkBody fuel i s = some (.next s1, false) ∧ s1.dec.curFrame = r.2) := by
  obtain ⟨-, -, c3⟩ := chunkBody_cases fuel i s heof
  have hsz := chunkSizeOf_eq s.input
  have hfield : chunkSizeField s.input < 16777216 := by
    have b1 := byteAt_lt s.input 1
    have b2 := byteAt_lt s.input 2
    have b3 := byteAt_lt s.input 3
    unfold chunkSizeField
    omega
  have hfr : ∀ S : DecState, (if ftell S.input ≠ chunkEnd s.input
      then { S with input := fseek S.input (chunkEnd s.input) } else S).dec = S.dec := by
    intro S
    split_ifs <;> rfl
  refine ⟨hsz, fun h4 => by rw [hsz]; omega, fun hk => ?_, fun hk => ?_, fun hk r hr => ?_⟩
  · obtain ⟨S, hS, -, hfrS, -⟩ := dispatchChunk_V4_codebook fuel i _ (chunkSizeOf s.input)
      { s with input := skipBytes s.input 4 } hk
    exact ⟨_, c3 S hS, by rw [hfr S]; exact hfrS⟩
  · obtain ⟨S, hS, -, hfrS, -⟩ := dispatchChunk_V1_codebook fuel i _ (chunkSizeOf s.input)
      { s with input := skipBytes s.input 4 } hk
    exact ⟨_, c3 S hS, by rw [hfr S]; exact hfrS⟩
  · obtain ⟨S, hS, -, hfrS, -⟩ := dispatchChunk_vectors fuel i _ (chunkSizeOf s.input)
      { s with input := skipBytes s.input 4 } r hk hr
    exact ⟨_, c3 S hS, by rw [hfr S]; exact hfrS⟩

set_option maxRecDepth 20000 in
/-- Witness for `chunkBody_resync`: `exampleChunkState`; the handler reads one
of the six payload bytes, the next iteration starts at position 10. -/
theorem chunkBody_resync_witness :
    ∃ s1, chunkBody 1 0 exampleChunkState = some (.next s1, false) ∧ ftell s1.input = 10 := by
  have h := chunkBody_resync 1 0 exampleChunkState (by decide) rfl (by decide)
  obtain ⟨r, hr⟩ := h.2.2 (by decide) (by decide) (by decide)
  obtain ⟨s1, e1, -, -, e4⟩ := h.1 r hr
  rw [e1] at hr
  exact ⟨s1, hr, (e4 (by decide)).trans (by decide)⟩

set_option maxRecDepth 20000 in
theorem exampleChunkState_runs :
    (decodeVectors 1 (skipBytes exampleChunkState.input 4) exampleChunkState.dec.curFrame 0
      (byteAt exampleChunkState.input 0) (chunkSizeOf exampleChunkState.input)).isSome = true := by
  decide

set_option maxRecDepth 20000 in
/-- Witness for `chunkBody_payload_size`: `exampleChunkState`, size field 10,
payload size 6, handed to `decodeVectors`. -/
theorem chunkBody_payload_size_witness :
    chunkSizeOf exampleChunkState.input = 6 ∧
    ∃ s1, chunkBody 1 0 exampleChunkState = some (.next s1, false) ∧
      s1.dec.curFrame.surface.log.length = 48 := by
  have h := chunkBody_payload_size 1 0 exampleChunkState rfl
  obtain ⟨s1, e1, e2⟩ := h.2.2.2.2 (by decide) _ (Option.some_get exampleChunkState_runs).symm
  refine ⟨(h.2.1 (by decide)).trans (by decide), s1, e1, ?_⟩
  rw [e2]
  decide

/-! ### Frame header and strip header -/

theorem decodeStrip_frameLength (fuel i : Nat) (s : DecState) (fl : Flow DecState)
    (h : decodeStrip fuel i s = some fl) :
    fl.state.dec.curFrame.length = s.dec.curFrame.length := by
  rw [decodeStrip_eq] at h
  have e0 : (readStripHeader (s.withFrame s.input (inheritCodebooks s.dec.curFrame i))
      i).dec.curFrame.length = s.dec.curFrame.length := by
    simp only [readStripHeader, DecState.withFrame, inheritCodebooks]
    split_ifs <;> rfl
  cases hl : chunkLoop fuel i
      (ftell (readStripHeader (s.withFrame s.input (inheritCodebooks s.dec.curFrame i)) i).input
        % 4294967296) fuel
      (readStripHeader (s.withFrame s.input (inheritCodebooks s.dec.curFrame i)) i) with
  | none =>
    rw [hl] at h
    cases h
  | some fl1 =>
    obtain ⟨⟨⟨-, a2, -⟩, -⟩, -⟩ := chunkLoop_effect fuel i _ fuel _ fl1 hl
    rw [hl] at h
    cases fl1 with
    | stop s2 =>
      cases h
      exact a2.trans e0
    | next s2 =>
      cases h
      exact a2.trans e0

theorem stripLoop_frameLength (fuel : Nat) :
    ∀ (n i : Nat) (s : DecState) (fl : Flow DecState),
      stripLoop fuel n i s = some fl →
      fl.state.dec.curFrame.length = s.dec.curFrame.length := by
  intro n
  induction n with
  | zero =>
    intro i s fl h
    cases h
    rfl
  | succ n ih =>
    intro i s fl h
    rw [stripLoop_succ] at h
    cases hd : decodeStrip fuel i s with
    | none => rw [hd] at h; cases h
    | some fl1 =>
      have h1 := decodeStrip_frameLength fuel i s fl1 hd
      rw [hd] at h
      cases fl1 with
      | stop s1 =>
        cases h
        exact h1
      | next s1 =>
        exact (ih (i + 1) s1 fl h).trans h1

theorem readFrameHeader_length (f : Stream) (d : CinepakDecoder) :
    (readFrameHeader f d).dec.curFrame.length
      = byteAt f 1 * 65536 + byteAt f 2 * 256 + byteAt f 3 := by
  have b1 := byteAt_lt f 1
  have b2 := byteAt_lt f 2
  have b3 := byteAt_lt f 3
  simp only [readFrameHeader, readByte_eq, readUint16BE_eq, skipBytes_add, byteAt_skipBytes]
  rw [Nat.shiftLeft_eq]
  norm_num
  omega

/-- C28: `decodeImage` sets, from the first ten reads `b0 .. b9` of the
stream (the bytes at the stream position when ten bytes are there), `flags =
b0`, `length = b1 * 65536 + b2 * 256 + b3`, `width = b4 * 256 + b5`, `height
= b6 * 256 + b7` and `stripCount = b8 * 256 + b9`; the fields keep these values
to the end of the call, so that afterwards `getWidth()` and `getHeight()`
return that width and height. -/
theorem decodeImage_frame_header (f : Stream) (d : CinepakDecoder) :
    ((readFrameHeader f d).dec.curFrame.flags = byteAt f 0 ∧
      (readFrameHeader f d).dec.curFrame.length
        = byteAt f 1 * 65536 + byteAt f 2 * 256 + byteAt f 3 ∧
      (readFrameHeader f d).dec.curFrame.width = byteAt f 4 * 256 + byteAt f 5 ∧
      (readFrameHeader f d).dec.curFrame.height = byteAt f 6 * 256 + byteAt f 7 ∧
      (readFrameHeader f d).dec.curFrame.stripCount = byteAt f 8 * 256 + byteAt f 9) ∧
    (∀ fuel r, decodeImage fuel f d = some r →
      r.dec.curFrame.flags = byteAt f 0 ∧
      r.dec.curFrame.length = byteAt f 1 * 65536 + byteAt f 2 * 256 + byteAt f 3 ∧
      r.dec.curFrame.stripCount = byteAt f 8 * 256 + byteAt f 9 ∧
      r.dec.getWidth = byteAt f 4 * 256 + byteAt f 5 ∧
      r.dec.getHeight = byteAt f 6 * 256 + byteAt f 7) ∧
    (f.pos + 10 ≤ f.data.length → ∀ k, k < 10 → byteAt f k = f.data.getD (f.pos + k) 0 % 256) := by
  obtain ⟨-, h1, h2, h3, h4, -⟩ := readFrameHeader_eq f d
  have h5 := readFrameHeader_length f d
  refine ⟨⟨h1, h5, h2, h3, h4⟩, fun fuel r hr => ?_, fun hlen k hk => byteAt_of_lt f k (by omega)⟩
  obtain ⟨fl, hl, hfl, hse, -⟩ := decodeImage_effect fuel f d r hr
  obtain ⟨a1, a2, a3, a4, -⟩ := hse
  have a5 := stripLoop_frameLength fuel _ _ _ _ hl
  rw [hfl] at a5
  exact ⟨a1.trans h1, a5.trans h5, a4.trans h4, a2.trans h2, a3.trans h3⟩

set_option maxRecDepth 20000 in
/-- Witness for `decodeImage_frame_header`: `codedFrameStream`, ten header
bytes `00 00 00 1B 00 04 00 04 00 01`. -/
theorem decodeImage_frame_header_witness :
    ∃ r, decodeImage 2 ⟨codedFrameStream, 0, false⟩ (CinepakDecoder.new exampleFrame) = some r ∧
      r.dec.curFrame.flags = 0 ∧ r.dec.curFrame.length = 27 ∧ r.dec.curFrame.stripCount = 1 ∧
      r.dec.getWidth = 4 ∧ r.dec.getHeight = 4 :=
  have h := (decodeImage_frame_header ⟨codedFrameStream, 0, false⟩
    (CinepakDecoder.new exampleFrame)).2.1 2 _ (Option.some_get codedFrameStream_runs).symm
  ⟨_, (Option.some_get codedFrameStream_runs).symm, h.1.trans (by decide),
    h.2.1.trans (by decide), h.2.2.1.trans (by decide), h.2.2.2.1.trans (by decide),
    h.2.2.2.2.trans (by decide)⟩

/-- C27: from the twelve reads `h0 .. h11` that make up the header of strip
`i`, `decodeImage` sets `id` to the first 16-bit big-endian field, `length`
to the second field minus 12 (in `uint16`: exactly that when the field is at
least 12), `top` to the row cursor `_y`, `left` to 0, `bottom` to the row
cursor plus the fifth field (in `uint16`: exactly that when the sum is below
2^16) and `right` to the frame width. The third, fourth and sixth fields are
read (the stream ends up twelve reads further) and discarded: the strip is the
old strip with exactly these six fields replaced, and the rest of the decoder
is unchanged. The row cursor is below 2^16 whenever a strip header is read
within `decodeImage`: it is 0 after the frame header and the `bottom` of the
strip just decoded afterwards. -/
theorem readStripHeader_strip (s : DecState) (i : Nat) :
    (readStripHeader s i).input = skipBytes s.input 12 ∧
    (readStripHeader s i).dec.curFrame.strips i =
      { s.dec.curFrame.strips i with
        id := byteAt s.input 0 * 256 + byteAt s.input 1,
        length := (byteAt s.input 2 * 256 + byteAt s.input 3 + 65536 - 12) % 65536,
        top := s.dec.y % 65536,
        left := 0,
        bottom := (s.dec.y + (byteAt s.input 8 * 256 + byteAt s.input 9)) % 65536,
        right := s.dec.curFrame.width } ∧
    (12 ≤ byteAt s.input 2 * 256 + byteAt s.input 3 →
      ((readStripHeader s i).dec.curFrame.strips i).length
        = byteAt s.input 2 * 256 + byteAt s.input 3 - 12) ∧
    (s.dec.y < 65536 → ((readStripHeader s i).dec.curFrame.strips i).top = s.dec.y) ∧
    (s.dec.y + (byteAt s.input 8 * 256 + byteAt s.input 9) < 65536 →
      ((readStripHeader s i).dec.curFrame.strips i).bottom
        = s.dec.y + (byteAt s.input 8 * 256 + byteAt s.input 9)) ∧
    (∀ j, j ≠ i → (readStripHeader s i).dec.curFrame.strips j = s.dec.curFrame.strips j) ∧
    (readStripHeader s i).dec.y = s.dec.y ∧
    (readStripHeader s i).dec.curFrame.width = s.dec.curFrame.width ∧
    (readStripHeader s i).dec.curFrame.height = s.dec.curFrame.height ∧
    (readStripHeader s i).dec.curFrame.surface = s.dec.curFrame.surface ∧
    (∀ f d, (readFrameHeader f d).dec.y = 0) ∧
    (∀ fuel j s0 fl, decodeStrip fuel j s0 = some fl → fl.stopped = false →
      fl.state.dec.y < 65536) := by
  have b2 := byteAt_lt s.input 2
  have b3 := byteAt_lt s.input 3
  have b8 := byteAt_lt s.input 8
  have b9 := byteAt_lt s.input 9
  obtain ⟨q1, q2, q3, q4, q5, q6, q7, q8, q9, q10, q11, -⟩ := readStripHeader_eq s i
  obtain ⟨-, -, -, -, r5⟩ := readStripHeader_fields s i
  have hstrip : (readStripHeader s i).dec.curFrame.strips i =
      { s.dec.curFrame.strips i with
        id := byteAt s.input 0 * 256 + byteAt s.input 1,
        length := (byteAt s.input 2 * 256 + byteAt s.input 3 + 65536 - 12) % 65536,
        top := s.dec.y % 65536,
        left := 0,
        bottom := (s.dec.y + (byteAt s.input 8 * 256 + byteAt s.input 9)) % 65536,
        right := s.dec.curFrame.width } := by
    have e1 : (65536 + (byteAt s.input 2 * 256 + byteAt s.input 3) - 12) % 65536
        = (byteAt s.input 2 * 256 + byteAt s.input 3 + 65536 - 12) % 65536 := by omega
    have e2 : ((s.dec.y + (byteAt s.input 8 * 256 + byteAt s.input 9)) % 4294967296) % 65536
        = (s.dec.y + (byteAt s.input 8 * 256 + byteAt s.input 9)) % 65536 := by omega
    simp only [readStripHeader, readUint16BE_eq, skipBytes_add, byteAt_skipBytes,
      DecState.withFrame, Function.update_same, e1, e2]
  refine ⟨q1, hstrip, fun h => ?_, fun h => ?_, fun h => ?_, r5, q11, q7, q8, q10,
    fun f d => (readFrameHeader_eq f d).2.2.2.2.2.2.2.1, fun fuel j s0 fl hfl hns => ?_⟩
  · rw [q2]
    omega
  · rw [q3]
    exact Nat.mod_eq_of_lt h
  · rw [q5]
    omega
  · obtain ⟨-, -, -, -, -, -, -, d4, d5⟩ := decodeStrip_effect fuel j s0 fl hfl
    rw [d5 hns, d4]
    exact Nat.mod_lt _ (by decide)

/-- Witness for `readStripHeader_strip`: `exampleSecondStrip`, whose stream
starts with the strip header `11 00 00 14 00 00 00 00 00 04 00 04` and whose
row cursor is 4. -/
theorem readStripHeader_strip_witness :
    ((readStripHeader exampleSecondStrip 1).dec.curFrame.strips 1).length = 8 ∧
    ((readStripHeader exampleSecondStrip 1).dec.curFrame.strips 1).top = 4 ∧
    ((readStripHeader exampleSecondStrip 1).dec.curFrame.strips 1).bottom = 8 :=
  have h := readStripHeader_strip exampleSecondStrip 1
  ⟨(h.2.2.1 (by decide)).trans (by decide), h.2.2.2.1 (by decide),
    (h.2.2.2.2.1 (by decide)).trans (by decide)⟩

/-! ### The shared flag word of `decodeVectors` -/

set_option maxRecDepth 20000 in
/-- C29, as the code behaves: chunk 0x31 on the two blocks of `exampleWide`
with the payload `A0 00 00 00 01 02` and `chunkSize = 6`. Both blocks are
painted (96 stores) and the six bytes are consumed: one flag word serves the
skip flag and the selector flag of both blocks. The second block is entered
with the mask at bit 30, where the selector test of the first block left it,
so its skip flag is bit 29 of the word; with a word/mask pair of its own the
selector would have needed a second flag word, which does not fit. -/
theorem decodeVectors_flags_share_one_word :
    (decodeVectors 2 ⟨sharedFlagsStream, 0, false⟩ exampleWide 0 0x31 6).map
        (fun r => (r.1.pos, r.2.surface.log.length)) = some (6, 96) ∧
    (decodeVectorsTrace 2 ⟨sharedFlagsStream, 0, false⟩ exampleWide 0 0x31 6).map
        (fun b => (b.2.1, b.2.2.input.pos, b.2.2.flag, b.2.2.mask))
      = [(0, 0, 0, 0), (4, 5, 0xA0000000, 0x40000000)] := by
  decide

theorem decodeVectorsFlag_fetch (chunkSize startPos : Nat) (s : VecState)
    (hm : s.mask >>> 1 = 0)
    (hfit : ¬ (ftell s.input : Int) - (startPos : Int) + 4 > (chunkSize : Int)) :
    decodeVectorsFlag chunkSize startPos s =
      .next { s with input := (readUint32BE s.input).2, flag := (readUint32BE s.input).1,
                     mask := 0x80000000 } := by
  simp only [decodeVectorsFlag]
  rw [if_pos hm, if_neg hfit]

theorem decodeVectorsFlag_break (chunkSize startPos : Nat) (s : VecState)
    (hm : s.mask >>> 1 = 0)
    (hfit : (ftell s.input : Int) - (startPos : Int) + 4 > (chunkSize : Int)) :
    decodeVectorsFlag chunkSize startPos s = .stop { s with mask := s.mask >>> 1 } := by
  simp only [decodeVectorsFlag]
  rw [if_pos hm, if_pos hfit]

theorem decodeVectorsFlag_shift (chunkSize startPos : Nat) (s : VecState)
    (hm : s.mask >>> 1 ≠ 0) :
    decodeVectorsFlag chunkSize startPos s = .next { s with mask := s.mask >>> 1 } := by
  simp only [decodeVectorsFlag]
  rw [if_neg hm]

/-- The body of the block loop for a chunk with both flag streams (bit 0 of
`chunkID` set, bit 1 clear), in terms of the one fetch step
`decodeVectorsFlag`. -/
theorem decodeVectorsBlock_both (st : CinepakStrip) (chunkID chunkSize startPos : Nat)
    (s : VecState) (h1 : chunkID &&& 0x01 ≠ 0) (h2 : chunkID &&& 0x02 = 0) :
    (∀ s1, decodeVectorsFlag chunkSize startPos s = .stop s1 →
      decodeVectorsBlock st chunkID chunkSize startPos s = .stop s1) ∧
    (∀ s1, decodeVectorsFlag chunkSize startPos s = .next s1 → s1.flag &&& s1.mask = 0 →
      decodeVectorsBlock st chunkID chunkSize startPos s = .next s1.advance) ∧
    (∀ s1 s2, decodeVectorsFlag chunkSize startPos s = .next s1 → s1.flag &&& s1.mask ≠ 0 →
      decodeVectorsFlag chunkSize startPos s1 = .stop s2 →
      decodeVectorsBlock st chunkID chunkSize startPos s = .stop s2) ∧
    (∀ s1 s2, decodeVectorsFlag chunkSize startPos s = .next s1 → s1.flag &&& s1.mask ≠ 0 →
      decodeVectorsFlag chunkSize startPos s1 = .next s2 →
      (s2.flag ^^^ 0xFFFFFFFF) &&& s2.mask ≠ 0 →
      (∀ s3, decodeVectorsV1 st.v1_codebook chunkSize startPos s2 = .next s3 →
        decodeVectorsBlock st chunkID chunkSize startPos s = .next s3.advance) ∧
      (∀ s3, decodeVectorsV1 st.v1_codebook chunkSize startPos s2 = .stop s3 →
        decodeVectorsBlock st chunkID chunkSize startPos s = .stop s3)) ∧
    (∀ s1 s2, decodeVectorsFlag chunkSize startPos s = .next s1 → s1.flag &&& s1.mask ≠ 0 →
      decodeVectorsFlag chunkSize startPos s1 = .next s2 →
      (s2.flag ^^^ 0xFFFFFFFF) &&& s2.mask = 0 → s2.flag &&& s2.mask ≠ 0 →
      (∀ s3, decodeVectorsV4 st.v4_codebook chunkSize startPos s2 = .next s3 →
        decodeVectorsBlock st chunkID chunkSize startPos s = .next s3.advance) ∧
      (∀ s3, decodeVectorsV4 st.v4_codebook chunkSize startPos s2 = .stop s3 →
        decodeVectorsBlock st chunkID chunkSize startPos s = .stop s3)) := by
  have hskip : decodeVectorsSkip chunkID chunkSize startPos s
      = decodeVectorsFlag chunkSize startPos s := by
    simp only [decodeVectorsSkip]
    rw [if_pos h1]
  have hsel : ∀ s1 : VecState, ¬ (chunkID &&& 0x01 = 0 ∨ s1.flag &&& s1.mask ≠ 0) ↔
      s1.flag &&& s1.mask = 0 := by
    intro s1
    constructor
    · intro h
      by_contra hne
      exact h (Or.inr hne)
    · rintro h (h' | h')
      · exact h1 h'
      · exact h' h
  have hv : ∀ s2 : VecState, (chunkID &&& 0x02 ≠ 0 ∨ (s2.flag ^^^ 0xFFFFFFFF) &&& s2.mask ≠ 0) ↔
      (s2.flag ^^^ 0xFFFFFFFF) &&& s2.mask ≠ 0 := by
    intro s2
    constructor
    · rintro (h | h)
      · exact absurd h2 h
      · exact h
    · exact fun h => Or.inr h
  refine ⟨fun s1 e1 => ?_, fun s1 e1 hb => ?_, fun s1 s2 e1 hb e2 => ?_,
    fun s1 s2 e1 hb e2 hsv => ⟨fun s3 e3 => ?_, fun s3 e3 => ?_⟩,
    fun s1 s2 e1 hb e2 hsv hb2 => ⟨fun s3 e3 => ?_, fun s3 e3 => ?_⟩⟩
  · simp only [decodeVectorsBlock, hskip, e1]
  · simp only [decodeVectorsBlock, hskip, e1]
    rw [if_neg ((hsel s1).2 hb)]
  · simp only [decodeVectorsBlock, hskip, e1]
    rw [if_pos (Or.inr hb)]
    simp only [decodeVectorsCoded]
    rw [if_pos h2, e2]
  · simp only [decodeVectorsBlock, hskip, e1]
    rw [if_pos (Or.inr hb)]
    simp only [decodeVectorsCoded]
    rw [if_pos h2, e2]
    simp only []
    rw [if_pos (Or.inr hsv), e3]
  · simp only [decodeVectorsBlock, hskip, e1]
    rw [if_pos (Or.inr hb)]
    simp only [decodeVectorsCoded]
    rw [if_pos h2, e2]
    simp only []
    rw [if_pos (Or.inr hsv), e3]
  · simp only [decodeVectorsBlock, hskip, e1]
    rw [if_pos (Or.inr hb)]
    simp only [decodeVectorsCoded]
    rw [if_pos h2, e2]
    simp only []
    rw [if_neg ((hv s2).not.2 (not_not.2 hsv)), if_pos hb2, e3]
  · simp only [decodeVectorsBlock, hskip, e1]
    rw [if_pos (Or.inr hb)]
    simp only [decodeVectorsCoded]
    rw [if_pos h2, e2]
    simp only []
    rw [if_neg ((hv s2).not.2 (not_not.2 hsv)), if_pos hb2, e3]

theorem decodeVectorsV1_flag_mask (v1 : Nat → CinepakCodebook) (chunkSize startPos : Nat)
    (s : VecState) :
    (decodeVectorsV1 v1 chunkSize startPos s).state.flag = s.flag ∧
    (decodeVectorsV1 v1 chunkSize startPos s).state.mask = s.mask := by
  simp only [decodeVectorsV1]
  split_ifs <;> simp only [Flow.state, and_self]

theorem decodeVectorsV4_flag_mask (v4 : Nat → CinepakCodebook) (chunkSize startPos : Nat)
    (s : VecState) :
    (decodeVectorsV4 v4 chunkSize startPos s).state.flag = s.flag ∧
    (decodeVectorsV4 v4 chunkSize startPos s).state.mask = s.mask := by
  simp only [decodeVectorsV4]
  split_ifs <;> simp only [Flow.state, and_self]

/-- A coded block of a chunk with both flag streams whose two flag bits are
both in the current flag word: the mask ends two positions further on, the
flag word stays. -/
theorem decodeVectorsBlock_two_bits (st : CinepakStrip) (chunkID chunkSize startPos : Nat)
    (s : VecState) (h1 : chunkID &&& 0x01 ≠ 0) (h2 : chunkID &&& 0x02 = 0)
    (hm : s.mask >>> 2 ≠ 0) (hb : s.flag &&& (s.mask >>> 1) ≠ 0) :
    (decodeVectorsBlock st chunkID chunkSize startPos s).state.mask = s.mask >>> 2 ∧
    (decodeVectorsBlock st chunkID chunkSize startPos s).state.flag = s.flag := by
  have e : s.mask >>> 2 = (s.mask >>> 1) >>> 1 := Nat.shiftRight_add s.mask 1 1
  have hm1 : s.mask >>> 1 ≠ 0 := by
    intro h0
    rw [e, h0] at hm
    exact hm rfl
  have f1 := decodeVectorsFlag_shift chunkSize startPos s hm1
  have f2 := decodeVectorsFlag_shift chunkSize startPos { s with mask := s.mask >>> 1 }
    (by rw [← e]; exact hm)
  obtain ⟨-, -, -, c4, c5⟩ := decodeVectorsBlock_both st chunkID chunkSize startPos s h1 h2
  obtain ⟨a1, a2⟩ := decodeVectorsV1_flag_mask st.v1_codebook chunkSize startPos
    { s with mask := (s.mask >>> 1) >>> 1 }
  obtain ⟨b1, b2⟩ := decodeVectorsV4_flag_mask st.v4_codebook chunkSize startPos
    { s with mask := (s.mask >>> 1) >>> 1 }
  rw [e]
  by_cases hsv : (s.flag ^^^ 0xFFFFFFFF) &&& ((s.mask >>> 1) >>> 1) ≠ 0
  · obtain ⟨d1, d2⟩ := c4 _ _ f1 hb f2 hsv
    cases hv : decodeVectorsV1 st.v1_codebook chunkSize startPos
        { s with mask := (s.mask >>> 1) >>> 1 } with
    | next s3 =>
      rw [hv] at a1 a2
      rw [d1 s3 hv]
      exact ⟨a2, a1⟩
    | stop s3 =>
      rw [hv] at a1 a2
      rw [d2 s3 hv]
      exact ⟨a2, a1⟩
  · by_cases hb2 : s.flag &&& ((s.mask >>> 1) >>> 1) ≠ 0
    · obtain ⟨d1, d2⟩ := c5 _ _ f1 hb f2 (not_not.1 hsv) hb2
      cases hv : decodeVectorsV4 st.v4_codebook chunkSize startPos
          { s with mask := (s.mask >>> 1) >>> 1 } with
      | next s3 =>
        rw [hv] at b1 b2
        rw [d1 s3 hv]
        exact ⟨b2, b1⟩
      | stop s3 =>
        rw [hv] at b1 b2
        rw [d2 s3 hv]
        exact ⟨b2, b1⟩
    · have hskip : decodeVectorsSkip chunkID chunkSize startPos s
          = decodeVectorsFlag chunkSize startPos s := by
        simp only [decodeVectorsSkip]
        rw [if_pos h1]
      simp only [decodeVectorsBlock, hskip, f1]
      rw [if_pos (Or.inr hb)]
      simp only [decodeVectorsCoded]
      rw [if_pos h2, f2]
      simp only []
      rw [if_neg (by rintro (h | h); exact h h2; exact hsv h), if_neg hb2]
      exact ⟨rfl, rfl⟩

/-- C29, amended: for chunk 0x31 `decodeVectors` keeps one 32-bit flag word and
one mask, shared by the skip flags and the V1/V4 selector flags. Both tests
are preceded by the same step: shift the mask right by one and, only when it
has reached zero, refresh the pair from a big-endian 32-bit read (or return
when four bytes do not fit). A block first takes the skip step; when the bit
under the mask is 0 the block is skipped; when it is 1 the block takes the
same step once more, on the state the skip step left, and the bit then under
the mask selects V1 (bit 0) or V4 (bit 1). So consuming a selector bit
advances the mask the next skip test starts from: inside one flag word a
skipped block moves the mask by one position and a coded block by two. -/
theorem decodeVectorsBlock_shared_flags (st : CinepakStrip) (chunkSize startPos : Nat)
    (s : VecState) :
    ((s.mask >>> 1 ≠ 0 →
        decodeVectorsFlag chunkSize startPos s = .next { s with mask := s.mask >>> 1 }) ∧
      (s.mask >>> 1 = 0 →
        ¬ (ftell s.input : Int) - (startPos : Int) + 4 > (chunkSize : Int) →
        decodeVectorsFlag chunkSize startPos s =
          .next { s with input := (readUint32BE s.input).2, flag := (readUint32BE s.input).1,
                         mask := 0x80000000 }) ∧
      (s.mask >>> 1 = 0 →
        (ftell s.input : Int) - (startPos : Int) + 4 > (chunkSize : Int) →
        decodeVectorsFlag chunkSize startPos s = .stop { s with mask := s.mask >>> 1 })) ∧
    (∀ s1, decodeVectorsFlag chunkSize startPos s = .stop s1 →
      decodeVectorsBlock st 0x31 chunkSize startPos s = .stop s1) ∧
    (∀ s1, decodeVectorsFlag chunkSize startPos s = .next s1 → s1.flag &&& s1.mask = 0 →
      decodeVectorsBlock st 0x31 chunkSize startPos s = .next s1.advance) ∧
    (∀ s1 s2, decodeVectorsFlag chunkSize startPos s = .next s1 → s1.flag &&& s1.mask ≠ 0 →
      decodeVectorsFlag chunkSize startPos s1 = .stop s2 →
      decodeVectorsBlock st 0x31 chunkSize startPos s = .stop s2) ∧
    (∀ s1 s2, decodeVectorsFlag chunkSize startPos s = .next s1 → s1.flag &&& s1.mask ≠ 0 →
      decodeVectorsFlag chunkSize startPos s1 = .next s2 →
      (s2.flag ^^^ 0xFFFFFFFF) &&& s2.mask ≠ 0 →
      (∀ s3, decodeVectorsV1 st.v1_codebook chunkSize startPos s2 = .next s3 →
        decodeVectorsBlock st 0x31 chunkSize startPos s = .next s3.advance) ∧
      (∀ s3, decodeVectorsV1 st.v1_codebook chunkSize startPos s2 = .stop s3 →
        decodeVectorsBlock st 0x31 chunkSize startPos s = .stop s3)) ∧
    (∀ s1 s2, decodeVectorsFlag chunkSize startPos s = .next s1 → s1.flag &&& s1.mask ≠ 0 →
      decodeVectorsFlag chunkSize startPos s1 = .next s2 →
      (s2.flag ^^^ 0xFFFFFFFF) &&& s2.mask = 0 → s2.flag &&& s2.mask ≠ 0 →
      (∀ s3, decodeVectorsV4 st.v4_codebook chunkSize startPos s2 = .next s3 →
        decodeVectorsBlock st 0x31 chunkSize startPos s = .next s3.advance) ∧
      (∀ s3, decodeVectorsV4 st.v4_codebook chunkSize startPos s2 = .stop s3 →
        decodeVectorsBlock st 0x31 chunkSize startPos s = .stop s3)) ∧
    (s.mask >>> 2 ≠ 0 →
      (s.flag &&& (s.mask >>> 1) = 0 →
        decodeVectorsBlock st 0x31 chunkSize startPos s
          = .next ({ s with mask := s.mask >>> 1 } : VecState).advance) ∧
      (s.flag &&& (s.mask >>> 1) ≠ 0 →
        (decodeVectorsBlock st 0x31 chunkSize startPos s).state.mask = s.mask >>> 2 ∧
        (decodeVectorsBlock st 0x31 chunkSize startPos s).state.flag = s.flag)) := by
  obtain ⟨c1, c2, c3, c4, c5⟩ := decodeVectorsBlock_both st 0x31 chunkSize startPos s
    (by decide) (by decide)
  refine ⟨⟨decodeVectorsFlag_shift chunkSize startPos s,
    decodeVectorsFlag_fetch chunkSize startPos s, decodeVectorsFlag_break chunkSize startPos s⟩,
    c1, c2, c3, c4, c5, fun hm => ⟨fun hb => ?_, fun hb => ?_⟩⟩
  · have e : s.mask >>> 2 = (s.mask >>> 1) >>> 1 := Nat.shiftRight_add s.mask 1 1
    have hm1 : s.mask >>> 1 ≠ 0 := by
      intro h0
      rw [e, h0] at hm
      exact hm rfl
    exact c2 _ (decodeVectorsFlag_shift chunkSize startPos s hm1) hb
  · exact decodeVectorsBlock_two_bits st 0x31 chunkSize startPos s (by decide) (by decide) hm hb

/-- Witness for `decodeVectorsBlock_shared_flags`: a state in the middle of
the flag word 0xA0000000 with the mask at bit 30, in front of the index byte
2: the block is coded (bit 29), and leaves the mask at bit 28. -/
theorem decodeVectorsBlock_shared_flags_witness :
    (decodeVectorsBlock exampleStrip 0x31 6 0
        { exampleVec with input := ⟨sharedFlagsStream, 5, false⟩, flag := 0xA0000000,
                          mask := 0x40000000 }).state.mask = 0x40000000 >>> 2 ∧
    (decodeVectorsBlock exampleStrip 0x31 6 0
        { exampleVec with input := ⟨sharedFlagsStream, 5, false⟩, flag := 0xA0000000,
                          mask := 0x40000000 }).state.flag = 0xA0000000 :=
  ((decodeVectorsBlock_shared_flags exampleStrip 6 0
    { exampleVec with input := ⟨sharedFlagsStream, 5, false⟩, flag := 0xA0000000,
                      mask := 0x40000000 }).2.2.2.2.2.2 (by decide)).2 (by decide)

/-! ### V1-only vector chunks -/

theorem rowWritesV1_eq (v1 : Nat → CinepakCodebook) (n : Nat) (iy : Nat → Nat) (f : Stream) :
    rowWritesV1 v1 n iy f
      = (List.range n).flatMap fun j => blockOrder.map (rowWriteV1 v1 iy f j) := by
  induction n generalizing iy f with
  | zero => rfl
  | succ n ih =>
    have e1 : blockOrder.map (v1Write iy (v1 (byteAt f 0)))
        = blockOrder.map (rowWriteV1 v1 iy f 0) := by
      refine List.map_congr_left (fun t _ => ?_)
      simp only [v1Write, rowWriteV1, pixOff, Nat.mul_zero, Nat.add_zero]
      rw [Nat.mul_comm]
    have e2 : (fun j => blockOrder.map (rowWriteV1 v1 (shiftRows iy) (skipBytes f 1) j))
        = (fun j => blockOrder.map (rowWriteV1 v1 iy f (j + 1))) := by
      funext j
      refine List.map_congr_left (fun t _ => ?_)
      simp only [rowWriteV1, shiftRows, byteAt_skipBytes, Prod.mk.injEq]
      refine ⟨by omega, ?_⟩
      rw [Nat.add_comm 1 j]
    simp only [rowWritesV1]
    rw [ih, List.range_succ_eq_map, List.flatMap_cons, List.flatMap_map, e1, e2]

theorem rowsWritesV1_eq (v1 : Nat → CinepakCodebook) (left width n g y : Nat) (f : Stream)
    (hwrap : y + 4 * g < 65536) :
    rowsWritesV1 v1 left width n g y f
      = (List.range g).flatMap fun q => (List.range n).flatMap fun j =>
          blockOrder.map (rowWriteV1 v1 (rowOffsets left width (y + 4 * q))
            (skipBytes f (n * q)) j) := by
  induction g generalizing y f with
  | zero => rfl
  | succ g ih =>
    have e2 : (fun q => (List.range n).flatMap fun j =>
          blockOrder.map (rowWriteV1 v1 (rowOffsets left width (y + 4 + 4 * q))
            (skipBytes (skipBytes f n) (n * q)) j))
        = (fun q => (List.range n).flatMap fun j =>
          blockOrder.map (rowWriteV1 v1 (rowOffsets left width (y + 4 * (q + 1)))
            (skipBytes f (n * (q + 1))) j)) := by
      funext q
      rw [skipBytes_add, show y + 4 + 4 * q = y + 4 * (q + 1) by omega,
        show n + n * q = n * (q + 1) by rw [Nat.mul_add, Nat.mul_one, Nat.add_comm]]
    simp only [rowsWritesV1]
    rw [Nat.mod_eq_of_lt (by omega), ih (y + 4) (skipBytes f n) (by omega), rowWritesV1_eq,
      List.range_succ_eq_map, List.flatMap_cons, List.flatMap_map, e2]
    rfl

theorem rowsWritesV1_chunk (v1 : Nat → CinepakCodebook) (left width n g top : Nat) (f : Stream)
    (hwrap : top + 4 * g < 65536) :
    rowsWritesV1 v1 left width n g top f = v1ChunkWrites v1 left width top n g f := by
  have e : (fun q => (List.range n).flatMap fun j =>
        blockOrder.map (rowWriteV1 v1 (rowOffsets left width (top + 4 * q))
          (skipBytes f (n * q)) j))
      = (fun q => (List.range n).flatMap fun j =>
        blockOrder.map (v1ChunkWrite v1 left width top n f q j)) := by
    funext q
    congr 1
    funext j
    refine List.map_congr_left (fun t _ => ?_)
    simp only [v1ChunkWrite, rowWriteV1, byteAt_skipBytes]
  rw [rowsWritesV1_eq v1 left width n g top f hwrap, e]
  rfl

theorem length_flatMap_const {α β : Type} (l : List α) (F : α → List β) (c : Nat)
    (h : ∀ a, (F a).length = c) : (l.flatMap F).length = c * l.length := by
  induction l with
  | nil => rfl
  | cons a l ih =>
    rw [List.flatMap_cons, List.length_append, h a, ih, List.length_cons, Nat.mul_succ,
      Nat.add_comm]

theorem v1ChunkWrites_length (v1 : Nat → CinepakCodebook) (left width top n g : Nat)
    (f : Stream) : (v1ChunkWrites v1 left width top n g f).length = 48 * (g * n) := by
  unfold v1ChunkWrites
  rw [length_flatMap_const _ _ (48 * n) (fun q => by
    rw [length_flatMap_const _ _ 48 (fun j => by rw [List.length_map]; rfl), List.length_range]),
    List.length_range, Nat.mul_assoc, Nat.mul_comm n g]

/-- C30: chunk 0x32 on a strip with `W = right - left` and `H = bottom - top`,
`n = ceil(W / 4)` blocks per row group and `g = ceil(H / 4)` row groups (the
16-bit loop counters not wrapping, enough fuel for the two loops), with
`chunkSize >= g * n` and the `g * n` index bytes present in the stream:
`decodeVectors` returns, consumes exactly `g * n` bytes, none of them as a
flag word, and makes exactly the stores of `g * n` V1 blocks in row-major
order (row groups top to bottom, blocks left to right), block number `k`
painted from the entry selected by payload byte number `k`. -/
theorem decodeVectors_V1only_chunk (fuel : Nat) (f : Stream) (fr : CinepakFrame)
    (i chunkSize n g : Nat)
    (hn : n = ((fr.strips i).right - (fr.strips i).left + 3) / 4)
    (hg : g = ((fr.strips i).bottom - (fr.strips i).top + 3) / 4)
    (hfuel : n ≤ fuel ∧ g ≤ fuel)
    (hwrapX : (fr.strips i).left + 4 * n < 65536)
    (hwrap : (fr.strips i).top + 4 * g < 65536)
    (hsize : g * n ≤ chunkSize)
    (havail : f.pos + g * n ≤ f.data.length) (hpos : f.pos < 4294967296) :
    ∃ r, decodeVectors fuel f fr i 0x32 chunkSize = some r ∧
      r.1 = { f with pos := f.pos + g * n } ∧
      r.2.surface.log = fr.surface.log ++
        v1ChunkWrites (fr.strips i).v1_codebook (fr.strips i).left fr.width (fr.strips i).top
          n g f ∧
      r.2.surface.mem = replay fr.surface.mem
        (v1ChunkWrites (fr.strips i).v1_codebook (fr.strips i).left fr.width (fr.strips i).top
          n g f) ∧
      (v1ChunkWrites (fr.strips i).v1_codebook (fr.strips i).left fr.width (fr.strips i).top
          n g f).length = 48 * (g * n) ∧
      ∀ k, k < g * n → byteAt f k = f.data.getD (f.pos + k) 0 % 256 := by
  have hsp : ftell f % 4294967296 = f.pos := Nat.mod_eq_of_lt hpos
  obtain ⟨s', hr, hin, -, -, hlog, hmem⟩ := decodeVectorsRows_V1only (fr.strips i) fr.width 0x32
    chunkSize (ftell f % 4294967296) (by decide) (by decide) n fuel hfuel.1 (by omega) hwrapX
    (by omega) g fuel (fr.strips i).top (decodeVectorsInit f fr.surface) hfuel.2 (by omega) hwrap
    (by omega)
    (fun j hj => by
      have e : (decodeVectorsInit f fr.surface).input = f := rfl
      rw [e, skipBytes_of_le f j (by omega), hsp]
      simp only [ftell]
      push_cast
      omega)
  have e1 : (decodeVectorsInit f fr.surface).input = f := rfl
  have e2 : (decodeVectorsInit f fr.surface).surface = fr.surface := rfl
  rw [e1, rowsWritesV1_chunk _ _ _ _ _ _ _ hwrap] at hlog hmem
  rw [e2] at hlog hmem
  rw [e1, skipBytes_of_le f _ havail] at hin
  refine ⟨(s'.input, { fr with surface := s'.surface }), ?_, hin, hlog, hmem, ?_,
    fun k hk => byteAt_of_lt f k (by omega)⟩
  · simp only [decodeVectors, hr, Flow.state]
  · exact v1ChunkWrites_length _ _ _ _ _ _ _

/-- Witness for `decodeVectors_V1only_chunk`: chunk 0x32 with `chunkSize = 5`
on the two blocks of `exampleWide`, payload `01 02 09`: two index bytes are
consumed and 96 bytes stored. -/
theorem decodeVectors_V1only_chunk_witness :
    ∃ r, decodeVectors 2 ⟨[1, 2, 9], 0, false⟩ exampleWide 0 0x32 5 = some r ∧
      r.1 = ⟨[1, 2, 9], 2, false⟩ ∧ r.2.surface.log.length = 96 := by
  obtain ⟨r, h1, h2, h3, -, h5, -⟩ := decodeVectors_V1only_chunk 2 ⟨[1, 2, 9], 0, false⟩
    exampleWide 0 5 2 1 (by decide) (by decide) (by decide) (by decide) (by decide) (by decide)
    (by decide) (by decide)
  refine ⟨r, h1, h2, ?_⟩
  rw [h3, List.length_append, h5]
  rfl

/-! ### Neutral chroma -/

theorem CPYUV2RGB_neutral (y : Nat) (hy : y < 256) : CPYUV2RGB y 128 128 = (y, y, y) := by
  have h0 : ((128 : Nat) : Int) - 128 = 0 := by decide
  have hc : CLIP (y : Int) 0 255 = (y : Int) := by
    unfold CLIP
    rw [if_neg (by omega), if_neg (by omega)]
  simp only [CPYUV2RGB, h0, Int.tdiv_zero, Int.zero_tdiv, Int.mul_zero, Int.add_zero,
    Int.sub_zero, hc, Int.toNat_ofNat, Nat.mod_eq_of_lt hy]

theorem PUT_PIXEL_neutral (s : Surface) (o y : Nat) (hy : y < 256) :
    (PUT_PIXEL s o y 128 128).log = s.log ++ [(o, y), (o + 1, y), (o + 2, y)] := by
  simp only [PUT_PIXEL, CPYUV2RGB_neutral y hy, Surface.store, List.append_assoc,
    List.singleton_append, List.cons_append, List.nil_append]

theorem CinepakCodebook.y_neutral (e : CinepakCodebook)
    (hy : e.y0 < 256 ∧ e.y1 < 256 ∧ e.y2 < 256 ∧ e.y3 < 256) (q : Nat) : e.y q < 256 := by
  unfold CinepakCodebook.y
  split
  · exact hy.1
  · exact hy.2.1
  · exact hy.2.2.1
  · exact hy.2.2.2

theorem bgr_neutral (y k : Nat) : bgr (y, y, y) k = y := by
  unfold bgr
  split <;> rfl

/-- C35: for every luma `y` in 0..255, `CPYUV2RGB(y, 128, 128)` returns
`r = g = b = y`, and `PUT_PIXEL` with that colour stores `y` three times.
Every entry a luma-only codebook chunk (bit 2 of `chunkID` set) loads has
`u = v = 128` and luma samples below 256; and a block painted from such
entries, as V1 or as V4, stores for each of its sixteen pixels the luma
sample of that pixel as the B, the G and the R byte. -/
theorem luma_only_paints_grey :
    (∀ y, y < 256 → CPYUV2RGB y 128 128 = (y, y, y)) ∧
    (∀ (s : Surface) (o y : Nat), y < 256 →
      (PUT_PIXEL s o y 128 128).log = s.log ++ [(o, y), (o + 1, y), (o + 2, y)]) ∧
    (∀ (f : Stream) (fr : CinepakFrame) (strip codebookType chunkID chunkSize j : Nat),
      chunkID &&& 0x04 ≠ 0 →
      ((loadCodebook f fr strip codebookType chunkID chunkSize).2.strips strip).table
          codebookType j = (fr.strips strip).table codebookType j ∨
      ((((loadCodebook f fr strip codebookType chunkID chunkSize).2.strips strip).table
          codebookType j).u = 128 ∧
        (((loadCodebook f fr strip codebookType chunkID chunkSize).2.strips strip).table
          codebookType j).v = 128 ∧
        ∀ q, (((loadCodebook f fr strip codebookType chunkID chunkSize).2.strips strip).table
          codebookType j).y q < 256)) ∧
    (∀ (v1 : Nat → CinepakCodebook) (chunkSize startPos : Nat) (s s3 : VecState),
      decodeVectorsV1 v1 chunkSize startPos s = .next s3 →
      (v1 (byteAt s.input 0)).u = 128 → (v1 (byteAt s.input 0)).v = 128 →
      (∀ q, (v1 (byteAt s.input 0)).y q < 256) →
      s3.surface.log = s.surface.log ++ blockOrder.map (fun t =>
        (pixOff (s.iy t.1) t.2.1 + t.2.2, (v1 (byteAt s.input 0)).y ((t.1 / 2) * 2 + t.2.1 / 2)))) ∧
    (∀ (v4 : Nat → CinepakCodebook) (chunkSize startPos : Nat) (s s3 : VecState),
      decodeVectorsV4 v4 chunkSize startPos s = .next s3 →
      (∀ q, (v4 (byteAt s.input q)).u = 128 ∧ (v4 (byteAt s.input q)).v = 128 ∧
        ∀ k, (v4 (byteAt s.input q)).y k < 256) →
      s3.surface.log = s.surface.log ++ blockOrder.map (fun t =>
        (pixOff (s.iy t.1) t.2.1 + t.2.2,
          (v4 (byteAt s.input ((t.1 / 2) * 2 + t.2.1 / 2))).y ((t.1 % 2) * 2 + t.2.1 % 2)))) := by
  refine ⟨CPYUV2RGB_neutral, PUT_PIXEL_neutral, fun f fr strip codebookType chunkID chunkSize j h4 => ?_,
    fun v1 chunkSize startPos s s3 h hu hv hy => ?_, fun v4 chunkSize startPos s s3 h hq => ?_⟩
  · have h := loadCodebookLoop_luma chunkID chunkSize (ftell f % 4294967296) f
      ((fr.strips strip).table codebookType) h4 256 0
      (loadCodebookInit f ((fr.strips strip).table codebookType))
      ⟨⟨0, rfl⟩, fun j => Or.inl rfl⟩
    rw [loadCodebook_table]
    rcases h.2 j with e | ⟨k, e⟩
    · exact Or.inl e
    · refine Or.inr ?_
      rw [e]
      exact ⟨rfl, rfl, CinepakCodebook.y_neutral _
        ⟨byteAt_lt _ _, byteAt_lt _ _, byteAt_lt _ _, byteAt_lt _ _⟩⟩
  · by_cases hroom : (ftell s.input : Int) - (startPos : Int) + 1 ≤ (chunkSize : Int)
    · obtain ⟨s3', e, -, -, -, -, -, -, -, hlog, -⟩ :=
        decodeVectorsV1_run v1 chunkSize startPos s hroom
      rw [e] at h
      cases h
      rw [hlog]
      congr 1
      refine List.map_congr_left (fun t _ => ?_)
      simp only [v1Write, hu, hv, CPYUV2RGB_neutral _ (hy _), bgr_neutral]
    · simp only [decodeVectorsV1] at h
      rw [if_pos (by omega)] at h
      cases h
  · by_cases hroom : (ftell s.input : Int) - (startPos : Int) + 4 ≤ (chunkSize : Int)
    · obtain ⟨s3', e, -, -, -, -, -, -, -, hlog, -⟩ :=
        decodeVectorsV4_run v4 chunkSize startPos s hroom
      rw [e] at h
      cases h
      rw [hlog]
      congr 1
      refine List.map_congr_left (fun t _ => ?_)
      simp only [v4Write, (hq _).1, (hq _).2.1, CPYUV2RGB_neutral _ ((hq _).2.2 _), bgr_neutral]
    · simp only [decodeVectorsV4] at h
      rw [if_pos (by omega)] at h
      cases h

set_option maxRecDepth 20000 in
/-- Witness for `luma_only_paints_grey`: a V1 block painted from the entry
(10, 20, 30, 40, 128, 128): the first pixel is stored as 10, 10, 10. -/
theorem luma_only_paints_grey_witness :
    ∃ s3, decodeVectorsV1 (fun _ => ⟨10, 20, 30, 40, 128, 128⟩) 8 0 exampleVec = .next s3 ∧
      s3.surface.log.take 3 = [(0, 10), (1, 10), (2, 10)] := by
  have h := luma_only_paints_grey.2.2.2.1 (fun _ => ⟨10, 20, 30, 40, 128, 128⟩) 8 0 exampleVec
    (decodeVectorsV1 (fun _ => ⟨10, 20, 30, 40, 128, 128⟩) 8 0 exampleVec).state rfl rfl rfl
    (fun q => CinepakCodebook.y_neutral _ (by decide) q)
  exact ⟨_, rfl, (congrArg (List.take 3) h).trans (by decide)⟩

/-! ### The flag stream of `decodeVectors` -/

/-- A property of the state that every block keeps holds in every state in
which the loop over `x` enters its body. -/
theorem decodeVectorsRowTrace_invariant (st : CinepakStrip) (chunkID chunkSize startPos : Nat)
    (P : VecState → Prop)
    (hblk : ∀ s, P s → P (decodeVectorsBlock st chunkID chunkSize startPos s).state) :
    ∀ (fuel x : Nat) (s : VecState), P s →
      ∀ b ∈ decodeVectorsRowTrace st chunkID chunkSize startPos fuel x s, P b.2 := by
  intro fuel
  induction fuel with
  | zero =>
    intro x s _ b hb
    exact absurd hb (by simp [decodeVectorsRowTrace])
  | succ fuel ih =>
    intro x s hp b hb
    by_cases hx : x < st.right
    · rw [decodeVectorsRowTrace_succ _ _ _ _ _ _ _ hx] at hb
      have hnext := hblk s hp
      cases hblk1 : decodeVectorsBlock st chunkID chunkSize startPos s with
      | stop s1 =>
        rw [hblk1] at hb
        simp only [List.mem_singleton] at hb
        rw [hb]
        exact hp
      | next s1 =>
        rw [hblk1] at hb hnext
        simp only [List.mem_cons] at hb
        rcases hb with hb | hb
        · rw [hb]
          exact hp
        · exact ih _ s1 hnext b hb
    · rw [decodeVectorsRowTrace_done _ _ _ _ _ _ _ hx] at hb
      exact absurd hb (by simp)

/-- A property of the state that every block and every assignment of the row
offsets keeps holds in every state in which a `decodeVectors` run enters the
body of its block loop. -/
theorem decodeVectorsRowsTrace_invariant (st : CinepakStrip)
    (width chunkID chunkSize startPos fuelX : Nat) (P : VecState → Prop)
    (hblk : ∀ s, P s → P (decodeVectorsBlock st chunkID chunkSize startPos s).state)
    (hset : ∀ s y, P s → P (s.setRows st width y)) :
    ∀ (fuel y : Nat) (s : VecState), P s →
      ∀ b ∈ decodeVectorsRowsTrace st width chunkID chunkSize startPos fuelX fuel y s,
        P b.2.2 := by
  intro fuel
  induction fuel with
  | zero =>
    intro y s _ b hb
    exact absurd hb (by simp [decodeVectorsRowsTrace])
  | succ fuel ih =>
    intro y s hp b hb
    by_cases hy : y < st.bottom
    · rw [decodeVectorsRowsTrace_succ _ _ _ _ _ _ _ _ _ hy] at hb
      rcases List.mem_append.1 hb with hb | hb
      · obtain ⟨b1, hb1, rfl⟩ := List.mem_map.1 hb
        exact decodeVectorsRowTrace_invariant st chunkID chunkSize startPos P hblk _ _ _
          (hset s y hp) b1 hb1
      · cases hrow : decodeVectorsRow st chunkID chunkSize startPos fuelX st.left
            (s.setRows st width y) with
        | none =>
          rw [hrow] at hb
          exact absurd hb (by simp)
        | some fl =>
          have hr := decodeVectorsRow_invariant st chunkID chunkSize startPos P hblk _ _ _ _ hrow
            (hset s y hp)
          cases fl with
          | stop s1 =>
            rw [hrow] at hb
            exact absurd hb (by simp)
          | next s1 =>
            rw [hrow] at hb
            exact ih _ s1 hr b hb
    · rw [decodeVectorsRowsTrace_done _ _ _ _ _ _ _ _ _ hy] at hb
      exact absurd hb (by simp)

theorem flagPos_lt (s : VecState) (h : FlagMask s) : s.mask < 4294967296 := by
  rcases h with h | ⟨k, hk, h⟩
  · rw [h]
    decide
  · rw [h]
    exact Nat.pow_lt_pow_right (by decide) (by omega : k < 32)

/-- The step in front of each flag test leaves the mask on one bit of the
word: bit 31 after a refresh, the next lower bit otherwise. -/
theorem decodeVectorsFlag_pos (chunkSize startPos : Nat) (s s1 : VecState) (h : FlagMask s)
    (hf : decodeVectorsFlag chunkSize startPos s = .next s1) :
    ∃ k, FlagPos s1 k := by
  rcases h with h | ⟨k, hk, h⟩
  · by_cases hfit : (ftell s.input : Int) - (startPos : Int) + 4 > (chunkSize : Int)
    · rw [decodeVectorsFlag_break chunkSize startPos s (by rw [h]; rfl) hfit] at hf
      cases hf
    · rw [decodeVectorsFlag_fetch chunkSize startPos s (by rw [h]; rfl) hfit] at hf
      cases hf
      exact ⟨31, Nat.le_refl _, rfl⟩
  · rcases Nat.eq_zero_or_pos k with hk0 | hk0
    · subst hk0
      by_cases hfit : (ftell s.input : Int) - (startPos : Int) + 4 > (chunkSize : Int)
      · rw [decodeVectorsFlag_break chunkSize startPos s (by rw [h]; rfl) hfit] at hf
        cases hf
      · rw [decodeVectorsFlag_fetch chunkSize startPos s (by rw [h]; rfl) hfit] at hf
        cases hf
        exact ⟨31, Nat.le_refl _, rfl⟩
    · have hsh : s.mask >>> 1 = 2 ^ (k - 1) := by
        rw [h, Nat.shiftRight_eq_div_pow, Nat.pow_one]
        conv_lhs => rw [show k = (k - 1) + 1 by omega, Nat.pow_succ]
        exact Nat.mul_div_cancel _ (by decide)
      have hne : s.mask >>> 1 ≠ 0 := by
        rw [hsh]
        exact Nat.pos_iff_ne_zero.1 (Nat.two_pow_pos _)
      rw [decodeVectorsFlag_shift chunkSize startPos s hne] at hf
      cases hf
      exact ⟨k - 1, by omega, hsh⟩

theorem decodeVectorsFlag_mask (chunkSize startPos : Nat) (s : VecState) (h : FlagMask s) :
    FlagMask (decodeVectorsFlag chunkSize startPos s).state := by
  cases hf : decodeVectorsFlag chunkSize startPos s with
  | next s1 => exact Or.inr (decodeVectorsFlag_pos chunkSize startPos s s1 h hf)
  | stop s1 =>
    have hm : s.mask >>> 1 = 0 := by
      by_contra hne
      rw [decodeVectorsFlag_shift chunkSize startPos s hne] at hf
      cases hf
    by_cases hfit : (ftell s.input : Int) - (startPos : Int) + 4 > (chunkSize : Int)
    · rw [decodeVectorsFlag_break chunkSize startPos s hm hfit] at hf
      cases hf
      exact Or.inl hm
    · rw [decodeVectorsFlag_fetch chunkSize startPos s hm hfit] at hf
      cases hf

/-- Of a bit of a 32-bit word and the same bit of the word's complement, one
is set. -/
theorem flag_or_complement (flag k : Nat) (hk : k ≤ 31)
    (h : (flag ^^^ 0xFFFFFFFF) &&& 2 ^ k = 0) : flag &&& 2 ^ k ≠ 0 := by
  rw [maskBit]
  have h1 : ¬ ((flag ^^^ 0xFFFFFFFF) &&& 2 ^ k ≠ 0) := fun hn => hn h
  rw [maskBit, Nat.testBit_xor] at h1
  have h2 : Nat.testBit 0xFFFFFFFF k = true := by
    rw [show (0xFFFFFFFF : Nat) = 2 ^ 32 - 1 by decide, Nat.testBit_two_pow_sub_one]
    exact decide_eq_true (by omega)
  rw [h2] at h1
  cases hb : flag.testBit k with
  | true => rfl
  | false =>
    rw [hb] at h1
    exact absurd rfl h1

/-- The test `(flag ^ 0xFFFFFFFF) & mask` of line 341 succeeds exactly when the
bit of `flag` under the mask is 0. -/
theorem selector_bit (flag k : Nat) (hk : k ≤ 31) :
    (flag ^^^ 0xFFFFFFFF) &&& 2 ^ k ≠ 0 ↔ flag.testBit k = false := by
  rw [maskBit, Nat.testBit_xor]
  have h2 : Nat.testBit 0xFFFFFFFF k = true := by
    rw [show (0xFFFFFFFF : Nat) = 2 ^ 32 - 1 by decide, Nat.testBit_two_pow_sub_one]
    exact decide_eq_true (by omega)
  rw [h2]
  cases flag.testBit k <;> simp

theorem decodeVectorsV1_next (v1 : Nat → CinepakCodebook) (chunkSize startPos : Nat)
    (s s3 : VecState) (h : decodeVectorsV1 v1 chunkSize startPos s = .next s3) :
    s3.input = skipBytes s.input 1 ∧
    s3.surface.log = s.surface.log ++ blockOrder.map (v1Write s.iy (v1 (byteAt s.input 0))) := by
  by_cases hroom : (ftell s.input : Int) - (startPos : Int) + 1 ≤ (chunkSize : Int)
  · obtain ⟨s4, h4, hin, -, -, -, -, -, -, hlog, -⟩ :=
      decodeVectorsV1_run v1 chunkSize startPos s hroom
    rw [h] at h4
    cases h4
    exact ⟨hin, hlog⟩
  · have hs : decodeVectorsV1 v1 chunkSize startPos s = .stop s := by
      simp only [decodeVectorsV1]
      rw [if_pos (by omega)]
    rw [h] at hs
    cases hs

theorem decodeVectorsV4_next (v4 : Nat → CinepakCodebook) (chunkSize startPos : Nat)
    (s s3 : VecState) (h : decodeVectorsV4 v4 chunkSize startPos s = .next s3) :
    s3.input = skipBytes s.input 4 ∧
    s3.surface.log = s.surface.log ++
      blockOrder.map (v4Write s.iy (fun q => v4 (byteAt s.input q))) := by
  by_cases hroom : (ftell s.input : Int) - (startPos : Int) + 4 ≤ (chunkSize : Int)
  · obtain ⟨s4, h4, hin, -, -, -, -, -, -, hlog, -⟩ :=
      decodeVectorsV4_run v4 chunkSize startPos s hroom
    rw [h] at h4
    cases h4
    exact ⟨hin, hlog⟩
  · have hs : decodeVectorsV4 v4 chunkSize startPos s = .stop s := by
      simp only [decodeVectorsV4]
      rw [if_pos (by omega)]
    rw [h] at hs
    cases hs

theorem FlagMask.of_mask {s t : VecState} (h : FlagMask s) (hm : t.mask = s.mask) :
    FlagMask t := by
  rcases h with h | ⟨k, hk, h⟩
  · exact Or.inl (hm.trans h)
  · exact Or.inr ⟨k, hk, hm.trans h⟩

theorem decodeVectorsSkip_mask (chunkID chunkSize startPos : Nat) (s : VecState)
    (h : FlagMask s) : FlagMask (decodeVectorsSkip chunkID chunkSize startPos s).state := by
  simp only [decodeVectorsSkip]
  split_ifs
  · exact decodeVectorsFlag_mask chunkSize startPos s h
  · exact h

theorem decodeVectorsCoded_mask (st : CinepakStrip) (chunkID chunkSize startPos : Nat)
    (s : VecState) (h : FlagMask s) :
    FlagMask (decodeVectorsCoded st chunkID chunkSize startPos s).state := by
  have hsel : FlagMask (if chunkID &&& 0x02 = 0 then decodeVectorsFlag chunkSize startPos s
      else Flow.next s).state := by
    split_ifs
    · exact decodeVectorsFlag_mask chunkSize startPos s h
    · exact h
  simp only [decodeVectorsCoded]
  cases hs : (if chunkID &&& 0x02 = 0 then decodeVectorsFlag chunkSize startPos s
      else Flow.next s) with
  | stop s1 =>
    rw [hs] at hsel
    exact hsel
  | next s1 =>
    rw [hs] at hsel
    simp only []
    split_ifs
    · exact hsel.of_mask (decodeVectorsV1_flag_mask st.v1_codebook chunkSize startPos s1).2
    · exact hsel.of_mask (decodeVectorsV4_flag_mask st.v4_codebook chunkSize startPos s1).2
    · exact hsel

theorem decodeVectorsBlock_mask (st : CinepakStrip) (chunkID chunkSize startPos : Nat)
    (s : VecState) (h : FlagMask s) :
    FlagMask (decodeVectorsBlock st chunkID chunkSize startPos s).state := by
  have hskip := decodeVectorsSkip_mask chunkID chunkSize startPos s h
  simp only [decodeVectorsBlock]
  cases hs : decodeVectorsSkip chunkID chunkSize startPos s with
  | stop s1 =>
    rw [hs] at hskip
    exact hskip
  | next s1 =>
    rw [hs] at hskip
    have hc := decodeVectorsCoded_mask st chunkID chunkSize startPos s1 hskip
    simp only []
    split_ifs
    · cases hcd : decodeVectorsCoded st chunkID chunkSize startPos s1 with
      | stop s2 =>
        rw [hcd] at hc
        exact hc
      | next s2 =>
        rw [hcd] at hc
        exact FlagMask.of_mask hc rfl
    · exact FlagMask.of_mask hskip rfl

/-- In every state in which a `decodeVectors` call enters the body of its
block loop, `mask` is 0 (no flag word read yet) or one bit of a 32-bit word. -/
theorem decodeVectorsTrace_mask (fuel : Nat) (input : Stream) (fr : CinepakFrame)
    (strip chunkID chunkSize : Nat) :
    ∀ b ∈ decodeVectorsTrace fuel input fr strip chunkID chunkSize, FlagMask b.2.2 :=
  decodeVectorsRowsTrace_invariant (fr.strips strip) fr.width chunkID chunkSize
    (ftell input % 4294967296) fuel FlagMask
    (fun s h => decodeVectorsBlock_mask _ _ _ _ s h)
    (fun _ _ h => FlagMask.of_mask h rfl) fuel _ _ (Or.inl rfl)

/-- The part of a block after the skip test, when it runs to its end: the
block is painted as V1 from one index byte or as V4 from four. -/
theorem decodeVectorsCoded_painted (st : CinepakStrip) (chunkID chunkSize startPos : Nat)
    (s s3 : VecState) (h : FlagMask s)
    (hc : decodeVectorsCoded st chunkID chunkSize startPos s = .next s3) :
    (∃ i, s3.surface.log
      = s.surface.log ++ blockOrder.map (v1Write s.iy (st.v1_codebook i))) ∨
    (∃ i : Nat → Nat, s3.surface.log
      = s.surface.log ++ blockOrder.map (v4Write s.iy (fun q => st.v4_codebook (i q)))) := by
  obtain ⟨k0, k1, k2, k3, k4⟩ := decodeVectorsSelect_keeps chunkID chunkSize startPos s
  simp only [decodeVectorsCoded] at hc
  cases hs : (if chunkID &&& 0x02 = 0 then decodeVectorsFlag chunkSize startPos s
      else Flow.next s) with
  | stop s1 =>
    rw [hs] at hc
    cases hc
  | next s1 =>
    rw [hs] at hc k0 k1 k2 k3 k4
    simp only [Flow.state] at k0 k1 k2 k3 k4
    have hiy : s1.iy = s.iy := VecState.iy_congr s s1 k1 k2 k3 k4
    simp only [] at hc
    by_cases h1 : chunkID &&& 0x02 ≠ 0 ∨ (s1.flag ^^^ 0xFFFFFFFF) &&& s1.mask ≠ 0
    · rw [if_pos h1] at hc
      obtain ⟨-, hlog⟩ := decodeVectorsV1_next st.v1_codebook chunkSize startPos s1 s3 hc
      rw [k0, hiy] at hlog
      exact Or.inl ⟨byteAt s1.input 0, hlog⟩
    · rw [if_neg h1] at hc
      have h2 : s1.flag &&& s1.mask ≠ 0 := by
        have hid : chunkID &&& 0x02 = 0 := by
          by_contra hne
          exact h1 (Or.inl hne)
        rw [if_pos hid] at hs
        obtain ⟨k, hk, hm⟩ := decodeVectorsFlag_pos chunkSize startPos s s1 h hs
        rw [hm]
        apply flag_or_complement _ _ hk
        by_contra hne
        exact h1 (Or.inr (by rw [hm]; exact hne))
      rw [if_pos h2] at hc
      obtain ⟨-, hlog⟩ := decodeVectorsV4_next st.v4_codebook chunkSize startPos s1 s3 hc
      rw [k0, hiy] at hlog
      exact Or.inr ⟨fun q => byteAt s1.input q, hlog⟩

theorem decodeVectorsSkip_pos (chunkID chunkSize startPos : Nat) (s s1 : VecState)
    (h : FlagMask s) (hs : decodeVectorsSkip chunkID chunkSize startPos s = .next s1) :
    FlagMask s1 := by
  have := decodeVectorsSkip_mask chunkID chunkSize startPos s h
  rw [hs] at this
  exact this

/-- A block that ends normally and is not skipped stores the 48 bytes of a V1
or of a V4 block. -/
theorem decodeVectorsBlock_painted (st : CinepakStrip) (chunkID chunkSize startPos : Nat)
    (s s3 : VecState) (h : FlagMask s)
    (hb : decodeVectorsBlock st chunkID chunkSize startPos s = .next s3)
    (hcoded : chunkID &&& 0x01 = 0 ∨
      (decodeVectorsSkip chunkID chunkSize startPos s).state.flag &&&
        (decodeVectorsSkip chunkID chunkSize startPos s).state.mask ≠ 0) :
    (∃ i, blockStores st chunkID chunkSize startPos s
      = blockOrder.map (v1Write s.iy (st.v1_codebook i))) ∨
    (∃ i : Nat → Nat, blockStores st chunkID chunkSize startPos s
      = blockOrder.map (v4Write s.iy (fun q => st.v4_codebook (i q)))) := by
  obtain ⟨ksurf, kiy⟩ := decodeVectorsSkip_keeps chunkID chunkSize startPos s
  have hst : blockStores st chunkID chunkSize startPos s = s3.surface.log.drop s.surface.log.length := by
    simp only [blockStores, hb, Flow.state]
  simp only [decodeVectorsBlock] at hb
  cases hs : decodeVectorsSkip chunkID chunkSize startPos s with
  | stop s1 =>
    rw [hs] at hb
    cases hb
  | next s1 =>
    rw [hs] at hb hcoded ksurf kiy
    simp only [Flow.state] at hcoded ksurf kiy
    simp only [] at hb
    rw [if_pos hcoded] at hb
    cases hcd : decodeVectorsCoded st chunkID chunkSize startPos s1 with
    | stop s2 =>
      rw [hcd] at hb
      cases hb
    | next s2 =>
      rw [hcd] at hb
      simp only [Flow.next.injEq] at hb
      have hlog : s3.surface.log = s2.surface.log := by rw [← hb]; rfl
      rw [hst, hlog]
      rcases decodeVectorsCoded_painted st chunkID chunkSize startPos s1 s2
        (decodeVectorsSkip_pos chunkID chunkSize startPos s s1 h hs) hcd with ⟨e, he⟩ | ⟨es, he⟩
      · rw [he, ksurf, kiy, List.drop_left]
        exact Or.inl ⟨e, rfl⟩
      · rw [he, ksurf, kiy, List.drop_left]
        exact Or.inr ⟨es, rfl⟩

theorem blockOrder_complete (r c k : Nat) (hr : r < 4) (hc : c < 4) (hk : k < 3) :
    (r, c, k) ∈ blockOrder := by
  interval_cases r <;> interval_cases c <;> interval_cases k <;> decide

/-- C32: in a `decodeVectors` call, whatever the chunk ID (0x30, 0x31 and 0x32
among them), a block whose body runs to its end (no flag word and no index
byte is missing from the payload) and that is not skipped (bit 0 of `chunkID`
is clear, or the skip bit `flag & mask` is set) stores 48 bytes, those of a V1
block painted from an entry of the V1 codebook or those of a V4 block painted
from entries of the V4 codebook, so each of its sixteen pixels is written; and
when the test `(flag ^ 0xFFFFFFFF) & mask` of a chunk with selector bits
fails, the test `flag & mask` that follows succeeds: there is no third case. -/
theorem decodeVectors_coded_block_painted (fuel : Nat) (input : Stream) (fr : CinepakFrame)
    (strip chunkID chunkSize : Nat) (b : Nat × Nat × VecState)
    (hmem : b ∈ decodeVectorsTrace fuel input fr strip chunkID chunkSize) :
    (∀ s3, decodeVectorsBlock (fr.strips strip) chunkID chunkSize (ftell input % 4294967296) b.2.2
        = .next s3 →
      (chunkID &&& 0x01 = 0 ∨
        (decodeVectorsSkip chunkID chunkSize (ftell input % 4294967296) b.2.2).state.flag &&&
          (decodeVectorsSkip chunkID chunkSize (ftell input % 4294967296) b.2.2).state.mask
            ≠ 0) →
      ((∃ i, blockStores (fr.strips strip) chunkID chunkSize (ftell input % 4294967296) b.2.2
          = blockOrder.map (v1Write b.2.2.iy ((fr.strips strip).v1_codebook i))) ∨
        (∃ i : Nat → Nat,
          blockStores (fr.strips strip) chunkID chunkSize (ftell input % 4294967296) b.2.2
            = blockOrder.map
                (v4Write b.2.2.iy (fun q => (fr.strips strip).v4_codebook (i q))))) ∧
      ∀ r < 4, ∀ c < 4, ∀ k < 3,
        ∃ p ∈ blockStores (fr.strips strip) chunkID chunkSize (ftell input % 4294967296) b.2.2,
          p.1 = pixOff (b.2.2.iy r) c + k) ∧
    (∀ s1 s2, decodeVectorsSkip chunkID chunkSize (ftell input % 4294967296) b.2.2 = .next s1 →
      chunkID &&& 0x02 = 0 →
      decodeVectorsFlag chunkSize (ftell input % 4294967296) s1 = .next s2 →
      (s2.flag ^^^ 0xFFFFFFFF) &&& s2.mask = 0 → s2.flag &&& s2.mask ≠ 0) := by
  have hm := decodeVectorsTrace_mask fuel input fr strip chunkID chunkSize b hmem
  refine ⟨fun s3 hb hcoded => ?_, fun s1 s2 hs _ hf hz => ?_⟩
  · have hp := decodeVectorsBlock_painted (fr.strips strip) chunkID chunkSize
      (ftell input % 4294967296) b.2.2 s3 hm hb hcoded
    refine ⟨hp, fun r hr c hc k hk => ?_⟩
    rcases hp with ⟨i, hi⟩ | ⟨i, hi⟩
    · rw [hi]
      exact ⟨_, List.mem_map.2 ⟨(r, c, k), blockOrder_complete r c k hr hc hk, rfl⟩, rfl⟩
    · rw [hi]
      exact ⟨_, List.mem_map.2 ⟨(r, c, k), blockOrder_complete r c k hr hc hk, rfl⟩, rfl⟩
  · obtain ⟨k, hk, hmk⟩ := decodeVectorsFlag_pos chunkSize (ftell input % 4294967296) s1 s2
      (decodeVectorsSkip_pos chunkID chunkSize (ftell input % 4294967296) b.2.2 s1 hm hs) hf
    rw [hmk] at hz ⊢
    exact flag_or_complement _ _ hk hz

set_option maxRecDepth 20000 in
/-- Witness for `decodeVectors_coded_block_painted`: a chunk 0x30 on the 4x4
strip of `exampleFrame` with the flag word `80 00 00 00` and four index bytes;
the only block is painted, the last byte of its last pixel included. -/
theorem decodeVectors_coded_block_painted_witness :
    ∃ p ∈ blockStores (exampleFrame.strips 0) 0x30 8 0
        ((decodeVectorsInit ⟨[0x80, 0, 0, 0, 1, 2, 3, 4], 0, false⟩ exampleFrame.surface).setRows
          exampleStrip 4 0),
      p.1 = 47 :=
  have hmem : (0, 0, (decodeVectorsInit ⟨[0x80, 0, 0, 0, 1, 2, 3, 4], 0, false⟩
      exampleFrame.surface).setRows exampleStrip 4 0) ∈
        decodeVectorsTrace 1 ⟨[0x80, 0, 0, 0, 1, 2, 3, 4], 0, false⟩ exampleFrame 0 0x30 8 :=
    List.mem_singleton.2 rfl
  ((decodeVectors_coded_block_painted 1 ⟨[0x80, 0, 0, 0, 1, 2, 3, 4], 0, false⟩ exampleFrame 0 0x30
    8 _ hmem).1 _ rfl (Or.inl (by decide))).2 3 (by decide) 3 (by decide) 2 (by decide)

/-- The block of a chunk with selector bits only (bits 0 and 1 of `chunkID`
clear): one flag step, then V1 or V4 on the bit under the mask. -/
theorem decodeVectorsBlock_selector (st : CinepakStrip) (chunkID chunkSize startPos : Nat)
    (s : VecState) (h1 : chunkID &&& 0x01 = 0) (h2 : chunkID &&& 0x02 = 0) :
    (∀ s2, decodeVectorsFlag chunkSize startPos s = .stop s2 →
      decodeVectorsBlock st chunkID chunkSize startPos s = .stop s2) ∧
    (∀ s2, decodeVectorsFlag chunkSize startPos s = .next s2 →
      (s2.flag ^^^ 0xFFFFFFFF) &&& s2.mask ≠ 0 →
      (∀ s3, decodeVectorsV1 st.v1_codebook chunkSize startPos s2 = .next s3 →
        decodeVectorsBlock st chunkID chunkSize startPos s = .next s3.advance) ∧
      (∀ s3, decodeVectorsV1 st.v1_codebook chunkSize startPos s2 = .stop s3 →
        decodeVectorsBlock st chunkID chunkSize startPos s = .stop s3)) ∧
    (∀ s2, decodeVectorsFlag chunkSize startPos s = .next s2 →
      (s2.flag ^^^ 0xFFFFFFFF) &&& s2.mask = 0 → s2.flag &&& s2.mask ≠ 0 →
      (∀ s3, decodeVectorsV4 st.v4_codebook chunkSize startPos s2 = .next s3 →
        decodeVectorsBlock st chunkID chunkSize startPos s = .next s3.advance) ∧
      (∀ s3, decodeVectorsV4 st.v4_codebook chunkSize startPos s2 = .stop s3 →
        decodeVectorsBlock st chunkID chunkSize startPos s = .stop s3)) := by
  have hskip : decodeVectorsSkip chunkID chunkSize startPos s = .next s := by
    simp only [decodeVectorsSkip]
    rw [if_neg (not_not.2 h1)]
  have hv : ∀ s2 : VecState, (s2.flag ^^^ 0xFFFFFFFF) &&& s2.mask = 0 →
      ¬ (chunkID &&& 0x02 ≠ 0 ∨ (s2.flag ^^^ 0xFFFFFFFF) &&& s2.mask ≠ 0) := by
    rintro s2 hz (h | h)
    · exact h h2
    · exact h hz
  refine ⟨fun s2 e2 => ?_, fun s2 e2 hsv => ⟨fun s3 e3 => ?_, fun s3 e3 => ?_⟩,
    fun s2 e2 hsv hb2 => ⟨fun s3 e3 => ?_, fun s3 e3 => ?_⟩⟩
  · simp only [decodeVectorsBlock, hskip]
    rw [if_pos (Or.inl h1)]
    simp only [decodeVectorsCoded]
    rw [if_pos h2, e2]
  · simp only [decodeVectorsBlock, hskip]
    rw [if_pos (Or.inl h1)]
    simp only [decodeVectorsCoded]
    rw [if_pos h2, e2]
    simp only []
    rw [if_pos (Or.inr hsv), e3]
  · simp only [decodeVectorsBlock, hskip]
    rw [if_pos (Or.inl h1)]
    simp only [decodeVectorsCoded]
    rw [if_pos h2, e2]
    simp only []
    rw [if_pos (Or.inr hsv), e3]
  · simp only [decodeVectorsBlock, hskip]
    rw [if_pos (Or.inl h1)]
    simp only [decodeVectorsCoded]
    rw [if_pos h2, e2]
    simp only []
    rw [if_neg (hv s2 hsv), if_pos hb2, e3]
  · simp only [decodeVectorsBlock, hskip]
    rw [if_pos (Or.inl h1)]
    simp only [decodeVectorsCoded]
    rw [if_pos h2, e2]
    simp only []
    rw [if_neg (hv s2 hsv), if_pos hb2, e3]

theorem flagPos_shift (k : Nat) : (2 ^ (k + 1)) >>> 1 = 2 ^ k := by
  rw [Nat.shiftRight_eq_div_pow, Nat.pow_one, Nat.pow_succ]
  exact Nat.mul_div_cancel _ (by decide)

theorem flagPos_last (s : VecState) (h : s.mask = 0 ∨ FlagPos s 0) : s.mask >>> 1 = 0 := by
  rcases h with h | ⟨-, h⟩
  · rw [h]
    rfl
  · rw [h]
    rfl

/-- One step of the flag stream: from bit `k + 1` of the current word the mask
moves to bit `k` and nothing is read; before the first word and after bit 0
the next big-endian 32-bit word is read and the mask stands at bit 31, or the
step stops when four bytes no longer fit in the payload. -/
theorem decodeVectorsFlag_stream (chunkSize startPos : Nat) (s : VecState) :
    (∀ k, FlagPos s (k + 1) →
      decodeVectorsFlag chunkSize startPos s = .next { s with mask := 2 ^ k }) ∧
    (s.mask = 0 ∨ FlagPos s 0 →
      (ftell s.input : Int) - (startPos : Int) + 4 ≤ (chunkSize : Int) →
      decodeVectorsFlag chunkSize startPos s =
        .next { s with input := (readUint32BE s.input).2, flag := (readUint32BE s.input).1,
                       mask := 2 ^ 31 }) ∧
    (s.mask = 0 ∨ FlagPos s 0 →
      (ftell s.input : Int) - (startPos : Int) + 4 > (chunkSize : Int) →
      decodeVectorsFlag chunkSize startPos s = .stop { s with mask := 0 }) := by
  refine ⟨fun k hk => ?_, fun h hfit => ?_, fun h hfit => ?_⟩
  · have e : s.mask >>> 1 = 2 ^ k := by rw [hk.2, flagPos_shift]
    have hne : s.mask >>> 1 ≠ 0 := by
      rw [e]
      exact Nat.pos_iff_ne_zero.1 (Nat.two_pow_pos _)
    rw [decodeVectorsFlag_shift chunkSize startPos s hne, e]
  · rw [decodeVectorsFlag_fetch chunkSize startPos s (flagPos_last s h) (by omega)]
    rfl
  · rw [decodeVectorsFlag_break chunkSize startPos s (flagPos_last s h) hfit, flagPos_last s h]

/-- A V1 block after the selector step `s2` of a block entered in `s`: one
index byte is read, flag and mask stay, and the 48 bytes of the V1 entry with
that index are stored. -/
theorem decodeVectorsV1_selected (st : CinepakStrip) (chunkID chunkSize startPos : Nat)
    (s s2 : VecState) (hsurf : s2.surface = s.surface) (hiy : s2.iy = s.iy)
    (hroom : (ftell s2.input : Int) - (startPos : Int) + 1 ≤ (chunkSize : Int))
    (hblk : ∀ s3, decodeVectorsV1 st.v1_codebook chunkSize startPos s2 = .next s3 →
      decodeVectorsBlock st chunkID chunkSize startPos s = .next s3.advance) :
    ∃ s3 : VecState, decodeVectorsBlock st chunkID chunkSize startPos s = .next s3.advance ∧
      s3.input = skipBytes s2.input 1 ∧ s3.flag = s2.flag ∧ s3.mask = s2.mask ∧
      blockStores st chunkID chunkSize startPos s
        = blockOrder.map (v1Write s.iy (st.v1_codebook (byteAt s2.input 0))) := by
  obtain ⟨s3, h, hin, hfl, hmk, -, -, -, -, hlog, -⟩ :=
    decodeVectorsV1_run st.v1_codebook chunkSize startPos s2 hroom
  refine ⟨s3, hblk s3 h, hin, hfl, hmk, ?_⟩
  simp only [blockStores, hblk s3 h, Flow.state]
  show List.drop s.surface.log.length s3.surface.log = _
  rw [hlog, hsurf, hiy, List.drop_left]

/-- A V4 block after the selector step `s2` of a block entered in `s`: four
index bytes are read, flag and mask stay, and the 48 bytes of the four V4
entries with those indices are stored. -/
theorem decodeVectorsV4_selected (st : CinepakStrip) (chunkID chunkSize startPos : Nat)
    (s s2 : VecState) (hsurf : s2.surface = s.surface) (hiy : s2.iy = s.iy)
    (hroom : (ftell s2.input : Int) - (startPos : Int) + 4 ≤ (chunkSize : Int))
    (hblk : ∀ s3, decodeVectorsV4 st.v4_codebook chunkSize startPos s2 = .next s3 →
      decodeVectorsBlock st chunkID chunkSize startPos s = .next s3.advance) :
    ∃ s3 : VecState, decodeVectorsBlock st chunkID chunkSize startPos s = .next s3.advance ∧
      s3.input = skipBytes s2.input 4 ∧ s3.flag = s2.flag ∧ s3.mask = s2.mask ∧
      blockStores st chunkID chunkSize startPos s
        = blockOrder.map (v4Write s.iy (fun q => st.v4_codebook (byteAt s2.input q))) := by
  obtain ⟨s3, h, hin, hfl, hmk, -, -, -, -, hlog, -⟩ :=
    decodeVectorsV4_run st.v4_codebook chunkSize startPos s2 hroom
  refine ⟨s3, hblk s3 h, hin, hfl, hmk, ?_⟩
  simp only [blockStores, hblk s3 h, Flow.state]
  show List.drop s.surface.log.length s3.surface.log = _
  rw [hlog, hsurf, hiy, List.drop_left]

theorem decodeVectorsFlag_next_keeps (chunkSize startPos : Nat) (s s1 : VecState)
    (h : decodeVectorsFlag chunkSize startPos s = .next s1) :
    s1.surface = s.surface ∧ s1.iy = s.iy := by
  obtain ⟨k0, k1, k2, k3, k4⟩ := decodeVectorsFlag_keeps chunkSize startPos s
  rw [h] at k0 k1 k2 k3 k4
  exact ⟨k0, VecState.iy_congr s s1 k1 k2 k3 k4⟩

/-- C31: the flags of `decodeVectors` form one stream. In every state `s` in
which a call enters the body of its block loop the mask is 0 (nothing read
yet) or one bit `2 ^ k`, `k ≤ 31`, of the single flag word. One step of the
stream (`decodeVectorsFlag`, the code in front of both flag tests) moves the
mask from bit `k + 1` to bit `k` without reading; before the first word and
after bit 0 it reads the next big-endian 32-bit word and puts the mask on bit
31, or stops when four bytes no longer fit. For chunk 0x31 a block takes one
step; when the bit of `flag` then under the mask is 0 the block is skipped:
it stores nothing and leaves stream, flag and mask as that one step left
them. When the bit is 1 the block takes a second step from the state the
first one left, and the bit then under the mask selects V1 (bit 0: one index
byte is read) or V4 (bit 1: four index bytes are read). For chunk 0x30 a
block takes a single step, and the bit under the mask selects V1 or V4 in the
same way. -/
theorem decodeVectors_flag_stream (fuel : Nat) (input : Stream) (fr : CinepakFrame)
    (strip chunkID chunkSize : Nat) (b : Nat × Nat × VecState)
    (hmem : b ∈ decodeVectorsTrace fuel input fr strip chunkID chunkSize) :
    FlagMask b.2.2 ∧
    (∀ t : VecState,
      (∀ k, FlagPos t (k + 1) →
        decodeVectorsFlag chunkSize (ftell input % 4294967296) t
          = .next { t with mask := 2 ^ k }) ∧
      (t.mask = 0 ∨ FlagPos t 0 →
        (ftell t.input : Int) - ((ftell input % 4294967296 : Nat) : Int) + 4 ≤ (chunkSize : Int) →
        decodeVectorsFlag chunkSize (ftell input % 4294967296) t =
          .next { t with input := (readUint32BE t.input).2, flag := (readUint32BE t.input).1,
                         mask := 2 ^ 31 }) ∧
      (t.mask = 0 ∨ FlagPos t 0 →
        (ftell t.input : Int) - ((ftell input % 4294967296 : Nat) : Int) + 4 > (chunkSize : Int) →
        decodeVectorsFlag chunkSize (ftell input % 4294967296) t = .stop { t with mask := 0 })) ∧
    (chunkID = 0x31 →
      (∀ s1, decodeVectorsFlag chunkSize (ftell input % 4294967296) b.2.2 = .stop s1 →
        decodeVectorsBlock (fr.strips strip) chunkID chunkSize (ftell input % 4294967296) b.2.2
          = .stop s1) ∧
      (∀ s1, decodeVectorsFlag chunkSize (ftell input % 4294967296) b.2.2 = .next s1 →
        ∃ k, FlagPos s1 k ∧
          (s1.flag.testBit k = false →
            decodeVectorsBlock (fr.strips strip) chunkID chunkSize (ftell input % 4294967296)
              b.2.2 = .next s1.advance ∧
            s1.advance.input = s1.input ∧ s1.advance.flag = s1.flag ∧
            s1.advance.mask = s1.mask ∧
            blockStores (fr.strips strip) chunkID chunkSize (ftell input % 4294967296) b.2.2
              = []) ∧
          (s1.flag.testBit k = true →
            (∀ s2, decodeVectorsFlag chunkSize (ftell input % 4294967296) s1 = .stop s2 →
              decodeVectorsBlock (fr.strips strip) chunkID chunkSize (ftell input % 4294967296)
                b.2.2 = .stop s2) ∧
            (∀ s2, decodeVectorsFlag chunkSize (ftell input % 4294967296) s1 = .next s2 →
              ∃ j, FlagPos s2 j ∧
                (s2.flag.testBit j = false →
                  (ftell s2.input : Int) - ((ftell input % 4294967296 : Nat) : Int) + 1
                    ≤ (chunkSize : Int) →
                  ∃ s3 : VecState,
                    decodeVectorsBlock (fr.strips strip) chunkID chunkSize
                      (ftell input % 4294967296) b.2.2 = .next s3.advance ∧
                    s3.input = skipBytes s2.input 1 ∧ s3.flag = s2.flag ∧ s3.mask = s2.mask ∧
                    blockStores (fr.strips strip) chunkID chunkSize (ftell input % 4294967296)
                      b.2.2 = blockOrder.map
                        (v1Write b.2.2.iy ((fr.strips strip).v1_codebook (byteAt s2.input 0)))) ∧
                (s2.flag.testBit j = true →
                  (ftell s2.input : Int) - ((ftell input % 4294967296 : Nat) : Int) + 4
                    ≤ (chunkSize : Int) →
                  ∃ s3 : VecState,
                    decodeVectorsBlock (fr.strips strip) chunkID chunkSize
                      (ftell input % 4294967296) b.2.2 = .next s3.advance ∧
                    s3.input = skipBytes s2.input 4 ∧ s3.flag = s2.flag ∧ s3.mask = s2.mask ∧
                    blockStores (fr.strips strip) chunkID chunkSize (ftell input % 4294967296)
                      b.2.2 = blockOrder.map (v4Write b.2.2.iy
                        (fun q => (fr.strips strip).v4_codebook (byteAt s2.input q)))))))) ∧
    (chunkID = 0x30 →
      (∀ s2, decodeVectorsFlag chunkSize (ftell input % 4294967296) b.2.2 = .stop s2 →
        decodeVectorsBlock (fr.strips strip) chunkID chunkSize (ftell input % 4294967296) b.2.2
          = .stop s2) ∧
      (∀ s2, decodeVectorsFlag chunkSize (ftell input % 4294967296) b.2.2 = .next s2 →
        ∃ j, FlagPos s2 j ∧
          (s2.flag.testBit j = false →
            (ftell s2.input : Int) - ((ftell input % 4294967296 : Nat) : Int) + 1
              ≤ (chunkSize : Int) →
            ∃ s3 : VecState,
              decodeVectorsBlock (fr.strips strip) chunkID chunkSize
                (ftell input % 4294967296) b.2.2 = .next s3.advance ∧
              s3.input = skipBytes s2.input 1 ∧ s3.flag = s2.flag ∧ s3.mask = s2.mask ∧
              blockStores (fr.strips strip) chunkID chunkSize (ftell input % 4294967296)
                b.2.2 = blockOrder.map
                  (v1Write b.2.2.iy ((fr.strips strip).v1_codebook (byteAt s2.input 0)))) ∧
          (s2.flag.testBit j = true →
            (ftell s2.input : Int) - ((ftell input % 4294967296 : Nat) : Int) + 4
              ≤ (chunkSize : Int) →
            ∃ s3 : VecState,
              decodeVectorsBlock (fr.strips strip) chunkID chunkSize
                (ftell input % 4294967296) b.2.2 = .next s3.advance ∧
              s3.input = skipBytes s2.input 4 ∧ s3.flag = s2.flag ∧ s3.mask = s2.mask ∧
              blockStores (fr.strips strip) chunkID chunkSize (ftell input % 4294967296)
                b.2.2 = blockOrder.map (v4Write b.2.2.iy
                  (fun q => (fr.strips strip).v4_codebook (byteAt s2.input q)))))) := by
  have hm := decodeVectorsTrace_mask fuel input fr strip chunkID chunkSize b hmem
  refine ⟨hm, fun t => decodeVectorsFlag_stream chunkSize _ t, ?_, ?_⟩
  · rintro rfl
    obtain ⟨c1, c2, c3, c4, c5⟩ := decodeVectorsBlock_both (fr.strips strip) 0x31 chunkSize
      (ftell input % 4294967296) b.2.2 (by decide) (by decide)
    refine ⟨c1, fun s1 e1 => ?_⟩
    obtain ⟨k, hk⟩ := decodeVectorsFlag_pos chunkSize _ b.2.2 s1 hm e1
    obtain ⟨u1, v1⟩ := decodeVectorsFlag_next_keeps chunkSize _ b.2.2 s1 e1
    refine ⟨k, hk, fun hbit => ?_, fun hbit => ?_⟩
    · have hz : s1.flag &&& s1.mask = 0 := by
        by_contra hne
        rw [hk.2] at hne
        have ht := (maskBit _ _).1 hne
        rw [hbit] at ht
        exact absurd ht (by decide)
      refine ⟨c2 s1 e1 hz, rfl, rfl, rfl, ?_⟩
      exact blockStores_skipped (fr.strips strip) 0x31 chunkSize _ b.2.2 s1 (by decide)
        (by simp only [decodeVectorsSkip]; rw [if_pos (by decide), e1]) hz
    · have hnz : s1.flag &&& s1.mask ≠ 0 := by
        rw [hk.2, maskBit, hbit]
      refine ⟨fun s2 e2 => c3 s1 s2 e1 hnz e2, fun s2 e2 => ?_⟩
      obtain ⟨j, hj⟩ := decodeVectorsFlag_pos chunkSize _ s1 s2 (Or.inr ⟨k, hk⟩) e2
      obtain ⟨u2, v2⟩ := decodeVectorsFlag_next_keeps chunkSize _ s1 s2 e2
      refine ⟨j, hj, fun hsel hroom => ?_, fun hsel hroom => ?_⟩
      · have hsv : (s2.flag ^^^ 0xFFFFFFFF) &&& s2.mask ≠ 0 := by
          rw [hj.2]
          exact (selector_bit _ _ hj.1).2 hsel
        exact decodeVectorsV1_selected (fr.strips strip) 0x31 chunkSize _ b.2.2 s2
          (u2.trans u1) (v2.trans v1) hroom (c4 s1 s2 e1 hnz e2 hsv).1
      · have hsv : (s2.flag ^^^ 0xFFFFFFFF) &&& s2.mask = 0 := by
          by_contra hne
          rw [hj.2] at hne
          have ht := (selector_bit _ _ hj.1).1 hne
          rw [hsel] at ht
          exact absurd ht (by decide)
        have hb2 : s2.flag &&& s2.mask ≠ 0 := by
          rw [hj.2]
          exact (maskBit _ _).2 hsel
        exact decodeVectorsV4_selected (fr.strips strip) 0x31 chunkSize _ b.2.2 s2
          (u2.trans u1) (v2.trans v1) hroom (c5 s1 s2 e1 hnz e2 hsv hb2).1
  · rintro rfl
    obtain ⟨c1, c4, c5⟩ := decodeVectorsBlock_selector (fr.strips strip) 0x30 chunkSize
      (ftell input % 4294967296) b.2.2 (by decide) (by decide)
    refine ⟨c1, fun s2 e2 => ?_⟩
    obtain ⟨j, hj⟩ := decodeVectorsFlag_pos chunkSize _ b.2.2 s2 hm e2
    obtain ⟨u2, v2⟩ := decodeVectorsFlag_next_keeps chunkSize _ b.2.2 s2 e2
    refine ⟨j, hj, fun hsel hroom => ?_, fun hsel hroom => ?_⟩
    · have hsv : (s2.flag ^^^ 0xFFFFFFFF) &&& s2.mask ≠ 0 := by
        rw [hj.2]
        exact (selector_bit _ _ hj.1).2 hsel
      exact decodeVectorsV1_selected (fr.strips strip) 0x30 chunkSize _ b.2.2 s2
        u2 v2 hroom (c4 s2 e2 hsv).1
    · have hsv : (s2.flag ^^^ 0xFFFFFFFF) &&& s2.mask = 0 := by
        by_contra hne
        rw [hj.2] at hne
        have ht := (selector_bit _ _ hj.1).1 hne
        rw [hsel] at ht
        exact absurd ht (by decide)
      have hb2 : s2.flag &&& s2.mask ≠ 0 := by
        rw [hj.2]
        exact (maskBit _ _).2 hsel
      exact decodeVectorsV4_selected (fr.strips strip) 0x30 chunkSize _ b.2.2 s2
        u2 v2 hroom (c5 s2 e2 hsv hb2).1

set_option maxRecDepth 20000 in
/-- Witness for `decodeVectors_flag_stream`: a chunk 0x31 with the flag word
`A0 00 00 00` on the 4x4 strip of `exampleFrame`. Bit 31 is 1, so the block is
coded; bit 30 of the same word is 0, so it is a V1 block and reads the one
index byte that follows the word. -/
theorem decodeVectors_flag_stream_witness :
    ∃ s3 : VecState,
      decodeVectorsBlock (exampleFrame.strips 0) 0x31 6 0
        ((decodeVectorsInit ⟨sharedFlagsStream, 0, false⟩ exampleFrame.surface).setRows
          exampleStrip 4 0) = .next s3.advance ∧
      s3.input = skipBytes ⟨sharedFlagsStream, 4, false⟩ 1 := by
  have hmem : (0, 0, (decodeVectorsInit ⟨sharedFlagsStream, 0, false⟩
      exampleFrame.surface).setRows exampleStrip 4 0) ∈
        decodeVectorsTrace 1 ⟨sharedFlagsStream, 0, false⟩ exampleFrame 0 0x31 6 :=
    List.mem_singleton.2 rfl
  obtain ⟨k, hk, -, h1⟩ := ((decodeVectors_flag_stream 1 ⟨sharedFlagsStream, 0, false⟩
    exampleFrame 0 0x31 6 _ hmem).2.2.1 rfl).2 _ rfl
  have ek : 31 = k := Nat.pow_right_injective (le_refl 2) hk.2
  subst ek
  obtain ⟨j, hj, h2, -⟩ := (h1 (by decide)).2 _ rfl
  have ej : 30 = j := Nat.pow_right_injective (le_refl 2) hj.2
  subst ej
  obtain ⟨s3, a, b, -⟩ := h2 (by decide) (by decide)
  exact ⟨s3, a, b⟩

/-! ### Stores on well-formed geometry -/

/-- The geometry of the in-bounds claim makes a strip well formed: the strip
spans the raster width, as `decodeImage` sets it, dimensions are `uint16`
values, and the raster size `width * height * 3` fits the `int` in which the
source computes it. -/
theorem WellFormedStrip.of_geometry (width height : Nat) (st : CinepakStrip)
    (hl : st.left = 0) (hr : st.right = width) (hw : width % 4 = 0) (hw16 : width < 65536)
    (hh16 : height < 65536) (hsize : width * height * 3 < 2147483648)
    (htb : st.top ≤ st.bottom) (hbh : st.bottom ≤ height) (h4 : (st.bottom - st.top) % 4 = 0) :
    WellFormedStrip width st := by
  have h1 : st.bottom * width ≤ height * width := Nat.mul_le_mul_right _ hbh
  have h2 : height * width = width * height := Nat.mul_comm _ _
  refine ⟨hl, hr, hw, hw16, htb, h4, by omega, ?_⟩
  generalize st.bottom * width = A at *
  generalize height * width = B at *
  generalize width * height = C at *
  omega

/-- C33: on a strip of well-formed geometry (frame width a multiple of 4,
`top ≤ bottom ≤ height`, `bottom - top` a multiple of 4; the strip spans the
raster width as `decodeImage` sets it, and the raster size `width * height * 3`
fits the `int` in which the source computes it) `decodeVectors` returns, given
fuel for the blocks of a row and the row groups of the strip, and every store
it makes goes to a byte offset below `width * height * 3` that is byte `k` of a
pixel `(x, y)` with `x < width` and `top ≤ y < bottom`. -/
theorem decodeVectors_in_bounds (fuel : Nat) (input : Stream) (fr : CinepakFrame)
    (strip chunkID chunkSize : Nat)
    (hl : (fr.strips strip).left = 0) (hr : (fr.strips strip).right = fr.width)
    (hw16 : fr.width < 65536) (hh16 : fr.height < 65536)
    (hsize : fr.width * fr.height * 3 < 2147483648)
    (hw : fr.width % 4 = 0)
    (htb : (fr.strips strip).top ≤ (fr.strips strip).bottom)
    (hbh : (fr.strips strip).bottom ≤ fr.height)
    (h4 : ((fr.strips strip).bottom - (fr.strips strip).top) % 4 = 0)
    (hfuel : fr.width ≤ 4 * fuel ∧ (fr.strips strip).bottom ≤ (fr.strips strip).top + 4 * fuel) :
    ∃ r, decodeVectors fuel input fr strip chunkID chunkSize = some r ∧
      ∀ p ∈ r.2.surface.log.drop fr.surface.log.length,
        p.1 < fr.width * fr.height * 3 ∧
        ∃ x y k, x < fr.width ∧ (fr.strips strip).top ≤ y ∧ y < (fr.strips strip).bottom ∧
          k < 3 ∧ p.1 = 3 * (y * fr.width + x) + k := by
  have hwf := WellFormedStrip.of_geometry fr.width fr.height (fr.strips strip) hl hr hw hw16 hh16
    hsize htb hbh h4
  obtain ⟨r, hr1⟩ := decodeVectors_total fuel input fr strip chunkID chunkSize hwf hfuel
  obtain ⟨hext, -⟩ := decodeVectors_trace fuel input fr strip chunkID chunkSize r hr1
  refine ⟨r, hr1, fun p hp => ?_⟩
  rw [hext.stores] at hp
  obtain ⟨b, -, -, g1, -, g2, -, g4, r1, c, k, hr2, hc, hk, ho⟩ :=
    decodeVectors_stores fuel input fr strip chunkID chunkSize hwf p hp
  have hlt := store_below_strip fr.width (fr.strips strip).bottom b.1 b.2.1 r1 c k g2 g4 hr2 hc hk
  have h1 : (fr.strips strip).bottom * fr.width ≤ fr.height * fr.width :=
    Nat.mul_le_mul_right _ hbh
  have h2 : fr.width * fr.height * 3 = 3 * (fr.height * fr.width) := by ring
  refine ⟨?_, b.2.1 + c, b.1 + r1, k, by omega, by omega, by omega, hk, ?_⟩
  · rw [ho, h2]
    omega
  · rw [ho, Nat.add_assoc]

/-- Witness for `decodeVectors_in_bounds`: the 4x4 strip of `exampleFrame` and a
chunk 0x32 with one index byte; all 48 stores are below 48. -/
theorem decodeVectors_in_bounds_witness :
    ∃ r, decodeVectors 1 ⟨[3], 0, false⟩ exampleFrame 0 0x32 1 = some r ∧
      ∀ p ∈ r.2.surface.log.drop exampleFrame.surface.log.length, p.1 < 4 * 4 * 3 :=
  let ⟨r, h1, h2⟩ := decodeVectors_in_bounds 1 ⟨[3], 0, false⟩ exampleFrame 0 0x32 1
    (by decide) (by decide) (by decide) (by decide) (by decide) (by decide) (by decide)
    (by decide) (by decide) (by decide)
  ⟨r, h1, fun p hp => (h2 p hp).1⟩

/-! ### Progress of the chunk loop -/

theorem readByte_at_end (f : Stream) (h : ¬ f.pos < f.data.length) :
    feof (readByte f).2 = true := by
  unfold readByte
  rw [List.getElem?_eq_none (by omega)]
  rfl

/-- The iteration that finds no byte for the chunk ID is the `break` on
end-of-file. -/
theorem chunkBody_at_end (fuel i : Nat) (s : DecState) (h : ¬ s.input.pos < s.input.data.length) :
    chunkBody fuel i s = some (.next { s with input := (readByte s.input).2 }, true) := by
  simp only [chunkBody]
  rw [if_pos (readByte_at_end s.input h)]

/-- An iteration in front of a well-sized chunk, when it returns, continues
the loop at the position of the ID byte plus the size field and keeps the
length of the strip. -/
theorem chunkBody_known_next (fuel i : Nat) (s : DecState) (hne : feof s.input = false)
    (hw : WellSizedChunk s) (r : Flow DecState × Bool) (hr : chunkBody fuel i s = some r) :
    ∃ s1, r = (.next s1, false) ∧
      ftell s1.input = ftell s.input + chunkSizeField s.input ∧
      (s1.dec.curFrame.strips i).length = (s.dec.curFrame.strips i).length := by
  obtain ⟨hid, -, havail, hlt⟩ := hw
  have heof : feof (readByte s.input).2 = false := by
    rw [readByte_feof s.input (by omega)]
    exact hne
  obtain ⟨c1, c2, c3⟩ := chunkBody_cases fuel i s heof
  have hend := chunkEnd_eq s.input havail
  rw [Nat.mod_eq_of_lt hlt] at hend
  cases hd : dispatchChunk fuel i (byteAt s.input 0) (chunkSizeOf s.input)
      { s with input := skipBytes s.input 4 } with
  | none =>
    rw [c1 hd] at hr
    cases hr
  | some fl =>
    cases fl with
    | stop S =>
      exact absurd hid ((dispatchChunk_effect _ _ _ _ _ _ hd).2.2 rfl).1
    | next S =>
      have hb := c3 S hd
      obtain ⟨⟨hshape, -⟩, -⟩ := chunkBody_effect fuel i s _ _ hb
      rw [hb] at hr
      cases hr
      refine ⟨_, rfl, ?_, (hshape.2.2.2.2.2.2.2 i).2.1⟩
      rw [← hend]
      split_ifs with hT
      · rfl
      · exact not_not.1 hT

/-- The number of iterations of the chunk loop: every iteration in front of a
well-sized chunk moves the position at least 4 bytes towards the end of the
strip. -/
theorem chunkLoopTrace_length (fuelV i pos : Nat) :
    ∀ (fuel : Nat) (s : DecState),
      (∀ t ∈ chunkLoopTrace fuelV i pos fuel s,
        t.input.pos < t.input.data.length → WellSizedChunk t) →
      (chunkLoopTrace fuelV i pos fuel s).length
        ≤ ((pos + (s.dec.curFrame.strips i).length) % 4294967296 - ftell s.input + 3) / 4 := by
  intro fuel
  induction fuel with
  | zero =>
    intro s _
    exact Nat.zero_le _
  | succ fuel ih =>
    intro s hgood
    by_cases hc : ftell s.input < (pos + (s.dec.curFrame.strips i).length) % 4294967296 ∧
        feof s.input = false
    · rw [chunkLoopTrace_succ _ _ _ _ _ hc] at hgood ⊢
      have hone : 1 ≤ ((pos + (s.dec.curFrame.strips i).length) % 4294967296
          - ftell s.input + 3) / 4 := by
        have := hc.1
        omega
      cases hbody : chunkBody fuelV i s with
      | none => exact hone
      | some r =>
        obtain ⟨fl, e⟩ := r
        cases fl with
        | stop s1 => exact hone
        | next s1 =>
          cases e with
          | true => exact hone
          | false =>
            rw [hbody] at hgood
            simp only [List.mem_cons] at hgood
            by_cases hp : s.input.pos < s.input.data.length
            · obtain ⟨s2, e2, hpos, hlen⟩ := chunkBody_known_next fuelV i s hc.2
                (hgood s (Or.inl rfl) hp) _ hbody
              cases e2
              have hsz := (hgood s (Or.inl rfl) hp).2.1
              have := ih s1 (fun t ht => hgood t (Or.inr ht))
              rw [hlen] at this
              have := hc.1
              simp only [List.length_cons]
              omega
            · rw [chunkBody_at_end fuelV i s hp] at hbody
              cases hbody
    · rw [chunkLoopTrace_exit _ _ _ _ _ hc]
      exact Nat.zero_le _

/-- With fuel for the iterations the chunk loop returns, unless a handler runs
out of its own fuel. -/
theorem chunkLoop_returns (fuelV i pos : Nat) :
    ∀ (fuel : Nat) (s : DecState),
      (∀ t ∈ chunkLoopTrace fuelV i pos fuel s,
        t.input.pos < t.input.data.length → WellSizedChunk t) →
      (∀ t ∈ chunkLoopTrace fuelV i pos fuel s, chunkBody fuelV i t ≠ none) →
      ((pos + (s.dec.curFrame.strips i).length) % 4294967296 - ftell s.input + 3) / 4 ≤ fuel →
      ∃ fl, chunkLoop fuelV i pos fuel s = some fl := by
  intro fuel
  induction fuel with
  | zero =>
    intro s _ _ hf
    exact ⟨_, chunkLoop_exit fuelV i pos 0 s (fun hc => by have := hc.1; omega)⟩
  | succ fuel ih =>
    intro s hgood hret hf
    by_cases hc : ftell s.input < (pos + (s.dec.curFrame.strips i).length) % 4294967296 ∧
        feof s.input = false
    · rw [chunkLoopTrace_succ _ _ _ _ _ hc] at hgood hret
      rw [chunkLoop_succ _ _ _ _ _ hc]
      cases hbody : chunkBody fuelV i s with
      | none => exact absurd hbody (hret s (List.mem_cons_self _ _))
      | some r =>
        obtain ⟨fl, e⟩ := r
        cases fl with
        | stop s1 => exact ⟨_, rfl⟩
        | next s1 =>
          cases e with
          | true => exact ⟨_, rfl⟩
          | false =>
            rw [hbody] at hgood hret
            simp only [List.mem_cons] at hgood hret
            by_cases hp : s.input.pos < s.input.data.length
            · obtain ⟨s2, e2, hpos, hlen⟩ := chunkBody_known_next fuelV i s hc.2
                (hgood s (Or.inl rfl) hp) _ hbody
              cases e2
              have hsz := (hgood s (Or.inl rfl) hp).2.1
              have hlt := hc.1
              exact ih s1 (fun t ht => hgood t (Or.inr ht)) (fun t ht => hret t (Or.inr ht))
                (by rw [hlen]; omega)
            · rw [chunkBody_at_end fuelV i s hp] at hbody
              cases hbody
    · exact ⟨_, chunkLoop_exit fuelV i pos _ s hc⟩

/-- Every state of the trace passed the loop condition. -/
theorem chunkLoopTrace_cond (fuelV i pos : Nat) :
    ∀ (fuel : Nat) (s t : DecState), t ∈ chunkLoopTrace fuelV i pos fuel s →
      ftell t.input < (pos + (t.dec.curFrame.strips i).length) % 4294967296 ∧
      feof t.input = false := by
  intro fuel
  induction fuel with
  | zero =>
    intro s t ht
    exact absurd ht (by simp [chunkLoopTrace])
  | succ fuel ih =>
    intro s t ht
    by_cases hc : ftell s.input < (pos + (s.dec.curFrame.strips i).length) % 4294967296 ∧
        feof s.input = false
    · rw [chunkLoopTrace_succ _ _ _ _ _ hc] at ht
      cases hbody : chunkBody fuelV i s with
      | none =>
        rw [hbody] at ht
        simp only [List.mem_singleton] at ht
        rw [ht]
        exact hc
      | some r =>
        obtain ⟨fl, e⟩ := r
        cases fl with
        | stop s1 =>
          rw [hbody] at ht
          simp only [List.mem_singleton] at ht
          rw [ht]
          exact hc
        | next s1 =>
          cases e with
          | true =>
            rw [hbody] at ht
            simp only [List.mem_singleton] at ht
            rw [ht]
            exact hc
          | false =>
            rw [hbody] at ht
            simp only [List.mem_cons] at ht
            rcases ht with ht | ht
            · rw [ht]
              exact hc
            · exact ih s1 t ht
    · rw [chunkLoopTrace_exit _ _ _ _ _ hc] at ht
      exact absurd ht (by simp)

/-- C34: let every iteration of the chunk loop of strip `i` that finds a byte
for the chunk ID stand in front of a well-sized chunk (known ID, size field at
least 4, header in the stream, position plus size field below 2^32). Then
every such iteration that returns continues the loop, at the position of the
ID byte plus the size field, which is at least 4 bytes further on; the loop
makes at most `(B - p + 3) / 4` iterations, where `p` is the position at which
it starts and `B = pos + length` the end of the strip, that is at most
`ceil(L / 4)` for a loop that starts at `pos` with payload length `L`; and
with fuel for that many iterations the loop returns, unless a handler runs out
of its own fuel. -/
theorem chunkLoop_progress (fuelV i pos fuel : Nat) (s0 : DecState)
    (hgood : ∀ t ∈ chunkLoopTrace fuelV i pos fuel s0,
      t.input.pos < t.input.data.length → WellSizedChunk t) :
    (∀ t ∈ chunkLoopTrace fuelV i pos fuel s0, t.input.pos < t.input.data.length →
      ∀ r, chunkBody fuelV i t = some r →
        ∃ s1, r = (.next s1, false) ∧
          ftell s1.input = ftell t.input + chunkSizeField t.input ∧
          ftell t.input + 4 ≤ ftell s1.input) ∧
    (chunkLoopTrace fuelV i pos fuel s0).length
      ≤ ((pos + (s0.dec.curFrame.strips i).length) % 4294967296 - ftell s0.input + 3) / 4 ∧
    (ftell s0.input = pos → pos + (s0.dec.curFrame.strips i).length < 4294967296 →
      (chunkLoopTrace fuelV i pos fuel s0).length ≤ ((s0.dec.curFrame.strips i).length + 3) / 4) ∧
    ((∀ t ∈ chunkLoopTrace fuelV i pos fuel s0, chunkBody fuelV i t ≠ none) →
      ((pos + (s0.dec.curFrame.strips i).length) % 4294967296 - ftell s0.input + 3) / 4 ≤ fuel →
      ∃ fl, chunkLoop fuelV i pos fuel s0 = some fl) := by
  have hlen := chunkLoopTrace_length fuelV i pos fuel s0 hgood
  refine ⟨fun t ht hp r hr => ?_, hlen, fun h0 hlt => ?_,
    chunkLoop_returns fuelV i pos fuel s0 hgood⟩
  · have hne : feof t.input = false := (chunkLoopTrace_cond fuelV i pos fuel s0 t ht).2
    obtain ⟨s1, e1, e2, -⟩ := chunkBody_known_next fuelV i t hne (hgood t ht hp) r hr
    have hsz := (hgood t ht hp).2.1
    exact ⟨s1, e1, e2, by omega⟩
  · rw [Nat.mod_eq_of_lt hlt, h0] at hlen
    rw [Nat.add_sub_cancel_left] at hlen
    exact hlen

set_option maxRecDepth 20000 in
theorem exampleChunkState_trace :
    chunkLoopTrace 1 0 10 3 exampleChunkState = [exampleChunkState] := rfl

set_option maxRecDepth 20000 in
/-- Witness for `chunkLoop_progress`: the loop over a strip payload of 10
bytes that holds one chunk 0x32 with size field 10 makes one iteration, and
returns with fuel for three. -/
theorem chunkLoop_progress_witness :
    (chunkLoopTrace 1 0 10 3 exampleChunkState).length ≤ 3 ∧
    ∃ fl, chunkLoop 1 0 10 3 exampleChunkState = some fl := by
  have h := chunkLoop_progress 1 0 10 3 exampleChunkState (by
    intro t ht _
    rw [exampleChunkState_trace] at ht
    rw [List.mem_singleton.1 ht]
    unfold WellSizedChunk
    decide)
  refine ⟨h.2.1, h.2.2.2 ?_ (by decide)⟩
  intro t ht
  rw [exampleChunkState_trace] at ht
  rw [List.mem_singleton.1 ht]
  intro hn
  have hs : (chunkBody 1 0 exampleChunkState).isSome = true := rfl
  rw [hn] at hs
  exact absurd hs (by decide)

/-! ### The BMP writer -/

theorem writeByte_end (f : OutFile) (b : Nat) (h : f.pos = f.data.length) :
    (writeByte f b).pos = (writeByte f b).data.length ∧
    (writeByte f b).data.length = f.data.length + 1 := by
  unfold writeByte
  rw [if_neg (by omega)]
  simp only [List.length_append, List.length_replicate, List.length_singleton]
  omega

theorem writeByte_inside (f : OutFile) (b : Nat) (h : f.pos < f.data.length) :
    writeByte f b = ⟨f.data.set f.pos (b % 256), f.pos + 1⟩ := by
  unfold writeByte
  rw [if_pos h]

theorem writeUint16LE_end (f : OutFile) (x : Nat) (h : f.pos = f.data.length) :
    (writeUint16LE f x).pos = (writeUint16LE f x).data.length ∧
    (writeUint16LE f x).data.length = f.data.length + 2 := by
  unfold writeUint16LE
  obtain ⟨a1, a2⟩ := writeByte_end f ((x % 65536) &&& 0xff) h
  obtain ⟨b1, b2⟩ := writeByte_end _ ((x % 65536) >>> 8) a1
  exact ⟨b1, by omega⟩

theorem writeUint16BE_end (f : OutFile) (x : Nat) (h : f.pos = f.data.length) :
    (writeUint16BE f x).pos = (writeUint16BE f x).data.length ∧
    (writeUint16BE f x).data.length = f.data.length + 2 := by
  unfold writeUint16BE
  obtain ⟨a1, a2⟩ := writeByte_end f ((x % 65536) >>> 8) h
  obtain ⟨b1, b2⟩ := writeByte_end _ ((x % 65536) &&& 0xff) a1
  exact ⟨b1, by omega⟩

theorem writeUint32LE_end (f : OutFile) (x : Nat) (h : f.pos = f.data.length) :
    (writeUint32LE f x).pos = (writeUint32LE f x).data.length ∧
    (writeUint32LE f x).data.length = f.data.length + 4 := by
  unfold writeUint32LE
  obtain ⟨a1, a2⟩ := writeUint16LE_end f ((x % 4294967296) &&& 0xffff) h
  obtain ⟨b1, b2⟩ := writeUint16LE_end _ ((x % 4294967296) >>> 16) a1
  exact ⟨b1, by omega⟩

/-- The header of a 24-bit image, written at the end of a file, adds 54
bytes. -/
theorem writeBMPHeader_end (f : OutFile) (width height : Nat) (h : f.pos = f.data.length) :
    (writeBMPHeader f width height 24).pos = (writeBMPHeader f width height 24).data.length ∧
    (writeBMPHeader f width height 24).data.length = f.data.length + 54 := by
  unfold writeBMPHeader
  obtain ⟨a1, a2⟩ := writeUint16BE_end f 0x424D h
  obtain ⟨b1, b2⟩ := writeUint32LE_end _ 0 a1
  obtain ⟨c1, c2⟩ := writeUint16LE_end _ 0 b1
  obtain ⟨d1, d2⟩ := writeUint16LE_end _ 0 c1
  obtain ⟨e1, e2⟩ := writeUint32LE_end _ 0 d1
  obtain ⟨g1, g2⟩ := writeUint32LE_end _ 40 e1
  obtain ⟨i1, i2⟩ := writeUint32LE_end _ (width % 65536) g1
  obtain ⟨j1, j2⟩ := writeUint32LE_end _ (height % 65536) i1
  obtain ⟨k1, k2⟩ := writeUint16LE_end _ 1 j1
  obtain ⟨l1, l2⟩ := writeUint16LE_end _ (24 % 65536) k1
  obtain ⟨m1, m2⟩ := writeUint32LE_end _ 0 l1
  obtain ⟨n1, n2⟩ := writeUint32LE_end _ 0 m1
  obtain ⟨o1, o2⟩ := writeUint32LE_end _ 72 n1
  obtain ⟨p1, p2⟩ := writeUint32LE_end _ 72 o1
  obtain ⟨q1, q2⟩ := writeUint32LE_end _ 0 p1
  obtain ⟨r1, r2⟩ := writeUint32LE_end _ 0 q1
  simp only []
  rw [if_pos (by decide)]
  exact ⟨r1, by omega⟩

theorem writePixels_end (mem : Nat → Nat) :
    ∀ (n row : Nat) (f : OutFile), f.pos = f.data.length →
      (writePixels mem n row f).pos = (writePixels mem n row f).data.length ∧
      (writePixels mem n row f).data.length = f.data.length + 3 * n := by
  intro n
  induction n with
  | zero =>
    intro row f h
    exact ⟨h, rfl⟩
  | succ n ih =>
    intro row f h
    obtain ⟨a1, a2⟩ := writeByte_end f (mem row) h
    obtain ⟨b1, b2⟩ := writeByte_end _ (mem (row + 1)) a1
    obtain ⟨c1, c2⟩ := writeByte_end _ (mem (row + 2)) b1
    obtain ⟨d1, d2⟩ := ih (row + 3) _ c1
    simp only [writePixels]
    exact ⟨d1, by omega⟩

theorem writePadding_end :
    ∀ (n : Nat) (f : OutFile), f.pos = f.data.length →
      (writePadding n f).pos = (writePadding n f).data.length ∧
      (writePadding n f).data.length = f.data.length + n := by
  intro n
  induction n with
  | zero =>
    intro f h
    exact ⟨h, rfl⟩
  | succ n ih =>
    intro f h
    obtain ⟨a1, a2⟩ := writeByte_end f 0 h
    obtain ⟨d1, d2⟩ := ih _ a1
    simp only [writePadding]
    exact ⟨d1, by omega⟩

/-- The row loop adds `3 * width + extra` bytes per row. -/
theorem writeRows_end (mem : Nat → Nat) (width extra : Nat) :
    ∀ (n : Nat) (f : OutFile), f.pos = f.data.length →
      (writeRows mem width extra n f).pos = (writeRows mem width extra n f).data.length ∧
      (writeRows mem width extra n f).data.length = f.data.length + (3 * width + extra) * n := by
  intro n
  induction n with
  | zero =>
    intro f h
    exact ⟨h, rfl⟩
  | succ n ih =>
    intro f h
    obtain ⟨a1, a2⟩ := writePixels_end mem width (width * n * 3) f h
    obtain ⟨b1, b2⟩ := writePadding_end extra _ a1
    obtain ⟨d1, d2⟩ := ih _ b1
    simp only [writeRows]
    refine ⟨d1, ?_⟩
    rw [d2, b2, a2, Nat.mul_succ]
    omega

theorem writeUint16LE_inside (f : OutFile) (x : Nat) (h : f.pos + 2 ≤ f.data.length) :
    writeUint16LE f x =
      ⟨(f.data.set f.pos (x % 256)).set (f.pos + 1) (x % 65536 / 256), f.pos + 2⟩ := by
  have e1 : (x % 65536 &&& 0xff) % 256 = x % 256 := by
    rw [show (0xff : Nat) = 2 ^ 8 - 1 by decide, Nat.and_pow_two_sub_one_eq_mod]
    omega
  have e2 : ((x % 65536) >>> 8) % 256 = x % 65536 / 256 := by
    rw [Nat.shiftRight_eq_div_pow]
    omega
  unfold writeUint16LE
  rw [writeByte_inside f _ (by omega), writeByte_inside _ _ (by simp only [List.length_set]; omega),
    e1, e2]

/-- A `uint32` written inside a file replaces four bytes by its little-endian
bytes and moves the position by 4. -/
theorem writeUint32LE_inside (f : OutFile) (x : Nat) (hx : x < 4294967296)
    (h : f.pos + 4 ≤ f.data.length) :
    writeUint32LE f x =
      ⟨(((f.data.set f.pos (x % 256)).set (f.pos + 1) (x / 256 % 256)).set (f.pos + 2)
        (x / 65536 % 256)).set (f.pos + 3) (x / 16777216), f.pos + 4⟩ := by
  have e1 : (x % 4294967296 &&& 0xffff) = x % 65536 := by
    rw [show (0xffff : Nat) = 2 ^ 16 - 1 by decide, Nat.and_pow_two_sub_one_eq_mod]
    omega
  have e2 : (x % 4294967296) >>> 16 = x / 65536 := by
    rw [Nat.shiftRight_eq_div_pow, Nat.mod_eq_of_lt hx]
  unfold writeUint32LE
  rw [e1, e2, writeUint16LE_inside f _ (by omega),
    writeUint16LE_inside _ _ (by simp only [List.length_set]; omega)]
  have a1 : x % 65536 % 256 = x % 256 := by omega
  have a2 : x % 65536 % 65536 / 256 = x / 256 % 256 := by omega
  have a3 : x / 65536 % 65536 / 256 = x / 16777216 := by omega
  simp only [a1, a2, a3, Nat.add_assoc]

theorem writeUint32LE_at (l : List Nat) (p x : Nat) (hx : x < 4294967296)
    (h : p + 4 ≤ l.length) :
    writeUint32LE ⟨l, p⟩ x =
      ⟨(((l.set p (x % 256)).set (p + 1) (x / 256 % 256)).set (p + 2)
        (x / 65536 % 256)).set (p + 3) (x / 16777216), p + 4⟩ :=
  writeUint32LE_inside ⟨l, p⟩ x hx h

/-- The four bytes of a list that were set last hold the little-endian bytes
of `x`. -/
theorem getD_set4 (l : List Nat) (p x : Nat) (h : p + 4 ≤ l.length) :
    ((((l.set p (x % 256)).set (p + 1) (x / 256 % 256)).set (p + 2)
      (x / 65536 % 256)).set (p + 3) (x / 16777216)).getD p 0
    + 256 * ((((l.set p (x % 256)).set (p + 1) (x / 256 % 256)).set (p + 2)
      (x / 65536 % 256)).set (p + 3) (x / 16777216)).getD (p + 1) 0
    + 65536 * ((((l.set p (x % 256)).set (p + 1) (x / 256 % 256)).set (p + 2)
      (x / 65536 % 256)).set (p + 3) (x / 16777216)).getD (p + 2) 0
    + 16777216 * ((((l.set p (x % 256)).set (p + 1) (x / 256 % 256)).set (p + 2)
      (x / 65536 % 256)).set (p + 3) (x / 16777216)).getD (p + 3) 0 = x := by
  have g0 : ((((l.set p (x % 256)).set (p + 1) (x / 256 % 256)).set (p + 2)
      (x / 65536 % 256)).set (p + 3) (x / 16777216)).getD p 0 = x % 256 := by
    rw [List.getD_eq_getElem?_getD, List.getElem?_set_ne (by omega),
      List.getElem?_set_ne (by omega), List.getElem?_set_ne (by omega),
      List.getElem?_set_self (by omega)]
    rfl
  have g1 : ((((l.set p (x % 256)).set (p + 1) (x / 256 % 256)).set (p + 2)
      (x / 65536 % 256)).set (p + 3) (x / 16777216)).getD (p + 1) 0 = x / 256 % 256 := by
    rw [List.getD_eq_getElem?_getD, List.getElem?_set_ne (by omega),
      List.getElem?_set_ne (by omega),
      List.getElem?_set_self (by simp only [List.length_set]; omega)]
    rfl
  have g2 : ((((l.set p (x % 256)).set (p + 1) (x / 256 % 256)).set (p + 2)
      (x / 65536 % 256)).set (p + 3) (x / 16777216)).getD (p + 2) 0 = x / 65536 % 256 := by
    rw [List.getD_eq_getElem?_getD, List.getElem?_set_ne (by omega),
      List.getElem?_set_self (by simp only [List.length_set]; omega)]
    rfl
  have g3 : ((((l.set p (x % 256)).set (p + 1) (x / 256 % 256)).set (p + 2)
      (x / 65536 % 256)).set (p + 3) (x / 16777216)).getD (p + 3) 0 = x / 16777216 := by
    rw [List.getD_eq_getElem?_getD,
      List.getElem?_set_self (by simp only [List.length_set]; omega)]
    rfl
  rw [g0, g1, g2, g3]
  omega

/-- What `fillBMPHeaderValues` leaves in a file of at least 38 bytes: the
length stays, and bytes 34..37 hold the image size, least significant byte
first. -/
theorem fillBMPHeaderValues_size (f : OutFile) (imageOffset size : Nat)
    (h : 38 ≤ f.data.length) :
    (fillBMPHeaderValues f imageOffset size).data.length = f.data.length ∧
    (fillBMPHeaderValues f imageOffset size).data.getD 34 0
      + 256 * (fillBMPHeaderValues f imageOffset size).data.getD 35 0
      + 65536 * (fillBMPHeaderValues f imageOffset size).data.getD 36 0
      + 16777216 * (fillBMPHeaderValues f imageOffset size).data.getD 37 0
      = size % 4294967296 := by
  have hs : size % 4294967296 < 4294967296 := Nat.mod_lt _ (by decide)
  have ho : imageOffset % 4294967296 < 4294967296 := Nat.mod_lt _ (by decide)
  have hl : f.data.length % 4294967296 < 4294967296 := Nat.mod_lt _ (by decide)
  simp only [fillBMPHeaderValues, getFileSize]
  generalize size % 4294967296 = s at hs ⊢
  generalize imageOffset % 4294967296 = o at ho ⊢
  generalize f.data.length % 4294967296 = n at hl ⊢
  rw [writeUint32LE_at f.data 2 n hl (by omega)]
  simp only []
  rw [writeUint32LE_at _ 10 o ho (by simp only [List.length_set]; omega)]
  simp only []
  rw [writeUint32LE_at _ 34 s hs (by simp only [List.length_set]; omega)]
  refine ⟨?_, ?_⟩
  · simp only [List.length_set]
  · exact getD_set4 _ 34 _ (by simp only [List.length_set]; omega)

theorem pitch_eq (width : Nat) (hw : width < 65536) : pitch width = width * 3 := by
  unfold pitch
  omega

theorem extraDataLength_spec (width : Nat) :
    extraDataLength width ≤ 3 ∧ (pitch width + extraDataLength width) % 4 = 0 ∧
    ∀ e, (pitch width + e) % 4 = 0 → extraDataLength width ≤ e := by
  unfold extraDataLength
  split_ifs with h
  · refine ⟨by omega, by omega, fun e he => ?_⟩
    omega
  · exact ⟨Nat.zero_le _, by omega, fun e _ => Nat.zero_le _⟩

theorem imageSize_eq (width height : Nat) (hw : width < 65536) :
    imageSize width height
      = ((pitch width + extraDataLength width) * height) % 4294967296 := by
  have h1 := pitch_eq width hw
  have h2 := (extraDataLength_spec width).1
  have h3 : (pitch width + extraDataLength width) % 4294967296
      = pitch width + extraDataLength width := Nat.mod_eq_of_lt (by omega)
  unfold imageSize
  rw [h3]

/-- The padded rows of a raster whose size fits an `int` take less than
2^32 bytes. -/
theorem padded_size_lt (width height : Nat) (hw : width < 65536) (hh : height < 65536)
    (hsize : width * height * 3 < 2147483648) :
    (pitch width + extraDataLength width) * height < 4294967296 := by
  have h1 := pitch_eq width hw
  have h2 := (extraDataLength_spec width).1
  have h3 : (pitch width + extraDataLength width) * height ≤ (width * 3 + 3) * height :=
    Nat.mul_le_mul_right _ (by omega)
  have h4 : (width * 3 + 3) * height = width * height * 3 + 3 * height := by ring
  omega

/-- The file `extractImageToBMP` writes for the decoder `d` into an empty
file: 54 header bytes and the padded rows, with the image size at offset
34. -/
theorem extractImageToBMPWrite_size (d : CinepakDecoder) (width height : Nat)
    (hw : d.getWidth = width) (hh : d.getHeight = height) (hw16 : width < 65536)
    (hh16 : height < 65536) :
    (extractImageToBMPWrite ⟨[], 0⟩ d).data.length
      = 54 + (pitch width + extraDataLength width) * height ∧
    (extractImageToBMPWrite ⟨[], 0⟩ d).data.getD 34 0
      + 256 * (extractImageToBMPWrite ⟨[], 0⟩ d).data.getD 35 0
      + 65536 * (extractImageToBMPWrite ⟨[], 0⟩ d).data.getD 36 0
      + 16777216 * (extractImageToBMPWrite ⟨[], 0⟩ d).data.getD 37 0
      = imageSize width height := by
  have e1 : d.getWidth % 65536 = width := by rw [hw]; exact Nat.mod_eq_of_lt hw16
  have e2 : d.getHeight % 65536 = height := by rw [hh]; exact Nat.mod_eq_of_lt hh16
  obtain ⟨a1, a2⟩ := writeBMPHeader_end ⟨[], 0⟩ width height rfl
  obtain ⟨b1, b2⟩ := writeRows_end d.curFrame.surface.mem width (extraDataLength width) height
    _ a1
  have hp := pitch_eq width hw16
  have hlen : (writeRows d.curFrame.surface.mem width (extraDataLength width) height
      (writeBMPHeader ⟨[], 0⟩ width height 24)).data.length
        = 54 + (pitch width + extraDataLength width) * height := by
    rw [b2, a2, hp, Nat.mul_comm 3 width]
    simp only [List.length_nil]
  obtain ⟨c1, c2⟩ := fillBMPHeaderValues_size
    (writeRows d.curFrame.surface.mem width (extraDataLength width) height
      (writeBMPHeader ⟨[], 0⟩ width height 24)) 54 (imageSize width height)
    (by rw [hlen]; omega)
  have hm : imageSize width height % 4294967296 = imageSize width height := by
    unfold imageSize
    exact Nat.mod_mod _ _
  simp only [extractImageToBMPWrite, e1, e2]
  rw [hm] at c2
  exact ⟨c1.trans hlen, c2⟩

/-- A successful `extractImageToBMP` call wrote the image of the decoder that
`decodeImage` left. -/
theorem extractImageToBMP_ok (fuel : Nat) (input : Stream) (output : OutFile)
    (fr : CinepakFrame) (out : OutFile)
    (h : extractImageToBMP fuel input output fr = some (true, out)) :
    ∃ input1 s, extractImageToBMPSeek input = some input1 ∧
      decodeImage fuel input1 (CinepakDecoder.new fr) = some s ∧
      out = extractImageToBMPWrite output s.dec := by
  unfold extractImageToBMP at h
  cases hseek : extractImageToBMPSeek input with
  | none =>
    rw [hseek] at h
    cases h
  | some input1 =>
    rw [hseek] at h
    simp only [] at h
    cases hdec : decodeImage fuel input1 (CinepakDecoder.new fr) with
    | none =>
      rw [hdec] at h
      cases h
    | some s =>
      rw [hdec] at h
      simp only [Option.some.injEq, Prod.mk.injEq, true_and] at h
      exact ⟨input1, s, rfl, hdec, h.symm⟩

/-- C36: for every width in 0..65535 the row pitch of `extractImageToBMP` is
`width * 3`, the padding `extraDataLength` is at most 3 (and not negative),
`pitch + extraDataLength` is a multiple of 4, and no smaller padding makes it
one. The image size handed to `fillBMPHeaderValues` is
`(pitch + extraDataLength) * height` as a `uint32`: that product modulo 2^32,
hence the product itself whenever it is below 2^32, which it is for every
raster whose size `width * height * 3` fits an `int`. And when the enclosing
BMP file passes the checks and `decodeImage` returns a frame of that width and
height, `extractImageToBMP` returns true with an output file (empty before the
call) of 54 header bytes plus `pitch + extraDataLength` bytes per row, whose
bytes 34..37 hold the image size, least significant byte first. -/
theorem extractImageToBMP_row_padding (width height : Nat) (hw : width < 65536)
    (hh : height < 65536) :
    pitch width = width * 3 ∧
    extraDataLength width ≤ 3 ∧
    (pitch width + extraDataLength width) % 4 = 0 ∧
    (∀ e, (pitch width + e) % 4 = 0 → extraDataLength width ≤ e) ∧
    imageSize width height = ((pitch width + extraDataLength width) * height) % 4294967296 ∧
    ((pitch width + extraDataLength width) * height < 4294967296 →
      imageSize width height = (pitch width + extraDataLength width) * height) ∧
    (width * height * 3 < 2147483648 →
      imageSize width height = (pitch width + extraDataLength width) * height) ∧
    (∀ (fuel : Nat) (input input1 : Stream) (fr : CinepakFrame) (s : DecState),
      extractImageToBMPSeek input = some input1 →
      decodeImage fuel input1 (CinepakDecoder.new fr) = some s →
      s.dec.getWidth = width → s.dec.getHeight = height →
      extractImageToBMP fuel input ⟨[], 0⟩ fr
        = some (true, extractImageToBMPWrite ⟨[], 0⟩ s.dec) ∧
      (extractImageToBMPWrite ⟨[], 0⟩ s.dec).data.length
        = 54 + (pitch width + extraDataLength width) * height ∧
      (extractImageToBMPWrite ⟨[], 0⟩ s.dec).data.getD 34 0
        + 256 * (extractImageToBMPWrite ⟨[], 0⟩ s.dec).data.getD 35 0
        + 65536 * (extractImageToBMPWrite ⟨[], 0⟩ s.dec).data.getD 36 0
        + 16777216 * (extractImageToBMPWrite ⟨[], 0⟩ s.dec).data.getD 37 0
        = imageSize width height) := by
  obtain ⟨p1, p2, p3⟩ := extraDataLength_spec width
  have hsz := imageSize_eq width height hw
  refine ⟨pitch_eq width hw, p1, p2, p3, hsz, fun hlt => ?_, fun hsize => ?_,
    fun fuel input input1 fr s hseek hdec e1 e2 => ?_⟩
  · rw [hsz, Nat.mod_eq_of_lt hlt]
  · rw [hsz, Nat.mod_eq_of_lt (padded_size_lt width height hw hh hsize)]
  · refine ⟨?_, extractImageToBMPWrite_size s.dec width height e1 e2 hw hh⟩
    unfold extractImageToBMP
    rw [hseek]
    simp only []
    rw [hdec]

set_option maxRecDepth 20000 in
/-- Witness for `extractImageToBMP_row_padding`: `exampleBMP`, a frame of
width 5 and height 2. The pitch is 15, the padding 1, and the output file has
54 + 32 bytes with the image size 32 at offset 34. -/
theorem extractImageToBMP_row_padding_witness :
    extraDataLength 5 = 1 ∧
    ∃ out, extractImageToBMP 1 ⟨exampleBMP, 0, false⟩ ⟨[], 0⟩ exampleFrame = some (true, out) ∧
      out.data.length = 86 ∧
      out.data.getD 34 0 + 256 * out.data.getD 35 0 + 65536 * out.data.getD 36 0
        + 16777216 * out.data.getD 37 0 = 32 :=
  have h := (extractImageToBMP_row_padding 5 2 (by decide) (by decide)).2.2.2.2.2.2.2
    1 ⟨exampleBMP, 0, false⟩ ⟨exampleBMP, 54, false⟩ exampleFrame _ (by decide) rfl rfl rfl
  ⟨by decide, _, h.1, h.2.1.trans (by decide), h.2.2.trans (by decide)⟩

end Cinepak
